import Mathlib

/-!
Gamma game engine (gamma.c): shallow embedding and verification.

The engine state `gamma_t` is embedded as a record whose arrays are total
maps indexed by naturals.  Machine integers are naturals; every place where
the C code computes in `uint32_t` or `uint64_t` arithmetic and could wrap
carries an explicit `%`.  The breadth-first search of `reachable_aux` is a
total function: the queue only ever holds fields inside the board, which is
recorded in the type of the function, and the search terminates because a
popped field is either marked for the first time or brings an unmarked
queue entry one place closer to the front.
-/

namespace Gamma

/-! ## Data model (auxiliary_structs.h) -/

/-- Largest value of a `uint32_t`. -/
def UINT32_MAX : Nat := 4294967295

/-- Number of values of a `uint32_t`. -/
def U32 : Nat := 4294967296

/-- Number of values of a `uint64_t`. -/
def U64 : Nat := 18446744073709551616

/-- Struct `player_t`. -/
structure player_t where
  occupied_fields : Nat
  occupied_areas : Nat
  golden_performed : Bool

/-- Struct `gamma_t`; `arr_of_players i` is `arr_of_players[i]`,
`board x y` is `board[x][y]`, `auxiliary x y` is `auxiliary[x][y]`. -/
structure gamma_t where
  width_x : Nat
  height_y : Nat
  n_of_players : Nat
  n_of_areas : Nat
  free_fields : Nat
  arr_of_players : Nat → player_t
  board : Nat → Nat → Nat
  auxiliary : Nat → Nat → Bool

/-- A field of the board: column and row (`field_list` entry). -/
abbrev Field := Nat × Nat

/-- The assignment `a[x][y] = v` on a two-dimensional array. -/
def write2 {α : Type} (a : Nat → Nat → α) (x y : Nat) (v : α) : Nat → Nat → α :=
  fun i j => if i = x ∧ j = y then v else a i j

/-- The assignment `a[i] = v` on a one-dimensional array. -/
def write1 {α : Type} (a : Nat → α) (i : Nat) (v : α) : Nat → α :=
  fun k => if k = i then v else a k

/-- Function `queue_push`: append at the end of the queue. -/
def queue_push (q : List Field) (new_width new_height : Nat) : List Field :=
  q ++ [(new_width, new_height)]

/-- Function `clear_aux`. -/
def clear_aux (g : gamma_t) : gamma_t :=
  { g with auxiliary := fun i j =>
      if i < g.width_x ∧ j < g.height_y then false else g.auxiliary i j }

/-- Function `field_eligible`. -/
def field_eligible (g : gamma_t) (x y player : Nat) : Bool :=
  if g.auxiliary x y = true then false
  else if g.board x y ≠ player then false
  else true

/-- The four conditional `queue_push` calls in the loop body of
`reachable_aux`, for the popped field `(width, height)`. -/
def push_neighbours (g : gamma_t) (q : List Field) (width height player : Nat) : List Field :=
  let q1 := if width ≠ 0 ∧ field_eligible g (width - 1) height player = true
    then queue_push q (width - 1) height else q
  let q2 := if height ≠ 0 ∧ field_eligible g width (height - 1) player = true
    then queue_push q1 width (height - 1) else q1
  let q3 := if width ≠ UINT32_MAX ∧ width ≠ g.width_x - 1
      ∧ field_eligible g (width + 1) height player = true
    then queue_push q2 (width + 1) height else q2
  let q4 := if height ≠ UINT32_MAX ∧ height ≠ g.height_y - 1
      ∧ field_eligible g width (height + 1) player = true
    then queue_push q3 width (height + 1) else q3
  q4

/-- The statement `g->auxiliary[width][height] = 1`. -/
def mark (g : gamma_t) (width height : Nat) : gamma_t :=
  { g with auxiliary := write2 g.auxiliary width height true }

/-- All queue entries are fields of the board. -/
def queue_ok (g : gamma_t) (q : List Field) : Prop :=
  ∀ c ∈ q, c.1 < g.width_x ∧ c.2 < g.height_y

/-- The fields of the board not yet marked in the auxiliary array. -/
def unmarked (g : gamma_t) : Finset Field :=
  (Finset.range g.width_x ×ˢ Finset.range g.height_y).filter
    (fun c => g.auxiliary c.1 c.2 = false)

/-- Number of queue entries in front of the first unmarked one. -/
def marked_run (g : gamma_t) (q : List Field) : Nat :=
  (q.takeWhile (fun c => g.auxiliary c.1 c.2)).length

theorem push_step {P : Field → Prop} (q q1 : List Field) (cond : Prop) [Decidable cond]
    (a b : Nat) (h : ∃ l : List Field, q1 = q ++ l ∧ ∀ c ∈ l, P c) (hc : cond → P (a, b)) :
    ∃ l : List Field, (if cond then queue_push q1 a b else q1) = q ++ l ∧ ∀ c ∈ l, P c := by
  obtain ⟨l, hl, hP⟩ := h
  by_cases hcond : cond
  · refine ⟨l ++ [(a, b)], ?_, ?_⟩
    · simp [hcond, queue_push, hl]
    · intro c hcl
      rcases List.mem_append.1 hcl with h1 | h1
      · exact hP c h1
      · have : c = (a, b) := by simpa using h1
        subst this
        exact hc hcond
  · exact ⟨l, by simp [hcond, hl], hP⟩

/-- Every field pushed by the loop body is eligible and is a neighbour of the
popped field in one of the four directions, guarded as in the source. -/
theorem push_neighbours_spec (g : gamma_t) (q : List Field) (width height player : Nat) :
    ∃ l : List Field, push_neighbours g q width height player = q ++ l ∧
      ∀ c ∈ l, field_eligible g c.1 c.2 player = true ∧
        ((c.1 + 1 = width ∧ c.2 = height) ∨ (c.1 = width ∧ c.2 + 1 = height) ∨
         (c.1 = width + 1 ∧ c.2 = height ∧ width ≠ g.width_x - 1) ∨
         (c.1 = width ∧ c.2 = height + 1 ∧ height ≠ g.height_y - 1)) := by
  unfold push_neighbours
  simp only []
  apply push_step
  · apply push_step
    · apply push_step
      · apply push_step
        · exact ⟨[], by simp, by simp⟩
        · rintro ⟨h0, he⟩
          exact ⟨he, Or.inl ⟨by simp; omega, rfl⟩⟩
      · rintro ⟨h0, he⟩
        exact ⟨he, Or.inr (Or.inl ⟨rfl, by simp; omega⟩)⟩
    · rintro ⟨_, h0, he⟩
      exact ⟨he, Or.inr (Or.inr (Or.inl ⟨rfl, rfl, h0⟩))⟩
  · rintro ⟨_, h0, he⟩
    exact ⟨he, Or.inr (Or.inr (Or.inr ⟨rfl, rfl, h0⟩))⟩

theorem push_neighbours_ok (g : gamma_t) (q : List Field) (width height player : Nat)
    (hq : queue_ok g q) (hw : width < g.width_x) (hh : height < g.height_y) :
    queue_ok g (push_neighbours g q width height player) := by
  obtain ⟨l, hl, hP⟩ := push_neighbours_spec g q width height player
  rw [hl]
  intro c hc
  rcases List.mem_append.1 hc with h1 | h1
  · exact hq c h1
  · have := (hP c h1).2
    omega

theorem step_ok (g : gamma_t) (f : Field) (rest : List Field) (player : Nat)
    (hq : queue_ok g (f :: rest)) :
    queue_ok (mark g f.1 f.2) (push_neighbours (mark g f.1 f.2) rest f.1 f.2 player) := by
  have hf := hq f (List.mem_cons_self _ _)
  have hrest : queue_ok (mark g f.1 f.2) rest := fun c hc => hq c (List.mem_cons_of_mem _ hc)
  exact push_neighbours_ok (mark g f.1 f.2) rest f.1 f.2 player hrest hf.1 hf.2

theorem mark_of_marked (g : gamma_t) (x y : Nat) (h : g.auxiliary x y = true) :
    mark g x y = g := by
  have : write2 g.auxiliary x y true = g.auxiliary := by
    funext i j
    unfold write2
    split_ifs with hij
    · rw [hij.1, hij.2, h]
    · rfl
  unfold mark
  rw [this]

theorem takeWhile_append_neg {α : Type} (p : α → Bool) (l1 l2 : List α)
    (h : ∀ c ∈ l2, p c = false) : (l1 ++ l2).takeWhile p = l1.takeWhile p := by
  induction l1 with
  | nil =>
    cases l2 with
    | nil => rfl
    | cons a t => simp [List.takeWhile, h a (List.mem_cons_self _ _)]
  | cons a t ih =>
    by_cases ha : p a = true
    · simp [List.takeWhile_cons, ha, ih]
    · simp [List.takeWhile_cons, ha]

theorem field_eligible_iff (g : gamma_t) (x y player : Nat) :
    field_eligible g x y player = true ↔ g.auxiliary x y = false ∧ g.board x y = player := by
  unfold field_eligible
  by_cases h1 : g.auxiliary x y = true <;> by_cases h2 : g.board x y = player <;> simp [h1, h2]

/-- One iteration of the search loop decreases the termination measure. -/
theorem step_decreases (g : gamma_t) (f : Field) (rest : List Field) (player : Nat)
    (hq : queue_ok g (f :: rest)) :
    Prod.Lex (· < ·) (· < ·)
      ((unmarked (mark g f.1 f.2)).card,
        marked_run (mark g f.1 f.2) (push_neighbours (mark g f.1 f.2) rest f.1 f.2 player))
      ((unmarked g).card, marked_run g (f :: rest)) := by
  by_cases hm : g.auxiliary f.1 f.2 = true
  · rw [mark_of_marked g f.1 f.2 hm]
    apply Prod.Lex.right
    obtain ⟨l, hl, hP⟩ := push_neighbours_spec g rest f.1 f.2 player
    rw [hl]
    unfold marked_run
    rw [takeWhile_append_neg _ rest l
      (fun c hc => ((field_eligible_iff g c.1 c.2 player).1 (hP c hc).1).1)]
    simp [List.takeWhile_cons, hm]
  · apply Prod.Lex.left
    apply Finset.card_lt_card
    have hf := hq f (List.mem_cons_self _ _)
    rw [Finset.ssubset_iff_of_subset]
    · refine ⟨f, ?_, ?_⟩
      · simp [unmarked, hf.1, hf.2]
        simpa using hm
      · simp [unmarked, mark, write2]
    · intro c hc
      simp only [unmarked, mark, write2, Finset.mem_filter, Finset.mem_product,
        Finset.mem_range] at hc ⊢
      refine ⟨hc.1, ?_⟩
      by_cases hcf : c.1 = f.1 ∧ c.2 = f.2
      · simp [hcf] at hc
      · simpa [hcf] using hc.2

/-- Function `reachable_aux`: the search loop.  The queue is a list of fields
of the board; the result is the returned flag and the state with the
auxiliary marks the loop has written. -/
def reachable_aux (g : gamma_t) (q : List Field) (x y player : Nat) (hq : queue_ok g q) :
    Bool × gamma_t :=
  match q, hq with
  | [], _ => (false, g)
  | f :: rest, hq =>
    if f.1 = x ∧ f.2 = y then (true, g)
    else
      reachable_aux (mark g f.1 f.2)
        (push_neighbours (mark g f.1 f.2) rest f.1 f.2 player) x y player
        (step_ok g f rest player hq)
termination_by ((unmarked g).card, marked_run g q)
decreasing_by exact step_decreases g f rest player hq

theorem queue_ok_single (g : gamma_t) (x1 y1 : Nat) (hx : x1 < g.width_x)
    (hy : y1 < g.height_y) : queue_ok g (queue_push [] x1 y1) := by
  intro c hc
  have : c = (x1, y1) := by simpa [queue_push] using hc
  subst this
  exact ⟨hx, hy⟩

/-- Function `reachable`. -/
def reachable (g : gamma_t) (x1 y1 x2 y2 player : Nat) (hx : x1 < g.width_x)
    (hy : y1 < g.height_y) : Bool × gamma_t :=
  let q := queue_push [] x1 y1
  let res := reachable_aux g q x2 y2 player (queue_ok_single g x1 y1 hx hy)
  (res.1, clear_aux res.2)

/-- The state `g2` differs from `g1` at most in the auxiliary array. -/
def frame (g1 g2 : gamma_t) : Prop :=
  g2.width_x = g1.width_x ∧ g2.height_y = g1.height_y ∧ g2.n_of_players = g1.n_of_players ∧
    g2.n_of_areas = g1.n_of_areas ∧ g2.free_fields = g1.free_fields ∧
    g2.arr_of_players = g1.arr_of_players ∧ g2.board = g1.board

theorem frame_refl (g : gamma_t) : frame g g := ⟨rfl, rfl, rfl, rfl, rfl, rfl, rfl⟩

theorem frame_trans {g1 g2 g3 : gamma_t} (h1 : frame g1 g2) (h2 : frame g2 g3) :
    frame g1 g3 := by
  obtain ⟨a1, a2, a3, a4, a5, a6, a7⟩ := h1
  obtain ⟨b1, b2, b3, b4, b5, b6, b7⟩ := h2
  exact ⟨b1.trans a1, b2.trans a2, b3.trans a3, b4.trans a4, b5.trans a5, b6.trans a6,
    b7.trans a7⟩

theorem frame_mark (g : gamma_t) (x y : Nat) : frame g (mark g x y) :=
  ⟨rfl, rfl, rfl, rfl, rfl, rfl, rfl⟩

theorem frame_clear_aux (g : gamma_t) : frame g (clear_aux g) :=
  ⟨rfl, rfl, rfl, rfl, rfl, rfl, rfl⟩

/-- The search loop writes only the auxiliary array, and only inside the board. -/
theorem reachable_aux_frame (g : gamma_t) (q : List Field) (x y player : Nat)
    (hq : queue_ok g q) :
    frame g (reachable_aux g q x y player hq).2 ∧
      ∀ i j, ¬ (i < g.width_x ∧ j < g.height_y) →
        (reachable_aux g q x y player hq).2.auxiliary i j = g.auxiliary i j := by
  induction g, q, x, y, player, hq using reachable_aux.induct with
  | case1 g x y player hq _ =>
    rw [reachable_aux.eq_1]; exact ⟨frame_refl g, fun _ _ _ => rfl⟩
  | case2 g x y player f rest hq hf _ =>
    rw [reachable_aux.eq_2, if_pos hf]; exact ⟨frame_refl g, fun _ _ _ => rfl⟩
  | case3 g x y player f rest hq hf _ ih =>
    rw [reachable_aux.eq_2, if_neg hf]
    refine ⟨frame_trans (frame_mark g f.1 f.2) ih.1, ?_⟩
    intro i j hij
    rw [ih.2 i j hij]
    have hfb := hq f (List.mem_cons_self _ _)
    simp only [mark, write2]
    rw [if_neg]
    rintro ⟨rfl, rfl⟩
    exact hij hfb

theorem reachable_frame (g : gamma_t) (x1 y1 x2 y2 player : Nat) (hx : x1 < g.width_x)
    (hy : y1 < g.height_y) : frame g (reachable g x1 y1 x2 y2 player hx hy).2 :=
  frame_trans (reachable_aux_frame g (queue_push [] x1 y1) x2 y2 player
    (queue_ok_single g x1 y1 hx hy)).1 (frame_clear_aux _)

theorem reachable_width (g : gamma_t) (x1 y1 x2 y2 player : Nat) (hx : x1 < g.width_x)
    (hy : y1 < g.height_y) :
    (reachable g x1 y1 x2 y2 player hx hy).2.width_x = g.width_x :=
  (reachable_frame g x1 y1 x2 y2 player hx hy).1

theorem reachable_height (g : gamma_t) (x1 y1 x2 y2 player : Nat) (hx : x1 < g.width_x)
    (hy : y1 < g.height_y) :
    (reachable g x1 y1 x2 y2 player hx hy).2.height_y = g.height_y :=
  (reachable_frame g x1 y1 x2 y2 player hx hy).2.1

/-- The loop of `append_field`: walk the list while the current entry is not
reachable from `(x, y)`.  The flag tells whether the walk stopped at an entry
(`*l != NULL` after the loop). -/
def append_field_scan (g : gamma_t) (l : List Field) (x y player : Nat) (hx : x < g.width_x)
    (hy : y < g.height_y) : Bool × gamma_t :=
  match l with
  | [] => (false, g)
  | c :: rest =>
    if (reachable g x y c.1 c.2 player hx hy).1 = true
    then (true, (reachable g x y c.1 c.2 player hx hy).2)
    else append_field_scan (reachable g x y c.1 c.2 player hx hy).2 rest x y player
      (by rw [reachable_width]; exact hx) (by rw [reachable_height]; exact hy)

theorem append_field_scan_frame (l : List Field) (g : gamma_t) (x y player : Nat)
    (hx : x < g.width_x) (hy : y < g.height_y) :
    frame g (append_field_scan g l x y player hx hy).2 := by
  induction l generalizing g with
  | nil => exact frame_refl g
  | cons c rest ih =>
    unfold append_field_scan
    split_ifs with h
    · exact reachable_frame g x y c.1 c.2 player hx hy
    · exact frame_trans (reachable_frame g x y c.1 c.2 player hx hy) (ih _ _ _)

/-- Function `append_field`, on the list `*l`. -/
def append_field (g : gamma_t) (l : List Field) (x y player : Nat) (hx : x < g.width_x)
    (hy : y < g.height_y) : List Field × gamma_t :=
  match l with
  | [] => ([(x, y)], g)
  | c :: rest =>
    if (append_field_scan g (c :: rest) x y player hx hy).1 = false
    then ((x, y) :: c :: rest, (append_field_scan g (c :: rest) x y player hx hy).2)
    else (c :: rest, (append_field_scan g (c :: rest) x y player hx hy).2)

theorem append_field_frame (l : List Field) (g : gamma_t) (x y player : Nat)
    (hx : x < g.width_x) (hy : y < g.height_y) :
    frame g (append_field g l x y player hx hy).2 := by
  cases l with
  | nil => exact frame_refl g
  | cons c rest =>
    simp only [append_field]
    split_ifs <;> exact append_field_scan_frame _ g x y player hx hy

/-- Function `field_list_length`. -/
def field_list_length (l : List Field) : Nat := l.length

/-- The statement `if (cond) append_field(g, &list, x, y, player);` on the pair
of the list and the state. -/
def append_if (cond : Prop) [Decidable cond] (s : List Field × gamma_t) (x y player : Nat)
    (h : cond → x < s.2.width_x ∧ y < s.2.height_y) : List Field × gamma_t :=
  if hc : cond then append_field s.2 s.1 x y player (h hc).1 (h hc).2 else s

theorem append_if_frame (cond : Prop) [Decidable cond] (s : List Field × gamma_t)
    (x y player : Nat) (h : cond → x < s.2.width_x ∧ y < s.2.height_y) :
    frame s.2 (append_if cond s x y player h).2 := by
  unfold append_if
  split_ifs
  · exact append_field_frame _ _ _ _ _ _ _
  · exact frame_refl _

theorem append_if_dims (cond : Prop) [Decidable cond] (s : List Field × gamma_t)
    (x y player : Nat) (h : cond → x < s.2.width_x ∧ y < s.2.height_y) :
    (append_if cond s x y player h).2.width_x = s.2.width_x ∧
      (append_if cond s x y player h).2.height_y = s.2.height_y :=
  ⟨(append_if_frame cond s x y player h).1, (append_if_frame cond s x y player h).2.1⟩

/-- Function `adjacent_player_areas`.  The local `board` is the pointer
`g->board` read at entry; the board contents are not written here. -/
def adjacent_player_areas (g : gamma_t) (x y player : Nat) (hx : x < g.width_x)
    (hy : y < g.height_y) : Nat × gamma_t :=
  let board := g.board
  let s0 : List Field × gamma_t := ([], g)
  let s1 := append_if (x ≠ 0 ∧ board (x - 1) y = player) s0 (x - 1) y player
    (fun _ => ⟨by show x - 1 < g.width_x; omega, hy⟩)
  have d1 := append_if_dims (x ≠ 0 ∧ board (x - 1) y = player) s0 (x - 1) y player
    (fun _ => ⟨by show x - 1 < g.width_x; omega, hy⟩)
  let s2 := append_if (y ≠ 0 ∧ board x (y - 1) = player) s1 x (y - 1) player
    (fun _ => ⟨by rw [d1.1]; exact hx, by rw [d1.2]; show y - 1 < g.height_y; omega⟩)
  have d2 := append_if_dims (y ≠ 0 ∧ board x (y - 1) = player) s1 x (y - 1) player
    (fun _ => ⟨by rw [d1.1]; exact hx, by rw [d1.2]; show y - 1 < g.height_y; omega⟩)
  let s3 := append_if (x ≠ UINT32_MAX ∧ x ≠ g.width_x - 1 ∧ board (x + 1) y = player) s2
    (x + 1) y player
    (fun hc => ⟨by rw [d2.1, d1.1]; show x + 1 < g.width_x; omega,
      by rw [d2.2, d1.2]; exact hy⟩)
  have d3 := append_if_dims (x ≠ UINT32_MAX ∧ x ≠ g.width_x - 1 ∧ board (x + 1) y = player)
    s2 (x + 1) y player
    (fun hc => ⟨by rw [d2.1, d1.1]; show x + 1 < g.width_x; omega,
      by rw [d2.2, d1.2]; exact hy⟩)
  let s4 := append_if (y ≠ UINT32_MAX ∧ y ≠ g.height_y - 1 ∧ board x (y + 1) = player) s3
    x (y + 1) player
    (fun hc => ⟨by rw [d3.1, d2.1, d1.1]; exact hx,
      by rw [d3.2, d2.2, d1.2]; show y + 1 < g.height_y; omega⟩)
  (field_list_length s4.1, s4.2)

theorem adjacent_player_areas_frame (g : gamma_t) (x y player : Nat) (hx : x < g.width_x)
    (hy : y < g.height_y) : frame g (adjacent_player_areas g x y player hx hy).2 := by
  unfold adjacent_player_areas
  simp only []
  exact frame_trans (frame_trans (frame_trans (append_if_frame _ _ _ _ _ _)
    (append_if_frame _ _ _ _ _ _)) (append_if_frame _ _ _ _ _ _)) (append_if_frame _ _ _ _ _ _)

/-- Subtraction on `uint32_t` values. -/
def sub32 (a b : Nat) : Nat := (a + U32 - b) % U32

/-- Addition on `uint32_t` values. -/
def add32 (a b : Nat) : Nat := (a + b) % U32

/-- Subtraction on `uint64_t` values. -/
def sub64 (a b : Nat) : Nat := (a + U64 - b) % U64

/-- Addition on `uint64_t` values. -/
def add64 (a b : Nat) : Nat := (a + b) % U64

/-- Function `add_field`; the pointer `p` is the index of the player record in
`arr_of_players`. -/
def add_field (g : gamma_t) (x y p player : Nat) : gamma_t :=
  let rec1 := g.arr_of_players p
  { g with
    arr_of_players := write1 g.arr_of_players p
      { rec1 with occupied_fields := add64 rec1.occupied_fields 1 },
    board := write2 g.board x y player,
    free_fields := sub64 g.free_fields 1 }

/-- Function `adjacent_owned_by_player`. -/
def adjacent_owned_by_player (g : gamma_t) (x y player : Nat) : Bool :=
  if x ≠ 0 ∧ g.board (x - 1) y = player then true
  else if y ≠ 0 ∧ g.board x (y - 1) = player then true
  else if x ≠ UINT32_MAX ∧ x ≠ g.width_x - 1 ∧ g.board (x + 1) y = player then true
  else if y ≠ UINT32_MAX ∧ y ≠ g.height_y - 1 ∧ g.board x (y + 1) = player then true
  else false

/-- The state allocated and initialised by `gamma_new`.  The product
`width*height` is computed in `uint32_t` before it is stored in the
`uint64_t` field `free_fields`. -/
def new_game (width height players areas : Nat) : gamma_t :=
  { width_x := width
    height_y := height
    n_of_players := players
    n_of_areas := areas
    free_fields := (width * height) % U32
    arr_of_players := fun _ =>
      { golden_performed := false, occupied_areas := 0, occupied_fields := 0 }
    board := fun _ _ => 0
    auxiliary := fun _ _ => false }

/-- Function `gamma_new`; `none` is the `NULL` result.  Allocation is taken to
succeed. -/
def gamma_new (width height players areas : Nat) : Option gamma_t :=
  if width = 0 ∨ height = 0 ∨ players = 0 ∨ areas = 0 then none
  else some (new_game width height players areas)

/-- The assignment `p->occupied_areas = v` for the player record at index `p`. -/
def set_areas (g : gamma_t) (p v : Nat) : gamma_t :=
  let rec1 := g.arr_of_players p
  { g with arr_of_players := write1 g.arr_of_players p { rec1 with occupied_areas := v } }

/-- The assignment `p->occupied_fields = v` for the player record at index `p`. -/
def set_fields (g : gamma_t) (p v : Nat) : gamma_t :=
  let rec1 := g.arr_of_players p
  { g with arr_of_players := write1 g.arr_of_players p { rec1 with occupied_fields := v } }

/-- The assignment `p->golden_performed = v` for the player record at index `p`. -/
def set_golden (g : gamma_t) (p : Nat) (v : Bool) : gamma_t :=
  let rec1 := g.arr_of_players p
  { g with arr_of_players := write1 g.arr_of_players p { rec1 with golden_performed := v } }

/-- Function `gamma_move` on a non-null game: the returned flag and the state
after the call. -/
def gamma_move (g : gamma_t) (player x y : Nat) : Bool × gamma_t :=
  if player = 0 ∨ player > g.n_of_players then (false, g)
  else if hx : x ≥ g.width_x then (false, g)
  else if hy : y ≥ g.height_y then (false, g)
  else if g.board x y ≠ 0 then (false, g)
  else
    let p := player - 1
    let r := adjacent_player_areas g x y player (by omega) (by omega)
    let areas := r.1
    let g1 := r.2
    if areas = 0 then
      if (g1.arr_of_players p).occupied_areas > sub32 g1.n_of_areas 1 ∨ g1.n_of_areas = 0
      then (false, g1)
      else
        let g2 := set_areas g1 p (add32 (g1.arr_of_players p).occupied_areas 1)
        (true, add_field g2 x y p player)
    else
      let g2 := set_areas g1 p (sub32 (g1.arr_of_players p).occupied_areas (sub32 areas 1))
      (true, add_field g2 x y p player)

/-- The assignment `g->board[x][y] = v`. -/
def set_board (g : gamma_t) (x y v : Nat) : gamma_t :=
  { g with board := write2 g.board x y v }

/-- Function `golden_possible_on_field`; the pointer `new_owner` is the index of
the player record in `arr_of_players`. -/
def golden_possible_on_field (g : gamma_t) (new_owner new_owner_num x y : Nat)
    (hx : x < g.width_x) (hy : y < g.height_y) : Bool × gamma_t :=
  let prev_owner_num := g.board x y
  if prev_owner_num = 0 ∨ prev_owner_num = new_owner_num then (false, g)
  else
    let g1 := set_board g x y 0
    let r1 := adjacent_player_areas g1 x y prev_owner_num hx hy
    have f1 := adjacent_player_areas_frame g1 x y prev_owner_num hx hy
    let adjacent_prev_owner_areas := r1.1
    let g2 := r1.2
    let prev_owner := prev_owner_num - 1
    let disintegrating : Bool := decide (adjacent_prev_owner_areas ≠ 0 ∧
      sub32 adjacent_prev_owner_areas 1 >
        sub32 g2.n_of_areas (g2.arr_of_players prev_owner).occupied_areas)
    if disintegrating = true then (false, set_board g2 x y prev_owner_num)
    else
      let r2 := adjacent_player_areas g2 x y new_owner_num
        (by rw [f1.1]; exact hx) (by rw [f1.2.1]; exact hy)
      let adjacent_new_owner_areas := r2.1
      let g3 := r2.2
      if adjacent_new_owner_areas = 0 ∧
          (g3.arr_of_players new_owner).occupied_areas = g3.n_of_areas
      then (false, set_board g3 x y prev_owner_num)
      else (true, set_board g3 x y prev_owner_num)

theorem golden_possible_on_field_dims (g : gamma_t) (new_owner new_owner_num x y : Nat)
    (hx : x < g.width_x) (hy : y < g.height_y) :
    (golden_possible_on_field g new_owner new_owner_num x y hx hy).2.width_x = g.width_x ∧
      (golden_possible_on_field g new_owner new_owner_num x y hx hy).2.height_y
        = g.height_y := by
  have f1 := adjacent_player_areas_frame (set_board g x y 0) x y (g.board x y) hx hy
  have f2 := adjacent_player_areas_frame
    (adjacent_player_areas (set_board g x y 0) x y (g.board x y) hx hy).2 x y new_owner_num
    (by rw [f1.1]; exact hx) (by rw [f1.2.1]; exact hy)
  unfold golden_possible_on_field
  simp only []
  split_ifs <;>
    first
    | exact ⟨rfl, rfl⟩
    | exact ⟨f1.1, f1.2.1⟩
    | exact ⟨f2.1.trans f1.1, f2.2.1.trans f1.2.1⟩

/-- The record updates of a successful golden move, in source order; the
pointers `new_owner` and `prev_owner` are indices into `arr_of_players`. -/
def golden_apply (g : gamma_t) (player x y new_owner prev_owner adjacent_new_owner_areas
    adjacent_prev_owner_areas : Nat) : gamma_t :=
  let g1 := set_board g x y player
  let g2 := set_areas g1 new_owner
    (sub32 (g1.arr_of_players new_owner).occupied_areas (sub32 adjacent_new_owner_areas 1))
  let g3 := set_fields g2 new_owner (add64 (g2.arr_of_players new_owner).occupied_fields 1)
  let g4 := set_golden g3 new_owner true
  let g5 := set_fields g4 prev_owner (sub64 (g4.arr_of_players prev_owner).occupied_fields 1)
  set_areas g5 prev_owner
    (add32 (g5.arr_of_players prev_owner).occupied_areas (sub32 adjacent_prev_owner_areas 1))

/-- Function `gamma_golden_move` on a non-null game: the returned flag and the
state after the call. -/
def gamma_golden_move (g : gamma_t) (player x y : Nat) : Bool × gamma_t :=
  if player = 0 ∨ player > g.n_of_players then (false, g)
  else if hxy : x ≥ g.width_x ∨ y ≥ g.height_y then (false, g)
  else
    let new_owner := player - 1
    if (g.arr_of_players new_owner).golden_performed = true then (false, g)
    else
      let prev_owner_num := g.board x y
      if prev_owner_num = 0 ∨ prev_owner_num = player then (false, g)
      else
        let prev_owner := prev_owner_num - 1
        let g1 := set_board g x y 0
        let r1 := adjacent_player_areas g1 x y prev_owner_num
          (by show x < g.width_x; omega) (by show y < g.height_y; omega)
        have f1 := adjacent_player_areas_frame g1 x y prev_owner_num
          (by show x < g.width_x; omega) (by show y < g.height_y; omega)
        let adjacent_prev_owner_areas := r1.1
        let g2 := set_board r1.2 x y prev_owner_num
        let r2 := golden_possible_on_field g2 new_owner player x y
          (by show x < r1.2.width_x; rw [f1.1]; show x < g.width_x; omega)
          (by show y < r1.2.height_y; rw [f1.2.1]; show y < g.height_y; omega)
        have d2 := golden_possible_on_field_dims g2 new_owner player x y
          (by show x < r1.2.width_x; rw [f1.1]; show x < g.width_x; omega)
          (by show y < r1.2.height_y; rw [f1.2.1]; show y < g.height_y; omega)
        let can_move := r2.1
        let g3 := r2.2
        if can_move = true then
          let r3 := adjacent_player_areas g3 x y player
            (by rw [d2.1]; show x < r1.2.width_x; rw [f1.1]; show x < g.width_x; omega)
            (by rw [d2.2]; show y < r1.2.height_y; rw [f1.2.1]; show y < g.height_y; omega)
          let adjacent_new_owner_areas := r3.1
          (true, golden_apply r3.2 player x y new_owner prev_owner adjacent_new_owner_areas
            adjacent_prev_owner_areas)
        else (false, g3)

/-! ## Areas: 4-connected components of a set of fields -/

/-- Two fields are 4-neighbours. -/
def adj (a b : Field) : Prop :=
  (a.1 + 1 = b.1 ∧ a.2 = b.2) ∨ (a.1 = b.1 + 1 ∧ a.2 = b.2) ∨
    (a.1 = b.1 ∧ a.2 + 1 = b.2) ∨ (a.1 = b.1 ∧ a.2 = b.2 + 1)

/-- One step between neighbouring fields of the set `S`. -/
def link (S : Field → Prop) (a b : Field) : Prop := adj a b ∧ S a ∧ S b

/-- The fields `a` and `b` are joined by a sequence of pairwise adjacent fields
of `S`. -/
def conn (S : Field → Prop) (a b : Field) : Prop := Relation.ReflTransGen (link S) a b

/-- The set `R` holds exactly one field of every area of `S`. -/
def IsReps (S : Field → Prop) (R : Finset Field) : Prop :=
  (∀ r ∈ R, S r) ∧ (∀ a ∈ R, ∀ b ∈ R, conn S a b → a = b) ∧
    (∀ c, S c → ∃ r ∈ R, conn S r c)

/-- The set `S` consists of exactly `n` areas (4-connected components). -/
def area_count (S : Field → Prop) (n : Nat) : Prop :=
  ∃ R : Finset Field, IsReps S R ∧ R.card = n

/-- The set `L` holds exactly one neighbour of `c` out of every area of `S`
that contains a neighbour of `c`. -/
def IsAdjReps (S : Field → Prop) (c : Field) (L : Finset Field) : Prop :=
  (∀ l ∈ L, adj c l ∧ S l) ∧ (∀ a ∈ L, ∀ b ∈ L, conn S a b → a = b) ∧
    (∀ n, adj c n → S n → ∃ l ∈ L, conn S l n)

/-- Exactly `k` distinct areas of `S` contain a 4-neighbour of `c`. -/
def adj_area_count (S : Field → Prop) (c : Field) (k : Nat) : Prop :=
  ∃ L : Finset Field, IsAdjReps S c L ∧ L.card = k

theorem adj_symm {a b : Field} (h : adj a b) : adj b a := by
  unfold adj at *
  omega

theorem adj_ne {a b : Field} (h : adj a b) : a ≠ b := by
  rintro rfl
  unfold adj at h
  omega

theorem link_symm (S : Field → Prop) : Symmetric (link S) :=
  fun _ _ h => ⟨adj_symm h.1, h.2.2, h.2.1⟩

theorem conn_refl (S : Field → Prop) (a : Field) : conn S a a := Relation.ReflTransGen.refl

theorem conn_symm {S : Field → Prop} {a b : Field} (h : conn S a b) : conn S b a :=
  Relation.ReflTransGen.symmetric (link_symm S) h

theorem conn_trans {S : Field → Prop} {a b c : Field} (h1 : conn S a b) (h2 : conn S b c) :
    conn S a c := Relation.ReflTransGen.trans h1 h2

theorem conn_mono {S T : Field → Prop} (hST : ∀ u, S u → T u) {a b : Field}
    (h : conn S a b) : conn T a b :=
  Relation.ReflTransGen.mono (fun _ _ hl => ⟨hl.1, hST _ hl.2.1, hST _ hl.2.2⟩) h

theorem conn_mem {S : Field → Prop} {a b : Field} (h : conn S a b) : a = b ∨ (S a ∧ S b) := by
  induction h with
  | refl => exact Or.inl rfl
  | tail hab hbc ih =>
    rcases ih with rfl | ⟨ha, _⟩
    · exact Or.inr ⟨hbc.2.1, hbc.2.2⟩
    · exact Or.inr ⟨ha, hbc.2.2⟩

theorem conn_congr {S T : Field → Prop} (hST : ∀ u, S u ↔ T u) (a b : Field) :
    conn S a b ↔ conn T a b :=
  ⟨conn_mono (fun u => (hST u).1), conn_mono (fun u => (hST u).2)⟩

theorem IsReps_congr {S T : Field → Prop} (hST : ∀ u, S u ↔ T u) {R : Finset Field}
    (h : IsReps S R) : IsReps T R := by
  obtain ⟨h1, h2, h3⟩ := h
  refine ⟨fun r hr => (hST r).1 (h1 r hr), fun a ha b hb hab => h2 a ha b hb
    ((conn_congr hST a b).2 hab), fun c hc => ?_⟩
  obtain ⟨r, hr, hrc⟩ := h3 c ((hST c).2 hc)
  exact ⟨r, hr, (conn_congr hST r c).1 hrc⟩

theorem area_count_congr {S T : Field → Prop} (hST : ∀ u, S u ↔ T u) {n : Nat}
    (h : area_count S n) : area_count T n := by
  obtain ⟨R, hR, hn⟩ := h
  exact ⟨R, IsReps_congr hST hR, hn⟩

/-- Counting through a relation that is injective from `A` into `B`. -/
theorem card_le_of_rel {A B : Finset Field} (r : Field → Field → Prop)
    (hex : ∀ a ∈ A, ∃ b ∈ B, r a b)
    (hinj : ∀ a ∈ A, ∀ a2 ∈ A, ∀ b ∈ B, r a b → r a2 b → a = a2) : A.card ≤ B.card := by
  classical
  choose f hfB hfr using hex
  let g : Field → Field := fun a => if h : a ∈ A then f a h else a
  apply Finset.card_le_card_of_injOn g
  · intro a ha
    simp only [g, dif_pos ha]
    exact hfB a ha
  · intro a ha a2 ha2 hg
    have ha1 : a ∈ A := ha
    have ha3 : a2 ∈ A := ha2
    simp only [g, dif_pos ha1, dif_pos ha3] at hg
    exact hinj a ha1 a2 ha3 (f a ha1) (hfB a ha1) (hfr a ha1) (hg ▸ hfr a2 ha3)

/-- The number of areas of a set is unique. -/
theorem IsReps_card_unique {S : Field → Prop} {R1 R2 : Finset Field} (h1 : IsReps S R1)
    (h2 : IsReps S R2) : R1.card = R2.card := by
  have key : ∀ {A B : Finset Field}, IsReps S A → IsReps S B → A.card ≤ B.card := by
    intro A B hA hB
    apply card_le_of_rel (fun a b => conn S b a)
    · intro a ha
      exact hB.2.2 a (hA.1 a ha)
    · intro a ha a2 ha2 b _ hab ha2b
      exact hA.2.1 a ha a2 ha2 (conn_trans (conn_symm hab) ha2b)
  exact le_antisymm (key h1 h2) (key h2 h1)

theorem area_count_unique {S : Field → Prop} {n m : Nat} (h1 : area_count S n)
    (h2 : area_count S m) : n = m := by
  obtain ⟨R1, hR1, rfl⟩ := h1
  obtain ⟨R2, hR2, rfl⟩ := h2
  exact IsReps_card_unique hR1 hR2

theorem IsAdjReps_card_unique {S : Field → Prop} {c : Field} {L1 L2 : Finset Field}
    (h1 : IsAdjReps S c L1) (h2 : IsAdjReps S c L2) : L1.card = L2.card := by
  have key : ∀ {A B : Finset Field}, IsAdjReps S c A → IsAdjReps S c B → A.card ≤ B.card := by
    intro A B hA hB
    apply card_le_of_rel (fun a b => conn S b a)
    · intro a ha
      exact hB.2.2 a (hA.1 a ha).1 (hA.1 a ha).2
    · intro a ha a2 ha2 b _ hab ha2b
      exact hA.2.1 a ha a2 ha2 (conn_trans (conn_symm hab) ha2b)
  exact le_antisymm (key h1 h2) (key h2 h1)

theorem adj_area_count_unique {S : Field → Prop} {c : Field} {n m : Nat}
    (h1 : adj_area_count S c n) (h2 : adj_area_count S c m) : n = m := by
  obtain ⟨R1, hR1, rfl⟩ := h1
  obtain ⟨R2, hR2, rfl⟩ := h2
  exact IsAdjReps_card_unique hR1 hR2

/-- The field `u` is `c` itself or lies in an area of `S` that contains a
neighbour of `c`. -/
def touches (S : Field → Prop) (c u : Field) : Prop :=
  u = c ∨ ∃ n, adj c n ∧ S n ∧ conn S u n

/-- Paths in `S` with the field `c` added either avoid `c` or run between two
fields that touch `c`. -/
theorem conn_insert {S : Field → Prop} {c : Field} (hc : ¬ S c) {a b : Field}
    (h : conn (fun u => S u ∨ u = c) a b) :
    conn S a b ∨ (touches S c a ∧ touches S c b) := by
  induction h with
  | refl => exact Or.inl (conn_refl S a)
  | @tail m b _ hmb ih =>
    obtain ⟨hadj, hm, hb⟩ := hmb
    by_cases hbc : b = c
    · subst hbc
      right
      refine ⟨?_, Or.inl rfl⟩
      rcases ih with ih | ih
      · have hmne : m ≠ b := adj_ne hadj
        have hSm : S m := hm.resolve_right hmne
        exact Or.inr ⟨m, adj_symm hadj, hSm, ih⟩
      · exact ih.1
    · have hSb : S b := hb.resolve_right hbc
      by_cases hmc : m = c
      · subst hmc
        right
        refine ⟨?_, Or.inr ⟨b, hadj, hSb, conn_refl S b⟩⟩
        rcases ih with ih | ih
        · rcases conn_mem ih with h1 | h1
          · exact Or.inl h1
          · exact absurd h1.2 hc
        · exact ih.1
      · have hSm : S m := hm.resolve_right hmc
        rcases ih with ih | ih
        · exact Or.inl (Relation.ReflTransGen.tail ih ⟨hadj, hSm, hSb⟩)
        · right
          refine ⟨ih.1, ?_⟩
          rcases ih.2 with h1 | ⟨n, hn1, hn2, hn3⟩
          · exact absurd h1 hmc
          · exact Or.inr ⟨n, hn1, hn2,
              conn_trans (Relation.ReflTransGen.single ⟨adj_symm hadj, hSb, hSm⟩) hn3⟩

/-- Adding the field `c` to `S` merges the areas next to `c` into one: the
number of areas grows by one and shrinks by the number of adjacent areas. -/
theorem IsReps_insert {S : Field → Prop} {c : Field} (hc : ¬ S c) {R L : Finset Field}
    (hR : IsReps S R) (hL : IsAdjReps S c L) :
    ∃ R2 : Finset Field, IsReps (fun u => S u ∨ u = c) R2 ∧ R2.card + L.card = R.card + 1 := by
  classical
  let T := R.filter (fun r => ∃ l ∈ L, conn S r l)
  let U := R.filter (fun r => ¬ ∃ l ∈ L, conn S r l)
  have hTU : T.card + U.card = R.card := Finset.filter_card_add_filter_neg_card_eq_card _
  have hTL : T.card = L.card := by
    apply le_antisymm
    · apply card_le_of_rel (fun r l => conn S r l)
      · intro r hr
        exact (Finset.mem_filter.1 hr).2
      · intro r hr r2 hr2 l _ h1 h2
        exact hR.2.1 r (Finset.mem_filter.1 hr).1 r2 (Finset.mem_filter.1 hr2).1
          (conn_trans h1 (conn_symm h2))
    · apply card_le_of_rel (fun l r => conn S r l)
      · intro l hl
        obtain ⟨r, hr, hrl⟩ := hR.2.2 l (hL.1 l hl).2
        exact ⟨r, Finset.mem_filter.2 ⟨hr, l, hl, hrl⟩, hrl⟩
      · intro l hl l2 hl2 r _ h1 h2
        exact hL.2.1 l hl l2 hl2 (conn_trans (conn_symm h1) h2)
  have hcU : c ∉ U := fun h => hc (hR.1 c (Finset.mem_filter.1 h).1)
  have hU : ∀ r ∈ U, ¬ touches S c r := by
    intro r hr ht
    have hrR := (Finset.mem_filter.1 hr).1
    rcases ht with h1 | ⟨n, hn1, hn2, hn3⟩
    · exact hc (h1 ▸ hR.1 r hrR)
    · obtain ⟨l, hl, hln⟩ := hL.2.2 n hn1 hn2
      exact (Finset.mem_filter.1 hr).2 ⟨l, hl, conn_trans hn3 (conn_symm hln)⟩
  have hUc : ∀ r ∈ U, ¬ conn (fun u => S u ∨ u = c) r c := by
    intro r hr h
    rcases conn_insert hc h with h1 | h1
    · rcases conn_mem h1 with h2 | h2
      · exact hU r hr (Or.inl h2)
      · exact hc h2.2
    · exact hU r hr h1.1
  refine ⟨insert c U, ⟨?_, ?_, ?_⟩, ?_⟩
  · intro r hr
    rcases Finset.mem_insert.1 hr with h1 | h1
    · exact Or.inr h1
    · exact Or.inl (hR.1 r (Finset.mem_filter.1 h1).1)
  · intro a ha b hb hab
    rcases Finset.mem_insert.1 ha with h1 | h1 <;> rcases Finset.mem_insert.1 hb with h2 | h2
    · rw [h1, h2]
    · subst h1
      exact absurd (conn_symm hab) (hUc b h2)
    · subst h2
      exact absurd hab (hUc a h1)
    · rcases conn_insert hc hab with h3 | h3
      · exact hR.2.1 a (Finset.mem_filter.1 h1).1 b (Finset.mem_filter.1 h2).1 h3
      · exact absurd h3.1 (hU a h1)
  · intro u hu
    rcases hu with hu | hu
    · obtain ⟨r, hr, hru⟩ := hR.2.2 u hu
      by_cases ht : ∃ l ∈ L, conn S r l
      · obtain ⟨l, hl, hrl⟩ := ht
        refine ⟨c, Finset.mem_insert_self _ _, ?_⟩
        have h1 : conn (fun u => S u ∨ u = c) c l :=
          Relation.ReflTransGen.single ⟨(hL.1 l hl).1, Or.inr rfl, Or.inl (hL.1 l hl).2⟩
        have h2 : conn (fun u => S u ∨ u = c) l u :=
          conn_mono (fun _ h => Or.inl h) (conn_trans (conn_symm hrl) hru)
        exact conn_trans h1 h2
      · exact ⟨r, Finset.mem_insert_of_mem (Finset.mem_filter.2 ⟨hr, ht⟩),
          conn_mono (fun _ h => Or.inl h) hru⟩
    · subst hu
      exact ⟨u, Finset.mem_insert_self _ _, conn_refl _ _⟩
  · rw [Finset.card_insert_of_not_mem hcU]
    omega

/-- Every set of fields inside a finite region has a system of area
representatives. -/
theorem IsReps_exists (S : Field → Prop) (F : Finset Field) (hF : ∀ u, S u → u ∈ F) :
    ∃ R : Finset Field, IsReps S R := by
  classical
  have key : ∀ G : Finset Field, ∃ R : Finset Field, (∀ r ∈ R, S r) ∧
      (∀ a ∈ R, ∀ b ∈ R, conn S a b → a = b) ∧ (∀ u ∈ G, S u → ∃ r ∈ R, conn S r u) := by
    intro G
    induction G using Finset.induction_on with
    | empty => exact ⟨∅, by simp, by simp, by simp⟩
    | @insert a G _ ih =>
      obtain ⟨R, h1, h2, h3⟩ := ih
      by_cases hnew : S a ∧ ¬ ∃ r ∈ R, conn S r a
      · refine ⟨insert a R, ?_, ?_, ?_⟩
        · intro r hr
          rcases Finset.mem_insert.1 hr with h | h
          · exact h ▸ hnew.1
          · exact h1 r h
        · intro x hx y hy hxy
          rcases Finset.mem_insert.1 hx with h | h <;> rcases Finset.mem_insert.1 hy with k | k
          · rw [h, k]
          · subst h
            exact absurd ⟨y, k, conn_symm hxy⟩ hnew.2
          · subst k
            exact absurd ⟨x, h, hxy⟩ hnew.2
          · exact h2 x h y k hxy
        · intro u hu hSu
          rcases Finset.mem_insert.1 hu with h | h
          · exact ⟨a, Finset.mem_insert_self _ _, h ▸ conn_refl S a⟩
          · obtain ⟨r, hr, hru⟩ := h3 u h hSu
            exact ⟨r, Finset.mem_insert_of_mem hr, hru⟩
      · refine ⟨R, h1, h2, ?_⟩
        intro u hu hSu
        rcases Finset.mem_insert.1 hu with h | h
        · subst h
          by_contra hno
          exact hnew ⟨hSu, hno⟩
        · exact h3 u h hSu
  obtain ⟨R, h1, h2, h3⟩ := key F
  exact ⟨R, h1, h2, fun u hu => h3 u (hF u hu) hu⟩

/-! ## Correctness of the search -/

/-- The field `c` lies on the board of `g` and belongs to `player`. -/
def owned (g : gamma_t) (player : Nat) (c : Field) : Prop :=
  c.1 < g.width_x ∧ c.2 < g.height_y ∧ g.board c.1 c.2 = player

theorem mem_push_if (q : List Field) (cond : Prop) [Decidable cond] (a b : Nat) (c : Field)
    (h : c ∈ q ∨ (cond ∧ c = (a, b))) : c ∈ (if cond then queue_push q a b else q) := by
  by_cases hc : cond
  · simp only [if_pos hc, queue_push, List.mem_append, List.mem_singleton]
    rcases h with h | h
    · exact Or.inl h
    · exact Or.inr h.2
  · simp only [if_neg hc]
    rcases h with h | h
    · exact h
    · exact absurd h.1 hc

/-- Every eligible neighbour of the popped field that lies on the board is
pushed. -/
theorem push_neighbours_mem (g : gamma_t) (q : List Field) (width height player : Nat)
    (c : Field) (hw : width < UINT32_MAX) (hh : height < UINT32_MAX)
    (hadj : adj (width, height) c) (hcw : c.1 < g.width_x) (hch : c.2 < g.height_y)
    (hel : field_eligible g c.1 c.2 player = true) :
    c ∈ push_neighbours g q width height player := by
  unfold push_neighbours
  simp only []
  obtain ⟨c1, c2⟩ := c
  simp only [adj] at hadj
  simp only at hcw hch hel
  rcases hadj with h | h | h | h
  · obtain ⟨h1, h2⟩ := h
    subst h1 h2
    apply mem_push_if; left
    apply mem_push_if; right
    exact ⟨⟨by omega, by omega, hel⟩, rfl⟩
  · obtain ⟨h1, h2⟩ := h
    subst h1 h2
    apply mem_push_if; left
    apply mem_push_if; left
    apply mem_push_if; left
    apply mem_push_if; right
    exact ⟨⟨by omega, by simpa using hel⟩, by simp⟩
  · obtain ⟨h1, h2⟩ := h
    subst h1 h2
    apply mem_push_if; right
    exact ⟨⟨by omega, by omega, hel⟩, rfl⟩
  · obtain ⟨h1, h2⟩ := h
    subst h1 h2
    apply mem_push_if; left
    apply mem_push_if; left
    apply mem_push_if; right
    exact ⟨⟨by omega, by simpa using hel⟩, by simp⟩

theorem push_neighbours_super (g : gamma_t) (q : List Field) (width height player : Nat)
    (c : Field) (hc : c ∈ q) : c ∈ push_neighbours g q width height player := by
  obtain ⟨l, hl, _⟩ := push_neighbours_spec g q width height player
  rw [hl]
  exact List.mem_append_left _ hc

/-- Soundness of the search loop: a positive answer comes with a path. -/
theorem reachable_aux_sound (s : Field) (g : gamma_t) (q : List Field) (x y player : Nat)
    (hq : queue_ok g q)
    (hs : ∀ c ∈ q, conn (owned g player) s c ∧ owned g player c)
    (hres : (reachable_aux g q x y player hq).1 = true) :
    conn (owned g player) s (x, y) := by
  induction g, q, x, y, player, hq using reachable_aux.induct with
  | case1 g x y player hq _ =>
    rw [reachable_aux.eq_1] at hres
    exact absurd hres (by simp)
  | case2 g x y player f rest hq hf _ =>
    have h1 := (hs f (List.mem_cons_self _ _)).1
    have : f = (x, y) := Prod.ext hf.1 hf.2
    rw [← this]
    exact h1
  | case3 g x y player f rest hq hf _ ih =>
    rw [reachable_aux.eq_2, if_neg hf] at hres
    apply ih _ hres
    intro c hc
    obtain ⟨l, hl, hP⟩ := push_neighbours_spec (mark g f.1 f.2) rest f.1 f.2 player
    have hok := step_ok g f rest player hq c hc
    rw [hl] at hc
    rcases List.mem_append.1 hc with h1 | h1
    · exact hs c (List.mem_cons_of_mem _ h1)
    · obtain ⟨hsf, hof⟩ := hs f (List.mem_cons_self _ _)
      have hel := (field_eligible_iff (mark g f.1 f.2) c.1 c.2 player).1 (hP c h1).1
      have hoc : owned g player c := ⟨hok.1, hok.2, hel.2⟩
      have hadj : adj f c := by
        have := (hP c h1).2
        unfold adj
        omega
      exact ⟨Relation.ReflTransGen.tail hsf ⟨hadj, hof, hoc⟩, hoc⟩

/-- With an empty queue and all marked fields closed under owned neighbours,
marks spread along paths. -/
theorem marks_spread (g : gamma_t) (player : Nat)
    (hclosed : ∀ v, owned g player v → g.auxiliary v.1 v.2 = true →
      ∀ n, adj v n → owned g player n → g.auxiliary n.1 n.2 = true)
    (u t : Field) (hu : g.auxiliary u.1 u.2 = true) (h : conn (owned g player) u t) :
    g.auxiliary t.1 t.2 = true := by
  induction h with
  | refl => exact hu
  | tail _ hmt ih => exact hclosed _ hmt.2.1 ih _ hmt.1 hmt.2.2

/-- Completeness of the search loop: if a queued or marked field is joined to
the target, the loop answers positively. -/
theorem reachable_aux_complete (g : gamma_t) (q : List Field) (x y player : Nat)
    (hq : queue_ok g q) (hwb : g.width_x ≤ UINT32_MAX) (hhb : g.height_y ≤ UINT32_MAX)
    (htgt : g.auxiliary x y = false)
    (hclosed : ∀ v, owned g player v → g.auxiliary v.1 v.2 = true →
      ∀ n, adj v n → owned g player n → g.auxiliary n.1 n.2 = true ∨ n ∈ q)
    (hex : ∃ c, (c ∈ q ∨ g.auxiliary c.1 c.2 = true) ∧ conn (owned g player) c (x, y)) :
    (reachable_aux g q x y player hq).1 = true := by
  induction g, q, x, y, player, hq using reachable_aux.induct with
  | case1 g x y player hq _ =>
    exfalso
    obtain ⟨c, hc, hconn⟩ := hex
    have hm : g.auxiliary c.1 c.2 = true := by
      rcases hc with h | h
      · exact absurd h (List.not_mem_nil _)
      · exact h
    have := marks_spread g player
      (fun v hv hvm n hn hno => (hclosed v hv hvm n hn hno).resolve_right (List.not_mem_nil _))
      c (x, y) hm hconn
    rw [htgt] at this
    exact absurd this (by simp)
  | case2 g x y player f rest hq hf _ =>
    rw [reachable_aux.eq_2, if_pos hf]
  | case3 g x y player f rest hq hf _ ih =>
    rw [reachable_aux.eq_2, if_neg hf]
    have hfb := hq f (List.mem_cons_self _ _)
    have hmk : ∀ c : Field, (mark g f.1 f.2).auxiliary c.1 c.2 = true ↔
        (c = f ∨ g.auxiliary c.1 c.2 = true) := by
      intro c
      simp only [mark, write2]
      by_cases hcf : c.1 = f.1 ∧ c.2 = f.2
      · simp [hcf, Prod.ext_iff]
      · simp [hcf, Prod.ext_iff]
    apply ih hwb hhb
    · have h1 := (hmk (x, y)).not.2
      simp only at h1
      have h2 : ¬ ((x, y) = f ∨ g.auxiliary x y = true) := by
        rintro (h | h)
        · exact hf ⟨by rw [← h], by rw [← h]⟩
        · rw [htgt] at h
          exact absurd h (by simp)
      simpa using h1 h2
    · intro v hv hvm n hn hno
      by_cases hnm : (mark g f.1 f.2).auxiliary n.1 n.2 = true
      · exact Or.inl hnm
      · right
        rcases (hmk v).1 hvm with h | h
        · subst h
          apply push_neighbours_mem
          · omega
          · omega
          · exact hn
          · exact hno.1
          · exact hno.2.1
          · rw [field_eligible_iff]
            exact ⟨by simpa using hnm, hno.2.2⟩
        · apply push_neighbours_super
          rcases hclosed v hv h n hn hno with h1 | h1
          · exact absurd ((hmk n).2 (Or.inr h1)) hnm
          · rcases List.mem_cons.1 h1 with h2 | h2
            · exact absurd ((hmk n).2 (Or.inl h2)) hnm
            · exact h2
    · obtain ⟨c, hc, hconn⟩ := hex
      refine ⟨c, ?_, hconn⟩
      rcases hc with h | h
      · rcases List.mem_cons.1 h with h2 | h2
        · exact Or.inr ((hmk c).2 (Or.inl h2))
        · exact Or.inl (push_neighbours_super _ _ _ _ _ _ h2)
      · exact Or.inr ((hmk c).2 (Or.inr h))

/-- The auxiliary array of `g` is all false. -/
def aux_clear (g : gamma_t) : Prop := ∀ i j, g.auxiliary i j = false

theorem gamma_eq_of_frame {g1 g2 : gamma_t} (hf : frame g1 g2)
    (ha : g2.auxiliary = g1.auxiliary) : g2 = g1 := by
  obtain ⟨a1, a2, a3, a4, a5, a6, a7⟩ := hf
  cases g1
  cases g2
  simp only at a1 a2 a3 a4 a5 a6 a7 ha
  subst a1 a2 a3 a4 a5 a6 a7 ha
  rfl

/-- On a state with a clear auxiliary array `reachable` leaves the state as
it was. -/
theorem reachable_clean (g : gamma_t) (x1 y1 x2 y2 player : Nat) (hx : x1 < g.width_x)
    (hy : y1 < g.height_y) (haux : aux_clear g) :
    (reachable g x1 y1 x2 y2 player hx hy).2 = g := by
  apply gamma_eq_of_frame (reachable_frame g x1 y1 x2 y2 player hx hy)
  funext i j
  have h := reachable_aux_frame g (queue_push [] x1 y1) x2 y2 player
    (queue_ok_single g x1 y1 hx hy)
  simp only [reachable, clear_aux]
  rw [h.1.1, h.1.2.1]
  split_ifs with hij
  · exact (haux i j).symm
  · exact h.2 i j hij

/-- The answer of `reachable` from a field of `player`: there is a path of
fields of `player` from the start to the target. -/
theorem reachable_correct (g : gamma_t) (x1 y1 x2 y2 player : Nat) (hx : x1 < g.width_x)
    (hy : y1 < g.height_y) (haux : aux_clear g) (hwb : g.width_x ≤ UINT32_MAX)
    (hhb : g.height_y ≤ UINT32_MAX) (hown : g.board x1 y1 = player) :
    (reachable g x1 y1 x2 y2 player hx hy).1 = true ↔
      conn (owned g player) (x1, y1) (x2, y2) := by
  simp only [reachable]
  constructor
  · intro h
    apply reachable_aux_sound (x1, y1) g _ x2 y2 player _ _ h
    intro c hc
    have : c = (x1, y1) := by simpa [queue_push] using hc
    subst this
    exact ⟨conn_refl _ _, hx, hy, hown⟩
  · intro h
    apply reachable_aux_complete g _ x2 y2 player _ hwb hhb (haux x2 y2)
    · intro v _ hvm
      rw [haux] at hvm
      exact absurd hvm (by simp)
    · exact ⟨(x1, y1), Or.inl (by simp [queue_push]), h⟩

theorem append_field_scan_clean (l : List Field) (g : gamma_t) (x y player : Nat)
    (hx : x < g.width_x) (hy : y < g.height_y) (haux : aux_clear g) :
    (append_field_scan g l x y player hx hy).2 = g := by
  induction l with
  | nil => rfl
  | cons c rest ih =>
    have hc := reachable_clean g x y c.1 c.2 player hx hy haux
    simp only [append_field_scan]
    split_ifs with h
    · exact hc
    · simp only [hc]
      exact ih

theorem append_field_scan_correct (l : List Field) (g : gamma_t) (x y player : Nat)
    (hx : x < g.width_x) (hy : y < g.height_y) (haux : aux_clear g)
    (hwb : g.width_x ≤ UINT32_MAX) (hhb : g.height_y ≤ UINT32_MAX)
    (hown : g.board x y = player) :
    (append_field_scan g l x y player hx hy).1 = true ↔
      ∃ c ∈ l, conn (owned g player) (x, y) c := by
  induction l with
  | nil => simp [append_field_scan]
  | cons c rest ih =>
    have hc := reachable_clean g x y c.1 c.2 player hx hy haux
    have hr := reachable_correct g x y c.1 c.2 player hx hy haux hwb hhb hown
    simp only [append_field_scan]
    split_ifs with h
    · simp only [true_iff]
      exact ⟨c, List.mem_cons_self _ _, hr.1 h⟩
    · simp only [hc]
      rw [ih]
      constructor
      · rintro ⟨d, hd, hconn⟩
        exact ⟨d, List.mem_cons_of_mem _ hd, hconn⟩
      · rintro ⟨d, hd, hconn⟩
        rcases List.mem_cons.1 hd with h1 | h1
        · subst h1
          exact absurd (hr.2 hconn) h
        · exact ⟨d, h1, hconn⟩

theorem append_field_clean (l : List Field) (g : gamma_t) (x y player : Nat)
    (hx : x < g.width_x) (hy : y < g.height_y) (haux : aux_clear g) :
    (append_field g l x y player hx hy).2 = g := by
  cases l with
  | nil => rfl
  | cons c rest =>
    simp only [append_field]
    split_ifs <;> exact append_field_scan_clean _ g x y player hx hy haux

/-- The list after `append_field`: the field is put in front unless an entry
of the list lies in its area. -/
theorem append_field_correct (l : List Field) (g : gamma_t) (x y player : Nat)
    (hx : x < g.width_x) (hy : y < g.height_y) (haux : aux_clear g)
    (hwb : g.width_x ≤ UINT32_MAX) (hhb : g.height_y ≤ UINT32_MAX)
    (hown : g.board x y = player) :
    ((∃ c ∈ l, conn (owned g player) (x, y) c) →
        (append_field g l x y player hx hy).1 = l) ∧
      ((¬ ∃ c ∈ l, conn (owned g player) (x, y) c) →
        (append_field g l x y player hx hy).1 = (x, y) :: l) := by
  cases l with
  | nil =>
    simp [append_field]
  | cons c rest =>
    have h := append_field_scan_correct (c :: rest) g x y player hx hy haux hwb hhb hown
    simp only [append_field]
    constructor
    · intro hex
      rw [if_neg]
      rw [h.2 hex]
      simp
    · intro hex
      rw [if_pos]
      cases hb : (append_field_scan g (c :: rest) x y player hx hy).1
      · rfl
      · exact absurd (h.1 hb) hex

/-- Invariant of the candidate list of `adjacent_player_areas` once the
neighbours in `N` have been examined. -/
def cand_ok (g : gamma_t) (player : Nat) (c : Field) (N : Field → Prop) (L : List Field) :
    Prop :=
  L.Nodup ∧ (∀ l ∈ L, adj c l ∧ owned g player l) ∧
    (∀ a ∈ L, ∀ b ∈ L, conn (owned g player) a b → a = b) ∧
    (∀ n, N n → adj c n → owned g player n → ∃ l ∈ L, conn (owned g player) l n)

/-- The pair of candidate list and state between two steps of
`adjacent_player_areas`. -/
def step_inv (g : gamma_t) (player : Nat) (c : Field) (N : Field → Prop)
    (s : List Field × gamma_t) : Prop :=
  s.2 = g ∧ cand_ok g player c N s.1

theorem append_if_step (g : gamma_t) (player : Nat) (c : Field) (N M : Field → Prop)
    (cond : Prop) [Decidable cond] (s : List Field × gamma_t) (x y : Nat)
    (h : cond → x < s.2.width_x ∧ y < s.2.height_y) (haux : aux_clear g)
    (hwb : g.width_x ≤ UINT32_MAX) (hhb : g.height_y ≤ UINT32_MAX)
    (hM : ∀ n, M n → N n ∨ n = (x, y))
    (hcond : cond ↔ adj c (x, y) ∧ owned g player (x, y))
    (hinv : step_inv g player c N s) :
    step_inv g player c M (append_if cond s x y player h) := by
  obtain ⟨L, g2⟩ := s
  obtain ⟨hg, hnd, hmem, hpw, hcov⟩ := hinv
  simp only at hg
  subst hg
  unfold append_if
  by_cases hc : cond
  · simp only [dif_pos hc]
    have hown := (hcond.1 hc).2
    have hcorr := append_field_correct L g2 x y player (h hc).1 (h hc).2 haux hwb hhb
      hown.2.2
    refine ⟨append_field_clean L g2 x y player _ _ haux, ?_⟩
    by_cases hex : ∃ d ∈ L, conn (owned g2 player) (x, y) d
    · rw [hcorr.1 hex]
      refine ⟨hnd, hmem, hpw, ?_⟩
      intro n hn hadj hno
      rcases hM n hn with h1 | h1
      · exact hcov n h1 hadj hno
      · subst h1
        obtain ⟨d, hd, hconn⟩ := hex
        exact ⟨d, hd, conn_symm hconn⟩
    · rw [hcorr.2 hex]
      refine ⟨?_, ?_, ?_, ?_⟩
      · apply List.nodup_cons.2
        refine ⟨fun hin => hex ⟨(x, y), hin, conn_refl _ _⟩, hnd⟩
      · intro l hl
        rcases List.mem_cons.1 hl with h1 | h1
        · subst h1
          exact hcond.1 hc
        · exact hmem l h1
      · intro a ha b hb hab
        rcases List.mem_cons.1 ha with h1 | h1 <;> rcases List.mem_cons.1 hb with h2 | h2
        · rw [h1, h2]
        · subst h1
          exact absurd ⟨b, h2, hab⟩ hex
        · subst h2
          exact absurd ⟨a, h1, conn_symm hab⟩ hex
        · exact hpw a h1 b h2 hab
      · intro n hn hadj hno
        rcases hM n hn with h1 | h1
        · obtain ⟨l, hl, hln⟩ := hcov n h1 hadj hno
          exact ⟨l, List.mem_cons_of_mem _ hl, hln⟩
        · subst h1
          exact ⟨(x, y), List.mem_cons_self _ _, conn_refl _ _⟩
  · simp only [dif_neg hc]
    refine ⟨rfl, hnd, hmem, hpw, ?_⟩
    intro n hn hadj hno
    rcases hM n hn with h1 | h1
    · exact hcov n h1 hadj hno
    · subst h1
      exact absurd (hcond.2 ⟨hadj, hno⟩) hc

theorem cand_ok_final {g : gamma_t} {player : Nat} {c : Field} {N : Field → Prop}
    {L : List Field} (h : cand_ok g player c N L) (hN : ∀ n, adj c n → N n) :
    IsAdjReps (owned g player) c L.toFinset ∧ L.toFinset.card = L.length := by
  obtain ⟨hnd, hmem, hpw, hcov⟩ := h
  refine ⟨⟨?_, ?_, ?_⟩, List.toFinset_card_of_nodup hnd⟩
  · intro l hl
    exact hmem l (List.mem_toFinset.1 hl)
  · intro a ha b hb hab
    exact hpw a (List.mem_toFinset.1 ha) b (List.mem_toFinset.1 hb) hab
  · intro n hadj hno
    obtain ⟨l, hl, hln⟩ := hcov n (hN n hadj) hadj hno
    exact ⟨l, List.mem_toFinset.2 hl, hln⟩

theorem adj_left (x y : Nat) : adj (x, y) (x - 1, y) ↔ x ≠ 0 := by
  unfold adj
  dsimp only
  omega

theorem adj_down (x y : Nat) : adj (x, y) (x, y - 1) ↔ y ≠ 0 := by
  unfold adj
  dsimp only
  omega

theorem adj_right (x y : Nat) : adj (x, y) (x + 1, y) := by
  unfold adj
  dsimp only
  omega

theorem adj_up (x y : Nat) : adj (x, y) (x, y + 1) := by
  unfold adj
  dsimp only
  omega

/-- Specification of `adjacent_player_areas` on a state with a clear auxiliary
array: the state is left as it was and the result is the length of a list
holding one neighbour of `(x, y)` from every adjacent area of `player`. -/
theorem adjacent_player_areas_spec (g : gamma_t) (x y player : Nat) (hx : x < g.width_x)
    (hy : y < g.height_y) (haux : aux_clear g) (hwb : g.width_x ≤ UINT32_MAX)
    (hhb : g.height_y ≤ UINT32_MAX) :
    (adjacent_player_areas g x y player hx hy).2 = g ∧
      ∃ L : List Field, L.Nodup ∧ IsAdjReps (owned g player) (x, y) L.toFinset ∧
        (adjacent_player_areas g x y player hx hy).1 = L.length := by
  have key : ∀ s : List Field × gamma_t, step_inv g player (x, y) (adj (x, y)) s →
      (field_list_length s.1, s.2).2 = g ∧
        ∃ L : List Field, L.Nodup ∧ IsAdjReps (owned g player) (x, y) L.toFinset ∧
          (field_list_length s.1, s.2).1 = L.length :=
    fun s hs => ⟨hs.1, s.1, hs.2.1, (cand_ok_final hs.2 (fun _ h => h)).1, rfl⟩
  unfold adjacent_player_areas
  simp only []
  apply key
  apply append_if_step g player (x, y)
    (fun n => n = (x - 1, y) ∨ n = (x, y - 1) ∨ n = (x + 1, y)) (adj (x, y)) _ _ _ _ _
    haux hwb hhb
  · intro n hn
    obtain ⟨n1, n2⟩ := n
    simp only [adj] at hn
    simp only [Prod.mk.injEq]
    omega
  · simp only [owned]
    constructor
    · rintro ⟨_, h2, h3⟩
      exact ⟨adj_up x y, by omega, by omega, h3⟩
    · rintro ⟨_, _, h2, h3⟩
      exact ⟨by omega, by omega, h3⟩
  apply append_if_step g player (x, y)
    (fun n => n = (x - 1, y) ∨ n = (x, y - 1)) _ _ _ _ _ _ haux hwb hhb
  · intro n hn
    rcases hn with h | h | h
    · exact Or.inl (Or.inl h)
    · exact Or.inl (Or.inr h)
    · exact Or.inr h
  · simp only [owned]
    constructor
    · rintro ⟨_, h2, h3⟩
      exact ⟨adj_right x y, by omega, by omega, h3⟩
    · rintro ⟨_, h1, _, h3⟩
      exact ⟨by omega, by omega, h3⟩
  apply append_if_step g player (x, y) (fun n => n = (x - 1, y)) _ _ _ _ _ _ haux hwb hhb
  · intro n hn
    exact hn
  · simp only [owned]
    constructor
    · rintro ⟨h2, h3⟩
      exact ⟨(adj_down x y).2 h2, by omega, by omega, h3⟩
    · rintro ⟨h1, _, _, h3⟩
      exact ⟨(adj_down x y).1 h1, h3⟩
  apply append_if_step g player (x, y) (fun _ => False) _ _ _ _ _ _ haux hwb hhb
  · intro n hn
    exact Or.inr hn
  · simp only [owned]
    constructor
    · rintro ⟨h2, h3⟩
      exact ⟨(adj_left x y).2 h2, by omega, by omega, h3⟩
    · rintro ⟨h1, _, _, h3⟩
      exact ⟨(adj_left x y).1 h1, h3⟩
  · refine ⟨rfl, List.nodup_nil, ?_, ?_, ?_⟩
    · intro l hl
      exact absurd hl (List.not_mem_nil _)
    · intro a ha
      exact absurd ha (List.not_mem_nil _)
    · intro n hn
      exact absurd hn id

/-! ## The moves on states with a clear auxiliary array -/

theorem sub32_eq (a b : Nat) (hb : b ≤ a) (ha : a < U32) : sub32 a b = a - b := by
  unfold sub32 U32 at *
  omega

theorem add32_eq (a b : Nat) (h : a + b < U32) : add32 a b = a + b := by
  unfold add32 U32 at *
  omega

theorem add32_minus_one (a : Nat) (h1 : 1 ≤ a) (h2 : a < U32) :
    add32 a (sub32 0 1) = a - 1 := by
  unfold add32 sub32 U32 at *
  omega

theorem sub32_minus_one (a : Nat) (h2 : a + 1 < U32) : sub32 a (sub32 0 1) = a + 1 := by
  unfold sub32 U32 at *
  omega

/-- The arguments of `gamma_move` pass the parameter checks and the field is
free. -/
def move_args_ok (g : gamma_t) (player x y : Nat) : Prop :=
  1 ≤ player ∧ player ≤ g.n_of_players ∧ x < g.width_x ∧ y < g.height_y ∧ g.board x y = 0

/-- The state after an accepted `gamma_move` that sets the area counter of the
player to `v`. -/
def move_apply (g : gamma_t) (player x y v : Nat) : gamma_t :=
  add_field (set_areas g (player - 1) v) x y (player - 1) player

theorem gamma_move_bad_args (g : gamma_t) (player x y : Nat)
    (h : ¬ move_args_ok g player x y) : gamma_move g player x y = (false, g) := by
  unfold gamma_move
  unfold move_args_ok at h
  split_ifs with h1 h2 h3 h4
  · rfl
  · rfl
  · rfl
  · rfl
  · exfalso
    apply h
    refine ⟨by omega, by omega, by omega, by omega, ?_⟩
    by_contra h5
    exact h4 h5

/-- The result of `gamma_move` on checked arguments, in terms of the number
`k` of adjacent areas computed by `adjacent_player_areas`. -/
theorem gamma_move_good_args (g : gamma_t) (player x y : Nat) (haux : aux_clear g)
    (hwb : g.width_x ≤ UINT32_MAX) (hhb : g.height_y ≤ UINT32_MAX)
    (h : move_args_ok g player x y) :
    ∃ L : List Field, L.Nodup ∧ IsAdjReps (owned g player) (x, y) L.toFinset ∧
      (adjacent_player_areas g x y player h.2.2.1 h.2.2.2.1).1 = L.length ∧
      gamma_move g player x y =
        if L.length = 0 then
          if (g.arr_of_players (player - 1)).occupied_areas > sub32 g.n_of_areas 1 ∨
              g.n_of_areas = 0
          then (false, g)
          else (true, move_apply g player x y
            (add32 (g.arr_of_players (player - 1)).occupied_areas 1))
        else (true, move_apply g player x y
          (sub32 (g.arr_of_players (player - 1)).occupied_areas (sub32 L.length 1))) := by
  obtain ⟨h1, h2, h3, h4, h5⟩ := h
  obtain ⟨hst, L, hnd, hL, hlen⟩ := adjacent_player_areas_spec g x y player h3 h4 haux hwb hhb
  refine ⟨L, hnd, hL, hlen, ?_⟩
  unfold gamma_move
  rw [if_neg (by omega), dif_neg (by omega), dif_neg (by omega), if_neg (by simp [h5])]
  simp only [hst, hlen, move_apply]

/-! ## The state invariant -/

/-- The fields of the board owned by `player`. -/
def fields_of (g : gamma_t) (player : Nat) : Finset Field :=
  (Finset.range g.width_x ×ˢ Finset.range g.height_y).filter
    (fun c => g.board c.1 c.2 = player)

theorem mem_fields_of (g : gamma_t) (player : Nat) (c : Field) :
    c ∈ fields_of g player ↔ owned g player c := by
  simp [fields_of, owned, and_assoc]

theorem fields_of_card_le (g : gamma_t) (player : Nat) :
    (fields_of g player).card ≤ g.width_x * g.height_y := by
  have h := Finset.card_filter_le (Finset.range g.width_x ×ˢ Finset.range g.height_y)
    (fun c => g.board c.1 c.2 = player)
  simpa [fields_of] using h

/-- The state `g2` has the dimensions of `g1` and its board is the board of
`g1` with field `(x, y)` set to `v`. -/
def board_set (g1 g2 : gamma_t) (x y v : Nat) : Prop :=
  g2.width_x = g1.width_x ∧ g2.height_y = g1.height_y ∧ g2.board = write2 g1.board x y v

theorem owned_write_self {g1 g2 : gamma_t} {x y v : Nat} (h : board_set g1 g2 x y v)
    (hx : x < g1.width_x) (hy : y < g1.height_y) (u : Field) :
    owned g2 v u ↔ owned g1 v u ∨ u = (x, y) := by
  obtain ⟨h1, h2, h3⟩ := h
  obtain ⟨u1, u2⟩ := u
  simp only [owned, h1, h2, h3, write2, Prod.mk.injEq]
  by_cases hu : u1 = x ∧ u2 = y
  · obtain ⟨rfl, rfl⟩ := hu
    simp [hx, hy]
  · simp [hu]

theorem owned_write_other {g1 g2 : gamma_t} {x y v : Nat} (h : board_set g1 g2 x y v)
    (q : Nat) (hq : q ≠ v) (hold : g1.board x y ≠ q) (u : Field) :
    owned g2 q u ↔ owned g1 q u := by
  obtain ⟨h1, h2, h3⟩ := h
  obtain ⟨u1, u2⟩ := u
  simp only [owned, h1, h2, h3, write2]
  by_cases hu : u1 = x ∧ u2 = y
  · obtain ⟨rfl, rfl⟩ := hu
    simp [hold, Ne.symm hq]
  · simp [hu]

theorem owned_write_old {g1 g2 : gamma_t} {x y v : Nat} (h : board_set g1 g2 x y v)
    (q : Nat) (hq : q ≠ v) (u : Field) :
    owned g2 q u ↔ owned g1 q u ∧ u ≠ (x, y) := by
  obtain ⟨h1, h2, h3⟩ := h
  obtain ⟨u1, u2⟩ := u
  simp only [owned, h1, h2, h3, write2, ne_eq, Prod.mk.injEq]
  by_cases hu : u1 = x ∧ u2 = y
  · obtain ⟨rfl, rfl⟩ := hu
    simp [Ne.symm hq]
  · simp [hu]

theorem fields_of_write_self {g1 g2 : gamma_t} {x y v : Nat} (h : board_set g1 g2 x y v)
    (hx : x < g1.width_x) (hy : y < g1.height_y) :
    fields_of g2 v = insert (x, y) (fields_of g1 v) := by
  ext u
  rw [Finset.mem_insert, mem_fields_of, mem_fields_of, owned_write_self h hx hy]
  tauto

theorem fields_of_write_other {g1 g2 : gamma_t} {x y v : Nat} (h : board_set g1 g2 x y v)
    (q : Nat) (hq : q ≠ v) (hold : g1.board x y ≠ q) : fields_of g2 q = fields_of g1 q := by
  ext u
  rw [mem_fields_of, mem_fields_of, owned_write_other h q hq hold]

theorem fields_of_write_old {g1 g2 : gamma_t} {x y v : Nat} (h : board_set g1 g2 x y v)
    (q : Nat) (hq : q ≠ v) : fields_of g2 q = (fields_of g1 q).erase (x, y) := by
  ext u
  rw [Finset.mem_erase, mem_fields_of, mem_fields_of, owned_write_old h q hq]
  tauto

/-- The invariant of the states of a game created by
`gamma_new(width, height, players, areas)`. -/
structure Inv (width height players areas : Nat) (g : gamma_t) : Prop where
  hw : g.width_x = width
  hh : g.height_y = height
  hp : g.n_of_players = players
  ha : g.n_of_areas = areas
  wpos : 0 < width
  hpos : 0 < height
  ppos : 0 < players
  apos : 0 < areas
  wlt : width < U32
  hlt : height < U32
  plt : players < U32
  alt : areas < U32
  aux : aux_clear g
  board_le : ∀ i j, g.board i j ≤ players
  areas_ok : ∀ p, 1 ≤ p → p ≤ players →
    area_count (owned g p) (g.arr_of_players (p - 1)).occupied_areas
  areas_le : ∀ p, 1 ≤ p → p ≤ players → (g.arr_of_players (p - 1)).occupied_areas ≤ areas
  fields_ok : ∀ p, 1 ≤ p → p ≤ players →
    (g.arr_of_players (p - 1)).occupied_fields = (fields_of g p).card

theorem inv_new (width height players areas : Nat) (g : gamma_t) (hw : width < U32)
    (hh : height < U32) (hp : players < U32) (ha : areas < U32)
    (hnew : gamma_new width height players areas = some g) :
    Inv width height players areas g := by
  unfold gamma_new at hnew
  split_ifs at hnew with h0
  simp only [Option.some.injEq] at hnew
  subst hnew
  have hne : ∀ p : Nat, 1 ≤ p → ∀ u : Field,
      ¬ owned (new_game width height players areas) p u := by
    intro p hp1 u hu
    have h1 := hu.2.2
    have h2 : (new_game width height players areas).board u.1 u.2 = 0 := rfl
    omega
  refine ⟨rfl, rfl, rfl, rfl, by omega, by omega, by omega, by omega, hw, hh, hp, ha,
    fun _ _ => rfl, fun _ _ => Nat.zero_le _, ?_, fun _ _ _ => Nat.zero_le _, ?_⟩
  · intro p hp1 _
    refine ⟨∅, ⟨by simp, by simp, ?_⟩, rfl⟩
    intro c hc
    exact absurd hc (hne p hp1 c)
  · intro p hp1 _
    symm
    apply Finset.card_eq_zero.2
    apply Finset.eq_empty_of_forall_not_mem
    intro u hu
    exact hne p hp1 u ((mem_fields_of _ _ _).1 hu)

theorem move_apply_board_set (g : gamma_t) (player x y v : Nat) :
    board_set g (move_apply g player x y v) x y player := by
  unfold board_set move_apply add_field set_areas
  exact ⟨rfl, rfl, rfl⟩

/-- At most four areas are adjacent to a field. -/
theorem IsAdjReps_card_le {S : Field → Prop} {c : Field} {L : Finset Field}
    (h : IsAdjReps S c L) : L.card ≤ 4 := by
  have hsub : L ⊆ {(c.1 - 1, c.2), (c.1, c.2 - 1), (c.1 + 1, c.2), (c.1, c.2 + 1)} := by
    intro l hl
    have hadj := (h.1 l hl).1
    obtain ⟨l1, l2⟩ := l
    simp only [adj] at hadj
    simp only [Finset.mem_insert, Finset.mem_singleton, Prod.mk.injEq]
    omega
  exact (Finset.card_le_card hsub).trans Finset.card_le_four

theorem move_apply_rec_self (g : gamma_t) (player x y v : Nat) :
    (move_apply g player x y v).arr_of_players (player - 1) =
      { occupied_fields := add64 (g.arr_of_players (player - 1)).occupied_fields 1,
        occupied_areas := v,
        golden_performed := (g.arr_of_players (player - 1)).golden_performed } := by
  simp [move_apply, add_field, set_areas, write1]

theorem move_apply_rec_other (g : gamma_t) (player x y v i : Nat) (hi : i ≠ player - 1) :
    (move_apply g player x y v).arr_of_players i = g.arr_of_players i := by
  simp [move_apply, add_field, set_areas, write1, hi]

theorem u64_bound (width height n : Nat) (hw : width < U32) (hh : height < U32)
    (hn : n ≤ width * height) : n < U64 := by
  have h1 : width * height ≤ (U32 - 1) * (U32 - 1) :=
    Nat.mul_le_mul (by omega) (by omega)
  have h2 : (U32 - 1) * (U32 - 1) < U64 := by decide
  omega

theorem move_apply_same (g : gamma_t) (player x y v : Nat) :
    (move_apply g player x y v).width_x = g.width_x ∧
      (move_apply g player x y v).height_y = g.height_y ∧
      (move_apply g player x y v).n_of_players = g.n_of_players ∧
      (move_apply g player x y v).n_of_areas = g.n_of_areas ∧
      (move_apply g player x y v).auxiliary = g.auxiliary ∧
      (move_apply g player x y v).board = write2 g.board x y player := by
  unfold move_apply add_field set_areas
  exact ⟨rfl, rfl, rfl, rfl, rfl, rfl⟩

/-- An accepted `gamma_move` keeps the invariant, given that the new area
counter is the number of areas of the player after the move. -/
theorem inv_move_apply {width height players areas : Nat} {g : gamma_t}
    (hinv : Inv width height players areas g) {player x y : Nat}
    (hargs : move_args_ok g player x y) (v : Nat)
    (hv : area_count (fun u => owned g player u ∨ u = (x, y)) v) (hvle : v ≤ areas) :
    Inv width height players areas (move_apply g player x y v) := by
  obtain ⟨h1, h2, h3, h4, h5⟩ := hargs
  have hbs := move_apply_board_set g player x y v
  have hpl : player ≤ players := hinv.hp ▸ h2
  obtain ⟨s1, s2, s3, s4, s5, s6⟩ := move_apply_same g player x y v
  refine ⟨s1.trans hinv.hw, s2.trans hinv.hh, s3.trans hinv.hp, s4.trans hinv.ha, hinv.wpos,
    hinv.hpos, hinv.ppos, hinv.apos, hinv.wlt, hinv.hlt, hinv.plt, hinv.alt, ?_, ?_, ?_, ?_,
    ?_⟩
  · intro i j
    rw [s5]
    exact hinv.aux i j
  · intro i j
    rw [s6]
    unfold write2
    split_ifs
    · exact hpl
    · exact hinv.board_le i j
  · intro q hq1 hq2
    by_cases hqp : q = player
    · subst hqp
      rw [move_apply_rec_self]
      exact area_count_congr (fun u => (owned_write_self hbs h3 h4 u).symm) hv
    · rw [move_apply_rec_other g player x y v (q - 1) (by omega)]
      exact area_count_congr
        (fun u => (owned_write_other hbs q hqp (by omega) u).symm) (hinv.areas_ok q hq1 hq2)
  · intro q hq1 hq2
    by_cases hqp : q = player
    · subst hqp
      rw [move_apply_rec_self]
      exact hvle
    · rw [move_apply_rec_other g player x y v (q - 1) (by omega)]
      exact hinv.areas_le q hq1 hq2
  · intro q hq1 hq2
    by_cases hqp : q = player
    · subst hqp
      rw [move_apply_rec_self, fields_of_write_self hbs h3 h4]
      have hnot : (x, y) ∉ fields_of g q := by
        intro hin
        have := ((mem_fields_of g q (x, y)).1 hin).2.2
        simp only at this
        omega
      rw [Finset.card_insert_of_not_mem hnot]
      simp only
      rw [hinv.fields_ok q hq1 hq2]
      have hle : (insert (x, y) (fields_of g q)).card ≤ g.width_x * g.height_y := by
        rw [← fields_of_write_self hbs h3 h4]
        have hc := fields_of_card_le (move_apply g q x y v) q
        rw [s1, s2] at hc
        exact hc
      rw [Finset.card_insert_of_not_mem hnot] at hle
      have := u64_bound g.width_x g.height_y _ (hinv.hw ▸ hinv.wlt) (hinv.hh ▸ hinv.hlt) hle
      unfold add64
      exact Nat.mod_eq_of_lt this
    · rw [move_apply_rec_other g player x y v (q - 1) (by omega),
        fields_of_write_other hbs q hqp (by omega)]
      exact hinv.fields_ok q hq1 hq2

/-- Every call of `gamma_move` keeps the invariant. -/
theorem inv_move {width height players areas : Nat} {g : gamma_t}
    (hinv : Inv width height players areas g) (player x y : Nat) :
    Inv width height players areas (gamma_move g player x y).2 := by
  have hwb : g.width_x ≤ UINT32_MAX := by
    have := hinv.wlt; rw [← hinv.hw] at this; unfold U32 at this; unfold UINT32_MAX; omega
  have hhb : g.height_y ≤ UINT32_MAX := by
    have := hinv.hlt; rw [← hinv.hh] at this; unfold U32 at this; unfold UINT32_MAX; omega
  by_cases hargs : move_args_ok g player x y
  · obtain ⟨L, hnd, hL, _, heq⟩ := gamma_move_good_args g player x y hinv.aux hwb hhb hargs
    have hp1 := hargs.1
    have hp2 : player ≤ players := hinv.hp ▸ hargs.2.1
    have hnot : ¬ owned g player (x, y) := by
      intro ho
      have := ho.2.2
      simp only at this
      have := hargs.2.2.2.2
      omega
    obtain ⟨R, hR, hRc⟩ := hinv.areas_ok player hp1 hp2
    obtain ⟨R2, hR2, hcard⟩ := IsReps_insert hnot hR hL
    rw [List.toFinset_card_of_nodup hnd] at hcard
    have hle := hinv.areas_le player hp1 hp2
    have halt := hinv.alt
    have hapos := hinv.apos
    have han := hinv.ha
    rw [heq]
    split_ifs with hk hcap
    · exact hinv
    · have hs : sub32 g.n_of_areas 1 = g.n_of_areas - 1 :=
        sub32_eq _ _ (by omega) (by omega)
      rw [hs] at hcap
      have hocc : (g.arr_of_players (player - 1)).occupied_areas + 1 ≤ areas := by omega
      rw [add32_eq _ _ (by omega)]
      exact inv_move_apply hinv hargs _ ⟨R2, hR2, by omega⟩ hocc
    · have hL4 : L.length < U32 := by
        have := IsAdjReps_card_le hL
        rw [List.toFinset_card_of_nodup hnd] at this
        unfold U32
        omega
      rw [sub32_eq L.length 1 (by omega) hL4, sub32_eq _ _ (by omega) (by omega)]
      exact inv_move_apply hinv hargs _ ⟨R2, hR2, by omega⟩ (by omega)
  · rw [gamma_move_bad_args g player x y hargs]
    exact hinv

/-! ## The golden move on states with a clear auxiliary array -/

theorem set_board_restore (g : gamma_t) (x y v : Nat) :
    set_board (set_board g x y v) x y (g.board x y) = g := by
  have : write2 (write2 g.board x y v) x y (g.board x y) = g.board := by
    funext i j
    unfold write2
    split_ifs with h
    · rw [h.1, h.2]
    · rfl
  unfold set_board
  simp only [this]

theorem set_board_aux_clear (g : gamma_t) (x y v : Nat) (h : aux_clear g) :
    aux_clear (set_board g x y v) := fun i j => h i j

/-- The number computed by `adjacent_player_areas` is the number of areas of
`player` that contain a neighbour of `(x, y)`. -/
theorem adjacent_player_areas_count (g : gamma_t) (x y player : Nat) (hx : x < g.width_x)
    (hy : y < g.height_y) (haux : aux_clear g) (hwb : g.width_x ≤ UINT32_MAX)
    (hhb : g.height_y ≤ UINT32_MAX) :
    adj_area_count (owned g player) (x, y) (adjacent_player_areas g x y player hx hy).1 := by
  obtain ⟨_, L, hnd, hL, hlen⟩ := adjacent_player_areas_spec g x y player hx hy haux hwb hhb
  exact ⟨L.toFinset, hL, by rw [hlen, List.toFinset_card_of_nodup hnd]⟩

theorem adj_area_count_congr {S T : Field → Prop} (hST : ∀ u, S u ↔ T u) {c : Field}
    {k : Nat} (h : adj_area_count S c k) : adj_area_count T c k := by
  obtain ⟨L, ⟨h1, h2, h3⟩, hk⟩ := h
  refine ⟨L, ⟨fun l hl => ⟨(h1 l hl).1, (hST l).1 (h1 l hl).2⟩,
    fun a ha b hb hab => h2 a ha b hb ((conn_congr hST a b).2 hab), fun n hn hTn => ?_⟩, hk⟩
  obtain ⟨l, hl, hln⟩ := h3 n hn ((hST n).2 hTn)
  exact ⟨l, hl, (conn_congr hST l n).1 hln⟩

/-- The disintegration test of `golden_possible_on_field` for `k` adjacent
areas of the previous owner `prev`. -/
def disintegrates (g : gamma_t) (prev k : Nat) : Prop :=
  k ≠ 0 ∧ sub32 k 1 > sub32 g.n_of_areas (g.arr_of_players (prev - 1)).occupied_areas

instance (g : gamma_t) (prev k : Nat) : Decidable (disintegrates g prev k) := by
  unfold disintegrates
  infer_instance

/-- The result of `golden_possible_on_field` on a state with a clear
auxiliary array: the state is left as it was, and the flag is decided by the
two adjacent-area counts on the board with the field cleared. -/
theorem golden_possible_on_field_spec (g : gamma_t) (new_owner new_owner_num x y : Nat)
    (hx : x < g.width_x) (hy : y < g.height_y) (haux : aux_clear g)
    (hwb : g.width_x ≤ UINT32_MAX) (hhb : g.height_y ≤ UINT32_MAX) :
    (golden_possible_on_field g new_owner new_owner_num x y hx hy).2 = g ∧
      ((golden_possible_on_field g new_owner new_owner_num x y hx hy).1 = true ↔
        (¬ (g.board x y = 0 ∨ g.board x y = new_owner_num) ∧
          ¬ disintegrates g (g.board x y)
            (adjacent_player_areas (set_board g x y 0) x y (g.board x y) hx hy).1 ∧
          ¬ ((adjacent_player_areas (set_board g x y 0) x y new_owner_num hx hy).1 = 0 ∧
            (g.arr_of_players new_owner).occupied_areas = g.n_of_areas))) := by
  have haux1 := set_board_aux_clear g x y 0 haux
  have hst1 := (adjacent_player_areas_spec (set_board g x y 0) x y (g.board x y) hx hy haux1
    hwb hhb).1
  have hst2 := (adjacent_player_areas_spec (set_board g x y 0) x y new_owner_num hx hy haux1
    hwb hhb).1
  unfold golden_possible_on_field
  simp only [hst1, hst2, set_board_restore]
  unfold disintegrates
  by_cases h0 : g.board x y = 0 ∨ g.board x y = new_owner_num
  · simp [h0]
  · simp only [if_neg h0]
    split_ifs with h1 h2
    · simp only [decide_eq_true_eq] at h1
      refine ⟨rfl, ?_⟩
      simp only [false_iff, Bool.false_eq_true]
      intro h3
      exact h3.2.1 h1
    · simp only [decide_eq_true_eq] at h1
      refine ⟨rfl, ?_⟩
      simp only [false_iff, Bool.false_eq_true]
      intro h3
      exact h3.2.2 h2
    · simp only [decide_eq_true_eq] at h1
      exact ⟨rfl, by simp only [true_iff]; exact ⟨h0, h1, h2⟩⟩

/-- The arguments of `gamma_golden_move` pass the parameter checks, the
player has not used the golden move and the field belongs to another player. -/
def golden_args_ok (g : gamma_t) (player x y : Nat) : Prop :=
  1 ≤ player ∧ player ≤ g.n_of_players ∧ x < g.width_x ∧ y < g.height_y ∧
    (g.arr_of_players (player - 1)).golden_performed = false ∧
    g.board x y ≠ 0 ∧ g.board x y ≠ player

theorem gamma_golden_move_bad_args (g : gamma_t) (player x y : Nat)
    (h : ¬ golden_args_ok g player x y) : gamma_golden_move g player x y = (false, g) := by
  unfold gamma_golden_move
  unfold golden_args_ok at h
  by_cases h1 : player = 0 ∨ player > g.n_of_players
  · rw [if_pos h1]
  rw [if_neg h1]
  by_cases h2 : x ≥ g.width_x ∨ y ≥ g.height_y
  · rw [dif_pos h2]
  rw [dif_neg h2]
  by_cases h3 : (g.arr_of_players (player - 1)).golden_performed = true
  · simp only [h3, if_true]
  simp only [h3]
  by_cases h4 : g.board x y = 0 ∨ g.board x y = player
  · simp only [h4, if_true, Bool.false_eq_true, if_false]
  exfalso
  apply h
  refine ⟨by omega, by omega, by omega, by omega, by simpa using h3, ?_, ?_⟩
  · exact fun h5 => h4 (Or.inl h5)
  · exact fun h5 => h4 (Or.inr h5)

theorem set_board_board_set (g : gamma_t) (x y v : Nat) :
    board_set g (set_board g x y v) x y v := ⟨rfl, rfl, rfl⟩

/-- The count for a player other than the owner of the field is the same on
the board with the field cleared. -/
theorem adjacent_player_areas_cleared (g : gamma_t) (x y player : Nat) (hx : x < g.width_x)
    (hy : y < g.height_y) (haux : aux_clear g) (hwb : g.width_x ≤ UINT32_MAX)
    (hhb : g.height_y ≤ UINT32_MAX) (hp : player ≠ 0) (hb : g.board x y ≠ player) :
    (adjacent_player_areas g x y player hx hy).1 =
      (adjacent_player_areas (set_board g x y 0) x y player hx hy).1 := by
  have h1 := adjacent_player_areas_count g x y player hx hy haux hwb hhb
  have h2 := adjacent_player_areas_count (set_board g x y 0) x y player hx hy
    (set_board_aux_clear g x y 0 haux) hwb hhb
  have h3 := adj_area_count_congr
    (fun u => owned_write_other (set_board_board_set g x y 0) player hp hb u) h2
  exact adj_area_count_unique h1 h3

/-- The result of `gamma_golden_move` on checked arguments, in terms of the
adjacent-area counts of the previous owner and of the player on the board
with the field cleared. -/
theorem gamma_golden_move_good_args (g : gamma_t) (player x y : Nat) (haux : aux_clear g)
    (hwb : g.width_x ≤ UINT32_MAX) (hhb : g.height_y ≤ UINT32_MAX)
    (h : golden_args_ok g player x y) :
    gamma_golden_move g player x y =
      if disintegrates g (g.board x y)
            (adjacent_player_areas (set_board g x y 0) x y (g.board x y) h.2.2.1 h.2.2.2.1).1 ∨
          ((adjacent_player_areas (set_board g x y 0) x y player h.2.2.1 h.2.2.2.1).1 = 0 ∧
            (g.arr_of_players (player - 1)).occupied_areas = g.n_of_areas)
      then (false, g)
      else (true, golden_apply g player x y (player - 1) (g.board x y - 1)
        (adjacent_player_areas (set_board g x y 0) x y player h.2.2.1 h.2.2.2.1).1
        (adjacent_player_areas (set_board g x y 0) x y (g.board x y) h.2.2.1 h.2.2.2.1).1) := by
  obtain ⟨h1, h2, h3, h4, h5, h6, h7⟩ := h
  have haux1 := set_board_aux_clear g x y 0 haux
  have hst1 := (adjacent_player_areas_spec (set_board g x y 0) x y (g.board x y) h3 h4 haux1
    hwb hhb).1
  have hgp := golden_possible_on_field_spec g (player - 1) player x y h3 h4 haux hwb hhb
  have hst3 := (adjacent_player_areas_spec g x y player h3 h4 haux hwb hhb).1
  have hk := adjacent_player_areas_cleared g x y player h3 h4 haux hwb hhb (by omega) h7
  unfold gamma_golden_move
  rw [if_neg (by omega), dif_neg (by omega)]
  simp only [h5, Bool.false_eq_true, if_false]
  rw [if_neg (by tauto)]
  simp only [hst1, set_board_restore, hgp.1, hst3, hk]
  by_cases hcan : (golden_possible_on_field g (player - 1) player x y h3 h4).1 = true
  · rw [if_pos hcan, if_neg]
    have := hgp.2.1 hcan
    tauto
  · rw [if_neg hcan, if_pos]
    by_contra hno
    apply hcan
    apply hgp.2.2
    refine ⟨by tauto, by tauto, by tauto⟩

theorem adj_area_count_le {S : Field → Prop} {c : Field} {k : Nat}
    (h : adj_area_count S c k) : k ≤ 4 := by
  obtain ⟨L, hL, rfl⟩ := h
  exact IsAdjReps_card_le hL

/-- Adding a field to the fields of a player: the `k` adjacent areas merge
into one. -/
theorem merge_areas {width height players areas : Nat} {g : gamma_t}
    (hinv : Inv width height players areas g) {p : Nat} (hp1 : 1 ≤ p) (hp2 : p ≤ players)
    {c : Field} (hc : ¬ owned g p c) {k : Nat} (hk : adj_area_count (owned g p) c k) :
    k ≤ (g.arr_of_players (p - 1)).occupied_areas + 1 ∧
      area_count (fun u => owned g p u ∨ u = c)
        ((g.arr_of_players (p - 1)).occupied_areas + 1 - k) := by
  obtain ⟨R, hR, hRc⟩ := hinv.areas_ok p hp1 hp2
  obtain ⟨L, hL, hLc⟩ := hk
  obtain ⟨R2, hR2, hcard⟩ := IsReps_insert hc hR hL
  exact ⟨by omega, R2, hR2, by omega⟩

/-- Removing a field from the fields of a player: its area falls apart into
the `k` areas adjacent to the field. -/
theorem split_areas {width height players areas : Nat} {g : gamma_t}
    (hinv : Inv width height players areas g) {q : Nat} (hq1 : 1 ≤ q) (hq2 : q ≤ players)
    {c : Field} {T : Field → Prop} (hT : ∀ u, owned g q u ↔ T u ∨ u = c) (hTc : ¬ T c)
    {k : Nat} (hk : adj_area_count T c k) :
    1 ≤ (g.arr_of_players (q - 1)).occupied_areas + k ∧
      area_count T ((g.arr_of_players (q - 1)).occupied_areas + k - 1) := by
  have hF : ∀ u, T u → u ∈ fields_of g q := fun u hu =>
    (mem_fields_of g q u).2 ((hT u).2 (Or.inl hu))
  obtain ⟨RT, hRT⟩ := IsReps_exists T (fields_of g q) hF
  obtain ⟨L, hL, hLc⟩ := hk
  obtain ⟨R2, hR2, hcard⟩ := IsReps_insert hTc hRT hL
  have h2 : area_count (owned g q) R2.card :=
    area_count_congr (fun u => (hT u).symm) ⟨R2, hR2, rfl⟩
  have h3 := area_count_unique h2 (hinv.areas_ok q hq1 hq2)
  exact ⟨by omega, RT, hRT, by omega⟩

theorem sub32_merge (occ k : Nat) (h1 : k ≤ occ + 1) (h2 : k ≤ 4) (h3 : occ < U32)
    (h4 : k = 0 → occ + 1 < U32) : sub32 occ (sub32 k 1) = occ + 1 - k := by
  unfold sub32 U32 at *
  omega

theorem add32_split (occ k : Nat) (h1 : 1 ≤ occ + k) (h2 : k ≤ 4) (h3 : occ < U32)
    (h4 : occ + k - 1 < U32) : add32 occ (sub32 k 1) = occ + k - 1 := by
  unfold add32 sub32 U32 at *
  omega

theorem golden_apply_same (g : gamma_t) (player x y new_owner prev_owner kn kp : Nat) :
    (golden_apply g player x y new_owner prev_owner kn kp).width_x = g.width_x ∧
      (golden_apply g player x y new_owner prev_owner kn kp).height_y = g.height_y ∧
      (golden_apply g player x y new_owner prev_owner kn kp).n_of_players = g.n_of_players ∧
      (golden_apply g player x y new_owner prev_owner kn kp).n_of_areas = g.n_of_areas ∧
      (golden_apply g player x y new_owner prev_owner kn kp).auxiliary = g.auxiliary ∧
      (golden_apply g player x y new_owner prev_owner kn kp).board
        = write2 g.board x y player ∧
      (golden_apply g player x y new_owner prev_owner kn kp).free_fields = g.free_fields := by
  unfold golden_apply set_areas set_fields set_golden set_board
  exact ⟨rfl, rfl, rfl, rfl, rfl, rfl, rfl⟩

theorem golden_apply_rec_new (g : gamma_t) (player x y new_owner prev_owner kn kp : Nat)
    (hne : new_owner ≠ prev_owner) :
    (golden_apply g player x y new_owner prev_owner kn kp).arr_of_players new_owner =
      { occupied_fields := add64 (g.arr_of_players new_owner).occupied_fields 1,
        occupied_areas := sub32 (g.arr_of_players new_owner).occupied_areas (sub32 kn 1),
        golden_performed := true } := by
  simp [golden_apply, set_areas, set_fields, set_golden, set_board, write1, hne]

theorem golden_apply_rec_prev (g : gamma_t) (player x y new_owner prev_owner kn kp : Nat)
    (hne : new_owner ≠ prev_owner) :
    (golden_apply g player x y new_owner prev_owner kn kp).arr_of_players prev_owner =
      { occupied_fields := sub64 (g.arr_of_players prev_owner).occupied_fields 1,
        occupied_areas := add32 (g.arr_of_players prev_owner).occupied_areas (sub32 kp 1),
        golden_performed := (g.arr_of_players prev_owner).golden_performed } := by
  simp [golden_apply, set_areas, set_fields, set_golden, set_board, write1, Ne.symm hne]

theorem golden_apply_rec_other (g : gamma_t) (player x y new_owner prev_owner kn kp i : Nat)
    (h1 : i ≠ new_owner) (h2 : i ≠ prev_owner) :
    (golden_apply g player x y new_owner prev_owner kn kp).arr_of_players i
      = g.arr_of_players i := by
  simp [golden_apply, set_areas, set_fields, set_golden, set_board, write1, h1, h2]

theorem inv_bounds {width height players areas : Nat} {g : gamma_t}
    (hinv : Inv width height players areas g) :
    g.width_x ≤ UINT32_MAX ∧ g.height_y ≤ UINT32_MAX := by
  have h1 := hinv.wlt
  have h2 := hinv.hlt
  rw [← hinv.hw] at h1
  rw [← hinv.hh] at h2
  unfold U32 at h1 h2
  unfold UINT32_MAX
  omega

theorem golden_prev_valid {width height players areas : Nat} {g : gamma_t}
    (hinv : Inv width height players areas g) {p x y : Nat}
    (hargs : golden_args_ok g p x y) :
    1 ≤ g.board x y ∧ g.board x y ≤ players ∧ g.board x y - 1 ≠ p - 1 ∧ 1 ≤ p ∧ p ≤ players := by
  obtain ⟨h1, h2, h3, h4, h5, h6, h7⟩ := hargs
  have := hinv.board_le x y
  have := hinv.hp
  omega

theorem owned_cleared_prev (g : gamma_t) (x y : Nat) (hx : x < g.width_x)
    (hy : y < g.height_y) (u : Field) :
    owned g (g.board x y) u ↔ owned (set_board g x y 0) (g.board x y) u ∨ u = (x, y) := by
  have hbs : board_set (set_board g x y 0) g x y (g.board x y) := by
    refine ⟨rfl, rfl, ?_⟩
    have := set_board_restore g x y 0
    have h2 := congrArg gamma_t.board this
    exact h2.symm
  exact owned_write_self hbs hx hy u

theorem not_owned_cleared (g : gamma_t) (x y q : Nat) (hq : q ≠ 0) :
    ¬ owned (set_board g x y 0) q (x, y) := by
  intro h
  have := h.2.2
  simp [set_board, write2] at this
  exact hq this.symm

/-- The arithmetic of an accepted golden move: both area counters are updated
without wrapping, to the numbers of areas after the move, within the limit. -/
theorem golden_counts {width height players areas : Nat} {g : gamma_t}
    (hinv : Inv width height players areas g) {p x y : Nat}
    (hargs : golden_args_ok g p x y) {kn kp : Nat}
    (hkn : adj_area_count (owned (set_board g x y 0) p) (x, y) kn)
    (hkp : adj_area_count (owned (set_board g x y 0) (g.board x y)) (x, y) kp)
    (hdis : ¬ disintegrates g (g.board x y) kp)
    (hcap : ¬ (kn = 0 ∧ (g.arr_of_players (p - 1)).occupied_areas = g.n_of_areas)) :
    (kn ≤ (g.arr_of_players (p - 1)).occupied_areas + 1 ∧
      sub32 (g.arr_of_players (p - 1)).occupied_areas (sub32 kn 1)
        = (g.arr_of_players (p - 1)).occupied_areas + 1 - kn ∧
      (g.arr_of_players (p - 1)).occupied_areas + 1 - kn ≤ areas ∧
      area_count (fun u => owned g p u ∨ u = (x, y))
        ((g.arr_of_players (p - 1)).occupied_areas + 1 - kn)) ∧
    (1 ≤ (g.arr_of_players (g.board x y - 1)).occupied_areas + kp ∧
      add32 (g.arr_of_players (g.board x y - 1)).occupied_areas (sub32 kp 1)
        = (g.arr_of_players (g.board x y - 1)).occupied_areas + kp - 1 ∧
      (g.arr_of_players (g.board x y - 1)).occupied_areas + kp - 1 ≤ areas ∧
      area_count (owned (set_board g x y 0) (g.board x y))
        ((g.arr_of_players (g.board x y - 1)).occupied_areas + kp - 1)) := by
  obtain ⟨hq1, hq2, hne, hp1, hp2⟩ := golden_prev_valid hinv hargs
  obtain ⟨_, _, h3, h4, _, h6, h7⟩ := hargs
  have hkn4 := adj_area_count_le hkn
  have hkp4 := adj_area_count_le hkp
  have hlep := hinv.areas_le p hp1 hp2
  have hleq := hinv.areas_le (g.board x y) hq1 hq2
  have halt := hinv.alt
  have han := hinv.ha
  have hnotp : ¬ owned g p (x, y) := fun h => h7 h.2.2
  have hkn2 : adj_area_count (owned g p) (x, y) kn :=
    adj_area_count_congr
      (fun u => owned_write_other (set_board_board_set g x y 0) p (by omega) h7 u) hkn
  obtain ⟨m1, m2⟩ := merge_areas hinv hp1 hp2 hnotp hkn2
  obtain ⟨s1, s2⟩ := split_areas hinv hq1 hq2 (owned_cleared_prev g x y h3 h4)
    (not_owned_cleared g x y _ h6) hkp
  have hsub : sub32 g.n_of_areas (g.arr_of_players (g.board x y - 1)).occupied_areas
      = g.n_of_areas - (g.arr_of_players (g.board x y - 1)).occupied_areas :=
    sub32_eq _ _ (by omega) (by omega)
  have hdis2 : kp ≠ 0 → kp - 1 ≤
      g.n_of_areas - (g.arr_of_players (g.board x y - 1)).occupied_areas := by
    intro hk0
    unfold disintegrates at hdis
    rw [hsub, sub32_eq kp 1 (by omega) (by unfold U32; omega)] at hdis
    by_contra hgt
    exact hdis ⟨hk0, by omega⟩
  refine ⟨⟨m1, sub32_merge _ _ m1 hkn4 (by omega) (by omega), by omega, m2⟩,
    ⟨s1, add32_split _ _ s1 hkp4 (by omega) ?_, ?_, s2⟩⟩
  · by_cases hk0 : kp = 0
    · omega
    · have := hdis2 hk0
      omega
  · by_cases hk0 : kp = 0
    · omega
    · have := hdis2 hk0
      omega

/-- An accepted `gamma_golden_move` keeps the invariant. -/
theorem inv_golden_apply {width height players areas : Nat} {g : gamma_t}
    (hinv : Inv width height players areas g) {p x y : Nat}
    (hargs : golden_args_ok g p x y) {kn kp : Nat}
    (hkn : adj_area_count (owned (set_board g x y 0) p) (x, y) kn)
    (hkp : adj_area_count (owned (set_board g x y 0) (g.board x y)) (x, y) kp)
    (hdis : ¬ disintegrates g (g.board x y) kp)
    (hcap : ¬ (kn = 0 ∧ (g.arr_of_players (p - 1)).occupied_areas = g.n_of_areas)) :
    Inv width height players areas
      (golden_apply g p x y (p - 1) (g.board x y - 1) kn kp) := by
  obtain ⟨hq1, hq2, hne, hp1, hp2⟩ := golden_prev_valid hinv hargs
  obtain ⟨⟨_, n2, n3, n4⟩, ⟨_, q2, q3, q4⟩⟩ := golden_counts hinv hargs hkn hkp hdis hcap
  obtain ⟨_, _, h3, h4, _, h6, h7⟩ := hargs
  obtain ⟨s1, s2, s3, s4, s5, s6, _⟩ :=
    golden_apply_same g p x y (p - 1) (g.board x y - 1) kn kp
  have hbs : board_set g (golden_apply g p x y (p - 1) (g.board x y - 1) kn kp) x y p :=
    ⟨s1, s2, s6⟩
  have hne2 : p - 1 ≠ g.board x y - 1 := Ne.symm hne
  have hqp : g.board x y ≠ p := h7
  have hwlt : g.width_x < U32 := hinv.hw ▸ hinv.wlt
  have hhlt : g.height_y < U32 := hinv.hh ▸ hinv.hlt
  refine ⟨s1.trans hinv.hw, s2.trans hinv.hh, s3.trans hinv.hp, s4.trans hinv.ha, hinv.wpos,
    hinv.hpos, hinv.ppos, hinv.apos, hinv.wlt, hinv.hlt, hinv.plt, hinv.alt, ?_, ?_, ?_, ?_,
    ?_⟩
  · intro i j
    rw [s5]
    exact hinv.aux i j
  · intro i j
    rw [s6]
    unfold write2
    split_ifs
    · exact hp2
    · exact hinv.board_le i j
  · intro r hr1 hr2
    by_cases hrp : r = p
    · subst hrp
      rw [golden_apply_rec_new _ _ _ _ _ _ _ _ hne2]
      simp only
      rw [n2]
      exact area_count_congr (fun u => (owned_write_self hbs h3 h4 u).symm) n4
    · by_cases hrq : r = g.board x y
      · rw [hrq, golden_apply_rec_prev _ _ _ _ _ _ _ _ hne2]
        simp only
        rw [q2]
        refine area_count_congr (fun u => ?_) q4
        rw [owned_write_old hbs (g.board x y) hqp u,
          owned_write_old (set_board_board_set g x y 0) (g.board x y) h6 u]
      · rw [golden_apply_rec_other _ _ _ _ _ _ _ _ (r - 1) (by omega) (by omega)]
        exact area_count_congr
          (fun u => (owned_write_other hbs r hrp (Ne.symm hrq) u).symm)
          (hinv.areas_ok r hr1 hr2)
  · intro r hr1 hr2
    by_cases hrp : r = p
    · subst hrp
      rw [golden_apply_rec_new _ _ _ _ _ _ _ _ hne2]
      simp only
      rw [n2]
      exact n3
    · by_cases hrq : r = g.board x y
      · rw [hrq, golden_apply_rec_prev _ _ _ _ _ _ _ _ hne2]
        simp only
        rw [q2]
        exact q3
      · rw [golden_apply_rec_other _ _ _ _ _ _ _ _ (r - 1) (by omega) (by omega)]
        exact hinv.areas_le r hr1 hr2
  · intro r hr1 hr2
    by_cases hrp : r = p
    · subst hrp
      rw [golden_apply_rec_new _ _ _ _ _ _ _ _ hne2, fields_of_write_self hbs h3 h4]
      have hnot : (x, y) ∉ fields_of g r := by
        intro hin
        exact h7 ((mem_fields_of g r (x, y)).1 hin).2.2
      have hle : (insert (x, y) (fields_of g r)).card ≤ g.width_x * g.height_y := by
        rw [← fields_of_write_self hbs h3 h4]
        have hc := fields_of_card_le (golden_apply g r x y (r - 1) (g.board x y - 1) kn kp) r
        rw [s1, s2] at hc
        exact hc
      rw [Finset.card_insert_of_not_mem hnot] at hle ⊢
      simp only
      rw [hinv.fields_ok r hr1 hr2]
      have := u64_bound g.width_x g.height_y _ hwlt hhlt hle
      unfold add64
      exact Nat.mod_eq_of_lt this
    · by_cases hrq : r = g.board x y
      · rw [hrq, golden_apply_rec_prev _ _ _ _ _ _ _ _ hne2,
          fields_of_write_old hbs (g.board x y) hqp]
        have hin : (x, y) ∈ fields_of g (g.board x y) :=
          (mem_fields_of g _ (x, y)).2 ⟨h3, h4, rfl⟩
        rw [Finset.card_erase_of_mem hin]
        simp only
        rw [hinv.fields_ok (g.board x y) hq1 hq2]
        have hpos : 0 < (fields_of g (g.board x y)).card := Finset.card_pos.2 ⟨_, hin⟩
        have := u64_bound g.width_x g.height_y _ hwlt hhlt
          (fields_of_card_le g (g.board x y))
        unfold sub64
        unfold U64 at *
        omega
      · rw [golden_apply_rec_other _ _ _ _ _ _ _ _ (r - 1) (by omega) (by omega),
          fields_of_write_other hbs r hrp (Ne.symm hrq)]
        exact hinv.fields_ok r hr1 hr2

/-- Every call of `gamma_golden_move` keeps the invariant. -/
theorem inv_golden {width height players areas : Nat} {g : gamma_t}
    (hinv : Inv width height players areas g) (player x y : Nat) :
    Inv width height players areas (gamma_golden_move g player x y).2 := by
  obtain ⟨hwb, hhb⟩ := inv_bounds hinv
  by_cases hargs : golden_args_ok g player x y
  · rw [gamma_golden_move_good_args g player x y hinv.aux hwb hhb hargs]
    have haux1 := set_board_aux_clear g x y 0 hinv.aux
    have hkn := adjacent_player_areas_count (set_board g x y 0) x y player hargs.2.2.1
      hargs.2.2.2.1 haux1 hwb hhb
    have hkp := adjacent_player_areas_count (set_board g x y 0) x y (g.board x y)
      hargs.2.2.1 hargs.2.2.2.1 haux1 hwb hhb
    split_ifs with hrej
    · exact hinv
    · exact inv_golden_apply hinv hargs hkn hkp (fun h => hrej (Or.inl h))
        (fun h => hrej (Or.inr h))
  · rw [gamma_golden_move_bad_args g player x y hargs]
    exact hinv

/-- The states of a game created by `gamma_new(width, height, players, areas)`
with `uint32_t` arguments and played by any calls of `gamma_move` and
`gamma_golden_move`. -/
inductive Reachable (width height players areas : Nat) : gamma_t → Prop
  | new (g : gamma_t) (hw : width < U32) (hh : height < U32) (hp : players < U32)
      (ha : areas < U32) (hnew : gamma_new width height players areas = some g) :
      Reachable width height players areas g
  | move (g : gamma_t) (player x y : Nat) (h : Reachable width height players areas g) :
      Reachable width height players areas (gamma_move g player x y).2
  | golden_move (g : gamma_t) (player x y : Nat)
      (h : Reachable width height players areas g) :
      Reachable width height players areas (gamma_golden_move g player x y).2

/-- The invariant holds in every reachable state. -/
theorem reachable_inv {width height players areas : Nat} {g : gamma_t}
    (h : Reachable width height players areas g) : Inv width height players areas g := by
  induction h with
  | new g hw hh hp ha hnew => exact inv_new width height players areas g hw hh hp ha hnew
  | move g player x y _ ih => exact inv_move ih player x y
  | golden_move g player x y _ ih => exact inv_golden ih player x y

/-! ## Effects of the moves -/

theorem adj_area_count_zero {S : Field → Prop} {c : Field} {k : Nat}
    (h : adj_area_count S c k) : k = 0 ↔ ¬ ∃ n, adj c n ∧ S n := by
  obtain ⟨L, ⟨h1, _, h3⟩, rfl⟩ := h
  rw [Finset.card_eq_zero]
  constructor
  · rintro rfl ⟨n, hn1, hn2⟩
    obtain ⟨l, hl, _⟩ := h3 n hn1 hn2
    exact absurd hl (Finset.not_mem_empty l)
  · intro hno
    apply Finset.eq_empty_of_forall_not_mem
    intro l hl
    exact hno ⟨l, h1 l hl⟩

/-- An accepted `gamma_move`: the arguments are valid, and the state after
the call is the state before with the field set, the area counter of the
player set to `occupied_areas + 1 - k` for the number `k` of adjacent areas,
the field counter raised and the free-field counter lowered. -/
theorem gamma_move_effect {width height players areas : Nat} {g : gamma_t}
    (hinv : Inv width height players areas g) {p x y : Nat}
    (hacc : (gamma_move g p x y).1 = true) :
    move_args_ok g p x y ∧ ∃ k, adj_area_count (owned g p) (x, y) k ∧
      k ≤ (g.arr_of_players (p - 1)).occupied_areas + 1 ∧
      (k = 0 → (g.arr_of_players (p - 1)).occupied_areas < areas) ∧
      (gamma_move g p x y).2
        = move_apply g p x y ((g.arr_of_players (p - 1)).occupied_areas + 1 - k) := by
  obtain ⟨hwb, hhb⟩ := inv_bounds hinv
  by_cases hargs : move_args_ok g p x y
  · refine ⟨hargs, ?_⟩
    obtain ⟨L, hnd, hL, _, heq⟩ := gamma_move_good_args g p x y hinv.aux hwb hhb hargs
    have hp1 := hargs.1
    have hp2 : p ≤ players := hinv.hp ▸ hargs.2.1
    have hnot : ¬ owned g p (x, y) := by
      intro ho
      have h1 := ho.2.2
      have h2 := hargs.2.2.2.2
      simp only at h1
      omega
    have hk : adj_area_count (owned g p) (x, y) L.length :=
      ⟨L.toFinset, hL, List.toFinset_card_of_nodup hnd⟩
    obtain ⟨m1, _⟩ := merge_areas hinv hp1 hp2 hnot hk
    have hle := hinv.areas_le p hp1 hp2
    have halt := hinv.alt
    have hapos := hinv.apos
    have han := hinv.ha
    have hk4 := adj_area_count_le hk
    have hs : sub32 g.n_of_areas 1 = g.n_of_areas - 1 :=
      sub32_eq _ _ (by omega) (by omega)
    rw [heq] at hacc ⊢
    refine ⟨L.length, hk, m1, ?_, ?_⟩
    · intro hk0
      rw [if_pos hk0] at hacc
      by_cases hcap : (g.arr_of_players (p - 1)).occupied_areas > sub32 g.n_of_areas 1 ∨
          g.n_of_areas = 0
      · rw [if_pos hcap] at hacc
        exact absurd hacc (by simp)
      · rw [hs] at hcap
        omega
    · by_cases hk0 : L.length = 0
      · rw [if_pos hk0] at hacc ⊢
        by_cases hcap : (g.arr_of_players (p - 1)).occupied_areas > sub32 g.n_of_areas 1 ∨
            g.n_of_areas = 0
        · rw [if_pos hcap] at hacc
          exact absurd hacc (by simp)
        · rw [if_neg hcap]
          rw [hs] at hcap
          simp only
          rw [add32_eq _ _ (by omega), hk0, Nat.sub_zero]
      · rw [if_neg hk0]
        simp only
        rw [sub32_eq L.length 1 (by omega) (by unfold U32; omega),
          sub32_eq _ _ (by omega) (by omega)]
        have e : (g.arr_of_players (p - 1)).occupied_areas - (L.length - 1)
            = (g.arr_of_players (p - 1)).occupied_areas + 1 - L.length := by omega
        rw [e]
  · rw [gamma_move_bad_args g p x y hargs] at hacc
    exact absurd hacc (by simp)

/-- A rejected `gamma_move` leaves the state as it was. -/
theorem gamma_move_reject {width height players areas : Nat} {g : gamma_t}
    (hinv : Inv width height players areas g) {p x y : Nat}
    (hrej : (gamma_move g p x y).1 = false) : (gamma_move g p x y).2 = g := by
  obtain ⟨hwb, hhb⟩ := inv_bounds hinv
  by_cases hargs : move_args_ok g p x y
  · obtain ⟨L, _, _, _, heq⟩ := gamma_move_good_args g p x y hinv.aux hwb hhb hargs
    rw [heq] at hrej ⊢
    by_cases hk0 : L.length = 0
    · rw [if_pos hk0] at hrej ⊢
      by_cases hcap : (g.arr_of_players (p - 1)).occupied_areas > sub32 g.n_of_areas 1 ∨
          g.n_of_areas = 0
      · rw [if_pos hcap]
      · rw [if_neg hcap] at hrej
        exact absurd hrej (by simp)
    · rw [if_neg hk0] at hrej
      exact absurd hrej (by simp)
  · rw [gamma_move_bad_args g p x y hargs]

/-- The acceptance condition of `gamma_move`. -/
theorem gamma_move_accept_iff {width height players areas : Nat} {g : gamma_t}
    (hinv : Inv width height players areas g) (p x y : Nat) :
    (gamma_move g p x y).1 = true ↔
      (move_args_ok g p x y ∧ ((∃ n, adj (x, y) n ∧ owned g p n) ∨
        (g.arr_of_players (p - 1)).occupied_areas < areas)) := by
  obtain ⟨hwb, hhb⟩ := inv_bounds hinv
  constructor
  · intro hacc
    obtain ⟨hargs, k, hk, _, hk0, _⟩ := gamma_move_effect hinv hacc
    refine ⟨hargs, ?_⟩
    by_cases h0 : k = 0
    · exact Or.inr (hk0 h0)
    · left
      by_contra hno
      exact h0 ((adj_area_count_zero hk).2 hno)
  · rintro ⟨hargs, hor⟩
    obtain ⟨L, hnd, hL, _, heq⟩ := gamma_move_good_args g p x y hinv.aux hwb hhb hargs
    have hk : adj_area_count (owned g p) (x, y) L.length :=
      ⟨L.toFinset, hL, List.toFinset_card_of_nodup hnd⟩
    have halt := hinv.alt
    have hapos := hinv.apos
    have han := hinv.ha
    have hs : sub32 g.n_of_areas 1 = g.n_of_areas - 1 :=
      sub32_eq _ _ (by omega) (by omega)
    rw [heq]
    split_ifs with hk0 hcap
    · exfalso
      rw [hs] at hcap
      rcases hor with h1 | h1
      · exact (adj_area_count_zero hk).1 hk0 h1
      · omega
    · rfl
    · rfl

/-- The disintegration test in natural-number arithmetic. -/
theorem disintegrates_iff {width height players areas : Nat} {g : gamma_t}
    (hinv : Inv width height players areas g) {q k : Nat} (hq1 : 1 ≤ q) (hq2 : q ≤ players)
    (hk : k ≤ 4) :
    disintegrates g q k ↔
      (k > 0 ∧ k - 1 > areas - (g.arr_of_players (q - 1)).occupied_areas) := by
  have hle := hinv.areas_le q hq1 hq2
  have halt := hinv.alt
  have han := hinv.ha
  unfold disintegrates
  rw [sub32_eq g.n_of_areas (g.arr_of_players (q - 1)).occupied_areas (by omega) (by omega)]
  by_cases hk0 : k = 0
  · subst hk0
    simp
  · rw [sub32_eq k 1 (by omega) (by unfold U32; omega), han]
    constructor
    · rintro ⟨_, h2⟩
      exact ⟨by omega, h2⟩
    · rintro ⟨_, h2⟩
      exact ⟨hk0, h2⟩

/-- An accepted `gamma_golden_move`: the arguments are valid, both tests of
the validation pass for the adjacent-area counts on the board with the field
cleared, and the state after the call is given by `golden_apply`. -/
theorem gamma_golden_effect {width height players areas : Nat} {g : gamma_t}
    (hinv : Inv width height players areas g) {p x y : Nat}
    (hacc : (gamma_golden_move g p x y).1 = true) :
    golden_args_ok g p x y ∧ ∃ kn kp,
      adj_area_count (owned (set_board g x y 0) p) (x, y) kn ∧
      adj_area_count (owned (set_board g x y 0) (g.board x y)) (x, y) kp ∧
      ¬ disintegrates g (g.board x y) kp ∧
      ¬ (kn = 0 ∧ (g.arr_of_players (p - 1)).occupied_areas = g.n_of_areas) ∧
      (gamma_golden_move g p x y).2
        = golden_apply g p x y (p - 1) (g.board x y - 1) kn kp := by
  obtain ⟨hwb, hhb⟩ := inv_bounds hinv
  by_cases hargs : golden_args_ok g p x y
  · refine ⟨hargs, ?_⟩
    have haux1 := set_board_aux_clear g x y 0 hinv.aux
    have hkn := adjacent_player_areas_count (set_board g x y 0) x y p hargs.2.2.1
      hargs.2.2.2.1 haux1 hwb hhb
    have hkp := adjacent_player_areas_count (set_board g x y 0) x y (g.board x y)
      hargs.2.2.1 hargs.2.2.2.1 haux1 hwb hhb
    have heq := gamma_golden_move_good_args g p x y hinv.aux hwb hhb hargs
    rw [heq] at hacc ⊢
    refine ⟨_, _, hkn, hkp, ?_⟩
    by_cases hrej : disintegrates g (g.board x y)
          (adjacent_player_areas (set_board g x y 0) x y (g.board x y) hargs.2.2.1
            hargs.2.2.2.1).1 ∨
        ((adjacent_player_areas (set_board g x y 0) x y p hargs.2.2.1 hargs.2.2.2.1).1 = 0 ∧
          (g.arr_of_players (p - 1)).occupied_areas = g.n_of_areas)
    · rw [if_pos hrej] at hacc
      exact absurd hacc (by simp)
    · rw [if_neg hrej]
      exact ⟨fun h => hrej (Or.inl h), fun h => hrej (Or.inr h), rfl⟩
  · rw [gamma_golden_move_bad_args g p x y hargs] at hacc
    exact absurd hacc (by simp)

/-- A rejected `gamma_golden_move` leaves the state as it was. -/
theorem gamma_golden_reject {width height players areas : Nat} {g : gamma_t}
    (hinv : Inv width height players areas g) {p x y : Nat}
    (hrej : (gamma_golden_move g p x y).1 = false) : (gamma_golden_move g p x y).2 = g := by
  obtain ⟨hwb, hhb⟩ := inv_bounds hinv
  by_cases hargs : golden_args_ok g p x y
  · have heq := gamma_golden_move_good_args g p x y hinv.aux hwb hhb hargs
    rw [heq] at hrej ⊢
    by_cases hc : disintegrates g (g.board x y)
          (adjacent_player_areas (set_board g x y 0) x y (g.board x y) hargs.2.2.1
            hargs.2.2.2.1).1 ∨
        ((adjacent_player_areas (set_board g x y 0) x y p hargs.2.2.1 hargs.2.2.2.1).1 = 0 ∧
          (g.arr_of_players (p - 1)).occupied_areas = g.n_of_areas)
    · rw [if_pos hc]
    · rw [if_neg hc] at hrej
      exact absurd hrej (by simp)
  · rw [gamma_golden_move_bad_args g p x y hargs]

/-- The acceptance condition of `gamma_golden_move`. -/
theorem gamma_golden_accept_iff {width height players areas : Nat} {g : gamma_t}
    (hinv : Inv width height players areas g) (p x y : Nat) :
    (gamma_golden_move g p x y).1 = true ↔
      (golden_args_ok g p x y ∧ ∃ k_prev k_new,
        adj_area_count (owned (set_board g x y 0) (g.board x y)) (x, y) k_prev ∧
        adj_area_count (owned (set_board g x y 0) p) (x, y) k_new ∧
        ¬ (k_prev > 0 ∧
          k_prev - 1 > areas - (g.arr_of_players (g.board x y - 1)).occupied_areas) ∧
        ¬ (k_new = 0 ∧ (g.arr_of_players (p - 1)).occupied_areas = areas)) := by
  obtain ⟨hwb, hhb⟩ := inv_bounds hinv
  constructor
  · intro hacc
    obtain ⟨hargs, kn, kp, hkn, hkp, hdis, hcap, _⟩ := gamma_golden_effect hinv hacc
    obtain ⟨hq1, hq2, _⟩ := golden_prev_valid hinv hargs
    refine ⟨hargs, kp, kn, hkp, hkn, ?_, ?_⟩
    · rw [← disintegrates_iff hinv hq1 hq2 (adj_area_count_le hkp)]
      exact hdis
    · rw [← hinv.ha]
      exact hcap
  · rintro ⟨hargs, kp, kn, hkp, hkn, hdis, hcap⟩
    obtain ⟨hq1, hq2, _⟩ := golden_prev_valid hinv hargs
    have haux1 := set_board_aux_clear g x y 0 hinv.aux
    have hkn2 := adjacent_player_areas_count (set_board g x y 0) x y p hargs.2.2.1
      hargs.2.2.2.1 haux1 hwb hhb
    have hkp2 := adjacent_player_areas_count (set_board g x y 0) x y (g.board x y)
      hargs.2.2.1 hargs.2.2.2.1 haux1 hwb hhb
    have e1 := adj_area_count_unique hkn hkn2
    have e2 := adj_area_count_unique hkp hkp2
    rw [gamma_golden_move_good_args g p x y hinv.aux hwb hhb hargs, if_neg]
    rw [← e1, ← e2, disintegrates_iff hinv hq1 hq2 (adj_area_count_le hkp), hinv.ha]
    rintro (h | h)
    · exact hdis h
    · exact hcap h

/-! ## Sample games -/

/-- Sum of the field counters of all players. -/
def fields_sum (g : gamma_t) : Nat :=
  ((List.range g.n_of_players).map (fun i => (g.arr_of_players i).occupied_fields)).sum

/-- A fresh 3 x 3 game for two players with at most two areas each. -/
def demo0 : gamma_t := new_game 3 3 2 2

/-- Player 1 has taken field (0, 0). -/
def demo1 : gamma_t := (gamma_move demo0 1 0 0).2

/-- Player 2 has taken field (1, 0). -/
def demo2 : gamma_t := (gamma_move demo1 2 1 0).2

/-- Player 1 has seized field (1, 0) with the golden move. -/
def demo3 : gamma_t := (gamma_golden_move demo2 1 1 0).2

/-- A fresh 3 x 3 game for two players with at most one area each. -/
def cap0 : gamma_t := new_game 3 3 2 1

/-- Player 1 has taken field (0, 0) and is at the area limit. -/
def cap1 : gamma_t := (gamma_move cap0 1 0 0).2

/-- Player 2 has taken field (2, 2) and is at the area limit. -/
def cap2 : gamma_t := (gamma_move cap1 2 2 2).2

/-- The fresh game of the test `big_board` with 2^16 columns and rows. -/
def big0 : gamma_t := new_game 65536 65536 2 5

theorem demo0_reachable : Reachable 3 3 2 2 demo0 :=
  Reachable.new demo0 (by decide) (by decide) (by decide) (by decide) rfl

theorem demo1_reachable : Reachable 3 3 2 2 demo1 :=
  Reachable.move demo0 1 0 0 demo0_reachable

theorem demo2_reachable : Reachable 3 3 2 2 demo2 :=
  Reachable.move demo1 2 1 0 demo1_reachable

theorem demo3_reachable : Reachable 3 3 2 2 demo3 :=
  Reachable.golden_move demo2 1 1 0 demo2_reachable

theorem cap0_reachable : Reachable 3 3 2 1 cap0 :=
  Reachable.new cap0 (by decide) (by decide) (by decide) (by decide) rfl

theorem cap1_reachable : Reachable 3 3 2 1 cap1 :=
  Reachable.move cap0 1 0 0 cap0_reachable

theorem cap2_reachable : Reachable 3 3 2 1 cap2 :=
  Reachable.move cap1 2 2 2 cap1_reachable

theorem big0_reachable : Reachable 65536 65536 2 5 big0 :=
  Reachable.new big0 (by decide) (by decide) (by decide) (by decide) rfl

/-! ## The claims -/

/-- C1: in every state reachable from `gamma_new(width, height, players,
areas)` by `gamma_move` and `gamma_golden_move` calls with any arguments, and
for every player `p` in `1..players`, the stored `occupied_areas` of `p` is
the number of 4-connected components of the fields owned by `p` (and no other
number is). -/
theorem C1_occupied_areas_counts_components {width height players areas : Nat} {g : gamma_t}
    (hr : Reachable width height players areas g) (p : Nat) (hp1 : 1 ≤ p)
    (hp2 : p ≤ players) :
    area_count (owned g p) (g.arr_of_players (p - 1)).occupied_areas ∧
      ∀ n, area_count (owned g p) n → n = (g.arr_of_players (p - 1)).occupied_areas :=
  ⟨(reachable_inv hr).areas_ok p hp1 hp2,
    fun _ hn => area_count_unique hn ((reachable_inv hr).areas_ok p hp1 hp2)⟩

/-- C1 on the game `demo3`, after two moves and a golden move. -/
theorem C1_witness :
    area_count (owned demo3 1) (demo3.arr_of_players (1 - 1)).occupied_areas ∧
      ∀ n, area_count (owned demo3 1) n → n = (demo3.arr_of_players (1 - 1)).occupied_areas :=
  C1_occupied_areas_counts_components demo3_reachable 1 (by decide) (by decide)

/-- C2: in every reachable state the area counter of every player is at most
the area limit, and a `gamma_move` or `gamma_golden_move` call that would put
player `p` on field `(x, y)` returns false whenever some player would have
more areas than the limit on the board with that field given to `p`. -/
theorem C2_area_limit {width height players areas : Nat} {g : gamma_t}
    (hr : Reachable width height players areas g) :
    (∀ p, 1 ≤ p → p ≤ players → (g.arr_of_players (p - 1)).occupied_areas ≤ areas) ∧
      ∀ p x y q n, 1 ≤ q → q ≤ players → area_count (owned (set_board g x y p) q) n →
        areas < n → (gamma_move g p x y).1 = false ∧ (gamma_golden_move g p x y).1 = false := by
  have hinv := reachable_inv hr
  refine ⟨hinv.areas_le, ?_⟩
  intro p x y q n hq1 hq2 hn hlt
  have key : ∀ g2 : gamma_t, Inv width height players areas g2 →
      g2.width_x = g.width_x → g2.height_y = g.height_y →
      g2.board = write2 g.board x y p → False := by
    intro g2 hinv2 e1 e2 e3
    have h1 : area_count (owned g2 q) n := by
      refine area_count_congr (fun u => ?_) hn
      unfold owned
      rw [e1, e2, e3]
      rfl
    have h2 := area_count_unique h1 (hinv2.areas_ok q hq1 hq2)
    have h3 := hinv2.areas_le q hq1 hq2
    omega
  constructor
  · by_contra hacc
    have hacc2 : (gamma_move g p x y).1 = true := by simpa using hacc
    obtain ⟨_, k, _, _, _, heq⟩ := gamma_move_effect hinv hacc2
    obtain ⟨s1, s2, _, _, _, s6⟩ := move_apply_same g p x y
      ((g.arr_of_players (p - 1)).occupied_areas + 1 - k)
    exact key _ (heq ▸ inv_move hinv p x y) s1 s2 s6
  · by_contra hacc
    have hacc2 : (gamma_golden_move g p x y).1 = true := by simpa using hacc
    obtain ⟨_, kn, kp, _, _, _, _, heq⟩ := gamma_golden_effect hinv hacc2
    obtain ⟨s1, s2, _, _, _, s6, _⟩ :=
      golden_apply_same g p x y (p - 1) (g.board x y - 1) kn kp
    exact key _ (heq ▸ inv_golden hinv p x y) s1 s2 s6

/-- On the board of `cap1` with field (2, 2) given to player 1, player 1 has
two areas. -/
theorem cap1_two_areas : area_count (owned (set_board cap1 2 2 1) 1) 2 := by
  have hinv := reachable_inv cap1_reachable
  have hnot : ¬ owned cap1 1 (2, 2) := fun h => absurd h.2.2 (by decide)
  have hk : adj_area_count (owned cap1 1) (2, 2) 0 := by
    refine ⟨∅, ⟨by simp, by simp, ?_⟩, rfl⟩
    rintro ⟨n1, n2⟩ hn ho
    exfalso
    have h1 : n1 < 3 := ho.1
    have h2 : n2 < 3 := ho.2.1
    have h3 : cap1.board n1 n2 = 1 := ho.2.2
    simp only [adj] at hn
    have hcases : (n1 = 1 ∧ n2 = 2) ∨ (n1 = 2 ∧ n2 = 1) := by omega
    rcases hcases with ⟨rfl, rfl⟩ | ⟨rfl, rfl⟩
    · exact absurd h3 (by decide)
    · exact absurd h3 (by decide)
  obtain ⟨_, h2⟩ := merge_areas hinv (by decide : 1 ≤ 1) (by decide : 1 ≤ 2) hnot hk
  have e : (cap1.arr_of_players (1 - 1)).occupied_areas + 1 - 0 = 2 := by decide
  rw [e] at h2
  exact area_count_congr
    (fun u => (owned_write_self (set_board_board_set cap1 2 2 1)
      (by decide : 2 < cap1.width_x) (by decide : 2 < cap1.height_y) u).symm) h2

/-- C2 on the game `cap1` (area limit 1, player 1 owns (0, 0)): a move of
player 1 to (2, 2) would give two areas and is refused. -/
theorem C2_witness :
    (∀ p, 1 ≤ p → p ≤ 2 → (cap1.arr_of_players (p - 1)).occupied_areas ≤ 1) ∧
      (gamma_move cap1 1 2 2).1 = false ∧ (gamma_golden_move cap1 1 2 2).1 = false :=
  ⟨(C2_area_limit cap1_reachable).1,
    (C2_area_limit cap1_reachable).2 1 2 2 1 2 (by decide) (by decide) cap1_two_areas
      (by decide)⟩

/-- C3, evaluated on the game `gamma_new(2^16, 2^16, 2, 5)` of the test
`big_board`: the game is created, its free-field counter is 0 and no player
owns a field, so the counter plus the sum of the field counters is not
`width*height`. -/
theorem C3_free_fields_sum_big_board :
    gamma_new 65536 65536 2 5 = some big0 ∧ Reachable 65536 65536 2 5 big0 ∧
      big0.free_fields = 0 ∧ fields_sum big0 = 0 ∧
      big0.free_fields + fields_sum big0 ≠ 65536 * 65536 :=
  ⟨rfl, big0_reachable, by decide, by decide, by decide⟩

/-- C4: in every reachable state `gamma_move(g, p, x, y)` returns true exactly
when `p` is a player, `(x, y)` is a free field of the board, and either some
4-neighbour of `(x, y)` on the board belongs to `p` or the area counter of `p`
is below the area limit. -/
theorem C4_move_accepted_iff {width height players areas : Nat} {g : gamma_t}
    (hr : Reachable width height players areas g) (p x y : Nat) :
    (gamma_move g p x y).1 = true ↔
      (1 ≤ p ∧ p ≤ players ∧ x < width ∧ y < height ∧ g.board x y = 0 ∧
        ((∃ n, adj (x, y) n ∧ owned g p n) ∨
          (g.arr_of_players (p - 1)).occupied_areas < areas)) := by
  have hinv := reachable_inv hr
  rw [gamma_move_accept_iff hinv, move_args_ok, hinv.hp, hinv.hw, hinv.hh]
  constructor
  · rintro ⟨⟨h1, h2, h3, h4, h5⟩, h6⟩
    exact ⟨h1, h2, h3, h4, h5, h6⟩
  · rintro ⟨h1, h2, h3, h4, h5, h6⟩
    exact ⟨⟨h1, h2, h3, h4, h5⟩, h6⟩

/-- C4 on the game `cap1`: player 1, at the area limit, may extend the area
at (0, 0) to (1, 0) and may not start a new area at (2, 2). -/
theorem C4_witness :
    ((gamma_move cap1 1 1 0).1 = true ↔
      (1 ≤ 1 ∧ 1 ≤ 2 ∧ 1 < 3 ∧ 0 < 3 ∧ cap1.board 1 0 = 0 ∧
        ((∃ n, adj (1, 0) n ∧ owned cap1 1 n) ∨
          (cap1.arr_of_players (1 - 1)).occupied_areas < 1))) ∧
      (gamma_move cap1 1 1 0).1 = true ∧ (gamma_move cap1 1 2 2).1 = false :=
  ⟨C4_move_accepted_iff cap1_reachable 1 1 0, by decide, by decide⟩

/-- C5, evaluated on the game `gamma_new(2^16, 2^16, 2, 5)` of the test
`big_board`: `gamma_move(g, 2, 0, 0)` returns true, the free-field counter
is 0 before the call and 2^64 - 1 after it. -/
theorem C5_move_free_fields_big_board :
    Reachable 65536 65536 2 5 big0 ∧ (gamma_move big0 2 0 0).1 = true ∧
      big0.free_fields = 0 ∧
      (gamma_move big0 2 0 0).2.free_fields = 18446744073709551615 ∧
      (gamma_move big0 2 0 0).2.free_fields + 1 ≠ big0.free_fields :=
  ⟨big0_reachable, by decide, by decide, by decide, by decide⟩

/-- C6: in every reachable state a call `gamma_move(g, p, x, y)` that returns
false leaves the whole state (board, player records, free-field counter,
auxiliary array) as it was. -/
theorem C6_move_rejected_unchanged {width height players areas : Nat} {g : gamma_t}
    (hr : Reachable width height players areas g) (p x y : Nat)
    (hrej : (gamma_move g p x y).1 = false) : (gamma_move g p x y).2 = g :=
  gamma_move_reject (reachable_inv hr) hrej

/-- C6 on the game `demo1`: player 2 is refused on the taken field (0, 0). -/
theorem C6_witness : (gamma_move demo1 2 0 0).1 = false ∧ (gamma_move demo1 2 0 0).2 = demo1 :=
  ⟨by decide, C6_move_rejected_unchanged demo1_reachable 2 0 0 (by decide)⟩

/-- C7: in every reachable state `gamma_golden_move(g, p, x, y)` returns true
exactly when `p` is a player, `(x, y)` is a field of the board, `p` has not
used the golden move, the field belongs to a player `q` other than `p`, and,
with `k_prev` and `k_new` the numbers of areas of `q` and of `p` adjacent to
`(x, y)` on the board with the field cleared, neither
`k_prev > 0 ∧ k_prev - 1 > areas - occupied_areas(q)` nor
`k_new = 0 ∧ occupied_areas(p) = areas` holds. -/
theorem C7_golden_accepted_iff {width height players areas : Nat} {g : gamma_t}
    (hr : Reachable width height players areas g) (p x y : Nat) :
    (gamma_golden_move g p x y).1 = true ↔
      (1 ≤ p ∧ p ≤ players ∧ x < width ∧ y < height ∧
        (g.arr_of_players (p - 1)).golden_performed = false ∧
        g.board x y ≠ 0 ∧ g.board x y ≠ p ∧
        ∃ k_prev k_new,
          adj_area_count (owned (set_board g x y 0) (g.board x y)) (x, y) k_prev ∧
          adj_area_count (owned (set_board g x y 0) p) (x, y) k_new ∧
          ¬ (k_prev > 0 ∧
            k_prev - 1 > areas - (g.arr_of_players (g.board x y - 1)).occupied_areas) ∧
          ¬ (k_new = 0 ∧ (g.arr_of_players (p - 1)).occupied_areas = areas)) := by
  have hinv := reachable_inv hr
  rw [gamma_golden_accept_iff hinv, golden_args_ok, hinv.hp, hinv.hw, hinv.hh]
  constructor
  · rintro ⟨⟨h1, h2, h3, h4, h5, h6, h7⟩, h8⟩
    exact ⟨h1, h2, h3, h4, h5, h6, h7, h8⟩
  · rintro ⟨h1, h2, h3, h4, h5, h6, h7, h8⟩
    exact ⟨⟨h1, h2, h3, h4, h5, h6, h7⟩, h8⟩

/-- C7 on the game `demo2`: player 1 may seize field (1, 0) of player 2. -/
theorem C7_witness :
    ((gamma_golden_move demo2 1 1 0).1 = true ↔
      (1 ≤ 1 ∧ 1 ≤ 2 ∧ 1 < 3 ∧ 0 < 3 ∧
        (demo2.arr_of_players (1 - 1)).golden_performed = false ∧
        demo2.board 1 0 ≠ 0 ∧ demo2.board 1 0 ≠ 1 ∧
        ∃ k_prev k_new,
          adj_area_count (owned (set_board demo2 1 0 0) (demo2.board 1 0)) (1, 0) k_prev ∧
          adj_area_count (owned (set_board demo2 1 0 0) 1) (1, 0) k_new ∧
          ¬ (k_prev > 0 ∧
            k_prev - 1 > 2 - (demo2.arr_of_players (demo2.board 1 0 - 1)).occupied_areas) ∧
          ¬ (k_new = 0 ∧ (demo2.arr_of_players (1 - 1)).occupied_areas = 2))) ∧
      (gamma_golden_move demo2 1 1 0).1 = true :=
  ⟨C7_golden_accepted_iff demo2_reachable 1 1 0, by decide⟩

/-- The field counters after an accepted golden move. -/
theorem golden_fields_effect {width height players areas : Nat} {g : gamma_t}
    (hinv : Inv width height players areas g) {p x y : Nat}
    (hacc : (gamma_golden_move g p x y).1 = true) :
    ((gamma_golden_move g p x y).2.arr_of_players (p - 1)).occupied_fields
        = (g.arr_of_players (p - 1)).occupied_fields + 1 ∧
      ((gamma_golden_move g p x y).2.arr_of_players (g.board x y - 1)).occupied_fields + 1
        = (g.arr_of_players (g.board x y - 1)).occupied_fields := by
  have hinv2 := inv_golden hinv p x y
  obtain ⟨hargs, kn, kp, _, _, _, _, heq⟩ := gamma_golden_effect hinv hacc
  obtain ⟨hq1, hq2, _, hp1, hp2⟩ := golden_prev_valid hinv hargs
  obtain ⟨_, _, h3, h4, _, h6, h7⟩ := hargs
  obtain ⟨s1, s2, _, _, _, s6, _⟩ := golden_apply_same g p x y (p - 1) (g.board x y - 1) kn kp
  have hbs : board_set g (gamma_golden_move g p x y).2 x y p := by
    rw [heq]
    exact ⟨s1, s2, s6⟩
  have hnot : (x, y) ∉ fields_of g p := by
    intro hin
    exact h7 ((mem_fields_of g p (x, y)).1 hin).2.2
  have hin : (x, y) ∈ fields_of g (g.board x y) :=
    (mem_fields_of g _ (x, y)).2 ⟨h3, h4, rfl⟩
  have hpos : 0 < (fields_of g (g.board x y)).card := Finset.card_pos.2 ⟨_, hin⟩
  constructor
  · rw [hinv2.fields_ok p hp1 hp2, fields_of_write_self hbs h3 h4,
      Finset.card_insert_of_not_mem hnot, hinv.fields_ok p hp1 hp2]
  · rw [hinv2.fields_ok _ hq1 hq2, fields_of_write_old hbs (g.board x y) h7,
      Finset.card_erase_of_mem hin, hinv.fields_ok _ hq1 hq2]
    omega

/-- C8: when `gamma_golden_move(g, p, x, y)` returns true in a reachable state
on a field of player `q`, afterwards the field belongs to `p`, the field
counter of `p` has grown by 1 and that of `q` has shrunk by 1, the free-field
counter is unchanged, the golden flag of `p` is set, and with `k_prev` and
`k_new` the numbers of areas of `q` and of `p` adjacent to `(x, y)` on the
board with the field cleared, the area counter of `p` is `old + 1` if
`k_new = 0` and `old - (k_new - 1)` otherwise, and the area counter of `q` is
`old + (k_prev - 1)` (in the integers). -/
theorem C8_golden_effect {width height players areas : Nat} {g : gamma_t}
    (hr : Reachable width height players areas g) (p x y : Nat)
    (hacc : (gamma_golden_move g p x y).1 = true) :
    (gamma_golden_move g p x y).2.board x y = p ∧
      ((gamma_golden_move g p x y).2.arr_of_players (p - 1)).occupied_fields
        = (g.arr_of_players (p - 1)).occupied_fields + 1 ∧
      ((gamma_golden_move g p x y).2.arr_of_players (g.board x y - 1)).occupied_fields + 1
        = (g.arr_of_players (g.board x y - 1)).occupied_fields ∧
      (gamma_golden_move g p x y).2.free_fields = g.free_fields ∧
      ((gamma_golden_move g p x y).2.arr_of_players (p - 1)).golden_performed = true ∧
      ∃ k_prev k_new,
        adj_area_count (owned (set_board g x y 0) (g.board x y)) (x, y) k_prev ∧
        adj_area_count (owned (set_board g x y 0) p) (x, y) k_new ∧
        ((gamma_golden_move g p x y).2.arr_of_players (p - 1)).occupied_areas
          = (if k_new = 0 then (g.arr_of_players (p - 1)).occupied_areas + 1
            else (g.arr_of_players (p - 1)).occupied_areas - (k_new - 1)) ∧
        (((gamma_golden_move g p x y).2.arr_of_players (g.board x y - 1)).occupied_areas : Int)
          = ((g.arr_of_players (g.board x y - 1)).occupied_areas : Int)
            + ((k_prev : Int) - 1) := by
  have hinv := reachable_inv hr
  obtain ⟨hf1, hf2⟩ := golden_fields_effect hinv hacc
  obtain ⟨hargs, kn, kp, hkn, hkp, hdis, hcap, heq⟩ := gamma_golden_effect hinv hacc
  obtain ⟨hq1, hq2, hne, hp1, hp2⟩ := golden_prev_valid hinv hargs
  obtain ⟨⟨n1, n2, _, _⟩, ⟨q1, q2, _, _⟩⟩ := golden_counts hinv hargs hkn hkp hdis hcap
  obtain ⟨_, _, _, _, _, s6, s7⟩ := golden_apply_same g p x y (p - 1) (g.board x y - 1) kn kp
  refine ⟨?_, hf1, hf2, ?_, ?_, kp, kn, hkp, hkn, ?_, ?_⟩
  · rw [heq, s6]
    simp [write2]
  · rw [heq, s7]
  · rw [heq, golden_apply_rec_new _ _ _ _ _ _ _ _ (Ne.symm hne)]
  · rw [heq, golden_apply_rec_new _ _ _ _ _ _ _ _ (Ne.symm hne)]
    simp only
    rw [n2]
    split_ifs with h0
    · omega
    · omega
  · rw [heq, golden_apply_rec_prev _ _ _ _ _ _ _ _ (Ne.symm hne)]
    simp only
    rw [q2]
    omega

/-- C8 on the game `demo2`: player 1 seizes field (1, 0) of player 2. -/
theorem C8_witness :
    (gamma_golden_move demo2 1 1 0).2.board 1 0 = 1 ∧
      ((gamma_golden_move demo2 1 1 0).2.arr_of_players (1 - 1)).occupied_fields
        = (demo2.arr_of_players (1 - 1)).occupied_fields + 1 ∧
      ((gamma_golden_move demo2 1 1 0).2.arr_of_players (demo2.board 1 0 - 1)).occupied_fields
          + 1 = (demo2.arr_of_players (demo2.board 1 0 - 1)).occupied_fields ∧
      (gamma_golden_move demo2 1 1 0).2.free_fields = demo2.free_fields ∧
      ((gamma_golden_move demo2 1 1 0).2.arr_of_players (1 - 1)).golden_performed = true ∧
      ∃ k_prev k_new,
        adj_area_count (owned (set_board demo2 1 0 0) (demo2.board 1 0)) (1, 0) k_prev ∧
        adj_area_count (owned (set_board demo2 1 0 0) 1) (1, 0) k_new ∧
        ((gamma_golden_move demo2 1 1 0).2.arr_of_players (1 - 1)).occupied_areas
          = (if k_new = 0 then (demo2.arr_of_players (1 - 1)).occupied_areas + 1
            else (demo2.arr_of_players (1 - 1)).occupied_areas - (k_new - 1)) ∧
        (((gamma_golden_move demo2 1 1 0).2.arr_of_players
            (demo2.board 1 0 - 1)).occupied_areas : Int)
          = ((demo2.arr_of_players (demo2.board 1 0 - 1)).occupied_areas : Int)
            + ((k_prev : Int) - 1) :=
  C8_golden_effect demo2_reachable 1 1 0 (by decide)

/-- C9: in every reachable state a call `gamma_golden_move(g, p, x, y)` that
returns false leaves the whole state (board, player records, free-field
counter, auxiliary array) as it was. -/
theorem C9_golden_rejected_unchanged {width height players areas : Nat} {g : gamma_t}
    (hr : Reachable width height players areas g) (p x y : Nat)
    (hrej : (gamma_golden_move g p x y).1 = false) : (gamma_golden_move g p x y).2 = g :=
  gamma_golden_reject (reachable_inv hr) hrej

/-- C9 on the game `cap2`: player 1, at the area limit, is refused on the
field (2, 2) of player 2, which has no neighbour of player 1. -/
theorem C9_witness :
    (gamma_golden_move cap2 1 2 2).1 = false ∧ (gamma_golden_move cap2 1 2 2).2 = cap2 :=
  ⟨by decide, C9_golden_rejected_unchanged cap2_reachable 1 2 2 (by decide)⟩

/-- C10: when `gamma_golden_move(g, p, x, y)` returns true in a reachable state
on a field whose owner `q` owns none of its 4-neighbours, the area counter of
`q` afterwards is the old value plus `0 - 1` in `uint32_t` arithmetic, which
is exactly one less than before. -/
theorem C10_golden_single_field_area {width height players areas : Nat} {g : gamma_t}
    (hr : Reachable width height players areas g) (p x y : Nat)
    (hacc : (gamma_golden_move g p x y).1 = true)
    (hnone : ¬ ∃ n, adj (x, y) n ∧ owned g (g.board x y) n) :
    ((gamma_golden_move g p x y).2.arr_of_players (g.board x y - 1)).occupied_areas
        = add32 (g.arr_of_players (g.board x y - 1)).occupied_areas (sub32 0 1) ∧
      ((gamma_golden_move g p x y).2.arr_of_players (g.board x y - 1)).occupied_areas + 1
        = (g.arr_of_players (g.board x y - 1)).occupied_areas := by
  have hinv := reachable_inv hr
  obtain ⟨hargs, kn, kp, hkn, hkp, hdis, hcap, heq⟩ := gamma_golden_effect hinv hacc
  obtain ⟨hq1, hq2, hne, hp1, hp2⟩ := golden_prev_valid hinv hargs
  obtain ⟨_, ⟨q1, q2, _, _⟩⟩ := golden_counts hinv hargs hkn hkp hdis hcap
  have hk0 : kp = 0 := by
    rw [adj_area_count_zero hkp]
    rintro ⟨n, hn1, hn2⟩
    exact hnone ⟨n, hn1,
      ((owned_write_old (set_board_board_set g x y 0) (g.board x y) hargs.2.2.2.2.2.1 n).1
        hn2).1⟩
  subst hk0
  rw [heq, golden_apply_rec_prev _ _ _ _ _ _ _ _ (Ne.symm hne)]
  refine ⟨rfl, ?_⟩
  show add32 (g.arr_of_players (g.board x y - 1)).occupied_areas (sub32 0 1) + 1
    = (g.arr_of_players (g.board x y - 1)).occupied_areas
  rw [q2]
  omega

/-- C10 on the game `demo2`: field (1, 0) is the only field of player 2. -/
theorem C10_witness :
    ((gamma_golden_move demo2 1 1 0).2.arr_of_players (demo2.board 1 0 - 1)).occupied_areas
        = add32 (demo2.arr_of_players (demo2.board 1 0 - 1)).occupied_areas (sub32 0 1) ∧
      ((gamma_golden_move demo2 1 1 0).2.arr_of_players (demo2.board 1 0 - 1)).occupied_areas
        + 1 = (demo2.arr_of_players (demo2.board 1 0 - 1)).occupied_areas :=
  C10_golden_single_field_area demo2_reachable 1 1 0 (by decide) (by
    rintro ⟨n, hn1, hn2⟩
    obtain ⟨n1, n2⟩ := n
    have h1 : n1 < 3 := hn2.1
    have h2 : n2 < 3 := hn2.2.1
    have h3 : demo2.board n1 n2 = demo2.board 1 0 := hn2.2.2
    simp only [adj] at hn1
    have hcases : (n1 = 0 ∧ n2 = 0) ∨ (n1 = 2 ∧ n2 = 0) ∨ (n1 = 1 ∧ n2 = 1) := by omega
    rcases hcases with ⟨rfl, rfl⟩ | ⟨rfl, rfl⟩ | ⟨rfl, rfl⟩
    · exact absurd h3 (by decide)
    · exact absurd h3 (by decide)
    · exact absurd h3 (by decide))

/-! ## The queries (gamma_busy_fields, gamma_free_fields, gamma_golden_possible) -/

/-- The read `g->arr_of_players[i]`; the array has `n_of_players` records and
`none` stands for an index outside of it. -/
def player_at (g : gamma_t) (i : Nat) : Option player_t :=
  if i < g.n_of_players then some (g.arr_of_players i) else none

/-- Function `gamma_busy_fields` on a non-null game; the index `player-1` is
computed in `uint32_t`. -/
def gamma_busy_fields (g : gamma_t) (player : Nat) : Option Nat :=
  if player > g.n_of_players ∨ player = 0 then some 0
  else
    match player_at g (sub32 player 1) with
    | none => none
    | some p => some p.occupied_fields

/-- The fields of the board in the order of the loops
`for i < width_x` (outer), `for j < height_y` (inner). -/
def board_fields (g : gamma_t) : List Field :=
  List.product (List.range g.width_x) (List.range g.height_y)

/-- Function `fields_adjacent_to_player`; the counter `res` is an
`unsigned int`. -/
def fields_adjacent_to_player (g : gamma_t) (player : Nat) : Nat :=
  (board_fields g).foldl
    (fun res c =>
      if g.board c.1 c.2 = 0 ∧ adjacent_owned_by_player g c.1 c.2 player = true
      then add32 res 1 else res) 0

/-- Function `gamma_free_fields` on a non-null game. -/
def gamma_free_fields (g : gamma_t) (player : Nat) : Option Nat :=
  if player = 0 ∨ player > g.n_of_players then some 0
  else
    match player_at g (sub32 player 1) with
    | none => none
    | some target_player =>
      if target_player.occupied_areas = g.n_of_areas
      then some (fields_adjacent_to_player g player)
      else some g.free_fields

/-- The two loops of `gamma_golden_possible` over the fields in `l`: stop with
true at the first field on which `golden_possible_on_field` answers true.
The pointer `target` is the index of the player record. -/
def golden_scan (target player w h : Nat) :
    (l : List Field) → (∀ c ∈ l, c.1 < w ∧ c.2 < h) → (g : gamma_t) →
      (g.width_x = w ∧ g.height_y = h) → Bool × gamma_t
  | [], _, g, _ => (false, g)
  | c :: rest, hl, g, hg =>
    if (golden_possible_on_field g target player c.1 c.2
        (by rw [hg.1]; exact (hl c (List.mem_cons_self _ _)).1)
        (by rw [hg.2]; exact (hl c (List.mem_cons_self _ _)).2)).1 = true
    then (true, (golden_possible_on_field g target player c.1 c.2
        (by rw [hg.1]; exact (hl c (List.mem_cons_self _ _)).1)
        (by rw [hg.2]; exact (hl c (List.mem_cons_self _ _)).2)).2)
    else golden_scan target player w h rest (fun d hd => hl d (List.mem_cons_of_mem _ hd))
      (golden_possible_on_field g target player c.1 c.2
        (by rw [hg.1]; exact (hl c (List.mem_cons_self _ _)).1)
        (by rw [hg.2]; exact (hl c (List.mem_cons_self _ _)).2)).2
      ⟨(golden_possible_on_field_dims g target player c.1 c.2 _ _).1.trans hg.1,
        (golden_possible_on_field_dims g target player c.1 c.2 _ _).2.trans hg.2⟩

theorem board_fields_ok (g : gamma_t) :
    ∀ c ∈ board_fields g, c.1 < g.width_x ∧ c.2 < g.height_y := by
  intro c hc
  obtain ⟨c1, c2⟩ := c
  simpa [board_fields, List.pair_mem_product] using hc

/-- Function `gamma_golden_possible` on a non-null game: the returned flag and
the state after the call; `none` stands for a read of `arr_of_players` outside
the array.  The index `player-1` is computed in `uint32_t`, the number
`occupied_by_others` in `uint64_t`. -/
def gamma_golden_possible (g : gamma_t) (player : Nat) : Option (Bool × gamma_t) :=
  if player > g.n_of_players then some (false, g)
  else
    match player_at g (sub32 player 1) with
    | none => none
    | some target =>
      let occupied_by_others :=
        sub64 (sub64 ((g.width_x * g.height_y) % U64) g.free_fields) target.occupied_fields
      if target.golden_performed = true ∨ occupied_by_others = 0 then some (false, g)
      else some (golden_scan (sub32 player 1) player g.width_x g.height_y (board_fields g)
        (board_fields_ok g) g ⟨rfl, rfl⟩)

theorem sub32_player (p : Nat) (h1 : 1 ≤ p) (h2 : p < U32) : sub32 p 1 = p - 1 :=
  sub32_eq p 1 h1 h2

/-- The record of a valid player is read inside the array. -/
theorem player_at_valid {width height players areas : Nat} {g : gamma_t}
    (hinv : Inv width height players areas g) {p : Nat} (hp1 : 1 ≤ p) (hp2 : p ≤ players) :
    player_at g (sub32 p 1) = some (g.arr_of_players (p - 1)) := by
  have hplt := hinv.plt
  have hp := hinv.hp
  rw [sub32_player p hp1 (by omega)]
  unfold player_at
  rw [if_pos (by omega)]

/-- The result of `gamma_busy_fields` for a valid player. -/
theorem gamma_busy_fields_valid {width height players areas : Nat} {g : gamma_t}
    (hinv : Inv width height players areas g) {p : Nat} (hp1 : 1 ≤ p) (hp2 : p ≤ players) :
    gamma_busy_fields g p = some (g.arr_of_players (p - 1)).occupied_fields := by
  have hp := hinv.hp
  unfold gamma_busy_fields
  rw [if_neg (by omega), player_at_valid hinv hp1 hp2]

/-- The result of `gamma_free_fields` for a valid player. -/
theorem gamma_free_fields_valid {width height players areas : Nat} {g : gamma_t}
    (hinv : Inv width height players areas g) {p : Nat} (hp1 : 1 ≤ p) (hp2 : p ≤ players) :
    gamma_free_fields g p =
      if (g.arr_of_players (p - 1)).occupied_areas = g.n_of_areas
      then some (fields_adjacent_to_player g p) else some g.free_fields := by
  have hp := hinv.hp
  unfold gamma_free_fields
  rw [if_neg (by omega), player_at_valid hinv hp1 hp2]

theorem golden_scan_clean (target player w h : Nat) (l : List Field)
    (hl : ∀ c ∈ l, c.1 < w ∧ c.2 < h) (g : gamma_t) (hg : g.width_x = w ∧ g.height_y = h)
    (haux : aux_clear g) (hwb : g.width_x ≤ UINT32_MAX) (hhb : g.height_y ≤ UINT32_MAX) :
    (golden_scan target player w h l hl g hg).2 = g := by
  induction l with
  | nil => rfl
  | cons c rest ih =>
    have hx : c.1 < g.width_x := by rw [hg.1]; exact (hl c (List.mem_cons_self _ _)).1
    have hy : c.2 < g.height_y := by rw [hg.2]; exact (hl c (List.mem_cons_self _ _)).2
    have hst := (golden_possible_on_field_spec g target player c.1 c.2 hx hy haux hwb hhb).1
    simp only [golden_scan]
    split_ifs with hc
    · exact hst
    · simp only [hst]
      exact ih _

/-- The flag of the two loops of `gamma_golden_possible`: some field of the
list passes `golden_possible_on_field`. -/
theorem golden_scan_true_iff (target player w h : Nat) (l : List Field)
    (hl : ∀ c ∈ l, c.1 < w ∧ c.2 < h) (g : gamma_t) (hg : g.width_x = w ∧ g.height_y = h)
    (haux : aux_clear g) (hwb : g.width_x ≤ UINT32_MAX) (hhb : g.height_y ≤ UINT32_MAX) :
    (golden_scan target player w h l hl g hg).1 = true ↔
      ∃ c ∈ l, ∃ (hx : c.1 < g.width_x) (hy : c.2 < g.height_y),
        (golden_possible_on_field g target player c.1 c.2 hx hy).1 = true := by
  induction l with
  | nil => simp [golden_scan]
  | cons c rest ih =>
    have hx : c.1 < g.width_x := by rw [hg.1]; exact (hl c (List.mem_cons_self _ _)).1
    have hy : c.2 < g.height_y := by rw [hg.2]; exact (hl c (List.mem_cons_self _ _)).2
    have hst := (golden_possible_on_field_spec g target player c.1 c.2 hx hy haux hwb hhb).1
    simp only [golden_scan]
    split_ifs with hc
    · simp only [true_iff]
      exact ⟨c, List.mem_cons_self _ _, hx, hy, hc⟩
    · simp only [hst]
      rw [ih]
      constructor
      · rintro ⟨d, hd, h1, h2, h3⟩
        exact ⟨d, List.mem_cons_of_mem _ hd, h1, h2, h3⟩
      · rintro ⟨d, hd, h1, h2, h3⟩
        rcases List.mem_cons.1 hd with h4 | h4
        · subst h4
          exact absurd h3 hc
        · exact ⟨d, h4, h1, h2, h3⟩

/-- The value `occupied_by_others` computed by `gamma_golden_possible` for the
valid player `p`. -/
def others_value (g : gamma_t) (p : Nat) : Nat :=
  sub64 (sub64 ((g.width_x * g.height_y) % U64) g.free_fields)
    (g.arr_of_players (p - 1)).occupied_fields

/-- For a valid player who has not used the golden move, `gamma_golden_move`
answers on a field of the board as `golden_possible_on_field` does. -/
theorem golden_move_iff_on_field {width height players areas : Nat} {g : gamma_t}
    (hinv : Inv width height players areas g) {p : Nat} (hp1 : 1 ≤ p) (hp2 : p ≤ players)
    (hflag : (g.arr_of_players (p - 1)).golden_performed = false) (x y : Nat)
    (hx : x < g.width_x) (hy : y < g.height_y) :
    (gamma_golden_move g p x y).1 = true ↔
      (golden_possible_on_field g (p - 1) p x y hx hy).1 = true := by
  obtain ⟨hwb, hhb⟩ := inv_bounds hinv
  have hspec := (golden_possible_on_field_spec g (p - 1) p x y hx hy hinv.aux hwb hhb).2
  rw [hspec]
  by_cases hb : g.board x y = 0 ∨ g.board x y = p
  · have hbad : ¬ golden_args_ok g p x y := by
      rintro ⟨_, _, _, _, _, h6, h7⟩
      rcases hb with h | h
      · exact h6 h
      · exact h7 h
    rw [gamma_golden_move_bad_args g p x y hbad]
    constructor
    · intro h
      exact absurd h (by simp)
    · rintro ⟨h, _⟩
      exact absurd hb h
  · have hargs : golden_args_ok g p x y :=
      ⟨hp1, hinv.hp ▸ hp2, hx, hy, hflag, fun h => hb (Or.inl h), fun h => hb (Or.inr h)⟩
    rw [gamma_golden_move_good_args g p x y hinv.aux hwb hhb hargs]
    by_cases hrej : disintegrates g (g.board x y)
          (adjacent_player_areas (set_board g x y 0) x y (g.board x y) hx hy).1 ∨
        ((adjacent_player_areas (set_board g x y 0) x y p hx hy).1 = 0 ∧
          (g.arr_of_players (p - 1)).occupied_areas = g.n_of_areas)
    · rw [if_pos hrej]
      constructor
      · intro h
        exact absurd h (by simp)
      · rintro ⟨_, h2, h3⟩
        rcases hrej with h | h
        · exact absurd h h2
        · exact absurd h h3
    · rw [if_neg hrej]
      simp only [true_iff]
      exact ⟨hb, fun h => hrej (Or.inl h), fun h => hrej (Or.inr h)⟩

/-- The result of `gamma_golden_possible` for a valid player: the state is
left as it was, and the flag says that the player has not used the golden
move, the value `occupied_by_others` is not 0 and `gamma_golden_move` would
return true on some field. -/
theorem gamma_golden_possible_valid {width height players areas : Nat} {g : gamma_t}
    (hinv : Inv width height players areas g) {p : Nat} (hp1 : 1 ≤ p) (hp2 : p ≤ players) :
    ∃ b, gamma_golden_possible g p = some (b, g) ∧
      (b = true ↔ ((g.arr_of_players (p - 1)).golden_performed = false ∧
        others_value g p ≠ 0 ∧ ∃ x y, (gamma_golden_move g p x y).1 = true)) := by
  obtain ⟨hwb, hhb⟩ := inv_bounds hinv
  have hp := hinv.hp
  have hplt := hinv.plt
  have hidx : sub32 p 1 = p - 1 := sub32_player p hp1 (by omega)
  unfold gamma_golden_possible
  rw [if_neg (by omega), player_at_valid hinv hp1 hp2]
  simp only []
  by_cases hearly : (g.arr_of_players (p - 1)).golden_performed = true ∨
      sub64 (sub64 ((g.width_x * g.height_y) % U64) g.free_fields)
        (g.arr_of_players (p - 1)).occupied_fields = 0
  · rw [if_pos hearly]
    refine ⟨false, rfl, ?_⟩
    constructor
    · intro h
      exact absurd h (by simp)
    · rintro ⟨h1, h2, _⟩
      rcases hearly with h | h
      · rw [h1] at h
        exact absurd h (by simp)
      · exact absurd h h2
  · rw [if_neg hearly]
    have hflag : (g.arr_of_players (p - 1)).golden_performed = false := by
      cases hf : (g.arr_of_players (p - 1)).golden_performed
      · rfl
      · exact absurd (Or.inl hf) hearly
    have hclean := golden_scan_clean (sub32 p 1) p g.width_x g.height_y (board_fields g)
      (board_fields_ok g) g ⟨rfl, rfl⟩ hinv.aux hwb hhb
    have hiff := golden_scan_true_iff (sub32 p 1) p g.width_x g.height_y (board_fields g)
      (board_fields_ok g) g ⟨rfl, rfl⟩ hinv.aux hwb hhb
    refine ⟨(golden_scan (sub32 p 1) p g.width_x g.height_y (board_fields g)
      (board_fields_ok g) g ⟨rfl, rfl⟩).1, ?_, ?_⟩
    · have hpair : ∀ r : Bool × gamma_t, r.2 = g → some r = some (r.1, g) := by
        rintro ⟨a, b⟩ h
        simp only at h
        rw [h]
      exact hpair _ hclean
    · rw [hiff, hidx]
      constructor
      · rintro ⟨c, _, hx, hy, hc⟩
        exact ⟨hflag, fun h => hearly (Or.inr h), c.1, c.2,
          (golden_move_iff_on_field hinv hp1 hp2 hflag c.1 c.2 hx hy).2 hc⟩
      · rintro ⟨_, _, x, y, hxy⟩
        obtain ⟨hargs, _⟩ := gamma_golden_effect hinv hxy
        have hx := hargs.2.2.1
        have hy := hargs.2.2.2.1
        refine ⟨(x, y), ?_, hx, hy,
          (golden_move_iff_on_field hinv hp1 hp2 hflag x y hx hy).1 hxy⟩
        simp [board_fields, List.pair_mem_product, hx, hy]

/-! ## Later states and the golden flag -/

/-- The state `g2` is reached from `g1` by gamma_move and gamma_golden_move
calls with any arguments. -/
inductive Steps : gamma_t → gamma_t → Prop
  | refl (g : gamma_t) : Steps g g
  | move (g1 g2 : gamma_t) (player x y : Nat) (h : Steps g1 g2) :
      Steps g1 (gamma_move g2 player x y).2
  | golden_move (g1 g2 : gamma_t) (player x y : Nat) (h : Steps g1 g2) :
      Steps g1 (gamma_golden_move g2 player x y).2

theorem steps_reachable {width height players areas : Nat} {g1 g2 : gamma_t}
    (hr : Reachable width height players areas g1) (hs : Steps g1 g2) :
    Reachable width height players areas g2 := by
  induction hs with
  | refl => exact hr
  | move g2 player x y _ ih => exact Reachable.move g2 player x y ih
  | golden_move g2 player x y _ ih => exact Reachable.golden_move g2 player x y ih

/-- A call of `gamma_move` clears no golden flag. -/
theorem move_keeps_flag {width height players areas : Nat} {g : gamma_t}
    (hinv : Inv width height players areas g) (q x y i : Nat)
    (hflag : (g.arr_of_players i).golden_performed = true) :
    ((gamma_move g q x y).2.arr_of_players i).golden_performed = true := by
  cases hres : (gamma_move g q x y).1
  · rw [gamma_move_reject hinv hres]
    exact hflag
  · obtain ⟨_, k, _, _, _, heq⟩ := gamma_move_effect hinv hres
    rw [heq]
    by_cases hi : i = q - 1
    · subst hi
      rw [move_apply_rec_self]
      exact hflag
    · rw [move_apply_rec_other _ _ _ _ _ _ hi]
      exact hflag

/-- A call of `gamma_golden_move` clears no golden flag. -/
theorem golden_keeps_flag {width height players areas : Nat} {g : gamma_t}
    (hinv : Inv width height players areas g) (q x y i : Nat)
    (hflag : (g.arr_of_players i).golden_performed = true) :
    ((gamma_golden_move g q x y).2.arr_of_players i).golden_performed = true := by
  cases hres : (gamma_golden_move g q x y).1
  · rw [gamma_golden_reject hinv hres]
    exact hflag
  · obtain ⟨hargs, kn, kp, _, _, _, _, heq⟩ := gamma_golden_effect hinv hres
    obtain ⟨_, _, hne, _, _⟩ := golden_prev_valid hinv hargs
    rw [heq]
    by_cases hi : i = q - 1
    · subst hi
      rw [golden_apply_rec_new _ _ _ _ _ _ _ _ (Ne.symm hne)]
    · by_cases hi2 : i = g.board x y - 1
      · subst hi2
        rw [golden_apply_rec_prev _ _ _ _ _ _ _ _ (Ne.symm hne)]
        exact hflag
      · rw [golden_apply_rec_other _ _ _ _ _ _ _ _ _ hi hi2]
        exact hflag

/-- A golden flag that is set stays set in all later states. -/
theorem steps_keep_flag {width height players areas : Nat} {g1 g2 : gamma_t}
    (hr : Reachable width height players areas g1) (hs : Steps g1 g2) (i : Nat)
    (hflag : (g1.arr_of_players i).golden_performed = true) :
    (g2.arr_of_players i).golden_performed = true := by
  induction hs with
  | refl => exact hflag
  | move g2 player x y hs2 ih =>
    exact move_keeps_flag (reachable_inv (steps_reachable hr hs2)) player x y i ih
  | golden_move g2 player x y hs2 ih =>
    exact golden_keeps_flag (reachable_inv (steps_reachable hr hs2)) player x y i ih

/-- With the golden flag of the player set, `gamma_golden_move` returns
false. -/
theorem golden_move_flag_set (g : gamma_t) (p x y : Nat)
    (hflag : (g.arr_of_players (p - 1)).golden_performed = true) :
    (gamma_golden_move g p x y).1 = false := by
  rw [gamma_golden_move_bad_args g p x y]
  rintro ⟨_, _, _, _, h5, _⟩
  rw [hflag] at h5
  exact absurd h5 (by simp)

/-- The golden flag of the player after an accepted golden move. -/
theorem golden_sets_flag {width height players areas : Nat} {g : gamma_t}
    (hinv : Inv width height players areas g) {p x y : Nat}
    (hacc : (gamma_golden_move g p x y).1 = true) :
    ((gamma_golden_move g p x y).2.arr_of_players (p - 1)).golden_performed = true := by
  obtain ⟨hargs, kn, kp, _, _, _, _, heq⟩ := gamma_golden_effect hinv hacc
  obtain ⟨_, _, hne, _, _⟩ := golden_prev_valid hinv hargs
  rw [heq, golden_apply_rec_new _ _ _ _ _ _ _ _ (Ne.symm hne)]

/-- Player 2 has taken field (2, 2) after the golden move of player 1. -/
def demo4 : gamma_t := (gamma_move demo3 2 2 2).2

/-- C11: once `gamma_golden_move(g, p, x, y)` has returned true in a reachable
state, in every state reached afterwards by any gamma_move and
gamma_golden_move calls the golden flag of `p` is set and every call
`gamma_golden_move(g2, p, x2, y2)` returns false. -/
theorem C11_golden_move_once {width height players areas : Nat} {g : gamma_t}
    (hr : Reachable width height players areas g) (p x y : Nat)
    (hacc : (gamma_golden_move g p x y).1 = true) (g2 : gamma_t)
    (hs : Steps (gamma_golden_move g p x y).2 g2) :
    (g2.arr_of_players (p - 1)).golden_performed = true ∧
      ∀ x2 y2, (gamma_golden_move g2 p x2 y2).1 = false := by
  have hflag := steps_keep_flag (Reachable.golden_move g p x y hr) hs (p - 1)
    (golden_sets_flag (reachable_inv hr) hacc)
  exact ⟨hflag, fun x2 y2 => golden_move_flag_set g2 p x2 y2 hflag⟩

/-- C11 on the game `demo2`: player 1 seizes (1, 0), then player 2 moves. -/
theorem C11_witness :
    (demo4.arr_of_players (1 - 1)).golden_performed = true ∧
      ∀ x2 y2, (gamma_golden_move demo4 1 x2 y2).1 = false :=
  C11_golden_move_once demo2_reachable 1 1 0 (by decide) demo4
    (Steps.move _ demo3 2 2 2 (Steps.refl _))

/-- The fresh game of the test `params`. -/
def params0 : gamma_t := new_game 10 10 2 2

/-- The game `big0` after player 2 has taken field (0, 0). -/
def big1 : gamma_t := (gamma_move big0 2 0 0).2

/-- The game `big1` after player 2 has taken field (0, 65535). -/
def big2 : gamma_t := (gamma_move big1 2 0 65535).2

/-- The game `big2` after player 2 has taken field (65535, 0). -/
def big3 : gamma_t := (gamma_move big2 2 65535 0).2

/-- The game `big3` after player 2 has taken field (65535, 65535). -/
def big4 : gamma_t := (gamma_move big3 2 65535 65535).2

/-- C14, evaluated on the game `gamma_new(10, 10, 2, 2)` of the test `params`:
for the player numbers 3 and `UINT32_MAX` the call returns false, for the
player number 0 it reads `arr_of_players[0 - 1]`, that is the record number
4294967295 of an array of 2 records. -/
theorem C14_golden_possible_player_zero :
    gamma_new 10 10 2 2 = some params0 ∧
      gamma_golden_possible params0 3 = some (false, params0) ∧
      gamma_golden_possible params0 4294967295 = some (false, params0) ∧
      sub32 0 1 = 4294967295 ∧ player_at params0 (sub32 0 1) = none ∧
      gamma_golden_possible params0 0 = none :=
  ⟨rfl, rfl, rfl, rfl, rfl, rfl⟩

/-- C16: in every reachable state and for every valid player `p`,
`gamma_busy_fields(g, p)` is the number of fields of the board owned by
`p`. -/
theorem C16_busy_fields {width height players areas : Nat} {g : gamma_t}
    (hr : Reachable width height players areas g) (p : Nat) (hp1 : 1 ≤ p)
    (hp2 : p ≤ players) : gamma_busy_fields g p = some (fields_of g p).card := by
  have hinv := reachable_inv hr
  rw [gamma_busy_fields_valid hinv hp1 hp2, hinv.fields_ok p hp1 hp2]

/-- C16 on the game `demo3`, where player 1 owns (0, 0) and (1, 0). -/
theorem C16_witness :
    gamma_busy_fields demo3 1 = some (fields_of demo3 1).card ∧
      gamma_busy_fields demo3 1 = some 2 :=
  ⟨C16_busy_fields demo3_reachable 1 (by decide) (by decide), by decide⟩

/-- C17: for every game state and every player number that is 0 or greater
than the number of players, `gamma_busy_fields` and `gamma_free_fields`
return 0. -/
theorem C17_invalid_player_queries (g : gamma_t) (player : Nat)
    (h : player = 0 ∨ player > g.n_of_players) :
    gamma_busy_fields g player = some 0 ∧ gamma_free_fields g player = some 0 := by
  constructor
  · unfold gamma_busy_fields
    rw [if_pos (Or.symm h)]
  · unfold gamma_free_fields
    rw [if_pos h]

/-- C17 on the game of the test `params`, for the player numbers 0, 3 and
`UINT32_MAX`. -/
theorem C17_witness :
    (gamma_busy_fields params0 0 = some 0 ∧ gamma_free_fields params0 0 = some 0) ∧
      (gamma_busy_fields params0 3 = some 0 ∧ gamma_free_fields params0 3 = some 0) ∧
      (gamma_busy_fields params0 4294967295 = some 0 ∧
        gamma_free_fields params0 4294967295 = some 0) :=
  ⟨C17_invalid_player_queries params0 0 (Or.inl rfl),
    C17_invalid_player_queries params0 3 (Or.inr (by decide)),
    C17_invalid_player_queries params0 4294967295 (Or.inr (by decide))⟩

/-- C18: in every reachable state, for every valid player `p` and every field
`(x, y)` of the board, the state after `golden_possible_on_field` is the
state before the call, and `gamma_golden_possible(g, p)` returns a flag and
leaves the state as it was (board, player records, free-field counter and
auxiliary array). -/
theorem C18_validation_keeps_state {width height players areas : Nat} {g : gamma_t}
    (hr : Reachable width height players areas g) (p : Nat) (hp1 : 1 ≤ p)
    (hp2 : p ≤ players) (x y : Nat) (hx : x < g.width_x) (hy : y < g.height_y) :
    (golden_possible_on_field g (p - 1) p x y hx hy).2 = g ∧
      ∃ b, gamma_golden_possible g p = some (b, g) := by
  have hinv := reachable_inv hr
  obtain ⟨hwb, hhb⟩ := inv_bounds hinv
  obtain ⟨b, hb, _⟩ := gamma_golden_possible_valid hinv hp1 hp2
  exact ⟨(golden_possible_on_field_spec g (p - 1) p x y hx hy hinv.aux hwb hhb).1, b, hb⟩

/-- C18 on the game `demo2`, for player 1 and the field (1, 0) of player 2. -/
theorem C18_witness :
    (golden_possible_on_field demo2 (1 - 1) 1 1 0 (by decide) (by decide)).2 = demo2 ∧
      ∃ b, gamma_golden_possible demo2 1 = some (b, demo2) :=
  C18_validation_keeps_state demo2_reachable 1 (by decide) (by decide) 1 0 (by decide)
    (by decide)

/-- C19: `gamma_new(width, height, players, areas)` returns NULL exactly when
one of the four arguments is 0 (allocation taken to succeed); the created
state records the four arguments, every field is free, every entry of the
auxiliary array is false and every player record has no fields, no areas
and a clear golden flag. -/
theorem C19_gamma_new (width height players areas : Nat) :
    (gamma_new width height players areas = none ↔
      (width = 0 ∨ height = 0 ∨ players = 0 ∨ areas = 0)) ∧
    ∀ g, gamma_new width height players areas = some g →
      g.width_x = width ∧ g.height_y = height ∧ g.n_of_players = players ∧
      g.n_of_areas = areas ∧ (∀ x y, g.board x y = 0) ∧ (∀ x y, g.auxiliary x y = false) ∧
      ∀ i, (g.arr_of_players i).occupied_fields = 0 ∧
        (g.arr_of_players i).occupied_areas = 0 ∧
        (g.arr_of_players i).golden_performed = false := by
  unfold gamma_new
  by_cases h0 : width = 0 ∨ height = 0 ∨ players = 0 ∨ areas = 0
  · rw [if_pos h0]
    exact ⟨⟨fun _ => h0, fun _ => rfl⟩, fun g hg => absurd hg (by simp)⟩
  · rw [if_neg h0]
    refine ⟨⟨fun h => absurd h (by simp), fun h => absurd h h0⟩, ?_⟩
    intro g hg
    simp only [Option.some.injEq] at hg
    subst hg
    exact ⟨rfl, rfl, rfl, rfl, fun _ _ => rfl, fun _ _ => rfl, fun _ => ⟨rfl, rfl, rfl⟩⟩

/-- C19 on the arguments of the test `params`: `gamma_new(0, 10, 2, 2)` returns
NULL, and `gamma_new(10, 10, 2, 2)` creates the empty game `params0`. -/
theorem C19_witness :
    gamma_new 0 10 2 2 = none ∧ gamma_new 10 10 2 2 = some params0 ∧
      (params0.width_x = 10 ∧ params0.height_y = 10 ∧ params0.n_of_players = 2 ∧
      params0.n_of_areas = 2 ∧ (∀ x y, params0.board x y = 0) ∧
      (∀ x y, params0.auxiliary x y = false) ∧
      ∀ i, (params0.arr_of_players i).occupied_fields = 0 ∧
        (params0.arr_of_players i).occupied_areas = 0 ∧
        (params0.arr_of_players i).golden_performed = false) :=
  ⟨(C19_gamma_new 0 10 2 2).1.2 (Or.inl rfl), rfl, (C19_gamma_new 10 10 2 2).2 params0 rfl⟩

/-- C20, evaluated on the game `gamma_new(2^16, 2^16, 2, 5)` of the test
`big_board`: on the fresh game `gamma_free_fields(g, 2)` is 0, the four corner
moves of player 2 return true, and afterwards `gamma_free_fields(g, 2)` is
2^64 - 4. -/
theorem C20_free_fields_big_board :
    gamma_new 65536 65536 2 5 = some big0 ∧ gamma_free_fields big0 2 = some 0 ∧
      (gamma_move big0 2 0 0).1 = true ∧ (gamma_move big1 2 0 65535).1 = true ∧
      (gamma_move big2 2 65535 0).1 = true ∧ (gamma_move big3 2 65535 65535).1 = true ∧
      gamma_free_fields big4 2 = some 18446744073709551612 ∧
      gamma_free_fields big0 2 ≠ some (65536 * 65536) ∧
      gamma_free_fields big4 2 ≠ some (65536 * 65536 - 4) :=
  ⟨rfl, by decide, by decide, by decide, by decide, by decide, by decide, by decide,
    by decide⟩

/-! ## The free-field counter -/

theorem move_apply_free (g : gamma_t) (player x y v : Nat) :
    (move_apply g player x y v).free_fields = sub64 g.free_fields 1 := by
  unfold move_apply add_field set_areas
  rfl

/-- The free-field counter is a `uint64_t` value that differs from the number
of free fields by the part of `width*height` cut off at creation. -/
def free_ok (width height : Nat) (g : gamma_t) : Prop :=
  g.free_fields < U64 ∧
    (g.free_fields + width * height) % U64
      = ((width * height) % U32 + (fields_of g 0).card) % U64

theorem fields_of_new_game (width height players areas : Nat) :
    (fields_of (new_game width height players areas) 0).card = width * height := by
  have h : fields_of (new_game width height players areas) 0
      = Finset.range width ×ˢ Finset.range height := by
    ext c
    simp [fields_of, new_game]
  rw [h, Finset.card_product, Finset.card_range, Finset.card_range]

theorem free_ok_new (width height players areas : Nat) (g : gamma_t)
    (hnew : gamma_new width height players areas = some g) : free_ok width height g := by
  unfold gamma_new at hnew
  split_ifs at hnew with h0
  simp only [Option.some.injEq] at hnew
  subst hnew
  refine ⟨?_, ?_⟩
  · show (width * height) % U32 < U64
    have := Nat.mod_lt (width * height) (by decide : 0 < U32)
    unfold U32 at this
    unfold U32 U64
    omega
  · rw [fields_of_new_game]
    show ((width * height) % U32 + width * height) % U64 = _
    rfl

theorem free_ok_move {width height players areas : Nat} {g : gamma_t}
    (hinv : Inv width height players areas g) (hfree : free_ok width height g)
    (p x y : Nat) : free_ok width height (gamma_move g p x y).2 := by
  cases hres : (gamma_move g p x y).1
  · rw [gamma_move_reject hinv hres]
    exact hfree
  · obtain ⟨hargs, k, _, _, _, heq⟩ := gamma_move_effect hinv hres
    obtain ⟨h1, h2, h3, h4, h5⟩ := hargs
    have hbs := move_apply_board_set g p x y
      ((g.arr_of_players (p - 1)).occupied_areas + 1 - k)
    have hset : fields_of (gamma_move g p x y).2 0 = (fields_of g 0).erase (x, y) := by
      rw [heq]
      exact fields_of_write_old hbs 0 (by omega)
    have hin : (x, y) ∈ fields_of g 0 := (mem_fields_of g 0 (x, y)).2 ⟨h3, h4, h5⟩
    have hpos : 0 < (fields_of g 0).card := Finset.card_pos.2 ⟨_, hin⟩
    obtain ⟨f1, f2⟩ := hfree
    unfold free_ok
    rw [hset, Finset.card_erase_of_mem hin, heq, move_apply_free]
    generalize width * height = W at f2 ⊢
    generalize (fields_of g 0).card = F at f2 hpos ⊢
    generalize g.free_fields = A at f1 f2 ⊢
    unfold sub64
    unfold U64 U32 at *
    omega

theorem free_ok_golden {width height players areas : Nat} {g : gamma_t}
    (hinv : Inv width height players areas g) (hfree : free_ok width height g)
    (p x y : Nat) : free_ok width height (gamma_golden_move g p x y).2 := by
  cases hres : (gamma_golden_move g p x y).1
  · rw [gamma_golden_reject hinv hres]
    exact hfree
  · obtain ⟨hargs, kn, kp, _, _, _, _, heq⟩ := gamma_golden_effect hinv hres
    obtain ⟨s1, s2, _, _, _, s6, s7⟩ :=
      golden_apply_same g p x y (p - 1) (g.board x y - 1) kn kp
    have hbs : board_set g (gamma_golden_move g p x y).2 x y p := by
      rw [heq]
      exact ⟨s1, s2, s6⟩
    have hset : fields_of (gamma_golden_move g p x y).2 0 = fields_of g 0 :=
      fields_of_write_other hbs 0 (by have := hargs.1; omega) hargs.2.2.2.2.2.1
    unfold free_ok
    rw [hset, heq, s7]
    exact hfree

/-- The free-field counter in every reachable state. -/
theorem reachable_free_ok {width height players areas : Nat} {g : gamma_t}
    (h : Reachable width height players areas g) : free_ok width height g := by
  induction h with
  | new g hw hh hp ha hnew => exact free_ok_new width height players areas g hnew
  | move g player x y hr ih => exact free_ok_move (reachable_inv hr) ih player x y
  | golden_move g player x y hr ih => exact free_ok_golden (reachable_inv hr) ih player x y

/-- On a board of fewer than 2^32 fields the free-field counter is the number
of free fields. -/
theorem free_fields_small {width height players areas : Nat} {g : gamma_t}
    (h : Reachable width height players areas g) (hsmall : width * height < U32) :
    g.free_fields = (fields_of g 0).card := by
  obtain ⟨f1, f2⟩ := reachable_free_ok h
  have hinv := reachable_inv h
  have hle := fields_of_card_le g 0
  rw [hinv.hw, hinv.hh] at hle
  rw [Nat.mod_eq_of_lt hsmall] at f2
  generalize width * height = W at f2 hle hsmall
  generalize (fields_of g 0).card = F at f2 hle ⊢
  generalize g.free_fields = A at f1 f2 ⊢
  unfold U64 U32 at *
  omega

/-! ## gamma_free_fields -/

/-- The answer of `adjacent_owned_by_player` on a field of the board: some
4-neighbour on the board belongs to the player. -/
theorem adjacent_owned_iff (g : gamma_t) (x y player : Nat) (hx : x < g.width_x)
    (hy : y < g.height_y) (hwb : g.width_x ≤ UINT32_MAX) (hhb : g.height_y ≤ UINT32_MAX) :
    adjacent_owned_by_player g x y player = true ↔
      ∃ n, adj (x, y) n ∧ owned g player n := by
  unfold adjacent_owned_by_player
  constructor
  · intro h
    split_ifs at h with h1 h2 h3 h4
    · exact ⟨(x - 1, y), (adj_left x y).2 h1.1, by omega, hy, h1.2⟩
    · exact ⟨(x, y - 1), (adj_down x y).2 h2.1, hx, by omega, h2.2⟩
    · exact ⟨(x + 1, y), adj_right x y, by omega, hy, h3.2.2⟩
    · exact ⟨(x, y + 1), adj_up x y, hx, by omega, h4.2.2⟩
  · rintro ⟨⟨n1, n2⟩, hadj, hn1, hn2, hb⟩
    simp only at hn1 hn2 hb
    simp only [adj] at hadj
    by_cases h1 : x ≠ 0 ∧ g.board (x - 1) y = player
    · rw [if_pos h1]
    rw [if_neg h1]
    by_cases h2 : y ≠ 0 ∧ g.board x (y - 1) = player
    · rw [if_pos h2]
    rw [if_neg h2]
    by_cases h3 : x ≠ UINT32_MAX ∧ x ≠ g.width_x - 1 ∧ g.board (x + 1) y = player
    · rw [if_pos h3]
    rw [if_neg h3]
    by_cases h4 : y ≠ UINT32_MAX ∧ y ≠ g.height_y - 1 ∧ g.board x (y + 1) = player
    · rw [if_pos h4]
    exfalso
    rcases hadj with ⟨e1, e2⟩ | ⟨e1, e2⟩ | ⟨e1, e2⟩ | ⟨e1, e2⟩
    · subst e1 e2
      exact h3 ⟨by omega, by omega, hb⟩
    · subst e2
      have e : n1 = x - 1 := by omega
      subst e
      exact h1 ⟨by omega, hb⟩
    · subst e1 e2
      exact h4 ⟨by omega, by omega, hb⟩
    · subst e1
      have e : n2 = y - 1 := by omega
      subst e
      exact h2 ⟨by omega, hb⟩

/-- The set of fields with the property `P` has `n` elements. -/
def count_is (P : Field → Prop) (n : Nat) : Prop :=
  ∃ S : Finset Field, (∀ c, c ∈ S ↔ P c) ∧ S.card = n

theorem count_is_unique {P : Field → Prop} {n m : Nat} (h1 : count_is P n)
    (h2 : count_is P m) : n = m := by
  obtain ⟨S1, hS1, rfl⟩ := h1
  obtain ⟨S2, hS2, rfl⟩ := h2
  have : S1 = S2 := by
    ext c
    rw [hS1, hS2]
  rw [this]

theorem count_is_congr {P Q : Field → Prop} (h : ∀ c, P c ↔ Q c) {n : Nat}
    (hP : count_is P n) : count_is Q n := by
  obtain ⟨S, hS, hn⟩ := hP
  exact ⟨S, fun c => (hS c).trans (h c), hn⟩

theorem board_fields_nodup (g : gamma_t) : (board_fields g).Nodup :=
  List.Nodup.product (List.nodup_range _) (List.nodup_range _)

theorem mem_board_fields (g : gamma_t) (c : Field) :
    c ∈ board_fields g ↔ c.1 < g.width_x ∧ c.2 < g.height_y := by
  obtain ⟨c1, c2⟩ := c
  simp [board_fields, List.pair_mem_product]

theorem board_fields_length (g : gamma_t) :
    (board_fields g).length = g.width_x * g.height_y := by
  have h := List.length_product (List.range g.width_x) (List.range g.height_y)
  rw [List.length_range, List.length_range] at h
  exact h

theorem count_loop (P : Field → Bool) (l : List Field) (a : Nat) :
    l.foldl (fun res c => if P c = true then add32 res 1 else res) (a % U32)
      = (a + l.countP P) % U32 := by
  induction l generalizing a with
  | nil => simp
  | cons c rest ih =>
    simp only [List.foldl_cons, List.countP_cons]
    by_cases hc : P c = true
    · rw [if_pos hc]
      simp only [hc, if_true]
      have : add32 (a % U32) 1 = (a + 1) % U32 := by
        unfold add32
        rw [Nat.add_mod, Nat.mod_mod, ← Nat.add_mod]
      rw [this, ih]
      congr 1
      omega
    · rw [if_neg hc]
      simp only [hc]
      rw [ih]
      simp

/-- The result of `fields_adjacent_to_player` on a board of fewer than 2^32
fields: the number of free fields with a 4-neighbour of the player. -/
theorem fields_adjacent_count (g : gamma_t) (player : Nat)
    (hsmall : g.width_x * g.height_y < U32) (hwb : g.width_x ≤ UINT32_MAX)
    (hhb : g.height_y ≤ UINT32_MAX) :
    count_is (fun c => owned g 0 c ∧ ∃ n, adj c n ∧ owned g player n)
      (fields_adjacent_to_player g player) := by
  let P : Field → Bool := fun c =>
    decide (g.board c.1 c.2 = 0 ∧ adjacent_owned_by_player g c.1 c.2 player = true)
  have hfold : fields_adjacent_to_player g player = (board_fields g).countP P := by
    have h := count_loop P (board_fields g) 0
    have hle : (board_fields g).countP P ≤ (board_fields g).length := List.countP_le_length _
    rw [board_fields_length] at hle
    rw [Nat.zero_mod, Nat.zero_add, Nat.mod_eq_of_lt (by omega)] at h
    rw [← h]
    unfold fields_adjacent_to_player
    congr 1
    funext res c
    simp only [P, decide_eq_true_eq]
  refine ⟨((board_fields g).filter P).toFinset, ?_, ?_⟩
  · intro c
    rw [List.mem_toFinset, List.mem_filter, mem_board_fields]
    simp only [P, decide_eq_true_eq, owned]
    constructor
    · rintro ⟨⟨h1, h2⟩, h3, h4⟩
      exact ⟨⟨h1, h2, h3⟩, (adjacent_owned_iff g c.1 c.2 player h1 h2 hwb hhb).1 h4⟩
    · rintro ⟨⟨h1, h2, h3⟩, h4⟩
      exact ⟨⟨h1, h2⟩, h3, (adjacent_owned_iff g c.1 c.2 player h1 h2 hwb hhb).2 h4⟩
  · rw [List.toFinset_card_of_nodup ((board_fields_nodup g).filter _), hfold,
      List.countP_eq_length_filter]

/-- C15: in every reachable state of a game with `width*height < 2^32` and for
every valid player `p`, `gamma_free_fields(g, p)` is the number of fields on
which `gamma_move(g, p, x, y)` would return true; that is the number of free
fields with a 4-neighbour of `p` when `p` is at the area limit, and the number
of all free fields otherwise. -/
theorem C15_free_fields {width height players areas : Nat} {g : gamma_t}
    (hr : Reachable width height players areas g) (hsmall : width * height < 4294967296)
    (p : Nat) (hp1 : 1 ≤ p) (hp2 : p ≤ players) :
    ∃ n, gamma_free_fields g p = some n ∧
      count_is (fun c => (gamma_move g p c.1 c.2).1 = true) n ∧
      ((g.arr_of_players (p - 1)).occupied_areas = areas →
        count_is (fun c => owned g 0 c ∧ ∃ m, adj c m ∧ owned g p m) n) ∧
      ((g.arr_of_players (p - 1)).occupied_areas ≠ areas → count_is (owned g 0) n) := by
  have hinv := reachable_inv hr
  obtain ⟨hwb, hhb⟩ := inv_bounds hinv
  have hsm : g.width_x * g.height_y < U32 := by rw [hinv.hw, hinv.hh]; exact hsmall
  have hmove : ∀ c : Field, (gamma_move g p c.1 c.2).1 = true ↔
      (owned g 0 c ∧ ((∃ m, adj c m ∧ owned g p m) ∨
        (g.arr_of_players (p - 1)).occupied_areas < areas)) := by
    intro c
    rw [gamma_move_accept_iff hinv, move_args_ok, hinv.hp]
    unfold owned
    constructor
    · rintro ⟨⟨_, _, h3, h4, h5⟩, h6⟩
      exact ⟨⟨h3, h4, h5⟩, h6⟩
    · rintro ⟨⟨h3, h4, h5⟩, h6⟩
      exact ⟨⟨hp1, hp2, h3, h4, h5⟩, h6⟩
  have hle := hinv.areas_le p hp1 hp2
  rw [gamma_free_fields_valid hinv hp1 hp2, hinv.ha]
  by_cases hcap : (g.arr_of_players (p - 1)).occupied_areas = areas
  · rw [if_pos hcap]
    have hcount := fields_adjacent_count g p hsm hwb hhb
    refine ⟨_, rfl, ?_, fun _ => hcount, fun h => absurd hcap h⟩
    refine count_is_congr (fun c => ?_) hcount
    rw [hmove c]
    constructor
    · rintro ⟨h1, h2⟩
      exact ⟨h1, Or.inl h2⟩
    · rintro ⟨h1, h2 | h2⟩
      · exact ⟨h1, h2⟩
      · omega
  · rw [if_neg hcap]
    have hcount : count_is (owned g 0) g.free_fields :=
      ⟨fields_of g 0, fun c => mem_fields_of g 0 c, (free_fields_small hr hsmall).symm⟩
    refine ⟨_, rfl, ?_, fun h => absurd h hcap, fun _ => hcount⟩
    refine count_is_congr (fun c => ?_) hcount
    rw [hmove c]
    constructor
    · intro h1
      exact ⟨h1, Or.inr (by omega)⟩
    · rintro ⟨h1, _⟩
      exact h1

/-- C15 on the game `cap2`, where player 1 owns (0, 0) and is at the area
limit: two fields are open to player 1. -/
theorem C15_witness :
    (∃ n, gamma_free_fields cap2 1 = some n ∧
      count_is (fun c => (gamma_move cap2 1 c.1 c.2).1 = true) n ∧
      ((cap2.arr_of_players (1 - 1)).occupied_areas = 1 →
        count_is (fun c => owned cap2 0 c ∧ ∃ m, adj c m ∧ owned cap2 1 m) n) ∧
      ((cap2.arr_of_players (1 - 1)).occupied_areas ≠ 1 → count_is (owned cap2 0) n)) ∧
      gamma_free_fields cap2 1 = some 2 :=
  ⟨C15_free_fields cap2_reachable (by decide) 1 (by decide) (by decide), by decide⟩

/-- The second game of the test `golden_possible`: `gamma_new(9, 9, 2, 2)`. -/
def gp0 : gamma_t := new_game 9 9 2 2

/-- Player 2 has taken field (1, 1). -/
def gp1 : gamma_t := (gamma_move gp0 2 1 1).2

/-- Player 2 has taken field (1, 2). -/
def gp2 : gamma_t := (gamma_move gp1 2 1 2).2

/-- Player 2 has taken field (1, 3). -/
def gp3 : gamma_t := (gamma_move gp2 2 1 3).2

/-- Player 1 has taken field (5, 4). -/
def gp4 : gamma_t := (gamma_move gp3 1 5 4).2

/-- Player 1 has taken field (4, 5) and owns two areas, the area limit. -/
def gp5 : gamma_t := (gamma_move gp4 1 4 5).2

theorem gp5_reachable : Reachable 9 9 2 2 gp5 :=
  Reachable.move gp4 1 4 5 (Reachable.move gp3 1 5 4 (Reachable.move gp2 2 1 3
    (Reachable.move gp1 2 1 2 (Reachable.move gp0 2 1 1
      (Reachable.new gp0 (by decide) (by decide) (by decide) (by decide) rfl)))))

theorem gp5_no_contact :
    ∀ x, x < 9 → ∀ y, y < 9 → gp5.board x y ≠ 0 → gp5.board x y ≠ 1 →
      adjacent_owned_by_player gp5 x y 1 = false := by
  decide

/-- A player at the area limit cannot seize a field that has no neighbour of
the player. -/
theorem golden_move_needs_contact {width height players areas : Nat} {g : gamma_t}
    (hinv : Inv width height players areas g) {p x y : Nat}
    (hcap : (g.arr_of_players (p - 1)).occupied_areas = areas)
    (hacc : (gamma_golden_move g p x y).1 = true) :
    adjacent_owned_by_player g x y p = true := by
  obtain ⟨hwb, hhb⟩ := inv_bounds hinv
  obtain ⟨hargs, _, k_new, _, hkn, _, hno⟩ := (gamma_golden_accept_iff hinv p x y).1 hacc
  have hk : k_new ≠ 0 := fun h => hno ⟨h, hcap⟩
  have hex : ∃ n, adj (x, y) n ∧ owned (set_board g x y 0) p n := by
    by_contra hnone
    exact hk ((adj_area_count_zero hkn).2 hnone)
  obtain ⟨n, hn1, hn2⟩ := hex
  have hp0 : p ≠ 0 := by have := hargs.1; omega
  rw [adjacent_owned_iff g x y p hargs.2.2.1 hargs.2.2.2.1 hwb hhb]
  exact ⟨n, hn1, ((owned_write_old (set_board_board_set g x y 0) p hp0 n).1 hn2).1⟩

/-- C13, evaluated on the second game of the test `golden_possible`
(`gamma_new(9, 9, 2, 2)`, player 2 on (1, 1), (1, 2), (1, 3), player 1 on
(5, 4), (4, 5)): player 1 has not used the golden move and fields of player 2
exist, and `gamma_golden_possible(g, 1)` returns false. -/
theorem C13_golden_possible_test_game :
    Reachable 9 9 2 2 gp5 ∧ (gp5.arr_of_players (1 - 1)).golden_performed = false ∧
      gp5.board 1 1 = 2 ∧ gp5.board 1 2 = 2 ∧ gp5.board 1 3 = 2 ∧
      gamma_golden_possible gp5 1 = some (false, gp5) := by
  refine ⟨gp5_reachable, by decide, by decide, by decide, by decide, ?_⟩
  have hinv := reachable_inv gp5_reachable
  obtain ⟨b, hb, hiff⟩ := gamma_golden_possible_valid hinv (by decide : 1 ≤ 1)
    (by decide : 1 ≤ 2)
  cases b
  · exact hb
  · exfalso
    obtain ⟨_, _, x, y, hxy⟩ := hiff.1 rfl
    have hcontact := golden_move_needs_contact hinv (by decide) hxy
    obtain ⟨hargs, _⟩ := gamma_golden_effect hinv hxy
    have := gp5_no_contact x hargs.2.2.1 y hargs.2.2.2.1 hargs.2.2.2.2.2.1
      hargs.2.2.2.2.2.2
    rw [hcontact] at this
    exact absurd this (by simp)

/-! ## A game on the largest board -/

/-- The game `gamma_new(UINT32_MAX, UINT32_MAX, UINT32_MAX, UINT32_MAX)` of the
test `big_board` after player 2 has taken the first `n` fields in the order
(0, 0), (1, 0), ..., (4294967294, 0), (0, 1), (1, 1), ... -/
def snake : Nat → gamma_t
  | 0 => new_game 4294967295 4294967295 4294967295 4294967295
  | n + 1 => (gamma_move (snake n) 2 (n % 4294967295) (n / 4294967295)).2

theorem snake_reachable (n : Nat) :
    Reachable 4294967295 4294967295 4294967295 4294967295 (snake n) := by
  induction n with
  | zero =>
    exact Reachable.new _ (by decide) (by decide) (by decide) (by decide) rfl
  | succ n ih => exact Reachable.move (snake n) 2 (n % 4294967295) (n / 4294967295) ih

/-- The state of the game `snake n`. -/
structure snake_state (n : Nat) (g : gamma_t) : Prop where
  board : ∀ x y, g.board x y = if x < 4294967295 ∧ y * 4294967295 + x < n then 2 else 0
  rec1 : g.arr_of_players 0 = (⟨0, 0, false⟩ : player_t)
  occ2 : (g.arr_of_players 1).occupied_areas ≤ 1 ∧ (g.arr_of_players 1).occupied_areas ≤ n
  free : g.free_fields = (18446744073709551617 - n) % 18446744073709551616

theorem snake_state_zero :
    snake_state 0 (new_game 4294967295 4294967295 4294967295 4294967295) := by
  refine ⟨?_, rfl, ⟨Nat.zero_le _, Nat.le_refl _⟩, by decide⟩
  intro x y
  rw [if_neg (by omega)]
  rfl

theorem snake_state_succ {n : Nat} {g : gamma_t}
    (hinv : Inv 4294967295 4294967295 4294967295 4294967295 g) (hs : snake_state n g)
    (hn : n < 8589934592) :
    snake_state (n + 1) (gamma_move g 2 (n % 4294967295) (n / 4294967295)).2 := by
  obtain ⟨hboard, hrec1, ⟨hocc1, hocc2⟩, hfree⟩ := hs
  have hw := hinv.hw
  have hh := hinv.hh
  have hp := hinv.hp
  have hfield : g.board (n % 4294967295) (n / 4294967295) = 0 := by
    rw [hboard, if_neg (by omega)]
  have hargs : move_args_ok g 2 (n % 4294967295) (n / 4294967295) :=
    ⟨by omega, by omega, by omega, by omega, hfield⟩
  have hocc3 : (g.arr_of_players (2 - 1)).occupied_areas ≤ 1 := hocc1
  have hacc : (gamma_move g 2 (n % 4294967295) (n / 4294967295)).1 = true :=
    (gamma_move_accept_iff hinv 2 _ _).2 ⟨hargs, Or.inr (by omega)⟩
  obtain ⟨_, k, hk, hk1, _, heq⟩ := gamma_move_effect hinv hacc
  have hk0 : 1 ≤ n → k ≠ 0 := by
    intro hn1 hk0
    apply (adj_area_count_zero hk).1 hk0
    by_cases hx : n % 4294967295 = 0
    · refine ⟨(n % 4294967295, n / 4294967295 - 1),
        (adj_down _ _).2 (by omega), by show _ < g.width_x; omega,
        by show _ < g.height_y; omega, ?_⟩
      show g.board _ _ = 2
      rw [hboard, if_pos (by omega)]
    · refine ⟨(n % 4294967295 - 1, n / 4294967295),
        (adj_left _ _).2 hx, by show _ < g.width_x; omega,
        by show _ < g.height_y; omega, ?_⟩
      show g.board _ _ = 2
      rw [hboard, if_pos (by omega)]
  obtain ⟨_, _, _, _, _, s6⟩ := move_apply_same g 2 (n % 4294967295) (n / 4294967295)
    ((g.arr_of_players (2 - 1)).occupied_areas + 1 - k)
  rw [heq]
  refine ⟨?_, ?_, ?_, ?_⟩
  · intro x y
    rw [s6]
    unfold write2
    by_cases hxy : x = n % 4294967295 ∧ y = n / 4294967295
    · rw [if_pos hxy, if_pos (by omega)]
    · rw [if_neg hxy, hboard]
      by_cases hlt : x < 4294967295 ∧ y * 4294967295 + x < n
      · rw [if_pos hlt, if_pos (by omega)]
      · rw [if_neg hlt, if_neg (by omega)]
  · rw [move_apply_rec_other _ _ _ _ _ 0 (by omega)]
    exact hrec1
  · have hself := move_apply_rec_self g 2 (n % 4294967295) (n / 4294967295)
      ((g.arr_of_players (2 - 1)).occupied_areas + 1 - k)
    have h21 : (2 : Nat) - 1 = 1 := rfl
    rw [h21] at hself hk1
    rw [hself]
    show (g.arr_of_players 1).occupied_areas + 1 - k ≤ 1 ∧
      (g.arr_of_players 1).occupied_areas + 1 - k ≤ n + 1
    by_cases hn0 : n = 0
    · omega
    · have := hk0 (by omega)
      omega
  · rw [move_apply_free, hfree]
    unfold sub64 U64
    omega

theorem snake_has_state (n : Nat) (hn : n ≤ 8589934592) : snake_state n (snake n) := by
  induction n with
  | zero => exact snake_state_zero
  | succ n ih =>
    exact snake_state_succ (reachable_inv (snake_reachable n)) (ih (by omega)) (by omega)

/-- In the game `snake 2^33` the value `occupied_by_others` of player 1 is 0
although player 1 can seize field (0, 0). -/
theorem snake_end {g : gamma_t}
    (hr : Reachable 4294967295 4294967295 4294967295 4294967295 g)
    (hs : snake_state 8589934592 g) :
    (g.arr_of_players (1 - 1)).golden_performed = false ∧
      (gamma_golden_move g 1 0 0).1 = true ∧ others_value g 1 = 0 ∧
      gamma_golden_possible g 1 = some (false, g) := by
  have hinv := reachable_inv hr
  obtain ⟨hwb, hhb⟩ := inv_bounds hinv
  obtain ⟨hboard, hrec1, ⟨hocc1, _⟩, hfree⟩ := hs
  have h11 : (1 : Nat) - 1 = 0 := rfl
  have hflag : (g.arr_of_players (1 - 1)).golden_performed = false := by
    rw [h11, hrec1]
  have hb00 : g.board 0 0 = 2 := by
    rw [hboard, if_pos (by omega)]
  have hmove : (gamma_golden_move g 1 0 0).1 = true := by
    rw [gamma_golden_accept_iff hinv]
    have hx : 0 < g.width_x := by rw [hinv.hw]; decide
    have hy : 0 < g.height_y := by rw [hinv.hh]; decide
    have haux1 := set_board_aux_clear g 0 0 0 hinv.aux
    obtain ⟨kp, hkp⟩ : ∃ kp, adj_area_count (owned (set_board g 0 0 0) (g.board 0 0))
        (0, 0) kp :=
      ⟨_, adjacent_player_areas_count (set_board g 0 0 0) 0 0 (g.board 0 0) hx hy
        haux1 hwb hhb⟩
    obtain ⟨kn, hkn⟩ : ∃ kn, adj_area_count (owned (set_board g 0 0 0) 1) (0, 0) kn :=
      ⟨_, adjacent_player_areas_count (set_board g 0 0 0) 0 0 1 hx hy haux1 hwb hhb⟩
    have hk4 := adj_area_count_le hkp
    refine ⟨⟨by decide, by rw [hinv.hp]; decide, hx, hy, hflag, by rw [hb00]; decide,
      by rw [hb00]; decide⟩, kp, kn, hkp, hkn, ?_, ?_⟩
    · rw [hb00]
      have h21 : (2 : Nat) - 1 = 1 := rfl
      rw [h21]
      omega
    · rw [h11, hrec1]
      rintro ⟨_, h⟩
      exact absurd h (by decide)
  have hzero : others_value g 1 = 0 := by
    unfold others_value
    rw [h11, hinv.hw, hinv.hh, hfree, hrec1]
    decide
  obtain ⟨b, hb, hiff⟩ := gamma_golden_possible_valid hinv (by decide : 1 ≤ 1)
    (by decide : 1 ≤ 4294967295)
  refine ⟨hflag, hmove, hzero, ?_⟩
  cases b
  · exact hb
  · exact absurd hzero (hiff.1 rfl).2.1

/-- With allocation taken to succeed for every size, on the game
`gamma_new(UINT32_MAX, UINT32_MAX, UINT32_MAX, UINT32_MAX)` after player 2 has
taken the first 2^33 fields in row order, player 1 has not used the golden move
and `gamma_golden_move(g, 1, 0, 0)` would return true, and
`gamma_golden_possible(g, 1)` returns false, because the value
`occupied_by_others` is 0.  The cells of this board take `4 * (2^32 - 1)^2`
bytes, more than a 64-bit address space holds, so `new_board` cannot build
it; the bound on the number of fields in `golden_possible_iff_below` cannot be
dropped in the model, and holds for every board that fits in memory. -/
theorem golden_possible_largest_board :
    Reachable 4294967295 4294967295 4294967295 4294967295 (snake 8589934592) ∧
      ((snake 8589934592).arr_of_players (1 - 1)).golden_performed = false ∧
      (gamma_golden_move (snake 8589934592) 1 0 0).1 = true ∧
      others_value (snake 8589934592) 1 = 0 ∧
      gamma_golden_possible (snake 8589934592) 1 = some (false, snake 8589934592) :=
  ⟨snake_reachable 8589934592,
    snake_end (snake_reachable 8589934592) (snake_has_state 8589934592 (Nat.le_refl _))⟩

/-! ## gamma_golden_possible on boards of fewer than 2^63 fields -/

theorem fields_of_disjoint (g : gamma_t) {a b : Nat} (h : a ≠ b) :
    Disjoint (fields_of g a) (fields_of g b) := by
  rw [Finset.disjoint_left]
  intro c h1 h2
  rw [mem_fields_of] at h1 h2
  exact h (h1.2.2.symm.trans h2.2.2)

/-- The fields of three different owners are different fields of the board. -/
theorem fields_of_three_le (g : gamma_t) {a b c : Nat} (hab : a ≠ b) (hac : a ≠ c)
    (hbc : b ≠ c) :
    (fields_of g a).card + (fields_of g b).card + (fields_of g c).card
      ≤ g.width_x * g.height_y := by
  have hsub : fields_of g a ∪ fields_of g b ∪ fields_of g c
      ⊆ Finset.range g.width_x ×ˢ Finset.range g.height_y := by
    intro u hu
    simp only [Finset.mem_union, mem_fields_of] at hu
    rw [Finset.mem_product, Finset.mem_range, Finset.mem_range]
    rcases hu with (h | h) | h <;> exact ⟨h.1, h.2.1⟩
  have hd : Disjoint (fields_of g a ∪ fields_of g b) (fields_of g c) := by
    rw [Finset.disjoint_union_left]
    exact ⟨fields_of_disjoint g hac, fields_of_disjoint g hbc⟩
  have hcard := Finset.card_le_card hsub
  rw [Finset.card_union_of_disjoint hd,
    Finset.card_union_of_disjoint (fields_of_disjoint g hab), Finset.card_product,
    Finset.card_range, Finset.card_range] at hcard
  exact hcard

/-- On a board of fewer than 2^63 fields the value `occupied_by_others` is not 0
when a field belongs to another player. -/
theorem others_value_pos {width height players areas : Nat} {g : gamma_t}
    (hr : Reachable width height players areas g)
    (hsmall : width * height < 9223372036854775808) {p : Nat} (hp1 : 1 ≤ p)
    (hp2 : p ≤ players) {x y : Nat} (hx : x < g.width_x) (hy : y < g.height_y)
    (h0 : g.board x y ≠ 0) (hne : g.board x y ≠ p) : others_value g p ≠ 0 := by
  have hinv := reachable_inv hr
  obtain ⟨f1, f2⟩ := reachable_free_ok hr
  have hthree := fields_of_three_le g (Ne.symm (Nat.pos_iff_ne_zero.1 hp1)) (Ne.symm h0)
    (Ne.symm hne)
  have hq : 0 < (fields_of g (g.board x y)).card :=
    Finset.card_pos.2 ⟨(x, y), (mem_fields_of g _ (x, y)).2 ⟨hx, hy, rfl⟩⟩
  unfold others_value
  rw [hinv.fields_ok p hp1 hp2, hinv.hw, hinv.hh]
  rw [hinv.hw, hinv.hh] at hthree
  have hmod := Nat.mod_le (width * height) U32
  generalize width * height = W at f2 hthree hsmall hmod ⊢
  generalize (width * height) % U32 = R at f2 hmod
  generalize (fields_of g 0).card = F at f2 hthree
  generalize (fields_of g p).card = P at hthree ⊢
  generalize (fields_of g (g.board x y)).card = Q at hthree hq
  generalize g.free_fields = A at f1 f2 ⊢
  unfold sub64
  unfold U64 at *
  omega

/-- On a board of fewer than 2^63 fields, in every reachable state and for
every valid player, `gamma_golden_possible` returns true exactly when the
player has not used the golden move and `gamma_golden_move` would return
true on some field. -/
theorem golden_possible_iff_below {width height players areas : Nat} {g : gamma_t}
    (hr : Reachable width height players areas g)
    (hsmall : width * height < 9223372036854775808) {p : Nat} (hp1 : 1 ≤ p)
    (hp2 : p ≤ players) :
    ∃ b, gamma_golden_possible g p = some (b, g) ∧
      (b = true ↔ ((g.arr_of_players (p - 1)).golden_performed = false ∧
        ∃ x y, (gamma_golden_move g p x y).1 = true)) := by
  have hinv := reachable_inv hr
  obtain ⟨b, hb, hiff⟩ := gamma_golden_possible_valid hinv hp1 hp2
  refine ⟨b, hb, ?_⟩
  rw [hiff]
  constructor
  · rintro ⟨h1, _, h3⟩
    exact ⟨h1, h3⟩
  · rintro ⟨h1, x, y, hxy⟩
    obtain ⟨hargs, _⟩ := gamma_golden_effect hinv hxy
    obtain ⟨_, _, hx, hy, _, h6, h7⟩ := hargs
    exact ⟨h1, others_value_pos hr hsmall hp1 hp2 hx hy h6 h7, x, y, hxy⟩

/-- C12: in every reachable state and for every valid player `p`,
`gamma_golden_possible(g, p)` leaves the state as it was and returns true
exactly when `p` has not used the golden move and
`gamma_golden_move(g, p, x, y)` would return true for some field `(x, y)`.
The board has fewer than 2^63 fields, as every board has that `gamma_new` can
allocate: its `uint32_t` cells alone take `4 * width * height` bytes of a
64-bit address space. -/
theorem C12_golden_possible_iff {width height players areas : Nat} {g : gamma_t}
    (hr : Reachable width height players areas g)
    (hsmall : width * height < 9223372036854775808) (p : Nat) (hp1 : 1 ≤ p)
    (hp2 : p ≤ players) :
    ∃ b, gamma_golden_possible g p = some (b, g) ∧
      (b = true ↔ ((g.arr_of_players (p - 1)).golden_performed = false ∧
        ∃ x y, (gamma_golden_move g p x y).1 = true)) :=
  golden_possible_iff_below hr hsmall hp1 hp2

/-- C12 on the game `demo2`, where player 1 can seize field (1, 0) of player 2,
and on the game `demo3`, where player 1 has used the golden move. -/
theorem C12_witness :
    gamma_golden_possible demo2 1 = some (true, demo2) ∧
      gamma_golden_possible demo3 1 = some (false, demo3) := by
  obtain ⟨b, hb, hiff⟩ := C12_golden_possible_iff demo2_reachable (by decide) 1 (by decide)
    (by decide)
  obtain ⟨c, hc, hciff⟩ := C12_golden_possible_iff demo3_reachable (by decide) 1 (by decide)
    (by decide)
  have hbt : b = true := hiff.2 ⟨by decide, 1, 0, by decide⟩
  have hcf : c = false := by
    cases c
    · rfl
    · exact absurd (hciff.1 rfl).1 (by decide)
  rw [hbt] at hb
  rw [hcf] at hc
  exact ⟨hb, hc⟩

/-! ## The connectivity search as seen by its callers -/

/-- A chain of links inside `S` is a chain of neighbouring fields that all
lie in `S`. -/
theorem chain_link_iff (S : Field → Prop) (l : List Field) (a : Field) (ha : S a) :
    List.Chain (link S) a l ↔ List.Chain adj a l ∧ ∀ c ∈ l, S c := by
  induction l generalizing a with
  | nil => simp
  | cons b rest ih =>
    constructor
    · intro h
      rw [List.chain_cons] at h
      obtain ⟨hab, hrest⟩ := h
      have := (ih b hab.2.2).1 hrest
      refine ⟨List.chain_cons.2 ⟨hab.1, this.1⟩, ?_⟩
      intro c hc
      rcases List.mem_cons.1 hc with h1 | h1
      · rw [h1]
        exact hab.2.2
      · exact this.2 c h1
    · rintro ⟨h1, h2⟩
      rw [List.chain_cons] at h1
      have hb : S b := h2 b (List.mem_cons_self _ _)
      exact List.chain_cons.2 ⟨⟨h1.1, ha, hb⟩,
        (ih b hb).2 ⟨h1.2, fun c hc => h2 c (List.mem_cons_of_mem _ hc)⟩⟩

/-- Two fields are joined inside `S` exactly when a sequence of pairwise
adjacent fields of `S` leads from the first to the second. -/
theorem conn_iff_path (S : Field → Prop) (a b : Field) (ha : S a) :
    conn S a b ↔ ∃ l : List Field, List.Chain adj a l ∧ (∀ c ∈ l, S c) ∧
      (a :: l).getLast (List.cons_ne_nil _ _) = b := by
  constructor
  · intro h
    obtain ⟨l, hl, hlast⟩ := List.exists_chain_of_relationReflTransGen h
    have := (chain_link_iff S l a ha).1 hl
    exact ⟨l, this.1, this.2, hlast⟩
  · rintro ⟨l, h1, h2, h3⟩
    exact List.relationReflTransGen_of_exists_chain l ((chain_link_iff S l a ha).2 ⟨h1, h2⟩) h3

/-- After `reachable` the auxiliary array is false on the whole board. -/
theorem reachable_aux_cleared (g : gamma_t) (x1 y1 x2 y2 player : Nat) (hx : x1 < g.width_x)
    (hy : y1 < g.height_y) (i j : Nat) (hi : i < g.width_x) (hj : j < g.height_y) :
    (reachable g x1 y1 x2 y2 player hx hy).2.auxiliary i j = false := by
  have h := reachable_aux_frame g (queue_push [] x1 y1) x2 y2 player
    (queue_ok_single g x1 y1 hx hy)
  simp only [reachable, clear_aux]
  rw [h.1.1, h.1.2.1, if_pos ⟨hi, hj⟩]

/-- The result of an accepted `gamma_golden_move` as the source computes it:
the area count of the player is taken by `adjacent_player_areas` on the state
left by the validation, where the field belongs to its previous owner
again. -/
theorem gamma_golden_move_recount (g : gamma_t) (player x y : Nat) (haux : aux_clear g)
    (hwb : g.width_x ≤ UINT32_MAX) (hhb : g.height_y ≤ UINT32_MAX)
    (h : golden_args_ok g player x y)
    (hcan : (golden_possible_on_field g (player - 1) player x y h.2.2.1 h.2.2.2.1).1 = true) :
    gamma_golden_move g player x y =
      (true, golden_apply g player x y (player - 1) (g.board x y - 1)
        (adjacent_player_areas g x y player h.2.2.1 h.2.2.2.1).1
        (adjacent_player_areas (set_board g x y 0) x y (g.board x y) h.2.2.1 h.2.2.2.1).1) := by
  obtain ⟨h1, h2, h3, h4, h5, h6, h7⟩ := h
  have haux1 := set_board_aux_clear g x y 0 haux
  have hst1 := (adjacent_player_areas_spec (set_board g x y 0) x y (g.board x y) h3 h4 haux1
    hwb hhb).1
  have hgp := golden_possible_on_field_spec g (player - 1) player x y h3 h4 haux hwb hhb
  have hst3 := (adjacent_player_areas_spec g x y player h3 h4 haux hwb hhb).1
  unfold gamma_golden_move
  rw [if_neg (by omega), dif_neg (by omega)]
  simp only [h5, Bool.false_eq_true, if_false]
  rw [if_neg (by tauto)]
  simp only [hst1, set_board_restore, hgp.1, hst3]
  rw [if_pos hcan]

/-- C26: on a board with a clear auxiliary array, for every player `p` and
every field `(x, y)` of the board, `adjacent_player_areas(g, x, y, p)` is the
number of distinct areas of `p` that contain a 4-neighbour of `(x, y)`: any
choice of one neighbour out of each such area has that many elements,
whatever the order of the neighbours. -/
theorem C26_adjacent_player_areas (g : gamma_t) (x y p : Nat) (hx : x < g.width_x)
    (hy : y < g.height_y) (haux : aux_clear g) (hwb : g.width_x ≤ UINT32_MAX)
    (hhb : g.height_y ≤ UINT32_MAX) :
    adj_area_count (owned g p) (x, y) (adjacent_player_areas g x y p hx hy).1 ∧
      ∀ L : Finset Field, IsAdjReps (owned g p) (x, y) L →
        L.card = (adjacent_player_areas g x y p hx hy).1 := by
  have h := adjacent_player_areas_count g x y p hx hy haux hwb hhb
  exact ⟨h, fun L hL => adj_area_count_unique ⟨L, hL, rfl⟩ h⟩

/-- C26 on the game `demo3` (player 1 owns (0, 0) and (1, 0)) at the free field
(1, 1). -/
theorem C26_witness :
    adj_area_count (owned demo3 1) (1, 1)
        (adjacent_player_areas demo3 1 1 1 (by decide) (by decide)).1 ∧
      ∀ L : Finset Field, IsAdjReps (owned demo3 1) (1, 1) L →
        L.card = (adjacent_player_areas demo3 1 1 1 (by decide) (by decide)).1 :=
  C26_adjacent_player_areas demo3 1 1 1 (by decide) (by decide)
    (reachable_inv demo3_reachable).aux (by decide) (by decide)

/-- C27: on a board with a clear auxiliary array, for a start field of the
board owned by `p`, `reachable(g, start, target, p)` returns true exactly when
a sequence of pairwise 4-adjacent fields, all owned by `p`, leads from the
start to the target. -/
theorem C27_reachable_iff_path (g : gamma_t) (x1 y1 x2 y2 p : Nat) (hx : x1 < g.width_x)
    (hy : y1 < g.height_y) (haux : aux_clear g) (hwb : g.width_x ≤ UINT32_MAX)
    (hhb : g.height_y ≤ UINT32_MAX) (hown : g.board x1 y1 = p) :
    (reachable g x1 y1 x2 y2 p hx hy).1 = true ↔
      ∃ l : List Field, List.Chain adj (x1, y1) l ∧ (∀ c ∈ l, owned g p c) ∧
        ((x1, y1) :: l).getLast (List.cons_ne_nil _ _) = (x2, y2) := by
  rw [reachable_correct g x1 y1 x2 y2 p hx hy haux hwb hhb hown]
  exact conn_iff_path (owned g p) (x1, y1) (x2, y2) ⟨hx, hy, hown⟩

/-- C27 on the game `demo3`, from (0, 0) to (1, 0), both owned by player 1. -/
theorem C27_witness :
    (reachable demo3 0 0 1 0 1 (by decide) (by decide)).1 = true ↔
      ∃ l : List Field, List.Chain adj (0, 0) l ∧ (∀ c ∈ l, owned demo3 1 c) ∧
        ((0, 0) :: l).getLast (List.cons_ne_nil _ _) = (1, 0) :=
  C27_reachable_iff_path demo3 0 0 1 0 1 (by decide) (by decide)
    (reachable_inv demo3_reachable).aux (by decide) (by decide) (by decide)

/-- C28: after a call of `reachable`, whatever it returns, every entry of the
auxiliary array on the board is false and the board, the player records and
the counters are as before; in a reachable state the auxiliary array is all
false, and it is so again after `gamma_move`, `gamma_golden_move` and, for a
valid player, `gamma_golden_possible`. -/
theorem C28_reachable_clears_aux (g : gamma_t) (x1 y1 x2 y2 p : Nat) (hx : x1 < g.width_x)
    (hy : y1 < g.height_y) :
    ((∀ i j, i < g.width_x → j < g.height_y →
        (reachable g x1 y1 x2 y2 p hx hy).2.auxiliary i j = false) ∧
      (reachable g x1 y1 x2 y2 p hx hy).2.board = g.board ∧
      (reachable g x1 y1 x2 y2 p hx hy).2.arr_of_players = g.arr_of_players ∧
      (reachable g x1 y1 x2 y2 p hx hy).2.free_fields = g.free_fields ∧
      (aux_clear g → (reachable g x1 y1 x2 y2 p hx hy).2 = g)) ∧
    ∀ (width height players areas : Nat) (s : gamma_t),
      Reachable width height players areas s →
        aux_clear s ∧
        (∀ player x y, aux_clear (gamma_move s player x y).2 ∧
          aux_clear (gamma_golden_move s player x y).2) ∧
        ∀ player, 1 ≤ player → player ≤ players →
          ∃ b, gamma_golden_possible s player = some (b, s) := by
  have hf := reachable_frame g x1 y1 x2 y2 p hx hy
  refine ⟨⟨fun i j hi hj => reachable_aux_cleared g x1 y1 x2 y2 p hx hy i j hi hj,
    hf.2.2.2.2.2.2, hf.2.2.2.2.2.1, hf.2.2.2.2.1,
    fun haux => reachable_clean g x1 y1 x2 y2 p hx hy haux⟩, ?_⟩
  intro width height players areas s hs
  refine ⟨(reachable_inv hs).aux, fun player x y =>
    ⟨(reachable_inv (Reachable.move s player x y hs)).aux,
      (reachable_inv (Reachable.golden_move s player x y hs)).aux⟩, ?_⟩
  intro player hp1 hp2
  obtain ⟨b, hb, _⟩ := gamma_golden_possible_valid (reachable_inv hs) hp1 hp2
  exact ⟨b, hb⟩

/-- C28 on the game `demo3`, for the search from (0, 0) to (2, 2). -/
theorem C28_witness :
    (∀ i j, i < demo3.width_x → j < demo3.height_y →
        (reachable demo3 0 0 2 2 1 (by decide) (by decide)).2.auxiliary i j = false) ∧
      (reachable demo3 0 0 2 2 1 (by decide) (by decide)).2.board = demo3.board :=
  ⟨(C28_reachable_clears_aux demo3 0 0 2 2 1 (by decide) (by decide)).1.1,
    (C28_reachable_clears_aux demo3 0 0 2 2 1 (by decide) (by decide)).1.2.1⟩

/-- C30: in an accepted `gamma_golden_move(g, p, x, y)` the validation leaves
the field with its previous owner, the count `adjacent_player_areas(g, x, y,
p)` that updates the area counter of `p` is taken on that restored board, and
it equals the count on the board with the field cleared, which is the count
the validation tested and the number of areas of `p` around the field. -/
theorem C30_golden_new_owner_count {width height players areas : Nat} {g : gamma_t}
    (hr : Reachable width height players areas g) (p x y : Nat)
    (hacc : (gamma_golden_move g p x y).1 = true) :
    ∃ (hx : x < g.width_x) (hy : y < g.height_y),
      (golden_possible_on_field g (p - 1) p x y hx hy).1 = true ∧
      (golden_possible_on_field g (p - 1) p x y hx hy).2 = g ∧
      g.board x y ≠ 0 ∧ g.board x y ≠ p ∧
      (gamma_golden_move g p x y).2 =
        golden_apply g p x y (p - 1) (g.board x y - 1)
          (adjacent_player_areas g x y p hx hy).1
          (adjacent_player_areas (set_board g x y 0) x y (g.board x y) hx hy).1 ∧
      (adjacent_player_areas g x y p hx hy).1
        = (adjacent_player_areas (set_board g x y 0) x y p hx hy).1 ∧
      adj_area_count (owned (set_board g x y 0) p) (x, y)
        (adjacent_player_areas g x y p hx hy).1 ∧
      ¬ ((adjacent_player_areas (set_board g x y 0) x y p hx hy).1 = 0 ∧
        (g.arr_of_players (p - 1)).occupied_areas = g.n_of_areas) := by
  have hinv := reachable_inv hr
  obtain ⟨hwb, hhb⟩ := inv_bounds hinv
  obtain ⟨hargs, _⟩ := gamma_golden_effect hinv hacc
  have hx := hargs.2.2.1
  have hy := hargs.2.2.2.1
  have hp0 : p ≠ 0 := by have := hargs.1; omega
  have hflag := hargs.2.2.2.2.1
  have hgp := golden_possible_on_field_spec g (p - 1) p x y hx hy hinv.aux hwb hhb
  have hcan : (golden_possible_on_field g (p - 1) p x y hx hy).1 = true :=
    (golden_move_iff_on_field hinv hargs.1 (hinv.hp ▸ hargs.2.1) hflag x y hx hy).1 hacc
  have hk := adjacent_player_areas_cleared g x y p hx hy hinv.aux hwb hhb hp0
    hargs.2.2.2.2.2.2
  have hcount := adjacent_player_areas_count (set_board g x y 0) x y p hx hy
    (set_board_aux_clear g x y 0 hinv.aux) hwb hhb
  refine ⟨hx, hy, hcan, hgp.1, hargs.2.2.2.2.2.1, hargs.2.2.2.2.2.2, ?_, hk, ?_,
    ((hgp.2.1 hcan).2.2)⟩
  · rw [gamma_golden_move_recount g p x y hinv.aux hwb hhb hargs hcan]
  · rw [hk]
    exact hcount

/-- C30 on the game `demo2`, where player 1 seizes field (1, 0) of player 2. -/
theorem C30_witness :
    ∃ (hx : 1 < demo2.width_x) (hy : 0 < demo2.height_y),
      (golden_possible_on_field demo2 (1 - 1) 1 1 0 hx hy).1 = true ∧
      (golden_possible_on_field demo2 (1 - 1) 1 1 0 hx hy).2 = demo2 ∧
      demo2.board 1 0 ≠ 0 ∧ demo2.board 1 0 ≠ 1 ∧
      (gamma_golden_move demo2 1 1 0).2 =
        golden_apply demo2 1 1 0 (1 - 1) (demo2.board 1 0 - 1)
          (adjacent_player_areas demo2 1 0 1 hx hy).1
          (adjacent_player_areas (set_board demo2 1 0 0) 1 0 (demo2.board 1 0) hx hy).1 ∧
      (adjacent_player_areas demo2 1 0 1 hx hy).1
        = (adjacent_player_areas (set_board demo2 1 0 0) 1 0 1 hx hy).1 ∧
      adj_area_count (owned (set_board demo2 1 0 0) 1) (1, 0)
        (adjacent_player_areas demo2 1 0 1 hx hy).1 ∧
      ¬ ((adjacent_player_areas (set_board demo2 1 0 0) 1 0 1 hx hy).1 = 0 ∧
        (demo2.arr_of_players (1 - 1)).occupied_areas = demo2.n_of_areas) :=
  C30_golden_new_owner_count demo2_reachable 1 1 0 (by decide)

/-! ## Termination of the search loop -/

/-- The `while` loop of `reachable_aux` run for at most `n` iterations of its
body: `none` when the loop has not left after `n` iterations. -/
def reachable_loop : Nat → gamma_t → List Field → Nat → Nat → Nat → Option (Bool × gamma_t)
  | _, g, [], _, _, _ => some (false, g)
  | 0, _, _ :: _, _, _, _ => none
  | n + 1, g, f :: rest, x, y, player =>
    if f.1 = x ∧ f.2 = y then some (true, g)
    else reachable_loop n (mark g f.1 f.2)
      (push_neighbours (mark g f.1 f.2) rest f.1 f.2 player) x y player

/-- One iteration of the loop body calls `queue_push` at most four times. -/
theorem push_neighbours_length (g : gamma_t) (q : List Field) (width height player : Nat) :
    (push_neighbours g q width height player).length ≤ q.length + 4 := by
  unfold push_neighbours
  simp only []
  split_ifs <;> (try simp only [queue_push, List.length_append, List.length_singleton]) <;> omega

/-- The loop leaves after finitely many iterations, with the result of
`reachable_aux`. -/
theorem reachable_loop_ends (g : gamma_t) (q : List Field) (x y player : Nat)
    (hq : queue_ok g q) :
    ∃ n, reachable_loop n g q x y player = some (reachable_aux g q x y player hq) := by
  induction g, q, x, y, player, hq using reachable_aux.induct with
  | case1 g x y player hq _ =>
    refine ⟨0, ?_⟩
    rw [reachable_aux.eq_1]
    rfl
  | case2 g x y player f rest hq hf _ =>
    refine ⟨1, ?_⟩
    rw [reachable_aux.eq_2, if_pos hf]
    simp only [reachable_loop, if_pos hf]
  | case3 g x y player f rest hq hf _ ih =>
    obtain ⟨n, hn⟩ := ih
    refine ⟨n + 1, ?_⟩
    rw [reachable_aux.eq_2, if_neg hf]
    simp only [reachable_loop, if_neg hf]
    exact hn

/-- More iterations do not change the result of a loop that has left. -/
theorem reachable_loop_mono (n : Nat) (g : gamma_t) (q : List Field) (x y player : Nat)
    (r : Bool × gamma_t) (h : reachable_loop n g q x y player = some r) (m : Nat)
    (hm : n ≤ m) : reachable_loop m g q x y player = some r := by
  induction n generalizing g q m with
  | zero =>
    cases q with
    | nil =>
      cases m <;> exact h
    | cons f rest => exact absurd h (by simp [reachable_loop])
  | succ n ih =>
    cases q with
    | nil =>
      cases m <;> exact h
    | cons f rest =>
      cases m with
      | zero => omega
      | succ m =>
        simp only [reachable_loop] at h ⊢
        by_cases hf : f.1 = x ∧ f.2 = y
        · rw [if_pos hf] at h ⊢
          exact h
        · rw [if_neg hf] at h ⊢
          exact ih _ _ h m (by omega)

/-- C29: for every board, every player and every start field of the board,
the loop of `reachable_aux` started by `reachable` on the queue holding the
start leaves after finitely many iterations (the queue is empty or the target
has been taken from it) with the flag and marks of `reachable_aux`; every
iteration calls `queue_push` at most four times, so the number of enqueue
operations is finite. -/
theorem C29_search_terminates (g : gamma_t) (x1 y1 x2 y2 p : Nat) (hx : x1 < g.width_x)
    (hy : y1 < g.height_y) :
    (∃ n, ∀ m, n ≤ m → reachable_loop m g (queue_push [] x1 y1) x2 y2 p
        = some (reachable_aux g (queue_push [] x1 y1) x2 y2 p
          (queue_ok_single g x1 y1 hx hy))) ∧
      ∀ (s : gamma_t) (q : List Field) (width height : Nat),
        (push_neighbours s q width height p).length ≤ q.length + 4 := by
  obtain ⟨n, hn⟩ := reachable_loop_ends g (queue_push [] x1 y1) x2 y2 p
    (queue_ok_single g x1 y1 hx hy)
  exact ⟨⟨n, fun m hm => reachable_loop_mono n g _ x2 y2 p _ hn m hm⟩,
    fun s q width height => push_neighbours_length s q width height p⟩

/-- C29 on the game `demo3`, for the search from (0, 0) to (2, 2); four
iterations suffice there. -/
theorem C29_witness :
    (∃ n, ∀ m, n ≤ m → reachable_loop m demo3 (queue_push [] 0 0) 2 2 1
        = some (reachable_aux demo3 (queue_push [] 0 0) 2 2 1
          (queue_ok_single demo3 0 0 (by decide) (by decide)))) ∧
      (reachable_loop 4 demo3 (queue_push [] 0 0) 2 2 1).isSome = true :=
  ⟨(C29_search_terminates demo3 0 0 2 2 1 (by decide) (by decide)).1, by decide⟩

/-! ## Array accesses with bounds

The functions below repeat the engine functions with every access to
`board`, `auxiliary` and `arr_of_players` tested against the allocated size:
`none` stands for an access outside the array. -/

/-- The read `g->board[x][y]`; the board has `width_x` columns of `height_y`
entries. -/
def board_at (g : gamma_t) (x y : Nat) : Option Nat :=
  if x < g.width_x ∧ y < g.height_y then some (g.board x y) else none

/-- The read `g->auxiliary[x][y]`. -/
def aux_at (g : gamma_t) (x y : Nat) : Option Bool :=
  if x < g.width_x ∧ y < g.height_y then some (g.auxiliary x y) else none

/-- The write `g->board[x][y] = v`. -/
def set_board_chk (g : gamma_t) (x y v : Nat) : Option gamma_t :=
  if x < g.width_x ∧ y < g.height_y then some (set_board g x y v) else none

/-- The write `g->auxiliary[width][height] = 1`. -/
def mark_chk (g : gamma_t) (width height : Nat) : Option gamma_t :=
  if width < g.width_x ∧ height < g.height_y then some (mark g width height) else none

/-- Function `field_eligible` with the two reads tested. -/
def field_eligible_chk (g : gamma_t) (x y player : Nat) : Option Bool :=
  (aux_at g x y).bind fun a =>
    if a = true then some false
    else (board_at g x y).bind fun b =>
      if b ≠ player then some false else some true

/-- The statement `if (guard && field_eligible(g, a, b, player)) queue_push(q, a, b);`
with `field_eligible` called only when the guard holds. -/
def push_if_chk (guard : Prop) [Decidable guard] (g : gamma_t) (q : List Field)
    (a b player : Nat) : Option (List Field) :=
  if guard then
    (field_eligible_chk g a b player).bind fun e =>
      if e = true then some (queue_push q a b) else some q
  else some q

/-- The four conditional `queue_push` calls of the loop body of
`reachable_aux`. -/
def push_neighbours_chk (g : gamma_t) (q : List Field) (width height player : Nat) :
    Option (List Field) :=
  (push_if_chk (width ≠ 0) g q (width - 1) height player).bind fun q1 =>
  (push_if_chk (height ≠ 0) g q1 width (height - 1) player).bind fun q2 =>
  (push_if_chk (width ≠ UINT32_MAX ∧ width ≠ g.width_x - 1) g q2 (width + 1) height
    player).bind fun q3 =>
  push_if_chk (height ≠ UINT32_MAX ∧ height ≠ g.height_y - 1) g q3 width (height + 1) player

theorem field_eligible_chk_eq (g : gamma_t) (x y player : Nat) (hx : x < g.width_x)
    (hy : y < g.height_y) :
    field_eligible_chk g x y player = some (field_eligible g x y player) := by
  have hxy : x < g.width_x ∧ y < g.height_y := ⟨hx, hy⟩
  unfold field_eligible_chk field_eligible aux_at board_at
  simp only [if_pos hxy, Option.some_bind]
  by_cases h1 : g.auxiliary x y = true
  · rw [if_pos h1, if_pos h1]
  · rw [if_neg h1, if_neg h1]
    by_cases h2 : g.board x y ≠ player
    · rw [if_pos h2, if_pos h2]
    · rw [if_neg h2, if_neg h2]

theorem field_eligible_chk_some (g : gamma_t) (x y player : Nat) (e : Bool)
    (h : field_eligible_chk g x y player = some e) :
    x < g.width_x ∧ y < g.height_y ∧ e = field_eligible g x y player := by
  by_cases hxy : x < g.width_x ∧ y < g.height_y
  · rw [field_eligible_chk_eq g x y player hxy.1 hxy.2] at h
    exact ⟨hxy.1, hxy.2, (Option.some.inj h).symm⟩
  · unfold field_eligible_chk aux_at at h
    rw [if_neg hxy] at h
    exact absurd h (by simp)

theorem push_if_chk_eq (guard : Prop) [Decidable guard] (g : gamma_t) (q : List Field)
    (a b player : Nat) (h : guard → a < g.width_x ∧ b < g.height_y) :
    push_if_chk guard g q a b player
      = some (if guard ∧ field_eligible g a b player = true then queue_push q a b else q) := by
  unfold push_if_chk
  by_cases hg : guard
  · rw [if_pos hg, field_eligible_chk_eq g a b player (h hg).1 (h hg).2]
    simp only [Option.some_bind]
    by_cases he : field_eligible g a b player = true
    · rw [if_pos he, if_pos ⟨hg, he⟩]
    · rw [if_neg he, if_neg (fun hc => he hc.2)]
  · rw [if_neg hg, if_neg (fun hc => hg hc.1)]

/-- A successful guarded push is the push of the engine model. -/
theorem push_if_chk_some (guard : Prop) [Decidable guard] (g : gamma_t) (q : List Field)
    (a b player : Nat) (q1 : List Field) (h : push_if_chk guard g q a b player = some q1) :
    q1 = (if guard ∧ field_eligible g a b player = true then queue_push q a b else q) := by
  unfold push_if_chk at h
  by_cases hg : guard
  · rw [if_pos hg] at h
    cases he : field_eligible_chk g a b player with
    | none =>
      rw [he] at h
      exact absurd h (by simp)
    | some e =>
      obtain ⟨_, _, heq⟩ := field_eligible_chk_some g a b player e he
      rw [he] at h
      simp only [Option.some_bind] at h
      rw [← heq]
      by_cases h1 : e = true
      · rw [if_pos h1] at h
        rw [if_pos ⟨hg, h1⟩]
        exact (Option.some.inj h).symm
      · rw [if_neg h1] at h
        rw [if_neg (fun hc => h1 hc.2)]
        exact (Option.some.inj h).symm
  · rw [if_neg hg] at h
    rw [if_neg (fun hc => hg hc.1)]
    exact (Option.some.inj h).symm

theorem push_neighbours_chk_some (g : gamma_t) (q : List Field) (width height player : Nat)
    (q4 : List Field) (h : push_neighbours_chk g q width height player = some q4) :
    q4 = push_neighbours g q width height player := by
  unfold push_neighbours_chk at h
  cases h1 : push_if_chk (width ≠ 0) g q (width - 1) height player with
  | none =>
    rw [h1] at h
    exact absurd h (by simp)
  | some q1 =>
    rw [h1] at h
    simp only [Option.some_bind] at h
    cases h2 : push_if_chk (height ≠ 0) g q1 width (height - 1) player with
    | none =>
      rw [h2] at h
      exact absurd h (by simp)
    | some q2 =>
      rw [h2] at h
      simp only [Option.some_bind] at h
      cases h3 : push_if_chk (width ≠ UINT32_MAX ∧ width ≠ g.width_x - 1) g q2 (width + 1)
          height player with
      | none =>
        rw [h3] at h
        exact absurd h (by simp)
      | some q3 =>
        rw [h3] at h
        simp only [Option.some_bind] at h
        have e1 := push_if_chk_some _ g q _ _ player q1 h1
        have e2 := push_if_chk_some _ g q1 _ _ player q2 h2
        have e3 := push_if_chk_some _ g q2 _ _ player q3 h3
        have e4 := push_if_chk_some _ g q3 _ _ player q4 h
        unfold push_neighbours
        simp only []
        rw [e4, e3, e2, e1]
        simp only [and_assoc]

theorem push_neighbours_chk_eq (g : gamma_t) (q : List Field) (width height player : Nat)
    (hw : width < g.width_x) (hh : height < g.height_y) :
    push_neighbours_chk g q width height player
      = some (push_neighbours g q width height player) := by
  unfold push_neighbours_chk
  rw [push_if_chk_eq _ g q _ _ player (fun h => ⟨by omega, hh⟩)]
  simp only [Option.some_bind]
  rw [push_if_chk_eq _ g _ _ _ player (fun h => ⟨hw, by omega⟩)]
  simp only [Option.some_bind]
  rw [push_if_chk_eq _ g _ _ _ player (fun h => ⟨by omega, hh⟩)]
  simp only [Option.some_bind]
  rw [push_if_chk_eq _ g _ _ _ player (fun h => ⟨hw, by omega⟩)]
  unfold push_neighbours
  simp only [and_assoc]

theorem mark_chk_some (g : gamma_t) (width height : Nat) (g1 : gamma_t)
    (h : mark_chk g width height = some g1) :
    (width < g.width_x ∧ height < g.height_y) ∧ g1 = mark g width height := by
  unfold mark_chk at h
  by_cases hwh : width < g.width_x ∧ height < g.height_y
  · rw [if_pos hwh] at h
    exact ⟨hwh, (Option.some.inj h).symm⟩
  · rw [if_neg hwh] at h
    exact absurd h (by simp)

/-- One iteration of the search loop on a popped field of the board decreases
the termination measure. -/
theorem step_decreases_head (g : gamma_t) (f : Field) (rest : List Field) (player : Nat)
    (hf : f.1 < g.width_x ∧ f.2 < g.height_y) :
    Prod.Lex (· < ·) (· < ·)
      ((unmarked (mark g f.1 f.2)).card,
        marked_run (mark g f.1 f.2) (push_neighbours (mark g f.1 f.2) rest f.1 f.2 player))
      ((unmarked g).card, marked_run g (f :: rest)) := by
  by_cases hm : g.auxiliary f.1 f.2 = true
  · rw [mark_of_marked g f.1 f.2 hm]
    apply Prod.Lex.right
    obtain ⟨l, hl, hP⟩ := push_neighbours_spec g rest f.1 f.2 player
    rw [hl]
    unfold marked_run
    rw [takeWhile_append_neg _ rest l
      (fun c hc => ((field_eligible_iff g c.1 c.2 player).1 (hP c hc).1).1)]
    simp [List.takeWhile_cons, hm]
  · apply Prod.Lex.left
    apply Finset.card_lt_card
    rw [Finset.ssubset_iff_of_subset]
    · refine ⟨f, ?_, ?_⟩
      · simp [unmarked, hf.1, hf.2]
        simpa using hm
      · simp [unmarked, mark, write2]
    · intro c hc
      simp only [unmarked, mark, write2, Finset.mem_filter, Finset.mem_product,
        Finset.mem_range] at hc ⊢
      refine ⟨hc.1, ?_⟩
      by_cases hcf : c.1 = f.1 ∧ c.2 = f.2
      · simp [hcf] at hc
      · simpa [hcf] using hc.2

/-- One iteration of the search loop with tested accesses decreases the
termination measure. -/
theorem chk_step_decreases (g : gamma_t) (f : Field) (rest : List Field) (player : Nat)
    (g1 : gamma_t) (q1 : List Field) (hm : mark_chk g f.1 f.2 = some g1)
    (hp : push_neighbours_chk g1 rest f.1 f.2 player = some q1) :
    Prod.Lex (· < ·) (· < ·) ((unmarked g1).card, marked_run g1 q1)
      ((unmarked g).card, marked_run g (f :: rest)) := by
  obtain ⟨hf, hg1⟩ := mark_chk_some g f.1 f.2 g1 hm
  subst hg1
  rw [push_neighbours_chk_some _ _ _ _ _ _ hp]
  exact step_decreases_head g f rest player hf

/-- Function `reachable_aux` with the accesses to `auxiliary` and `board`
tested. -/
def reachable_aux_chk (g : gamma_t) (q : List Field) (x y player : Nat) :
    Option (Bool × gamma_t) :=
  match q with
  | [] => some (false, g)
  | f :: rest =>
    if f.1 = x ∧ f.2 = y then some (true, g)
    else
      match hm : mark_chk g f.1 f.2 with
      | none => none
      | some g1 =>
        match hp : push_neighbours_chk g1 rest f.1 f.2 player with
        | none => none
        | some q1 => reachable_aux_chk g1 q1 x y player
termination_by ((unmarked g).card, marked_run g q)
decreasing_by exact chk_step_decreases _ _ _ _ _ _ hm hp

/-- Function `reachable` with the array accesses tested; `clear_aux` writes
`auxiliary[i][j]` for `i < width_x` and `j < height_y` only. -/
def reachable_chk (g : gamma_t) (x1 y1 x2 y2 player : Nat) : Option (Bool × gamma_t) :=
  (reachable_aux_chk g (queue_push [] x1 y1) x2 y2 player).bind fun res =>
    some (res.1, clear_aux res.2)

theorem reachable_aux_chk_eq (g : gamma_t) (q : List Field) (x y player : Nat)
    (hq : queue_ok g q) :
    reachable_aux_chk g q x y player = some (reachable_aux g q x y player hq) := by
  induction g, q, x, y, player, hq using reachable_aux.induct with
  | case1 g x y player hq _ =>
    rw [reachable_aux.eq_1, reachable_aux_chk]
  | case2 g x y player f rest hq hf _ =>
    rw [reachable_aux.eq_2, if_pos hf, reachable_aux_chk, if_pos hf]
  | case3 g x y player f rest hq hf _ ih =>
    have hfb := hq f (List.mem_cons_self _ _)
    have hmk : mark_chk g f.1 f.2 = some (mark g f.1 f.2) := by
      unfold mark_chk
      rw [if_pos hfb]
    have hpn := push_neighbours_chk_eq (mark g f.1 f.2) rest f.1 f.2 player hfb.1 hfb.2
    rw [reachable_aux.eq_2, if_neg hf, reachable_aux_chk, if_neg hf]
    split
    · rename_i h
      rw [hmk] at h
      exact absurd h (by simp)
    · rename_i g1 h
      rw [hmk] at h
      have := Option.some.inj h
      subst this
      split
      · rename_i h2
        rw [hpn] at h2
        exact absurd h2 (by simp)
      · rename_i q1 h2
        rw [hpn] at h2
        have := Option.some.inj h2
        subst this
        exact ih

theorem reachable_chk_eq (g : gamma_t) (x1 y1 x2 y2 player : Nat) (hx : x1 < g.width_x)
    (hy : y1 < g.height_y) :
    reachable_chk g x1 y1 x2 y2 player = some (reachable g x1 y1 x2 y2 player hx hy) := by
  unfold reachable_chk
  rw [reachable_aux_chk_eq g _ x2 y2 player (queue_ok_single g x1 y1 hx hy)]
  rfl

/-- The loop of `append_field` with the array accesses tested. -/
def append_field_scan_chk (g : gamma_t) (l : List Field) (x y player : Nat) :
    Option (Bool × gamma_t) :=
  match l with
  | [] => some (false, g)
  | c :: rest =>
    (reachable_chk g x y c.1 c.2 player).bind fun r =>
      if r.1 = true then some (true, r.2)
      else append_field_scan_chk r.2 rest x y player

/-- Function `append_field` with the array accesses tested. -/
def append_field_chk (g : gamma_t) (l : List Field) (x y player : Nat) :
    Option (List Field × gamma_t) :=
  match l with
  | [] => some ([(x, y)], g)
  | c :: rest =>
    (append_field_scan_chk g (c :: rest) x y player).bind fun s =>
      if s.1 = false then some ((x, y) :: c :: rest, s.2) else some (c :: rest, s.2)

/-- The statement `if (guard && board[a][b] == player) append_field(g, &list, a, b,
player);` with the board read only when the guard holds. -/
def append_if_chk (guard : Prop) [Decidable guard] (s : List Field × gamma_t)
    (a b player : Nat) : Option (List Field × gamma_t) :=
  if guard then
    (board_at s.2 a b).bind fun v =>
      if v = player then append_field_chk s.2 s.1 a b player else some s
  else some s

/-- Function `adjacent_player_areas` with the array accesses tested. -/
def adjacent_player_areas_chk (g : gamma_t) (x y player : Nat) : Option (Nat × gamma_t) :=
  (append_if_chk (x ≠ 0) ([], g) (x - 1) y player).bind fun s1 =>
  (append_if_chk (y ≠ 0) s1 x (y - 1) player).bind fun s2 =>
  (append_if_chk (x ≠ UINT32_MAX ∧ x ≠ g.width_x - 1) s2 (x + 1) y player).bind fun s3 =>
  (append_if_chk (y ≠ UINT32_MAX ∧ y ≠ g.height_y - 1) s3 x (y + 1) player).bind fun s4 =>
  some (field_list_length s4.1, s4.2)

theorem append_field_scan_chk_eq (l : List Field) (g : gamma_t) (x y player : Nat)
    (hx : x < g.width_x) (hy : y < g.height_y) :
    append_field_scan_chk g l x y player = some (append_field_scan g l x y player hx hy) := by
  induction l generalizing g with
  | nil => rfl
  | cons c rest ih =>
    unfold append_field_scan_chk append_field_scan
    rw [reachable_chk_eq g x y c.1 c.2 player hx hy]
    simp only [Option.some_bind]
    by_cases h : (reachable g x y c.1 c.2 player hx hy).1 = true
    · rw [if_pos h, if_pos h]
    · rw [if_neg h, if_neg h]
      exact ih _ _ _

theorem append_field_chk_eq (l : List Field) (g : gamma_t) (x y player : Nat)
    (hx : x < g.width_x) (hy : y < g.height_y) :
    append_field_chk g l x y player = some (append_field g l x y player hx hy) := by
  cases l with
  | nil => rfl
  | cons c rest =>
    simp only [append_field_chk, append_field]
    rw [append_field_scan_chk_eq (c :: rest) g x y player hx hy]
    simp only [Option.some_bind]
    by_cases h : (append_field_scan g (c :: rest) x y player hx hy).1 = false
    · rw [if_pos h, if_pos h]
    · rw [if_neg h, if_neg h]

theorem append_if_chk_eq (guard cond : Prop) [Decidable guard] [Decidable cond]
    (s : List Field × gamma_t) (a b player : Nat)
    (hc : cond ↔ guard ∧ s.2.board a b = player)
    (hg : guard → a < s.2.width_x ∧ b < s.2.height_y)
    (h : cond → a < s.2.width_x ∧ b < s.2.height_y) :
    append_if_chk guard s a b player = some (append_if cond s a b player h) := by
  unfold append_if_chk append_if
  by_cases hgd : guard
  · rw [if_pos hgd]
    unfold board_at
    rw [if_pos (hg hgd)]
    simp only [Option.some_bind]
    by_cases hv : s.2.board a b = player
    · rw [if_pos hv, dif_pos (hc.2 ⟨hgd, hv⟩)]
      exact append_field_chk_eq _ _ _ _ _ _ _
    · rw [if_neg hv, dif_neg (fun hcd => hv (hc.1 hcd).2)]
  · rw [if_neg hgd, dif_neg (fun hcd => hgd (hc.1 hcd).1)]

theorem adjacent_player_areas_chk_eq (g : gamma_t) (x y player : Nat) (hx : x < g.width_x)
    (hy : y < g.height_y) :
    adjacent_player_areas_chk g x y player
      = some (adjacent_player_areas g x y player hx hy) := by
  have key : ∀ (guard cond : Prop) [Decidable guard] [Decidable cond]
      (s : List Field × gamma_t) (a b : Nat), frame g s.2 →
      (cond ↔ guard ∧ g.board a b = player) →
      (guard → a < g.width_x ∧ b < g.height_y) →
      ∀ h : cond → a < s.2.width_x ∧ b < s.2.height_y,
      append_if_chk guard s a b player = some (append_if cond s a b player h) := by
    intro guard cond _ _ s a b hf hc hg h
    apply append_if_chk_eq
    · rw [hf.2.2.2.2.2.2]
      exact hc
    · rw [hf.1, hf.2.1]
      exact hg
  unfold adjacent_player_areas_chk adjacent_player_areas
  simp only []
  have f0 : frame g (([], g) : List Field × gamma_t).2 := frame_refl g
  rw [key (x ≠ 0) (x ≠ 0 ∧ g.board (x - 1) y = player) ([], g) (x - 1) y f0 Iff.rfl
    (fun h => ⟨by omega, hy⟩)]
  simp only [Option.some_bind]
  have f1 := frame_trans f0 (append_if_frame (x ≠ 0 ∧ g.board (x - 1) y = player) ([], g)
    (x - 1) y player (fun _ => ⟨by show x - 1 < g.width_x; omega, hy⟩))
  rw [key (y ≠ 0) (y ≠ 0 ∧ g.board x (y - 1) = player) _ x (y - 1) f1 Iff.rfl
    (fun h => ⟨hx, by omega⟩)]
  simp only [Option.some_bind]
  have f2 := frame_trans f1 (append_if_frame (y ≠ 0 ∧ g.board x (y - 1) = player) _
    x (y - 1) player (fun _ => ⟨by rw [f1.1]; exact hx,
      by rw [f1.2.1]; show y - 1 < g.height_y; omega⟩))
  rw [key (x ≠ UINT32_MAX ∧ x ≠ g.width_x - 1)
    (x ≠ UINT32_MAX ∧ x ≠ g.width_x - 1 ∧ g.board (x + 1) y = player) _ (x + 1) y f2
    (and_assoc.symm) (fun h => ⟨by omega, hy⟩)]
  simp only [Option.some_bind]
  have f3 := frame_trans f2 (append_if_frame
    (x ≠ UINT32_MAX ∧ x ≠ g.width_x - 1 ∧ g.board (x + 1) y = player) _
    (x + 1) y player (fun _ => ⟨by rw [f2.1]; show x + 1 < g.width_x; omega,
      by rw [f2.2.1]; exact hy⟩))
  rw [key (y ≠ UINT32_MAX ∧ y ≠ g.height_y - 1)
    (y ≠ UINT32_MAX ∧ y ≠ g.height_y - 1 ∧ g.board x (y + 1) = player) _ x (y + 1) f3
    (and_assoc.symm) (fun h => ⟨hx, by omega⟩)]
  · simp only [Option.some_bind]
  · intro hc
    have hy1 : y + 1 < g.height_y := by
      have := hc.2.1
      omega
    exact ⟨lt_of_lt_of_eq hx f3.1.symm, lt_of_lt_of_eq hy1 f3.2.1.symm⟩

/-- Function `add_field` with the write to `board` tested. -/
def add_field_chk (g : gamma_t) (x y p player : Nat) : Option gamma_t :=
  if x < g.width_x ∧ y < g.height_y then some (add_field g x y p player) else none

/-- Function `gamma_move` on a non-null game with every array access tested:
`none` stands for an access outside `board`, `auxiliary` or
`arr_of_players`. -/
def gamma_move_chk (g : gamma_t) (player x y : Nat) : Option (Bool × gamma_t) :=
  if player = 0 ∨ player > g.n_of_players then some (false, g)
  else if x ≥ g.width_x then some (false, g)
  else if y ≥ g.height_y then some (false, g)
  else
    (board_at g x y).bind fun v =>
    if v ≠ 0 then some (false, g)
    else
      (player_at g (player - 1)).bind fun _ =>
      (adjacent_player_areas_chk g x y player).bind fun r =>
        let p := player - 1
        let areas := r.1
        let g1 := r.2
        if areas = 0 then
          if (g1.arr_of_players p).occupied_areas > sub32 g1.n_of_areas 1 ∨ g1.n_of_areas = 0
          then some (false, g1)
          else
            let g2 := set_areas g1 p (add32 (g1.arr_of_players p).occupied_areas 1)
            (add_field_chk g2 x y p player).bind fun g3 => some (true, g3)
        else
          let g2 := set_areas g1 p (sub32 (g1.arr_of_players p).occupied_areas (sub32 areas 1))
          (add_field_chk g2 x y p player).bind fun g3 => some (true, g3)

theorem add_field_chk_eq (g : gamma_t) (x y p player : Nat) (hx : x < g.width_x)
    (hy : y < g.height_y) : add_field_chk g x y p player = some (add_field g x y p player) := by
  unfold add_field_chk
  rw [if_pos ⟨hx, hy⟩]

/-- In every state `gamma_move` stays inside the arrays and is the function
of the engine model. -/
theorem gamma_move_chk_eq (g : gamma_t) (player x y : Nat) :
    gamma_move_chk g player x y = some (gamma_move g player x y) := by
  unfold gamma_move_chk gamma_move
  by_cases h1 : player = 0 ∨ player > g.n_of_players
  · rw [if_pos h1, if_pos h1]
  rw [if_neg h1, if_neg h1]
  by_cases h2 : x ≥ g.width_x
  · rw [if_pos h2, dif_pos h2]
  rw [if_neg h2, dif_neg h2]
  by_cases h3 : y ≥ g.height_y
  · rw [if_pos h3, dif_pos h3]
  rw [if_neg h3, dif_neg h3]
  have hx : x < g.width_x := by omega
  have hy : y < g.height_y := by omega
  have hxy : x < g.width_x ∧ y < g.height_y := ⟨hx, hy⟩
  have hpl : player - 1 < g.n_of_players := by omega
  have hf := adjacent_player_areas_frame g x y player hx hy
  have hx2 : ∀ p v, x < (set_areas (adjacent_player_areas g x y player hx hy).2 p v).width_x :=
    fun _ _ => lt_of_lt_of_eq hx hf.1.symm
  have hy2 : ∀ p v, y < (set_areas (adjacent_player_areas g x y player hx hy).2 p v).height_y :=
    fun _ _ => lt_of_lt_of_eq hy hf.2.1.symm
  unfold board_at player_at
  simp only [if_pos hxy, if_pos hpl, Option.some_bind,
    adjacent_player_areas_chk_eq g x y player hx hy]
  by_cases h4 : g.board x y ≠ 0
  · rw [if_pos h4, if_pos h4]
  rw [if_neg h4, if_neg h4]
  by_cases h5 : (adjacent_player_areas g x y player hx hy).1 = 0
  · rw [if_pos h5, if_pos h5]
    by_cases h6 : ((adjacent_player_areas g x y player hx hy).2.arr_of_players
          (player - 1)).occupied_areas
        > sub32 (adjacent_player_areas g x y player hx hy).2.n_of_areas 1 ∨
        (adjacent_player_areas g x y player hx hy).2.n_of_areas = 0
    · rw [if_pos h6, if_pos h6]
    · rw [if_neg h6, if_neg h6]
      rw [add_field_chk_eq _ x y _ _ (hx2 _ _) (hy2 _ _)]
      rfl
  · rw [if_neg h5, if_neg h5]
    rw [add_field_chk_eq _ x y _ _ (hx2 _ _) (hy2 _ _)]
    rfl

/-- Function `golden_possible_on_field` with every array access tested. -/
def golden_possible_on_field_chk (g : gamma_t) (new_owner new_owner_num x y : Nat) :
    Option (Bool × gamma_t) :=
  (board_at g x y).bind fun prev_owner_num =>
  if prev_owner_num = 0 ∨ prev_owner_num = new_owner_num then some (false, g)
  else
    (set_board_chk g x y 0).bind fun g1 =>
    (adjacent_player_areas_chk g1 x y prev_owner_num).bind fun r1 =>
    (player_at r1.2 (prev_owner_num - 1)).bind fun _ =>
      let adjacent_prev_owner_areas := r1.1
      let g2 := r1.2
      let prev_owner := prev_owner_num - 1
      let disintegrating : Bool := decide (adjacent_prev_owner_areas ≠ 0 ∧
        sub32 adjacent_prev_owner_areas 1 >
          sub32 g2.n_of_areas (g2.arr_of_players prev_owner).occupied_areas)
      if disintegrating = true then
        (set_board_chk g2 x y prev_owner_num).bind fun g3 => some (false, g3)
      else
        (adjacent_player_areas_chk g2 x y new_owner_num).bind fun r2 =>
          let adjacent_new_owner_areas := r2.1
          let g3 := r2.2
          if adjacent_new_owner_areas = 0 ∧
              (g3.arr_of_players new_owner).occupied_areas = g3.n_of_areas
          then (set_board_chk g3 x y prev_owner_num).bind fun g4 => some (false, g4)
          else (set_board_chk g3 x y prev_owner_num).bind fun g4 => some (true, g4)

/-- Function `gamma_golden_move` on a non-null game with every array access
tested. -/
def gamma_golden_move_chk (g : gamma_t) (player x y : Nat) : Option (Bool × gamma_t) :=
  if player = 0 ∨ player > g.n_of_players then some (false, g)
  else if x ≥ g.width_x ∨ y ≥ g.height_y then some (false, g)
  else
    (player_at g (player - 1)).bind fun _ =>
    let new_owner := player - 1
    if (g.arr_of_players new_owner).golden_performed = true then some (false, g)
    else
      (board_at g x y).bind fun prev_owner_num =>
      if prev_owner_num = 0 ∨ prev_owner_num = player then some (false, g)
      else
        (player_at g (prev_owner_num - 1)).bind fun _ =>
        let prev_owner := prev_owner_num - 1
        (set_board_chk g x y 0).bind fun g1 =>
        (adjacent_player_areas_chk g1 x y prev_owner_num).bind fun r1 =>
        let adjacent_prev_owner_areas := r1.1
        (set_board_chk r1.2 x y prev_owner_num).bind fun g2 =>
        (golden_possible_on_field_chk g2 new_owner player x y).bind fun r2 =>
        let can_move := r2.1
        let g3 := r2.2
        if can_move = true then
          (adjacent_player_areas_chk g3 x y player).bind fun r3 =>
          let adjacent_new_owner_areas := r3.1
          (set_board_chk r3.2 x y player).bind fun _ =>
          some (true, golden_apply r3.2 player x y new_owner prev_owner
            adjacent_new_owner_areas adjacent_prev_owner_areas)
        else some (false, g3)

theorem set_board_chk_eq (g : gamma_t) (x y v : Nat) (hx : x < g.width_x)
    (hy : y < g.height_y) : set_board_chk g x y v = some (set_board g x y v) := by
  unfold set_board_chk
  rw [if_pos ⟨hx, hy⟩]

theorem board_at_eq (g : gamma_t) (x y : Nat) (hx : x < g.width_x) (hy : y < g.height_y) :
    board_at g x y = some (g.board x y) := by
  unfold board_at
  rw [if_pos ⟨hx, hy⟩]

theorem player_at_eq (g : gamma_t) (i : Nat) (hi : i < g.n_of_players) :
    player_at g i = some (g.arr_of_players i) := by
  unfold player_at
  rw [if_pos hi]

/-- On a field of the board whose owner has a record in `arr_of_players`,
`golden_possible_on_field` stays inside the arrays and is the function of the
engine model. -/
theorem golden_possible_on_field_chk_eq (g : gamma_t) (new_owner new_owner_num x y : Nat)
    (hx : x < g.width_x) (hy : y < g.height_y) (hb : g.board x y ≤ g.n_of_players) :
    golden_possible_on_field_chk g new_owner new_owner_num x y
      = some (golden_possible_on_field g new_owner new_owner_num x y hx hy) := by
  have f1 := adjacent_player_areas_frame (set_board g x y 0) x y (g.board x y) hx hy
  have hx1 : x < (adjacent_player_areas (set_board g x y 0) x y (g.board x y) hx hy).2.width_x :=
    lt_of_lt_of_eq hx f1.1.symm
  have hy1 : y < (adjacent_player_areas (set_board g x y 0) x y (g.board x y) hx hy).2.height_y :=
    lt_of_lt_of_eq hy f1.2.1.symm
  have f2 := adjacent_player_areas_frame
    (adjacent_player_areas (set_board g x y 0) x y (g.board x y) hx hy).2 x y new_owner_num
    hx1 hy1
  unfold golden_possible_on_field_chk golden_possible_on_field
  rw [board_at_eq g x y hx hy]
  simp only [Option.some_bind]
  by_cases h1 : g.board x y = 0 ∨ g.board x y = new_owner_num
  · rw [if_pos h1, if_pos h1]
  rw [if_neg h1, if_neg h1]
  have hpl : g.board x y - 1 <
      (adjacent_player_areas (set_board g x y 0) x y (g.board x y) hx hy).2.n_of_players := by
    rw [f1.2.2.1]
    show g.board x y - 1 < g.n_of_players
    omega
  rw [set_board_chk_eq g x y 0 hx hy]
  simp only [Option.some_bind]
  rw [adjacent_player_areas_chk_eq (set_board g x y 0) x y (g.board x y) hx hy]
  simp only [Option.some_bind]
  rw [player_at_eq _ _ hpl]
  simp only [Option.some_bind, set_board_chk_eq _ x y _ hx1 hy1,
    adjacent_player_areas_chk_eq _ x y new_owner_num hx1 hy1,
    set_board_chk_eq _ x y _ (lt_of_lt_of_eq hx1 f2.1.symm) (lt_of_lt_of_eq hy1 f2.2.1.symm)]
  split_ifs <;> rfl

/-- In a state whose board holds only numbers of players, `gamma_golden_move`
stays inside the arrays and is the function of the engine model. -/
theorem gamma_golden_move_chk_eq (g : gamma_t) (player x y : Nat)
    (hb : ∀ i j, g.board i j ≤ g.n_of_players) :
    gamma_golden_move_chk g player x y = some (gamma_golden_move g player x y) := by
  unfold gamma_golden_move_chk gamma_golden_move
  by_cases h1 : player = 0 ∨ player > g.n_of_players
  · rw [if_pos h1, if_pos h1]
  rw [if_neg h1, if_neg h1]
  by_cases h2 : x ≥ g.width_x ∨ y ≥ g.height_y
  · rw [if_pos h2, dif_pos h2]
  rw [if_neg h2, dif_neg h2]
  have hx : x < g.width_x := by omega
  have hy : y < g.height_y := by omega
  have hpl : player - 1 < g.n_of_players := by omega
  rw [player_at_eq g (player - 1) hpl]
  simp only [Option.some_bind]
  by_cases h3 : (g.arr_of_players (player - 1)).golden_performed = true
  · rw [if_pos h3, if_pos h3]
  rw [if_neg h3, if_neg h3, board_at_eq g x y hx hy]
  simp only [Option.some_bind]
  by_cases h4 : g.board x y = 0 ∨ g.board x y = player
  · rw [if_pos h4, if_pos h4]
  rw [if_neg h4, if_neg h4]
  have hprev : g.board x y - 1 < g.n_of_players := by
    have := hb x y
    omega
  have f1 := adjacent_player_areas_frame (set_board g x y 0) x y (g.board x y) hx hy
  have hx1 : x < (adjacent_player_areas (set_board g x y 0) x y (g.board x y) hx hy).2.width_x :=
    lt_of_lt_of_eq hx f1.1.symm
  have hy1 : y < (adjacent_player_areas (set_board g x y 0) x y (g.board x y) hx hy).2.height_y :=
    lt_of_lt_of_eq hy f1.2.1.symm
  have hx2 : x < (set_board (adjacent_player_areas (set_board g x y 0) x y (g.board x y)
      hx hy).2 x y (g.board x y)).width_x := hx1
  have hy2 : y < (set_board (adjacent_player_areas (set_board g x y 0) x y (g.board x y)
      hx hy).2 x y (g.board x y)).height_y := hy1
  have hb2 : (set_board (adjacent_player_areas (set_board g x y 0) x y (g.board x y)
      hx hy).2 x y (g.board x y)).board x y ≤
      (set_board (adjacent_player_areas (set_board g x y 0) x y (g.board x y)
        hx hy).2 x y (g.board x y)).n_of_players := by
    show write2 _ x y (g.board x y) x y ≤
      (adjacent_player_areas (set_board g x y 0) x y (g.board x y) hx hy).2.n_of_players
    rw [f1.2.2.1]
    unfold write2
    rw [if_pos ⟨rfl, rfl⟩]
    exact hb x y
  have d2 := golden_possible_on_field_dims
    (set_board (adjacent_player_areas (set_board g x y 0) x y (g.board x y) hx hy).2 x y
      (g.board x y)) (player - 1) player x y hx2 hy2
  have hx3 := lt_of_lt_of_eq hx2 d2.1.symm
  have hy3 := lt_of_lt_of_eq hy2 d2.2.symm
  have f3 := adjacent_player_areas_frame _ x y player hx3 hy3
  simp only [player_at_eq g (g.board x y - 1) hprev, Option.some_bind,
    set_board_chk_eq g x y 0 hx hy,
    adjacent_player_areas_chk_eq (set_board g x y 0) x y (g.board x y) hx hy,
    set_board_chk_eq _ x y _ hx1 hy1,
    golden_possible_on_field_chk_eq _ (player - 1) player x y hx2 hy2 hb2,
    adjacent_player_areas_chk_eq _ x y player hx3 hy3,
    set_board_chk_eq _ x y _ (lt_of_lt_of_eq hx3 f3.1.symm) (lt_of_lt_of_eq hy3 f3.2.1.symm)]
  split_ifs <;> rfl

/-- Function `adjacent_owned_by_player` with every read of `board` tested;
a read happens only when the tests in front of it in the condition hold. -/
def adjacent_owned_by_player_chk (g : gamma_t) (x y player : Nat) : Option Bool :=
  (if x ≠ 0 then (board_at g (x - 1) y).bind fun v => some (decide (v = player))
    else some false).bind fun c1 =>
  if c1 = true then some true
  else
    (if y ≠ 0 then (board_at g x (y - 1)).bind fun v => some (decide (v = player))
      else some false).bind fun c2 =>
    if c2 = true then some true
    else
      (if x ≠ UINT32_MAX ∧ x ≠ g.width_x - 1
        then (board_at g (x + 1) y).bind fun v => some (decide (v = player))
        else some false).bind fun c3 =>
      if c3 = true then some true
      else
        (if y ≠ UINT32_MAX ∧ y ≠ g.height_y - 1
          then (board_at g x (y + 1)).bind fun v => some (decide (v = player))
          else some false).bind fun c4 =>
        if c4 = true then some true else some false

theorem guarded_read_eq (guard : Prop) [Decidable guard] (g : gamma_t) (a b player : Nat)
    (h : guard → a < g.width_x ∧ b < g.height_y) :
    (if guard then (board_at g a b).bind fun v => some (decide (v = player)) else some false)
      = some (decide (guard ∧ g.board a b = player)) := by
  by_cases hg : guard
  · rw [if_pos hg, board_at_eq g a b (h hg).1 (h hg).2]
    simp only [Option.some_bind, hg, true_and]
  · rw [if_neg hg]
    simp only [hg, false_and, decide_False]

/-- On a field of the board `adjacent_owned_by_player` reads only entries of
the board and is the function of the engine model. -/
theorem adjacent_owned_by_player_chk_eq (g : gamma_t) (x y player : Nat)
    (hx : x < g.width_x) (hy : y < g.height_y) :
    adjacent_owned_by_player_chk g x y player
      = some (adjacent_owned_by_player g x y player) := by
  unfold adjacent_owned_by_player_chk adjacent_owned_by_player
  rw [guarded_read_eq (x ≠ 0) g (x - 1) y player (fun h => ⟨by omega, hy⟩),
    guarded_read_eq (y ≠ 0) g x (y - 1) player (fun h => ⟨hx, by omega⟩),
    guarded_read_eq (x ≠ UINT32_MAX ∧ x ≠ g.width_x - 1) g (x + 1) y player
      (fun h => ⟨by omega, hy⟩),
    guarded_read_eq (y ≠ UINT32_MAX ∧ y ≠ g.height_y - 1) g x (y + 1) player
      (fun h => ⟨hx, by omega⟩)]
  simp only [Option.some_bind, decide_eq_true_eq, and_assoc]
  split_ifs <;> rfl

/-- The game of the test `params` after player 1 has taken field (9, 0), a
field of the last column. -/
def params1 : gamma_t := (gamma_move params0 1 9 0).2

/-- C24: in every reachable state and for all arguments `(player, x, y)`,
`gamma_move` and `gamma_golden_move` return their flag without an access
outside `board`, `auxiliary` or `arr_of_players`: the functions with every
array access tested return the results of the engine model. -/
theorem C24_moves_stay_in_bounds {width height players areas : Nat} {g : gamma_t}
    (hr : Reachable width height players areas g) (player x y : Nat) :
    gamma_move_chk g player x y = some (gamma_move g player x y) ∧
      gamma_golden_move_chk g player x y = some (gamma_golden_move g player x y) := by
  have hinv := reachable_inv hr
  refine ⟨gamma_move_chk_eq g player x y, gamma_golden_move_chk_eq g player x y ?_⟩
  intro i j
  rw [hinv.hp]
  exact hinv.board_le i j

/-- C24 on the game `demo2`, for a seizure of field (1, 0) and for arguments
at the end of the `uint32_t` range. -/
theorem C24_witness :
    (gamma_move_chk demo2 1 1 0 = some (gamma_move demo2 1 1 0) ∧
      gamma_golden_move_chk demo2 1 1 0 = some (gamma_golden_move demo2 1 1 0)) ∧
    (gamma_move_chk demo2 4294967295 4294967295 4294967295
        = some (gamma_move demo2 4294967295 4294967295 4294967295) ∧
      gamma_golden_move_chk demo2 4294967295 4294967295 4294967295
        = some (gamma_golden_move demo2 4294967295 4294967295 4294967295)) :=
  ⟨C24_moves_stay_in_bounds demo2_reachable 1 1 0,
    C24_moves_stay_in_bounds demo2_reachable 4294967295 4294967295 4294967295⟩

/-- C25, as stated, fails on the 10 x 10 game of the test `params`: for
`x = 10 = width` the call `adjacent_owned_by_player(g, 10, 0, 1)` reads
`board[11][0]`, and once player 1 owns field (9, 0) the same call returns
true. -/
theorem C25_counterexample :
    params0.width_x = 10 ∧ adjacent_owned_by_player_chk params0 10 0 1 = none ∧
      params1.width_x = 10 ∧ adjacent_owned_by_player_chk params1 10 0 1 = some true := by
  refine ⟨rfl, rfl, by decide, by decide⟩

/-- C25, amended: for every game state with `uint32_t` dimensions, every
player number and every field `(x, y)` of the board,
`adjacent_owned_by_player(g, x, y, player)` reads only entries of the board
and returns true exactly when a 4-neighbour of `(x, y)` on the board belongs
to `player`. -/
theorem C25_adjacent_owned_in_range (g : gamma_t) (x y player : Nat) (hx : x < g.width_x)
    (hy : y < g.height_y) (hwb : g.width_x ≤ UINT32_MAX) (hhb : g.height_y ≤ UINT32_MAX) :
    adjacent_owned_by_player_chk g x y player = some (adjacent_owned_by_player g x y player) ∧
      (adjacent_owned_by_player g x y player = true ↔
        ∃ n, adj (x, y) n ∧ owned g player n) :=
  ⟨adjacent_owned_by_player_chk_eq g x y player hx hy,
    adjacent_owned_iff g x y player hx hy hwb hhb⟩

/-- C25, amended, on the game `params1` at field (8, 0), next to the field
(9, 0) of player 1. -/
theorem C25_witness :
    (adjacent_owned_by_player_chk params1 8 0 1
        = some (adjacent_owned_by_player params1 8 0 1) ∧
      (adjacent_owned_by_player params1 8 0 1 = true ↔
        ∃ n, adj (8, 0) n ∧ owned params1 1 n)) ∧
      adjacent_owned_by_player params1 8 0 1 = true :=
  ⟨C25_adjacent_owned_in_range params1 8 0 1 (by decide) (by decide) (by decide) (by decide),
    by decide⟩

/-! ## The board as text (gamma_board) -/

/-- A block of `size` bytes obtained from `malloc`; `data i` is `none` as long
as byte `i` has not been written. -/
structure buffer_t where
  size : Nat
  data : Nat → Option Char

/-- The block returned by a successful `malloc(size)`. -/
def malloc (size : Nat) : buffer_t :=
  { size := size, data := fun _ => none }

/-- The assignment `buffer[i] = c`; `none` stands for a write outside the
block. -/
def store (b : buffer_t) (i : Nat) (c : Char) : Option buffer_t :=
  if i < b.size then some { b with data := write1 b.data i (some c) } else none

/-- Function `number_to_digit`: the byte `(char) x + 48`. -/
def number_to_digit (x : Nat) : Char := Char.ofNat ((x + 48) % 256)

/-- The loop of `decimal_length`; the first argument bounds the number of
iterations, and `x` iterations always suffice because `x /= 10` makes a
positive `x` smaller. -/
def decimal_length_loop : Nat → Nat → Nat → Nat
  | 0, _, res => res
  | k + 1, x, res => if x ≥ 10 then decimal_length_loop k (x / 10) (res + 1) else res

/-- Function `decimal_length`. -/
def decimal_length (x : Nat) : Nat := decimal_length_loop x x 1

/-- The loop `for (i = 0; i < n; i++) beginning[i] = ' ';` of `write_number`. -/
def write_spaces (b : buffer_t) (beginning n : Nat) : Option buffer_t :=
  (List.range n).foldlM (fun b1 i => store b1 (beginning + i) ' ') b

/-- The loop `for (j = total_length-1; x > 0; j--)` of `write_number`, started
at index `j` with the number `x`; the first argument bounds the number of
iterations (`x` iterations always suffice), the counter `j` is an
`unsigned int`. -/
def write_digits : Nat → buffer_t → Nat → Nat → Nat → Option buffer_t
  | 0, b, _, _, _ => some b
  | k + 1, b, beginning, j, x =>
    if x > 0 then
      (store b (beginning + j) (number_to_digit (x % 10))).bind fun b1 =>
        write_digits k b1 beginning (sub32 j 1) (x / 10)
    else some b

/-- Function `write_number`; the pointer `beginning` is the offset of the
target place in the block. -/
def write_number (b : buffer_t) (beginning total_length x : Nat) (white : Char) :
    Option buffer_t :=
  (if x = 0 then
    (write_spaces b beginning (sub32 total_length 1)).bind fun b1 =>
      store b1 (beginning + sub32 total_length 1) '.'
  else
    let x_length := decimal_length x
    let num_of_spaces := sub32 total_length x_length
    (write_spaces b beginning num_of_spaces).bind fun b1 =>
      write_digits x b1 beginning (sub32 total_length 1) x).bind fun b2 =>
  store b2 (beginning + total_length) white

/-- One call `write_number(buffer, max_digits, v, white); buffer += max_digits + 1;`
on the block and the offset of the moving pointer `buffer`. -/
def write_cell (max_digits v : Nat) (white : Char) (s : buffer_t × Nat) :
    Option (buffer_t × Nat) :=
  (write_number s.1 s.2 max_digits v white).bind fun b1 => some (b1, s.2 + (max_digits + 1))

/-- The body of the outer loop of `fill_buffer_with_spaces` for the board row
`row = y - 1`. -/
def row_with_spaces (g : gamma_t) (max_digits row : Nat) (s : buffer_t × Nat) :
    Option (buffer_t × Nat) :=
  ((List.range (g.width_x - 1)).foldlM
    (fun s1 x => write_cell max_digits (g.board x row) ' ' s1) s).bind fun s2 =>
  write_cell max_digits (g.board (g.width_x - 1) row) '\n' s2

/-- Function `fill_buffer_with_spaces`, allocation taken to succeed.  The size
`(max_digits+1)*g->width_x*(uint64_t) g->height_y + 1` is computed in
`unsigned int` up to the cast and in `uint64_t` after it; the rows run from
`y - 1 = height_y - 1` down to 0.  The result is the block, whose start the
function returns. -/
def fill_buffer_with_spaces (g : gamma_t) (max_digits : Nat) : Option buffer_t :=
  let buffer := malloc
    ((((((max_digits + 1) % U32) * g.width_x) % U32) * g.height_y % U64 + 1) % U64)
  ((List.range g.height_y).reverse.foldlM
    (fun s row => row_with_spaces g max_digits row s) (buffer, 0)).bind fun s =>
  store s.1 s.2 '\x00'

/-- The statement `buffer[0] = c; buffer++;`. -/
def put_char (c : Char) (s : buffer_t × Nat) : Option (buffer_t × Nat) :=
  (store s.1 s.2 c).bind fun b1 => some (b1, s.2 + 1)

/-- The body of the outer loop of `fill_buffer_without_spaces` for the board
row `row = y - 1`. -/
def row_without_spaces (g : gamma_t) (row : Nat) (s : buffer_t × Nat) :
    Option (buffer_t × Nat) :=
  ((List.range g.width_x).foldlM
    (fun s1 x =>
      let owner_num := g.board x row
      if owner_num ≠ 0 then put_char (number_to_digit owner_num) s1
      else put_char '.' s1) s).bind fun s2 =>
  put_char '\n' s2

/-- Function `fill_buffer_without_spaces`, allocation taken to succeed.  In the
size `(g->width_x + 1) * (uint64_t) g->height_y + 1` the sum `g->width_x + 1`
is computed in `uint32_t`. -/
def fill_buffer_without_spaces (g : gamma_t) : Option buffer_t :=
  let buffer := malloc ((((g.width_x + 1) % U32) * g.height_y % U64 + 1) % U64)
  ((List.range g.height_y).reverse.foldlM
    (fun s row => row_without_spaces g row s) (buffer, 0)).bind fun s =>
  store s.1 s.2 '\x00'

/-- Function `gamma_board` on a non-null game: the block holding the text, or
`none` when a write leaves the block. -/
def gamma_board (g : gamma_t) : Option buffer_t :=
  let max_digits := decimal_length g.n_of_players
  if max_digits ≠ 1 then fill_buffer_with_spaces g max_digits
  else fill_buffer_without_spaces g

/-- The characters of the C string at the start of the block: the bytes in
front of the first zero byte. -/
def read_string_from (b : buffer_t) : Nat → Nat → List Char
  | 0, _ => []
  | k + 1, i =>
    match b.data i with
    | none => []
    | some c => if c = '\x00' then [] else c :: read_string_from b k (i + 1)

/-- The C string a caller of `gamma_board` reads from the returned pointer. -/
def c_string (b : buffer_t) : List Char := read_string_from b b.size 0

/-! ### Writers of blocks of text -/

/-- The step `step` writes the `L` characters `t 0, ..., t (L-1)` at the
offset of the moving pointer and advances the pointer by `L`, leaving the
bytes in front of it as they were; it goes through exactly when the `L`
bytes lie inside the block. -/
def block_step (L : Nat) (step : buffer_t × Nat → Option (buffer_t × Nat))
    (t : Nat → Option Char) : Prop :=
  ∀ s : buffer_t × Nat, s.2 ≤ s.1.size →
    (s.2 + L ≤ s.1.size → ∃ b1, step s = some (b1, s.2 + L) ∧ b1.size = s.1.size ∧
      (∀ k, k < L → b1.data (s.2 + k) = t k) ∧ ∀ j, j < s.2 → b1.data j = s.1.data j) ∧
    (s.1.size < s.2 + L → step s = none)

theorem store_some (b : buffer_t) (i : Nat) (c : Char) (h : i < b.size) :
    ∃ b1, store b i c = some b1 ∧ b1.size = b.size ∧ b1.data i = some c ∧
      ∀ j, j ≠ i → b1.data j = b.data j := by
  refine ⟨{ b with data := write1 b.data i (some c) }, ?_, rfl, ?_, ?_⟩
  · unfold store
    rw [if_pos h]
  · show write1 b.data i (some c) i = some c
    unfold write1
    rw [if_pos rfl]
  · intro j hj
    show write1 b.data i (some c) j = b.data j
    unfold write1
    rw [if_neg hj]

theorem store_none (b : buffer_t) (i : Nat) (c : Char) (h : b.size ≤ i) :
    store b i c = none := by
  unfold store
  rw [if_neg (by omega)]

theorem store_size (b : buffer_t) (i : Nat) (c : Char) (b1 : buffer_t)
    (h : store b i c = some b1) : b1.size = b.size := by
  unfold store at h
  by_cases hi : i < b.size
  · rw [if_pos hi] at h
    rw [← Option.some.inj h]
  · rw [if_neg hi] at h
    exact absurd h (by simp)

theorem block_put_char (c : Char) : block_step 1 (put_char c) (fun _ => some c) := by
  intro s _
  constructor
  · intro hroom
    obtain ⟨b1, h1, h2, h3, h4⟩ := store_some s.1 s.2 c (by omega)
    refine ⟨b1, ?_, h2, ?_, ?_⟩
    · unfold put_char
      rw [h1]
      rfl
    · intro k hk
      have : k = 0 := by omega
      subst this
      exact h3
    · intro j hj
      exact h4 j (by omega)
  · intro hfull
    unfold put_char
    rw [store_none s.1 s.2 c (by omega)]
    rfl

theorem block_congr {L : Nat} {step : buffer_t × Nat → Option (buffer_t × Nat)}
    {t u : Nat → Option Char} (h : block_step L step t) (htu : ∀ k, k < L → t k = u k) :
    block_step L step u := by
  intro s hs
  obtain ⟨h1, h2⟩ := h s hs
  refine ⟨fun hroom => ?_, h2⟩
  obtain ⟨b1, e1, e2, e3, e4⟩ := h1 hroom
  exact ⟨b1, e1, e2, fun k hk => (e3 k hk).trans (htu k hk), e4⟩

theorem block_length {L M : Nat} {step : buffer_t × Nat → Option (buffer_t × Nat)}
    {t : Nat → Option Char} (h : block_step L step t) (hLM : L = M) : block_step M step t := by
  subst hLM
  exact h

/-- Two writers one after the other write the two texts one after the
other. -/
theorem block_comp {L1 L2 : Nat} {f g : buffer_t × Nat → Option (buffer_t × Nat)}
    {t1 t2 : Nat → Option Char} (hf : block_step L1 f t1) (hg : block_step L2 g t2) :
    block_step (L1 + L2) (fun s => (f s).bind g)
      (fun i => if i < L1 then t1 i else t2 (i - L1)) := by
  intro s hs
  obtain ⟨f1, f2⟩ := hf s hs
  constructor
  · intro hroom
    obtain ⟨b1, e1, e2, e3, e4⟩ := f1 (by omega)
    obtain ⟨g1, _⟩ := hg (b1, s.2 + L1) (by show s.2 + L1 ≤ b1.size; omega)
    obtain ⟨b2, d1, d2, d3, d4⟩ := g1 (by show s.2 + L1 + L2 ≤ b1.size; omega)
    refine ⟨b2, ?_, ?_, ?_, ?_⟩
    · simp only [e1, Option.some_bind, d1]
      rw [Nat.add_assoc]
    · exact d2.trans e2
    · intro k hk
      beta_reduce
      by_cases hk1 : k < L1
      · rw [if_pos hk1, d4 (s.2 + k) (by show s.2 + k < s.2 + L1; omega)]
        exact e3 k hk1
      · rw [if_neg hk1]
        have := d3 (k - L1) (by omega)
        have hidx : s.2 + L1 + (k - L1) = s.2 + k := by omega
        simp only [hidx] at this
        exact this
    · intro j hj
      rw [d4 j (by show j < s.2 + L1; omega)]
      exact e4 j hj
  · intro hfull
    by_cases hroom1 : s.2 + L1 ≤ s.1.size
    · obtain ⟨b1, e1, e2, _, _⟩ := f1 hroom1
      obtain ⟨_, g2⟩ := hg (b1, s.2 + L1) (by show s.2 + L1 ≤ b1.size; omega)
      simp only [e1, Option.some_bind]
      exact g2 (by show b1.size < s.2 + L1 + L2; omega)
    · simp only [f2 (by omega), Option.none_bind]

theorem block_nil (t : Nat → Option Char) : block_step 0 (fun s => some s) t := by
  intro s hs
  refine ⟨fun _ => ⟨s.1, rfl, rfl, fun k hk => absurd hk (by omega), fun _ _ => rfl⟩,
    fun h => absurd h (by omega)⟩

/-- A loop of writers of `L` characters each writes the texts of its
iterations one after the other. -/
theorem block_fold {α : Type} (L : Nat) (step : α → buffer_t × Nat → Option (buffer_t × Nat))
    (t : α → Nat → Option Char) (h : ∀ a, block_step L (step a) (t a)) (l : List α) :
    block_step (l.length * L) (fun s => l.foldlM (fun s1 a => step a s1) s)
      (fun i => match l[i / L]? with
        | some a => t a (i % L)
        | none => none) := by
  induction l with
  | nil =>
    simp only [List.foldlM_nil, List.length_nil, Nat.zero_mul]
    exact block_nil _
  | cons a rest ih =>
    have hc := block_comp (h a) ih
    have hfun : (fun s => (step a s).bind fun s2 => rest.foldlM (fun s1 a => step a s1) s2)
        = (fun s => (a :: rest).foldlM (fun s1 a => step a s1) s) := by
      funext s
      rw [List.foldlM_cons]
      rfl
    rw [hfun] at hc
    refine block_congr (block_length hc (by rw [List.length_cons, Nat.succ_mul, Nat.add_comm])) ?_
    intro k hk
    have hL : 0 < L := by
      rcases Nat.eq_zero_or_pos L with h0 | h0
      · rw [h0] at hk
        simp at hk
      · exact h0
    by_cases hk1 : k < L
    · rw [if_pos hk1]
      simp only [Nat.div_eq_of_lt hk1, Nat.mod_eq_of_lt hk1, List.getElem?_cons_zero]
    · rw [if_neg hk1]
      have hdiv : k / L = (k - L) / L + 1 := by
        rw [← Nat.add_div_right _ hL, Nat.sub_add_cancel (by omega)]
      have hmod : k % L = (k - L) % L := by
        conv_lhs => rw [← Nat.sub_add_cancel (show L ≤ k by omega)]
        exact Nat.add_mod_right _ _
      simp only [hdiv, hmod, List.getElem?_cons_succ]

theorem write_spaces_succ (b : buffer_t) (p n : Nat) :
    write_spaces b p (n + 1) = (write_spaces b p n).bind fun b1 => store b1 (p + n) ' ' := by
  unfold write_spaces
  rw [List.range_succ, List.foldlM_append]
  simp only [List.foldlM_cons, List.foldlM_nil, bind_pure]
  rfl

theorem write_spaces_size (b : buffer_t) (p n : Nat) (b1 : buffer_t)
    (h : write_spaces b p n = some b1) : b1.size = b.size := by
  induction n generalizing b1 with
  | zero =>
    have : b1 = b := by
      have h0 : write_spaces b p 0 = some b := rfl
      rw [h0] at h
      exact (Option.some.inj h).symm
    rw [this]
  | succ n ih =>
    rw [write_spaces_succ] at h
    cases h0 : write_spaces b p n with
    | none =>
      rw [h0] at h
      exact absurd h (by simp)
    | some b0 =>
      rw [h0] at h
      simp only [Option.some_bind] at h
      rw [store_size b0 _ _ b1 h, ih b0 h0]

theorem write_spaces_some (b : buffer_t) (p n : Nat) (h : p + n ≤ b.size) :
    ∃ b1, write_spaces b p n = some b1 ∧ b1.size = b.size ∧
      (∀ k, k < n → b1.data (p + k) = some ' ') ∧
      ∀ j, (j < p ∨ p + n ≤ j) → b1.data j = b.data j := by
  induction n with
  | zero => exact ⟨b, rfl, rfl, fun k hk => absurd hk (by omega), fun _ _ => rfl⟩
  | succ n ih =>
    obtain ⟨b0, e1, e2, e3, e4⟩ := ih (by omega)
    obtain ⟨b1, d1, d2, d3, d4⟩ := store_some b0 (p + n) ' ' (by omega)
    refine ⟨b1, ?_, d2.trans e2, ?_, ?_⟩
    · rw [write_spaces_succ, e1]
      exact d1
    · intro k hk
      by_cases hkn : k = n
      · rw [hkn]
        exact d3
      · rw [d4 (p + k) (by omega)]
        exact e3 k (by omega)
    · intro j hj
      rw [d4 j (by omega)]
      exact e4 j (by omega)

theorem write_digits_size (fuel : Nat) (b : buffer_t) (p j x : Nat) (b1 : buffer_t)
    (h : write_digits fuel b p j x = some b1) : b1.size = b.size := by
  induction fuel generalizing b j x with
  | zero =>
    simp only [write_digits] at h
    rw [← Option.some.inj h]
  | succ k ih =>
    simp only [write_digits] at h
    by_cases hx : x > 0
    · rw [if_pos hx] at h
      cases h0 : store b (p + j) (number_to_digit (x % 10)) with
      | none =>
        rw [h0] at h
        exact absurd h (by simp)
      | some b0 =>
        rw [h0] at h
        simp only [Option.some_bind] at h
        rw [ih b0 _ _ h, store_size b _ _ b0 h0]
    · rw [if_neg hx] at h
      rw [← Option.some.inj h]

theorem digits_pos (x : Nat) (hx : 0 < x) :
    Nat.digits 10 x = x % 10 :: Nat.digits 10 (x / 10) :=
  Nat.digits_def' (by decide) hx

/-- The digit loop writes the decimal digits of `x` from index `j` towards
the start of the field. -/
theorem write_digits_some (fuel : Nat) (b : buffer_t) (p j x : Nat) (hfuel : x ≤ fuel)
    (hlen : (Nat.digits 10 x).length ≤ j + 1) (hj : j < U32) (hroom : p + j < b.size) :
    ∃ b1, write_digits fuel b p j x = some b1 ∧ b1.size = b.size ∧
      (∀ i dg, (Nat.digits 10 x)[i]? = some dg →
        b1.data (p + j - i) = some (number_to_digit dg)) ∧
      ∀ m, (m + (Nat.digits 10 x).length ≤ p + j ∨ p + j < m) → b1.data m = b.data m := by
  induction fuel generalizing b j x with
  | zero =>
    have hx : x = 0 := by omega
    subst hx
    refine ⟨b, rfl, rfl, ?_, fun _ _ => rfl⟩
    intro i dg h
    simp at h
  | succ k ih =>
    by_cases hx : x > 0
    · obtain ⟨b0, e1, e2, e3, e4⟩ := store_some b (p + j) (number_to_digit (x % 10)) hroom
      have hd := digits_pos x hx
      simp only [write_digits, if_pos hx, e1, Option.some_bind]
      by_cases hrest : x / 10 = 0
      · have hdone : write_digits k b0 p (sub32 j 1) (x / 10) = some b0 := by
          rw [hrest]
          cases k <;> simp [write_digits]
        rw [hd, hrest] at *
        refine ⟨b0, hdone, e2, ?_, ?_⟩
        · intro i dg h
          cases i with
          | zero =>
            simp only [List.getElem?_cons_zero, Option.some.injEq] at h
            rw [← h]
            exact e3
          | succ i => simp at h
        · intro m hm
          simp only [Nat.digits_zero, List.length_cons, List.length_nil] at hm
          exact e4 m (by omega)
      · have hlen2 : (Nat.digits 10 x).length = (Nat.digits 10 (x / 10)).length + 1 := by
          rw [hd, List.length_cons]
        have hpos2 : 0 < (Nat.digits 10 (x / 10)).length := by
          rw [digits_pos (x / 10) (by omega), List.length_cons]
          omega
        have hj1 : sub32 j 1 = j - 1 := by
          unfold sub32 U32 at *
          omega
        rw [hj1]
        obtain ⟨b1, d1, d2, d3, d4⟩ := ih b0 (j - 1) (x / 10)
          (by have := Nat.div_lt_self hx (by decide : 1 < 10); omega) (by omega) (by omega)
          (by rw [e2]; omega)
        refine ⟨b1, d1, d2.trans e2, ?_, ?_⟩
        · intro i dg h
          rw [hd] at h
          cases i with
          | zero =>
            simp only [List.getElem?_cons_zero, Option.some.injEq] at h
            rw [← h, d4 (p + j - 0) (by omega)]
            exact e3
          | succ i =>
            simp only [List.getElem?_cons_succ] at h
            have hi : i < (Nat.digits 10 (x / 10)).length := by
              by_contra hcon
              rw [List.getElem?_eq_none (by omega)] at h
              exact absurd h (by simp)
            have := d3 i dg h
            have hidx : p + (j - 1) - i = p + j - (i + 1) := by omega
            rw [hidx] at this
            exact this
        · intro m hm
          rw [d4 m (by omega)]
          exact e4 m (by omega)
    · have hx0 : x = 0 := by omega
      subst hx0
      refine ⟨b, by simp [write_digits], rfl, ?_, fun _ _ => rfl⟩
      intro i dg h
      simp at h

theorem decimal_length_loop_eq (fuel x res : Nat) (hfuel : x ≤ fuel) (hx : 0 < x) :
    decimal_length_loop fuel x res = res + (Nat.digits 10 x).length - 1 := by
  induction fuel generalizing x res with
  | zero => omega
  | succ k ih =>
    have hd := digits_pos x hx
    simp only [decimal_length_loop]
    by_cases h10 : x ≥ 10
    · rw [if_pos h10, ih (x / 10) (res + 1)
        (by have := Nat.div_lt_self hx (by decide : 1 < 10); omega) (by omega), hd,
        List.length_cons]
      omega
    · rw [if_neg h10, hd, Nat.div_eq_of_lt (by omega)]
      simp

/-- The value of `decimal_length` is the number of decimal digits. -/
theorem decimal_length_eq (x : Nat) (hx : 0 < x) :
    decimal_length x = (Nat.digits 10 x).length := by
  unfold decimal_length
  rw [decimal_length_loop_eq x x 1 (Nat.le_refl _) hx]
  omega

theorem decimal_length_zero : decimal_length 0 = 1 := rfl

theorem number_to_digit_eq (dg : Nat) (h : dg < 10) : number_to_digit dg = Nat.digitChar dg := by
  interval_cases dg <;> rfl

/-- The text of a field without padding: `.` for a free field, the decimal
representation of the owner otherwise. -/
def owner_text (v : Nat) : List Char :=
  if v = 0 then ['.'] else (Nat.digits 10 v).reverse.map Nat.digitChar

/-- The `d + 1` characters of a field of width `d`: the text of the field
aligned to the right behind spaces, followed by the character `white`. -/
def cell_text (d v : Nat) (white : Char) : List Char :=
  List.replicate (d - (owner_text v).length) ' ' ++ owner_text v ++ [white]

theorem owner_text_length_pos (v : Nat) : 0 < (owner_text v).length := by
  unfold owner_text
  by_cases hv : v = 0
  · rw [if_pos hv]
    decide
  · rw [if_neg hv, List.length_map, List.length_reverse, digits_pos v (by omega)]
    simp

theorem cell_text_pad (d v : Nat) (white : Char) (k : Nat)
    (hk : k + (owner_text v).length < d) : (cell_text d v white)[k]? = some ' ' := by
  unfold cell_text
  rw [List.append_assoc, List.getElem?_append_left (by rw [List.length_replicate]; omega),
    List.getElem?_replicate, if_pos (by omega)]

theorem cell_text_owner (d v : Nat) (white : Char) (k : Nat)
    (hlen : (owner_text v).length ≤ d) (hk1 : d ≤ k + (owner_text v).length) (hk2 : k < d) :
    (cell_text d v white)[k]? = (owner_text v)[k + (owner_text v).length - d]? := by
  unfold cell_text
  rw [List.append_assoc, List.getElem?_append_right (by rw [List.length_replicate]; omega),
    List.length_replicate, List.getElem?_append_left (by omega)]
  congr 1
  omega

theorem cell_text_white (d v : Nat) (white : Char) (hlen : (owner_text v).length ≤ d) :
    (cell_text d v white)[d]? = some white := by
  unfold cell_text
  rw [List.getElem?_append_right
    (by rw [List.length_append, List.length_replicate]; omega)]
  have : d - (List.replicate (d - (owner_text v).length) ' ' ++ owner_text v).length = 0 := by
    rw [List.length_append, List.length_replicate]
    omega
  rw [this]
  rfl

theorem cell_text_length (d v : Nat) (white : Char) (hlen : (owner_text v).length ≤ d) :
    (cell_text d v white).length = d + 1 := by
  unfold cell_text
  rw [List.length_append, List.length_append, List.length_replicate]
  simp only [List.length_singleton]
  omega

theorem write_number_size (b : buffer_t) (p d v : Nat) (white : Char) (b1 : buffer_t)
    (h : write_number b p d v white = some b1) : b1.size = b.size := by
  unfold write_number at h
  by_cases hv : v = 0
  · rw [if_pos hv] at h
    cases h1 : write_spaces b p (sub32 d 1) with
    | none =>
      rw [h1] at h
      exact absurd h (by simp)
    | some b2 =>
      rw [h1] at h
      simp only [Option.some_bind] at h
      cases h2 : store b2 (p + sub32 d 1) '.' with
      | none =>
        rw [h2] at h
        exact absurd h (by simp)
      | some b3 =>
        rw [h2] at h
        simp only [Option.some_bind] at h
        rw [store_size b3 _ _ b1 h, store_size b2 _ _ b3 h2, write_spaces_size b _ _ b2 h1]
  · rw [if_neg hv] at h
    simp only [] at h
    cases h1 : write_spaces b p (sub32 d (decimal_length v)) with
    | none =>
      rw [h1] at h
      exact absurd h (by simp)
    | some b2 =>
      rw [h1] at h
      simp only [Option.some_bind] at h
      cases h2 : write_digits v b2 p (sub32 d 1) v with
      | none =>
        rw [h2] at h
        exact absurd h (by simp)
      | some b3 =>
        rw [h2] at h
        simp only [Option.some_bind] at h
        rw [store_size b3 _ _ b1 h, write_digits_size _ b2 _ _ _ b3 h2,
          write_spaces_size b _ _ b2 h1]

theorem write_number_none (b : buffer_t) (p d v : Nat) (white : Char)
    (h : b.size ≤ p + d) : write_number b p d v white = none := by
  cases hres : write_number b p d v white with
  | none => rfl
  | some b1 =>
    exfalso
    have hres2 := hres
    unfold write_number at hres2
    cases hX : (if v = 0 then
        (write_spaces b p (sub32 d 1)).bind fun b1 => store b1 (p + sub32 d 1) '.'
      else
        let x_length := decimal_length v
        let num_of_spaces := sub32 d x_length
        (write_spaces b p num_of_spaces).bind fun b1 =>
          write_digits v b1 p (sub32 d 1) v) with
    | none =>
      rw [hX] at hres2
      exact absurd hres2 (by simp)
    | some b2 =>
      rw [hX] at hres2
      simp only [Option.some_bind] at hres2
      have hs1 := store_size b2 _ _ b1 hres2
      have hs2 := write_number_size b p d v white b1 hres
      rw [store_none b2 (p + d) white (by omega)] at hres2
      exact absurd hres2 (by simp)

theorem owner_text_zero : owner_text 0 = ['.'] := rfl

theorem owner_text_pos (v : Nat) (hv : 0 < v) :
    owner_text v = (Nat.digits 10 v).reverse.map Nat.digitChar := by
  unfold owner_text
  rw [if_neg (by omega)]

theorem owner_text_get (v : Nat) (hv : 0 < v) (i : Nat) (hi : i < (Nat.digits 10 v).length) :
    ∃ dg, (Nat.digits 10 v)[i]? = some dg ∧
      (owner_text v)[(Nat.digits 10 v).length - 1 - i]? = some (number_to_digit dg) := by
  refine ⟨(Nat.digits 10 v)[i], List.getElem?_eq_getElem hi, ?_⟩
  have hlt : (Nat.digits 10 v)[i] < 10 :=
    Nat.digits_lt_base (by decide) (List.getElem_mem hi)
  rw [owner_text_pos v hv, List.getElem?_map, List.getElem?_reverse (by omega)]
  have hidx : (Nat.digits 10 v).length - 1 - ((Nat.digits 10 v).length - 1 - i) = i := by omega
  rw [hidx, List.getElem?_eq_getElem hi, number_to_digit_eq _ hlt]
  rfl

/-- One call of `write_number` followed by `buffer += max_digits + 1` writes
the text of the field. -/
theorem block_write_cell (d v : Nat) (white : Char) (hd1 : 1 ≤ d) (hd : d < U32)
    (hlen : (owner_text v).length ≤ d) :
    block_step (d + 1) (write_cell d v white) (fun k => (cell_text d v white)[k]?) := by
  intro s hs
  have hsub : sub32 d 1 = d - 1 := by
    unfold sub32 U32 at *
    omega
  constructor
  · intro hroom
    by_cases hv : v = 0
    · subst hv
      rw [owner_text_zero] at hlen
      obtain ⟨b1, e1, e2, e3, e4⟩ := write_spaces_some s.1 s.2 (d - 1) (by omega)
      obtain ⟨b2, f1, f2, f3, f4⟩ := store_some b1 (s.2 + (d - 1)) '.' (by omega)
      obtain ⟨b3, g1, g2, g3, g4⟩ := store_some b2 (s.2 + d) white (by omega)
      refine ⟨b3, ?_, by omega, ?_, ?_⟩
      · unfold write_cell write_number
        rw [if_pos rfl, hsub, e1]
        simp only [Option.some_bind, f1, g1]
      · intro k hk
        beta_reduce
        by_cases hkd : k = d
        · rw [hkd, cell_text_white d 0 white (by rw [owner_text_zero]; exact hlen)]
          exact g3
        rw [g4 (s.2 + k) (by omega)]
        by_cases hk1 : k = d - 1
        · rw [cell_text_owner d 0 white k (by rw [owner_text_zero]; exact hlen)
            (by rw [owner_text_zero]; simp only [List.length_singleton]; omega) (by omega)]
          have h0 : k + (owner_text 0).length - d = 0 := by
            rw [owner_text_zero]
            simp only [List.length_singleton]
            omega
          rw [h0, hk1]
          exact f3
        · rw [f4 (s.2 + k) (by omega),
            cell_text_pad d 0 white k
              (by rw [owner_text_zero]; simp only [List.length_singleton]; omega)]
          exact e3 k (by omega)
      · intro j hj
        rw [g4 j (by omega), f4 j (by omega)]
        exact e4 j (Or.inl hj)
    · have hvpos : 0 < v := by omega
      have hot : (owner_text v).length = (Nat.digits 10 v).length := by
        rw [owner_text_pos v hvpos, List.length_map, List.length_reverse]
      rw [hot] at hlen
      have hpos := owner_text_length_pos v
      rw [hot] at hpos
      have hdl := decimal_length_eq v hvpos
      have hsub2 : sub32 d (Nat.digits 10 v).length = d - (Nat.digits 10 v).length := by
        unfold sub32 U32 at *
        omega
      obtain ⟨b1, e1, e2, e3, e4⟩ :=
        write_spaces_some s.1 s.2 (d - (Nat.digits 10 v).length) (by omega)
      obtain ⟨b2, f1, f2, f3, f4⟩ := write_digits_some v b1 s.2 (d - 1) v (Nat.le_refl _)
        (by omega) (by omega) (by omega)
      obtain ⟨b3, g1, g2, g3, g4⟩ := store_some b2 (s.2 + d) white (by omega)
      refine ⟨b3, ?_, by omega, ?_, ?_⟩
      · unfold write_cell write_number
        rw [if_neg hv]
        simp only [hdl, hsub, hsub2, e1, Option.some_bind, f1, g1]
      · intro k hk
        beta_reduce
        by_cases hkd : k = d
        · rw [hkd, cell_text_white d v white (by rw [hot]; exact hlen)]
          exact g3
        rw [g4 (s.2 + k) (by omega)]
        by_cases hk1 : k + (Nat.digits 10 v).length < d
        · rw [f4 (s.2 + k) (by omega), cell_text_pad d v white k (by rw [hot]; exact hk1)]
          exact e3 k (by omega)
        · obtain ⟨dg, hdg1, hdg2⟩ := owner_text_get v hvpos (d - 1 - k) (by omega)
          rw [cell_text_owner d v white k (by rw [hot]; exact hlen) (by rw [hot]; omega)
            (by omega), hot]
          have hidx : k + (Nat.digits 10 v).length - d
              = (Nat.digits 10 v).length - 1 - (d - 1 - k) := by omega
          rw [hidx, hdg2]
          have := f3 (d - 1 - k) dg hdg1
          have hidx2 : s.2 + (d - 1) - (d - 1 - k) = s.2 + k := by omega
          rw [hidx2] at this
          exact this
      · intro j hj
        rw [g4 j (by omega), f4 j (by omega)]
        exact e4 j (Or.inl hj)
  · intro hfull
    unfold write_cell
    rw [write_number_none s.1 s.2 d v white (by omega)]
    rfl

theorem block_index (r x k w L : Nat) (hx : x < w) (hk : k < L) :
    ((r * w + x) * L + k) / (w * L) = r ∧ ((r * w + x) * L + k) % (w * L) = x * L + k ∧
      (x * L + k) / L = x ∧ (x * L + k) % L = k ∧ x * L + k < w * L := by
  have hL : 0 < L := by omega
  have h1 : x * L + k < w * L := by
    calc x * L + k < x * L + L := by omega
      _ = (x + 1) * L := by ring
      _ ≤ w * L := Nat.mul_le_mul_right L hx
  have hwL : 0 < w * L := by omega
  have e : (r * w + x) * L + k = x * L + k + (w * L) * r := by ring
  have e2 : x * L + k = k + L * x := by ring
  refine ⟨?_, ?_, ?_, ?_, h1⟩
  · rw [e, Nat.add_mul_div_left _ _ hwL, Nat.div_eq_of_lt h1, Nat.zero_add]
  · rw [e, Nat.add_mul_mod_self_left, Nat.mod_eq_of_lt h1]
  · rw [e2, Nat.add_mul_div_left _ _ hL, Nat.div_eq_of_lt hk, Nat.zero_add]
  · rw [e2, Nat.add_mul_mod_self_left, Nat.mod_eq_of_lt hk]

theorem rows_get (h r : Nat) (hr : r < h) : (List.range h).reverse[r]? = some (h - 1 - r) := by
  rw [List.getElem?_reverse (by rw [List.length_range]; exact hr), List.length_range,
    List.getElem?_range (by omega)]

/-- The text of the board row `row` in `fill_buffer_with_spaces`, by index. -/
def row_text_with_spaces (g : gamma_t) (d row : Nat) (i : Nat) : Option Char :=
  (cell_text d (g.board (i / (d + 1)) row)
    (if i / (d + 1) < g.width_x - 1 then ' ' else '\n'))[i % (d + 1)]?

theorem block_row_with_spaces (g : gamma_t) (d row : Nat) (hw : 0 < g.width_x) (hd1 : 1 ≤ d)
    (hd : d < U32) (hlen : ∀ x, (owner_text (g.board x row)).length ≤ d) :
    block_step (g.width_x * (d + 1)) (row_with_spaces g d row)
      (row_text_with_spaces g d row) := by
  have hfold := block_fold (d + 1) (fun x => write_cell d (g.board x row) ' ')
    (fun x k => (cell_text d (g.board x row) ' ')[k]?)
    (fun x => block_write_cell d (g.board x row) ' ' hd1 hd (hlen x))
    (List.range (g.width_x - 1))
  have hlast := block_write_cell d (g.board (g.width_x - 1) row) '\n' hd1 hd
    (hlen (g.width_x - 1))
  have hc := block_comp hfold hlast
  rw [List.length_range] at hc
  have hlen2 : (g.width_x - 1) * (d + 1) + (d + 1) = g.width_x * (d + 1) := by
    have : g.width_x = (g.width_x - 1) + 1 := by omega
    conv_rhs => rw [this, Nat.add_mul, Nat.one_mul]
  refine block_congr (block_length hc hlen2) ?_
  intro k hk
  beta_reduce
  unfold row_text_with_spaces
  by_cases hk1 : k < (g.width_x - 1) * (d + 1)
  · have hdiv : k / (d + 1) < g.width_x - 1 := (Nat.div_lt_iff_lt_mul (by omega)).2 hk1
    rw [if_pos hk1, List.getElem?_range hdiv, if_pos hdiv]
  · rw [if_neg hk1]
    have hdiv : k / (d + 1) = g.width_x - 1 := by
      apply Nat.div_eq_of_lt_le
      · omega
      · rw [Nat.sub_add_cancel hw]
        exact hk
    have hmod : k % (d + 1) = k - (g.width_x - 1) * (d + 1) := by
      have := Nat.div_add_mod k (d + 1)
      rw [hdiv, Nat.mul_comm] at this
      omega
    rw [hdiv, hmod, if_neg (by omega)]

/-- The outer loop over the rows `height_y - 1, ..., 0` followed by the
terminating zero byte, on a fresh block of `size` bytes: with room for the
text and the zero byte the rows stand one after the other, without it some
write leaves the block. -/
theorem fill_rows (size h Lr : Nat) (row_step : Nat → buffer_t × Nat → Option (buffer_t × Nat))
    (row_text : Nat → Nat → Option Char)
    (hrow : ∀ row, block_step Lr (row_step row) (row_text row)) :
    (h * Lr < size →
      ∃ b, ((List.range h).reverse.foldlM (fun s row => row_step row s)
          (malloc size, 0)).bind (fun s => store s.1 s.2 '\x00') = some b ∧
        b.size = size ∧
        (∀ r i, r < h → i < Lr → b.data (r * Lr + i) = row_text (h - 1 - r) i) ∧
        b.data (h * Lr) = some '\x00') ∧
    (size ≤ h * Lr →
      ((List.range h).reverse.foldlM (fun s row => row_step row s)
        (malloc size, 0)).bind (fun s => store s.1 s.2 '\x00') = none) := by
  have hfold := block_fold Lr row_step row_text hrow (List.range h).reverse
  rw [List.length_reverse, List.length_range] at hfold
  obtain ⟨h1, h2⟩ := hfold (malloc size, 0) (Nat.zero_le _)
  have hsz : (malloc size).size = size := rfl
  constructor
  · intro hroom
    obtain ⟨b1, e1, e2, e3, e4⟩ := h1 (by show 0 + h * Lr ≤ (malloc size).size; rw [hsz]; omega)
    obtain ⟨b2, f1, f2, f3, f4⟩ := store_some b1 (h * Lr) '\x00'
      (by rw [e2]; show h * Lr < (malloc size).size; rw [hsz]; exact hroom)
    refine ⟨b2, ?_, ?_, ?_, f3⟩
    · beta_reduce at e1
      rw [e1]
      simp only [Option.some_bind, Nat.zero_add]
      exact f1
    · rw [f2, e2]
      rfl
    · intro r i hr hi
      have hlt : r * Lr + i < h * Lr := by
        calc r * Lr + i < r * Lr + Lr := by omega
          _ = (r + 1) * Lr := by ring
          _ ≤ h * Lr := Nat.mul_le_mul_right Lr hr
      rw [f4 (r * Lr + i) (by omega)]
      have := e3 (r * Lr + i) hlt
      simp only [Nat.zero_add] at this
      rw [this]
      have hdiv : (r * Lr + i) / Lr = r := by
        rw [Nat.add_comm, Nat.mul_comm, Nat.add_mul_div_left _ _ (by omega : 0 < Lr),
          Nat.div_eq_of_lt hi, Nat.zero_add]
      have hmod : (r * Lr + i) % Lr = i := by
        rw [Nat.add_comm, Nat.mul_comm, Nat.add_mul_mod_self_left, Nat.mod_eq_of_lt hi]
      rw [hdiv, hmod, rows_get h r hr]
  · intro hfull
    by_cases hlt : size < h * Lr
    · have := h2 (by show (malloc size).size < 0 + h * Lr; rw [hsz]; omega)
      beta_reduce at this
      rw [this]
      rfl
    · have hroom : 0 + h * Lr ≤ (malloc size).size := by rw [hsz]; omega
      obtain ⟨b1, e1, e2, _, _⟩ := h1 hroom
      beta_reduce at e1
      rw [e1]
      simp only [Option.some_bind, Nat.zero_add]
      exact store_none b1 (h * Lr) '\x00' (by rw [e2, hsz]; omega)

/-- The character `fill_buffer_without_spaces` writes for a field with the
owner number `v`. -/
def owner_char (v : Nat) : Char := if v ≠ 0 then number_to_digit v else '.'

/-- The text of the board row `row` in `fill_buffer_without_spaces`, by
index. -/
def row_text_without_spaces (g : gamma_t) (row : Nat) (i : Nat) : Option Char :=
  if i < g.width_x then some (owner_char (g.board i row)) else some '\n'

theorem block_row_without_spaces (g : gamma_t) (row : Nat) :
    block_step (g.width_x + 1) (row_without_spaces g row) (row_text_without_spaces g row) := by
  have hstep : ∀ x, block_step 1
      (fun s1 => if g.board x row ≠ 0 then put_char (number_to_digit (g.board x row)) s1
        else put_char '.' s1)
      (fun _ => some (owner_char (g.board x row))) := by
    intro x
    unfold owner_char
    by_cases hv : g.board x row ≠ 0
    · simp only [if_pos hv]
      exact block_put_char _
    · simp only [if_neg hv]
      exact block_put_char _
  have hfold := block_fold 1 _ _ hstep (List.range g.width_x)
  have hc := block_comp hfold (block_put_char '\n')
  rw [List.length_range, Nat.mul_one] at hc
  refine block_congr hc ?_
  intro k hk
  beta_reduce
  unfold row_text_without_spaces
  by_cases hk1 : k < g.width_x
  · rw [if_pos hk1, if_pos hk1, Nat.div_one, List.getElem?_range hk1]
  · rw [if_neg hk1, if_neg hk1]

theorem read_string_from_spec (b : buffer_t) (N : Nat)
    (hdata : ∀ i, i < N → ∃ c, b.data i = some c ∧ c ≠ '\x00')
    (hend : b.data N = some '\x00') (fuel i : Nat) (hi : i ≤ N) (hfuel : N - i < fuel) :
    (read_string_from b fuel i).length = N - i ∧
      ∀ k, k < N - i → (read_string_from b fuel i)[k]? = b.data (i + k) := by
  induction fuel generalizing i with
  | zero => omega
  | succ n ih =>
    by_cases hiN : i = N
    · subst hiN
      simp only [read_string_from, hend, if_true, List.length_nil, Nat.sub_self, true_and]
      intro k hk
      omega
    · obtain ⟨c, hc, hc0⟩ := hdata i (by omega)
      obtain ⟨ih1, ih2⟩ := ih (i + 1) (by omega) (by omega)
      simp only [read_string_from, hc, if_neg hc0, List.length_cons]
      refine ⟨by omega, ?_⟩
      intro k hk
      cases k with
      | zero => simp only [List.getElem?_cons_zero, Nat.add_zero, hc]
      | succ k =>
        simp only [List.getElem?_cons_succ]
        rw [ih2 k (by omega)]
        congr 1
        omega

/-- The string read from a block that holds `N` non-zero characters followed
by a zero byte. -/
theorem c_string_spec (b : buffer_t) (N : Nat) (hN : N < b.size)
    (hdata : ∀ i, i < N → ∃ c, b.data i = some c ∧ c ≠ '\x00')
    (hend : b.data N = some '\x00') :
    (c_string b).length = N ∧ ∀ k, k < N → (c_string b)[k]? = b.data k := by
  have h := read_string_from_spec b N hdata hend b.size 0 (Nat.zero_le _) (by omega)
  unfold c_string
  refine ⟨h.1, ?_⟩
  intro k hk
  have := h.2 k (by omega)
  rw [Nat.zero_add] at this
  exact this

theorem digitChar_ne_zero (dg : Nat) (h : dg < 10) : Nat.digitChar dg ≠ '\x00' := by
  interval_cases dg <;> decide

theorem owner_text_ne_zero (v : Nat) (c : Char) (hc : c ∈ owner_text v) : c ≠ '\x00' := by
  unfold owner_text at hc
  by_cases hv : v = 0
  · rw [if_pos hv] at hc
    have : c = '.' := by simpa using hc
    rw [this]
    decide
  · rw [if_neg hv] at hc
    obtain ⟨dg, hdg, rfl⟩ := List.mem_map.1 hc
    exact digitChar_ne_zero dg (Nat.digits_lt_base (by decide) (List.mem_reverse.1 hdg))

theorem cell_text_ne_zero (d v : Nat) (white : Char) (hw : white ≠ '\x00')
    (hlen : (owner_text v).length ≤ d) (k : Nat) (hk : k < d + 1) :
    ∃ c, (cell_text d v white)[k]? = some c ∧ c ≠ '\x00' := by
  have hk2 : k < (cell_text d v white).length := by
    rw [cell_text_length d v white hlen]
    exact hk
  refine ⟨(cell_text d v white)[k], List.getElem?_eq_getElem hk2, ?_⟩
  have hmem : ∀ c, c ∈ cell_text d v white → c ≠ '\x00' := by
    intro c hc
    unfold cell_text at hc
    rcases List.mem_append.1 hc with h1 | h1
    · rcases List.mem_append.1 h1 with h2 | h2
      · rw [(List.mem_replicate.1 h2).2]
        decide
      · exact owner_text_ne_zero v _ h2
    · have : c = white := by simpa using h1
      rw [this]
      exact hw
  exact hmem _ (List.getElem_mem hk2)

theorem size_without_spaces (w h : Nat) (hw : w + 1 < U32) (hh : h < U32) :
    (((w + 1) % U32) * h % U64 + 1) % U64 = h * (w + 1) + 1 := by
  unfold U32 U64 at *
  have h1 : (w + 1) * h ≤ 4294967295 * 4294967295 :=
    Nat.mul_le_mul (by omega) (by omega)
  rw [Nat.mod_eq_of_lt hw, Nat.mod_eq_of_lt (by omega), Nat.mod_eq_of_lt (by omega),
    Nat.mul_comm]

theorem size_with_spaces (d w h : Nat) (hw : 0 < w) (hdw : (d + 1) * w < U32) (hh : h < U32) :
    (((((d + 1) % U32) * w) % U32) * h % U64 + 1) % U64 = h * (w * (d + 1)) + 1 := by
  unfold U32 U64 at *
  have hd : d + 1 < 4294967296 := by
    have : (d + 1) * 1 ≤ (d + 1) * w := Nat.mul_le_mul_left _ hw
    omega
  have h1 : (d + 1) * w * h ≤ 4294967295 * 4294967295 :=
    Nat.mul_le_mul (by omega) (by omega)
  rw [Nat.mod_eq_of_lt hd, Nat.mod_eq_of_lt hdw, Nat.mod_eq_of_lt (by omega),
    Nat.mod_eq_of_lt (by omega)]
  congr 1
  ring

theorem decimal_length_loop_le (fuel x res : Nat) :
    decimal_length_loop fuel x res ≤ res + x / 10 := by
  induction fuel generalizing x res with
  | zero => simp [decimal_length_loop]
  | succ k ih =>
    simp only [decimal_length_loop]
    by_cases h10 : x ≥ 10
    · rw [if_pos h10]
      have := ih (x / 10) (res + 1)
      omega
    · rw [if_neg h10]
      omega

theorem decimal_length_bounds (x : Nat) (hx : x < U32) :
    1 ≤ decimal_length x ∧ decimal_length x < U32 := by
  constructor
  · by_cases h0 : x = 0
    · rw [h0]
      decide
    · rw [decimal_length_eq x (by omega), digits_pos x (by omega), List.length_cons]
      omega
  · have := decimal_length_loop_le x x 1
    unfold decimal_length
    unfold U32 at *
    omega

theorem decimal_length_one_iff (x : Nat) (hx : 0 < x) : decimal_length x = 1 ↔ x < 10 := by
  rw [decimal_length_eq x hx, digits_pos x hx, List.length_cons]
  constructor
  · intro h
    by_contra h10
    rw [digits_pos (x / 10) (by omega), List.length_cons] at h
    omega
  · intro h
    rw [Nat.div_eq_of_lt h]
    simp

theorem owner_text_length_le (v n : Nat) (hvn : v ≤ n) (hn : 0 < n) :
    (owner_text v).length ≤ decimal_length n := by
  rw [decimal_length_eq n hn]
  by_cases hv : v = 0
  · rw [hv, owner_text_zero, digits_pos n hn]
    simp
  · rw [owner_text_pos v (by omega), List.length_map, List.length_reverse]
    exact Nat.le_digits_len_le 10 v n hvn

/-- The allocation size computed by `fill_buffer_without_spaces`. -/
def size_without (g : gamma_t) : Nat := (((g.width_x + 1) % U32) * g.height_y % U64 + 1) % U64

/-- The allocation size computed by `fill_buffer_with_spaces`. -/
def size_with (g : gamma_t) (max_digits : Nat) : Nat :=
  (((((max_digits + 1) % U32) * g.width_x) % U32) * g.height_y % U64 + 1) % U64

/-- The result of `fill_buffer_without_spaces`: the text when the block has
room for it and the zero byte, a write outside the block otherwise. -/
theorem fill_buffer_without_spaces_spec (g : gamma_t) :
    (g.height_y * (g.width_x + 1) < size_without g →
      ∃ b, fill_buffer_without_spaces g = some b ∧ b.size = size_without g ∧
        (∀ r i, r < g.height_y → i < g.width_x + 1 →
          b.data (r * (g.width_x + 1) + i)
            = row_text_without_spaces g (g.height_y - 1 - r) i) ∧
        b.data (g.height_y * (g.width_x + 1)) = some '\x00') ∧
    (size_without g ≤ g.height_y * (g.width_x + 1) → fill_buffer_without_spaces g = none) :=
  fill_rows (size_without g) g.height_y (g.width_x + 1) (row_without_spaces g)
    (row_text_without_spaces g) (block_row_without_spaces g)

/-- The result of `fill_buffer_with_spaces` for a field width that holds
every number on the board. -/
theorem fill_buffer_with_spaces_spec (g : gamma_t) (d : Nat) (hw : 0 < g.width_x)
    (hd1 : 1 ≤ d) (hd : d < U32) (hlen : ∀ x y, (owner_text (g.board x y)).length ≤ d) :
    (g.height_y * (g.width_x * (d + 1)) < size_with g d →
      ∃ b, fill_buffer_with_spaces g d = some b ∧ b.size = size_with g d ∧
        (∀ r i, r < g.height_y → i < g.width_x * (d + 1) →
          b.data (r * (g.width_x * (d + 1)) + i)
            = row_text_with_spaces g d (g.height_y - 1 - r) i) ∧
        b.data (g.height_y * (g.width_x * (d + 1))) = some '\x00') ∧
    (size_with g d ≤ g.height_y * (g.width_x * (d + 1)) →
      fill_buffer_with_spaces g d = none) :=
  fill_rows (size_with g d) g.height_y (g.width_x * (d + 1)) (row_with_spaces g d)
    (row_text_with_spaces g d)
    (fun row => block_row_with_spaces g d row hw hd1 hd (fun x => hlen x row))

theorem owner_char_digit (v : Nat) (hv : v ≤ 9) :
    owner_char v = (if v = 0 then '.' else Nat.digitChar v) ∧ owner_char v ≠ '\x00' := by
  unfold owner_char
  by_cases h0 : v = 0
  · rw [if_neg (by omega), if_pos h0]
    exact ⟨rfl, by decide⟩
  · rw [if_pos h0, if_neg h0, number_to_digit_eq v (by omega)]
    exact ⟨rfl, digitChar_ne_zero v (by omega)⟩

/-- The text returned by `gamma_board` in a game of at most 9 players on a
board of fewer than `UINT32_MAX` columns. -/
theorem gamma_board_digits {width height players areas : Nat} {g : gamma_t}
    (hr : Reachable width height players areas g) (hp : players ≤ 9)
    (hw : width + 1 < U32) :
    ∃ b, gamma_board g = some b ∧ (c_string b).length = (width + 1) * height ∧
      (∀ r x, r < height → x < width →
        (c_string b)[r * (width + 1) + x]?
          = some (if g.board x (height - 1 - r) = 0 then '.'
            else Nat.digitChar (g.board x (height - 1 - r)))) ∧
      ∀ r, r < height → (c_string b)[r * (width + 1) + width]? = some '\n' := by
  have hinv := reachable_inv hr
  have hdl : decimal_length g.n_of_players = 1 := by
    rw [hinv.hp]
    exact (decimal_length_one_iff players hinv.ppos).2 (by omega)
  have hsize : size_without g = g.height_y * (g.width_x + 1) + 1 := by
    unfold size_without
    rw [hinv.hw, hinv.hh]
    exact size_without_spaces width height hw hinv.hlt
  obtain ⟨b, e1, e2, e3, e4⟩ := (fill_buffer_without_spaces_spec g).1 (by omega)
  rw [hinv.hw, hinv.hh] at e3 e4
  have hboard : ∀ x y, g.board x y ≤ 9 := fun x y => le_trans (hinv.board_le x y) hp
  have hlt : ∀ r i, r < height → i < width + 1 → r * (width + 1) + i < height * (width + 1) := by
    intro r i hr hi
    calc r * (width + 1) + i < r * (width + 1) + (width + 1) := by omega
      _ = (r + 1) * (width + 1) := by ring
      _ ≤ height * (width + 1) := Nat.mul_le_mul_right _ hr
  have hcell : ∀ r i, r < height → i < width + 1 →
      b.data (r * (width + 1) + i) = some (if i < width
        then (if g.board i (height - 1 - r) = 0 then '.'
          else Nat.digitChar (g.board i (height - 1 - r)))
        else '\n') ∧
      ∃ c, b.data (r * (width + 1) + i) = some c ∧ c ≠ '\x00' := by
    intro r i hr hi
    rw [e3 r i hr hi]
    unfold row_text_without_spaces
    rw [hinv.hw]
    by_cases hiw : i < width
    · rw [if_pos hiw, if_pos hiw, (owner_char_digit _ (hboard i (height - 1 - r))).1]
      refine ⟨rfl, _, rfl, ?_⟩
      rw [← (owner_char_digit _ (hboard i (height - 1 - r))).1]
      exact (owner_char_digit _ (hboard i (height - 1 - r))).2
    · rw [if_neg hiw, if_neg hiw]
      exact ⟨rfl, _, rfl, by decide⟩
  have hdata : ∀ i, i < height * (width + 1) → ∃ c, b.data i = some c ∧ c ≠ '\x00' := by
    intro i hi
    have hpos : 0 < width + 1 := by omega
    have hr : i / (width + 1) < height := (Nat.div_lt_iff_lt_mul hpos).2 hi
    have hm : i % (width + 1) < width + 1 := Nat.mod_lt _ hpos
    have hsplit : i / (width + 1) * (width + 1) + i % (width + 1) = i := by
      rw [Nat.mul_comm]
      exact Nat.div_add_mod i (width + 1)
    have := (hcell (i / (width + 1)) (i % (width + 1)) hr hm).2
    rw [hsplit] at this
    exact this
  obtain ⟨c1, c2⟩ := c_string_spec b (height * (width + 1))
    (by rw [e2, hsize, hinv.hw, hinv.hh]; omega) hdata e4
  refine ⟨b, ?_, by rw [c1, Nat.mul_comm], ?_, ?_⟩
  · unfold gamma_board
    simp only [hdl, ne_eq, not_true_eq_false, if_false]
    exact e1
  · intro r x hr hx
    rw [c2 _ (hlt r x hr (by omega)), (hcell r x hr (by omega)).1, if_pos hx]
  · intro r hr
    rw [c2 _ (hlt r width hr (by omega)), (hcell r width hr (by omega)).1,
      if_neg (by omega)]

theorem cell_text_field (d v : Nat) (white : Char) (i : Nat) (hlen : (owner_text v).length ≤ d)
    (hi : i < d) :
    (cell_text d v white)[i]?
      = (List.replicate (d - (owner_text v).length) ' ' ++ owner_text v)[i]? := by
  unfold cell_text
  rw [List.getElem?_append_left (by rw [List.length_append, List.length_replicate]; omega)]

/-- The text returned by `gamma_board` in a game of at least 10 players when
the product `(max_digits+1)*width` fits `unsigned int`. -/
theorem gamma_board_padded {width height players areas : Nat} {g : gamma_t}
    (hr : Reachable width height players areas g) (hp : 10 ≤ players)
    (hdw : (decimal_length players + 1) * width < U32) :
    ∃ b, gamma_board g = some b ∧
      (c_string b).length = (decimal_length players + 1) * width * height ∧
      ∀ r x, r < height → x < width →
        (∀ i, i < decimal_length players →
          (c_string b)[(r * width + x) * (decimal_length players + 1) + i]?
            = (List.replicate
                (decimal_length players - (owner_text (g.board x (height - 1 - r))).length) ' '
              ++ owner_text (g.board x (height - 1 - r)))[i]?) ∧
        (c_string b)[(r * width + x) * (decimal_length players + 1) + decimal_length players]?
          = some (if x < width - 1 then ' ' else '\n') := by
  have hinv := reachable_inv hr
  obtain ⟨hd1, hd⟩ := decimal_length_bounds players hinv.plt
  have hne : decimal_length players ≠ 1 := by
    intro h1
    have := (decimal_length_one_iff players hinv.ppos).1 h1
    omega
  have hlen : ∀ x y, (owner_text (g.board x y)).length ≤ decimal_length players :=
    fun x y => owner_text_length_le _ players (hinv.board_le x y) hinv.ppos
  generalize hdd : decimal_length players = d at *
  have hsize : size_with g d = g.height_y * (g.width_x * (d + 1)) + 1 := by
    unfold size_with
    rw [hinv.hw, hinv.hh]
    exact size_with_spaces d width height hinv.wpos hdw hinv.hlt
  obtain ⟨b, e1, e2, e3, e4⟩ :=
    (fill_buffer_with_spaces_spec g d (by rw [hinv.hw]; exact hinv.wpos) hd1 hd hlen).1
      (by omega)
  rw [hinv.hw, hinv.hh] at e3 e4
  have hcell : ∀ r x k, r < height → x < width → k < d + 1 →
      b.data ((r * width + x) * (d + 1) + k)
        = (cell_text d (g.board x (height - 1 - r))
            (if x < width - 1 then ' ' else '\n'))[k]? := by
    intro r x k hr hx hk
    obtain ⟨_, _, i3, i4, i5⟩ := block_index r x k width (d + 1) hx hk
    have hidx : (r * width + x) * (d + 1) + k = r * (width * (d + 1)) + (x * (d + 1) + k) := by
      ring
    rw [hidx, e3 r (x * (d + 1) + k) hr i5]
    unfold row_text_with_spaces
    rw [i3, i4, hinv.hw]
  have hwhite : ∀ x : Nat, (if x < width - 1 then ' ' else '\n') ≠ '\x00' := by
    intro x
    by_cases hx : x < width - 1
    · rw [if_pos hx]
      decide
    · rw [if_neg hx]
      decide
  have hdata : ∀ i, i < height * (width * (d + 1)) → ∃ c, b.data i = some c ∧ c ≠ '\x00' := by
    intro i hi
    have hL : 0 < d + 1 := by omega
    have hwL : 0 < width * (d + 1) := Nat.mul_pos hinv.wpos hL
    have hi2 : i < height * width * (d + 1) := by rw [Nat.mul_assoc]; exact hi
    have hq : i / (d + 1) < height * width := (Nat.div_lt_iff_lt_mul hL).2 hi2
    have hr : i / (d + 1) / width < height :=
      (Nat.div_lt_iff_lt_mul hinv.wpos).2 hq
    have hx : i / (d + 1) % width < width := Nat.mod_lt _ hinv.wpos
    have hk : i % (d + 1) < d + 1 := Nat.mod_lt _ hL
    have h1 : i / (d + 1) / width * width + i / (d + 1) % width = i / (d + 1) := by
      rw [Nat.mul_comm]
      exact Nat.div_add_mod _ _
    have h2 : i / (d + 1) * (d + 1) + i % (d + 1) = i := by
      rw [Nat.mul_comm]
      exact Nat.div_add_mod _ _
    have := hcell _ _ _ hr hx hk
    rw [h1, h2] at this
    rw [this]
    exact cell_text_ne_zero d _ _ (hwhite _) (hlen _ _) _ hk
  obtain ⟨c1, c2⟩ := c_string_spec b (height * (width * (d + 1)))
    (by rw [e2, hsize, hinv.hw, hinv.hh]; omega) hdata e4
  have hlt : ∀ r x k, r < height → x < width → k < d + 1 →
      (r * width + x) * (d + 1) + k < height * (width * (d + 1)) := by
    intro r x k hr hx hk
    have h1 : r * width + x < height * width := by
      calc r * width + x < r * width + width := by omega
        _ = (r + 1) * width := by ring
        _ ≤ height * width := Nat.mul_le_mul_right _ hr
    calc (r * width + x) * (d + 1) + k < (r * width + x) * (d + 1) + (d + 1) := by omega
      _ = (r * width + x + 1) * (d + 1) := by ring
      _ ≤ height * width * (d + 1) := Nat.mul_le_mul_right _ h1
      _ = height * (width * (d + 1)) := Nat.mul_assoc _ _ _
  refine ⟨b, ?_, ?_, ?_⟩
  · unfold gamma_board
    simp only [hinv.hp, hdd, ne_eq, hne, not_false_eq_true, if_true]
    exact e1
  · rw [c1]
    ring
  · intro r x hr hx
    constructor
    · intro i hi
      rw [c2 _ (hlt r x i hr hx (by omega)), hcell r x i hr hx (by omega),
        cell_text_field d _ _ i (hlen _ _) hi]
    · rw [c2 _ (hlt r x d hr hx (by omega)), hcell r x d hr hx (by omega),
        cell_text_white d _ _ (hlen _ _)]

/-- In a game of at most 9 players `gamma_board` writes outside its block
when the block is not longer than the text. -/
theorem gamma_board_digits_none (g : gamma_t) (hdl : decimal_length g.n_of_players = 1)
    (hs : size_without g ≤ g.height_y * (g.width_x + 1)) : gamma_board g = none := by
  unfold gamma_board
  simp only [hdl, ne_eq, not_true_eq_false, if_false]
  exact (fill_buffer_without_spaces_spec g).2 hs

/-- In a game of at least 10 players `gamma_board` writes outside its block
when the block is not longer than the text. -/
theorem gamma_board_padded_none {width height players areas : Nat} {g : gamma_t}
    (hr : Reachable width height players areas g) (hp : 10 ≤ players)
    (hs : size_with g (decimal_length players)
      ≤ height * (width * (decimal_length players + 1))) : gamma_board g = none := by
  have hinv := reachable_inv hr
  obtain ⟨hd1, hd⟩ := decimal_length_bounds players hinv.plt
  have hne : decimal_length players ≠ 1 := by
    intro h1
    have := (decimal_length_one_iff players hinv.ppos).1 h1
    omega
  have hlen : ∀ x y, (owner_text (g.board x y)).length ≤ decimal_length players :=
    fun x y => owner_text_length_le _ players (hinv.board_le x y) hinv.ppos
  unfold gamma_board
  simp only [hinv.hp, ne_eq, hne, not_false_eq_true, if_true]
  apply (fill_buffer_with_spaces_spec g (decimal_length players)
    (by rw [hinv.hw]; exact hinv.wpos) hd1 hd hlen).2
  rw [hinv.hw, hinv.hh]
  exact hs

/-! ### A decoder of the board text -/

/-- The number a field text stands for: spaces and the dot add nothing, the
digits are read as a decimal number. -/
def parse_field (cs : List Char) : Nat :=
  cs.foldl (fun acc c => if c = ' ' ∨ c = '.' then acc else acc * 10 + (c.toNat - 48)) 0

/-- A decoder of the text of `gamma_board`: the owner of the field `(x, y)`
read from the string `s` of a game with the given dimensions and number of
players. -/
def dec (width height players : Nat) (s : List Char) (x y : Nat) : Nat :=
  let d := decimal_length players
  let r := height - 1 - y
  if d ≠ 1 then parse_field ((s.drop ((r * width + x) * (d + 1))).take d)
  else parse_field ((s.drop (r * (width + 1) + x)).take 1)

theorem digitChar_value (dg : Nat) (h : dg < 10) :
    ¬ (Nat.digitChar dg = ' ' ∨ Nat.digitChar dg = '.') ∧ (Nat.digitChar dg).toNat - 48 = dg := by
  interval_cases dg <;> decide

theorem parse_digits (l : List Nat) (hl : ∀ a ∈ l, a < 10) :
    List.foldl (fun acc c => if c = ' ' ∨ c = '.' then acc else acc * 10 + (c.toNat - 48)) 0
      (l.reverse.map Nat.digitChar) = Nat.ofDigits 10 l := by
  induction l with
  | nil => rfl
  | cons a rest ih =>
    have ha := digitChar_value a (hl a (List.mem_cons_self _ _))
    rw [List.reverse_cons, List.map_append, List.foldl_append,
      ih (fun b hb => hl b (List.mem_cons_of_mem _ hb)), Nat.ofDigits_cons]
    simp only [List.map_cons, List.map_nil, List.foldl_cons, List.foldl_nil, if_neg ha.1, ha.2]
    omega

theorem parse_spaces (n : Nat) (l : List Char) (acc : Nat) :
    List.foldl (fun acc c => if c = ' ' ∨ c = '.' then acc else acc * 10 + (c.toNat - 48)) acc
      (List.replicate n ' ' ++ l)
    = List.foldl (fun acc c => if c = ' ' ∨ c = '.' then acc else acc * 10 + (c.toNat - 48))
      acc l := by
  induction n with
  | zero => rfl
  | succ n ih =>
    rw [List.replicate_succ, List.cons_append, List.foldl_cons, if_pos (Or.inl rfl)]
    exact ih

/-- Reading a padded field text gives the owner back. -/
theorem parse_field_owner (n v : Nat) :
    parse_field (List.replicate n ' ' ++ owner_text v) = v := by
  unfold parse_field
  rw [parse_spaces]
  by_cases hv : v = 0
  · rw [hv, owner_text_zero]
    rfl
  · rw [owner_text_pos v (by omega),
      parse_digits _ (fun a ha => Nat.digits_lt_base (by decide) ha), Nat.ofDigits_digits]

theorem parse_field_digit (v : Nat) (hv : v ≤ 9) :
    parse_field [if v = 0 then '.' else Nat.digitChar v] = v := by
  interval_cases v <;> rfl

theorem take_drop_eq (s F : List Char) (p d : Nat) (hF : F.length = d)
    (h : ∀ i, i < d → s[p + i]? = F[i]?) : (s.drop p).take d = F := by
  apply List.ext_getElem?
  intro n
  rw [List.getElem?_take, List.getElem?_drop]
  by_cases hn : n < d
  · rw [if_pos hn, h n hn]
  · rw [if_neg hn, List.getElem?_eq_none (by omega)]

/-- The decoder gives the board back from the text of `gamma_board`, in a game
of at most 9 players on a board of fewer than `UINT32_MAX` columns. -/
theorem dec_gamma_board_digits {width height players areas : Nat} {g : gamma_t}
    (hr : Reachable width height players areas g) (hp : players ≤ 9)
    (hw : width + 1 < U32) :
    ∃ b, gamma_board g = some b ∧
      ∀ x y, x < width → y < height → dec width height players (c_string b) x y = g.board x y := by
  have hinv := reachable_inv hr
  obtain ⟨b, e1, _, e3, _⟩ := gamma_board_digits hr hp hw
  refine ⟨b, e1, ?_⟩
  intro x y hx hy
  have hdl : decimal_length players = 1 := (decimal_length_one_iff players hinv.ppos).2 (by omega)
  have hcell := e3 (height - 1 - y) x (by omega) hx
  have hyy : height - 1 - (height - 1 - y) = y := by omega
  rw [hyy] at hcell
  unfold dec
  simp only [hdl, ne_eq, not_true_eq_false, if_false]
  rw [take_drop_eq (c_string b) [if g.board x y = 0 then '.' else Nat.digitChar (g.board x y)]
    _ 1 rfl]
  · exact parse_field_digit _ (le_trans (hinv.board_le x y) hp)
  · intro i hi
    have : i = 0 := by omega
    subst this
    rw [Nat.add_zero, hcell]
    rfl

/-- The decoder gives the board back from the text of `gamma_board`, in a game
of at least 10 players when `(max_digits+1)*width` fits `unsigned int`. -/
theorem dec_gamma_board_padded {width height players areas : Nat} {g : gamma_t}
    (hr : Reachable width height players areas g) (hp : 10 ≤ players)
    (hdw : (decimal_length players + 1) * width < U32) :
    ∃ b, gamma_board g = some b ∧
      ∀ x y, x < width → y < height → dec width height players (c_string b) x y = g.board x y := by
  have hinv := reachable_inv hr
  obtain ⟨b, e1, _, e3⟩ := gamma_board_padded hr hp hdw
  refine ⟨b, e1, ?_⟩
  intro x y hx hy
  have hne : decimal_length players ≠ 1 := by
    intro h1
    have := (decimal_length_one_iff players hinv.ppos).1 h1
    omega
  have hlen : (owner_text (g.board x y)).length ≤ decimal_length players :=
    owner_text_length_le _ players (hinv.board_le x y) hinv.ppos
  have hcell := (e3 (height - 1 - y) x (by omega) hx).1
  have hyy : height - 1 - (height - 1 - y) = y := by omega
  rw [hyy] at hcell
  unfold dec
  simp only [ne_eq, hne, not_false_eq_true, if_true]
  rw [take_drop_eq (c_string b) _ _ (decimal_length players) _ hcell]
  · exact parse_field_owner _ _
  · rw [List.length_append, List.length_replicate]
    omega

/-- A fresh game for one player on a board of `UINT32_MAX` columns and one
row. -/
def wide0 : gamma_t := new_game 4294967295 1 1 1

/-- The game `wide0` after player 1 has taken field (0, 0). -/
def wide1 : gamma_t := (gamma_move wide0 1 0 0).2

/-- A fresh game for ten players on a board of 1431655766 columns and one
row. -/
def tens0 : gamma_t := new_game 1431655766 1 10 1

/-- The game `tens0` after player 10 has taken field (0, 0). -/
def tens1 : gamma_t := (gamma_move tens0 10 0 0).2

theorem wide0_reachable : Reachable 4294967295 1 1 1 wide0 :=
  Reachable.new wide0 (by decide) (by decide) (by decide) (by decide) rfl

theorem wide1_reachable : Reachable 4294967295 1 1 1 wide1 :=
  Reachable.move wide0 1 0 0 wide0_reachable

theorem tens0_reachable : Reachable 1431655766 1 10 1 tens0 :=
  Reachable.new tens0 (by decide) (by decide) (by decide) (by decide) rfl

theorem tens1_reachable : Reachable 1431655766 1 10 1 tens1 :=
  Reachable.move tens0 10 0 0 tens0_reachable

/-- The text of `gamma_board` on the game `demo3`, where player 1 owns (0, 0)
and (1, 0): three rows from the top row down. -/
theorem gamma_board_demo3 :
    (gamma_board demo3).map c_string = some "...\n...\n11.\n".toList := by
  decide

/-- C21, evaluated on the game `gamma_new(UINT32_MAX, 1, 1, 1)`: the text has
`(width+1)*height = 2^32` characters, the size `g->width_x + 1` wraps to 0 in
`uint32_t`, the block has 1 byte, and `gamma_board` writes outside the
block. -/
theorem C21_board_text_widest_board :
    gamma_new 4294967295 1 1 1 = some wide0 ∧ decimal_length wide0.n_of_players = 1 ∧
      (wide0.width_x + 1) * wide0.height_y = 4294967296 ∧ size_without wide0 = 1 ∧
      gamma_board wide0 = none :=
  ⟨rfl, by decide, by decide, by decide,
    gamma_board_digits_none wide0 (by decide) (by decide)⟩

/-- C22, evaluated on the game `gamma_new(1431655766, 1, 10, 1)`: the fields are
2 characters wide, the text has `3*width*height = 4294967298` characters, the
product `(max_digits+1)*g->width_x` wraps to 2 in `unsigned int`, the block has
3 bytes, and `gamma_board` writes outside the block. -/
theorem C22_board_text_wide_board :
    gamma_new 1431655766 1 10 1 = some tens0 ∧ decimal_length tens0.n_of_players = 2 ∧
      (2 + 1) * tens0.width_x * tens0.height_y = 4294967298 ∧ size_with tens0 2 = 3 ∧
      gamma_board tens0 = none :=
  ⟨rfl, by decide, by decide, by decide,
    gamma_board_padded_none tens0_reachable (by decide) (by decide)⟩

/-- C23, evaluated on two played games: after `gamma_move(g, 1, 0, 0)` on the
board of `UINT32_MAX` columns, and after `gamma_move(g, 10, 0, 0)` on the board
of 1431655766 columns for ten players, field (0, 0) has an owner and
`gamma_board` writes outside its block, so that no text is returned from which
the board could be read. -/
theorem C23_no_text_on_wide_boards :
    (gamma_move wide0 1 0 0).1 = true ∧ wide1.board 0 0 = 1 ∧ gamma_board wide1 = none ∧
      (gamma_move tens0 10 0 0).1 = true ∧ tens1.board 0 0 = 10 ∧ gamma_board tens1 = none :=
  ⟨by decide, by decide, gamma_board_digits_none wide1 (by decide) (by decide),
    by decide, by decide, gamma_board_padded_none tens1_reachable (by decide) (by decide)⟩

/-! ## Frame of the moves, board values and the neighbour test -/

/-- C31: an accepted `gamma_move(g, p, x, y)` or `gamma_golden_move(g, p, x, y)`
changes no field of the board other than `(x, y)`, keeps width, height, number
of players and area limit, and changes no player record other than the one of
`p` and, for the golden move, the one of the previous owner of `(x, y)`;
`gamma_move` keeps the golden flag of `p`. -/
theorem C31_moves_frame {width height players areas : Nat} {g : gamma_t}
    (hr : Reachable width height players areas g) (p x y : Nat) :
    ((gamma_move g p x y).1 = true →
      (∀ i j, ¬ (i = x ∧ j = y) → (gamma_move g p x y).2.board i j = g.board i j) ∧
      (gamma_move g p x y).2.width_x = g.width_x ∧
      (gamma_move g p x y).2.height_y = g.height_y ∧
      (gamma_move g p x y).2.n_of_players = g.n_of_players ∧
      (gamma_move g p x y).2.n_of_areas = g.n_of_areas ∧
      (∀ i, i ≠ p - 1 → (gamma_move g p x y).2.arr_of_players i = g.arr_of_players i) ∧
      ((gamma_move g p x y).2.arr_of_players (p - 1)).golden_performed
        = (g.arr_of_players (p - 1)).golden_performed) ∧
    ((gamma_golden_move g p x y).1 = true →
      (∀ i j, ¬ (i = x ∧ j = y) → (gamma_golden_move g p x y).2.board i j = g.board i j) ∧
      (gamma_golden_move g p x y).2.width_x = g.width_x ∧
      (gamma_golden_move g p x y).2.height_y = g.height_y ∧
      (gamma_golden_move g p x y).2.n_of_players = g.n_of_players ∧
      (gamma_golden_move g p x y).2.n_of_areas = g.n_of_areas ∧
      ∀ i, i ≠ p - 1 → i ≠ g.board x y - 1 →
        (gamma_golden_move g p x y).2.arr_of_players i = g.arr_of_players i) := by
  have hinv := reachable_inv hr
  constructor
  · intro hacc
    obtain ⟨_, k, _, _, _, heq⟩ := gamma_move_effect hinv hacc
    obtain ⟨s1, s2, s3, s4, _, s6⟩ := move_apply_same g p x y
      ((g.arr_of_players (p - 1)).occupied_areas + 1 - k)
    rw [heq]
    refine ⟨?_, s1, s2, s3, s4, fun i hi => move_apply_rec_other g p x y _ i hi, ?_⟩
    · intro i j hij
      rw [s6]
      unfold write2
      rw [if_neg hij]
    · rw [move_apply_rec_self]
  · intro hacc
    obtain ⟨_, kn, kp, _, _, _, _, heq⟩ := gamma_golden_effect hinv hacc
    obtain ⟨s1, s2, s3, s4, _, s6, _⟩ :=
      golden_apply_same g p x y (p - 1) (g.board x y - 1) kn kp
    rw [heq]
    refine ⟨?_, s1, s2, s3, s4,
      fun i h1 h2 => golden_apply_rec_other g p x y _ _ kn kp i h1 h2⟩
    intro i j hij
    rw [s6]
    unfold write2
    rw [if_neg hij]

/-- C31 on the game `demo2`: the move of player 2 to (2, 2) and the golden
move of player 1 to (1, 0) leave field (0, 0) and the dimensions as they
were. -/
theorem C31_witness :
    ((gamma_move demo2 2 2 2).2.board 0 0 = demo2.board 0 0 ∧
      (gamma_move demo2 2 2 2).2.width_x = demo2.width_x) ∧
    ((gamma_golden_move demo2 1 1 0).2.board 0 0 = demo2.board 0 0 ∧
      (gamma_golden_move demo2 1 1 0).2.width_x = demo2.width_x) :=
  ⟨⟨((C31_moves_frame demo2_reachable 2 2 2).1 (by decide)).1 0 0 (by decide),
      ((C31_moves_frame demo2_reachable 2 2 2).1 (by decide)).2.1⟩,
    ⟨((C31_moves_frame demo2_reachable 1 1 0).2 (by decide)).1 0 0 (by decide),
      ((C31_moves_frame demo2_reachable 1 1 0).2 (by decide)).2.1⟩⟩

/-- C32: in every state reached from `gamma_new(width, height, players,
areas)` by `gamma_move` and `gamma_golden_move` calls, every field of the
board holds 0 or a player number from 1 to `players`. -/
theorem C32_board_values {width height players areas : Nat} {g : gamma_t}
    (hr : Reachable width height players areas g) (x y : Nat) :
    g.board x y = 0 ∨ (1 ≤ g.board x y ∧ g.board x y ≤ players) := by
  have := (reachable_inv hr).board_le x y
  omega

/-- C32 on the game `demo3`, at field (1, 0) seized by player 1. -/
theorem C32_witness :
    (demo3.board 1 0 = 0 ∨ (1 ≤ demo3.board 1 0 ∧ demo3.board 1 0 ≤ 2)) ∧
      demo3.board 1 0 = 1 :=
  ⟨C32_board_values demo3_reachable 1 0, by decide⟩

/-- C33: for every game state with `uint32_t` dimensions, every player
argument and every field `(x, y)` of the board,
`adjacent_owned_by_player(g, x, y, player)` returns true exactly when one of
the fields `(x-1, y)`, `(x, y-1)`, `(x+1, y)`, `(x, y+1)` that lie on the
board belongs to `player`. -/
theorem C33_adjacent_owned_by_player (g : gamma_t) (x y player : Nat) (hx : x < g.width_x)
    (hy : y < g.height_y) (hwb : g.width_x ≤ UINT32_MAX) (hhb : g.height_y ≤ UINT32_MAX) :
    adjacent_owned_by_player g x y player = true ↔
      ((1 ≤ x ∧ g.board (x - 1) y = player) ∨ (1 ≤ y ∧ g.board x (y - 1) = player) ∨
        (x + 1 < g.width_x ∧ g.board (x + 1) y = player) ∨
        (y + 1 < g.height_y ∧ g.board x (y + 1) = player)) := by
  unfold adjacent_owned_by_player
  unfold UINT32_MAX at *
  constructor
  · intro h
    split_ifs at h with h1 h2 h3 h4
    · exact Or.inl ⟨by omega, h1.2⟩
    · exact Or.inr (Or.inl ⟨by omega, h2.2⟩)
    · exact Or.inr (Or.inr (Or.inl ⟨by omega, h3.2.2⟩))
    · exact Or.inr (Or.inr (Or.inr ⟨by omega, h4.2.2⟩))
  · intro h
    by_cases h1 : x ≠ 0 ∧ g.board (x - 1) y = player
    · rw [if_pos h1]
    rw [if_neg h1]
    by_cases h2 : y ≠ 0 ∧ g.board x (y - 1) = player
    · rw [if_pos h2]
    rw [if_neg h2]
    by_cases h3 : x ≠ 4294967295 ∧ x ≠ g.width_x - 1 ∧ g.board (x + 1) y = player
    · rw [if_pos h3]
    rw [if_neg h3]
    by_cases h4 : y ≠ 4294967295 ∧ y ≠ g.height_y - 1 ∧ g.board x (y + 1) = player
    · rw [if_pos h4]
    exfalso
    rcases h with h | h | h | h
    · exact h1 ⟨by omega, h.2⟩
    · exact h2 ⟨by omega, h.2⟩
    · exact h3 ⟨by omega, by omega, h.2⟩
    · exact h4 ⟨by omega, by omega, h.2⟩

/-- C33 on the game `demo3` at field (2, 0), whose left neighbour (1, 0)
belongs to player 1. -/
theorem C33_witness :
    (adjacent_owned_by_player demo3 2 0 1 = true ↔
      ((1 ≤ 2 ∧ demo3.board (2 - 1) 0 = 1) ∨ (1 ≤ 0 ∧ demo3.board 2 (0 - 1) = 1) ∨
        (2 + 1 < demo3.width_x ∧ demo3.board (2 + 1) 0 = 1) ∨
        (0 + 1 < demo3.height_y ∧ demo3.board 2 (0 + 1) = 1))) ∧
      adjacent_owned_by_player demo3 2 0 1 = true :=
  ⟨C33_adjacent_owned_by_player demo3 2 0 1 (by decide) (by decide) (by decide) (by decide),
    by decide⟩

/-! ## Bounds on the number of adjacent areas -/

/-- The 4-neighbours of `(x, y)` that lie on the board of `g` and belong to
`p`, in the order left, below, right, above. -/
def owned_neighbours (g : gamma_t) (x y p : Nat) : List Field :=
  (if 1 ≤ x ∧ g.board (x - 1) y = p then [(x - 1, y)] else []) ++
  (if 1 ≤ y ∧ g.board x (y - 1) = p then [(x, y - 1)] else []) ++
  (if x + 1 < g.width_x ∧ g.board (x + 1) y = p then [(x + 1, y)] else []) ++
  (if y + 1 < g.height_y ∧ g.board x (y + 1) = p then [(x, y + 1)] else [])

theorem mem_owned_neighbours (g : gamma_t) (x y p : Nat) (l : Field)
    (hadj : adj (x, y) l) (hown : owned g p l) : l ∈ owned_neighbours g x y p := by
  obtain ⟨l1, l2⟩ := l
  obtain ⟨h1, h2, h3⟩ := hown
  simp only at h1 h2 h3
  simp only [adj] at hadj
  unfold owned_neighbours
  simp only [List.mem_append]
  rcases hadj with ⟨ha, hb⟩ | ⟨ha, hb⟩ | ⟨ha, hb⟩ | ⟨ha, hb⟩
  · subst ha hb
    refine Or.inl (Or.inr ?_)
    rw [if_pos ⟨h1, h3⟩]
    exact List.mem_singleton_self _
  · subst hb
    have hx : x - 1 = l1 := by omega
    subst hx
    refine Or.inl (Or.inl (Or.inl ?_))
    rw [if_pos ⟨by omega, h3⟩]
    exact List.mem_singleton_self _
  · subst ha hb
    refine Or.inr ?_
    rw [if_pos ⟨h2, h3⟩]
    exact List.mem_singleton_self _
  · subst ha
    have hy : y - 1 = l2 := by omega
    subst hy
    refine Or.inl (Or.inl (Or.inr ?_))
    rw [if_pos ⟨by omega, h3⟩]
    exact List.mem_singleton_self _

theorem adj_area_count_le_neighbours {g : gamma_t} {x y p k : Nat}
    (h : adj_area_count (owned g p) (x, y) k) : k ≤ (owned_neighbours g x y p).length := by
  obtain ⟨L, hL, rfl⟩ := h
  have hsub : L ⊆ (owned_neighbours g x y p).toFinset := by
    intro l hl
    rw [List.mem_toFinset]
    exact mem_owned_neighbours g x y p l (hL.1 l hl).1 (hL.1 l hl).2
  exact (Finset.card_le_card hsub).trans (List.toFinset_card_le _)

/-- The neighbours of a field that lie in distinct areas of `S` are at most as
many as the areas of `S`. -/
theorem adj_area_count_le_areas {S : Field → Prop} {c : Field} {k n : Nat}
    (hk : adj_area_count S c k) (hn : area_count S n) : k ≤ n := by
  obtain ⟨L, hL, rfl⟩ := hk
  obtain ⟨R, hR, rfl⟩ := hn
  apply card_le_of_rel (fun a b => conn S b a)
  · intro a ha
    exact hR.2.2 a (hL.1 a ha).2
  · intro a ha a2 ha2 b _ hab ha2b
    exact hL.2.1 a ha a2 ha2 (conn_trans (conn_symm hab) ha2b)

/-- A field with a neighbour of `p` has at least one adjacent area of `p`. -/
theorem adjacent_player_areas_pos (g : gamma_t) (x y p : Nat) (hx : x < g.width_x)
    (hy : y < g.height_y) (haux : aux_clear g) (hwb : g.width_x ≤ UINT32_MAX)
    (hhb : g.height_y ≤ UINT32_MAX) (h : adjacent_owned_by_player g x y p = true) :
    1 ≤ (adjacent_player_areas g x y p hx hy).1 := by
  have hk := adjacent_player_areas_count g x y p hx hy haux hwb hhb
  have hz := adj_area_count_zero hk
  have hex := (adjacent_owned_iff g x y p hx hy hwb hhb).1 h
  by_contra hcon
  exact (hz.1 (by omega)) hex

/-- C34: on a board with a clear auxiliary array and `uint32_t` dimensions, for
every player `p` and every field `(x, y)` of the board,
`adjacent_player_areas(g, x, y, p)` is at most the number of 4-neighbours of
`(x, y)` that belong to `p`, which is at most 4, and it is 0 exactly when
`adjacent_owned_by_player(g, x, y, p)` is false. -/
theorem C34_adjacent_areas_bounds (g : gamma_t) (x y p : Nat) (hx : x < g.width_x)
    (hy : y < g.height_y) (haux : aux_clear g) (hwb : g.width_x ≤ UINT32_MAX)
    (hhb : g.height_y ≤ UINT32_MAX) :
    (adjacent_player_areas g x y p hx hy).1 ≤ (owned_neighbours g x y p).length ∧
      (owned_neighbours g x y p).length ≤ 4 ∧
      ((adjacent_player_areas g x y p hx hy).1 = 0 ↔
        adjacent_owned_by_player g x y p = false) := by
  have h := adjacent_player_areas_count g x y p hx hy haux hwb hhb
  refine ⟨adj_area_count_le_neighbours h, ?_, ?_⟩
  · unfold owned_neighbours
    simp only [List.length_append]
    split_ifs <;> simp
  · rw [adj_area_count_zero h, ← adjacent_owned_iff g x y p hx hy hwb hhb]
    simp

/-- C34 on the game `demo3` (player 1 owns (0, 0) and (1, 0)) at the free field
(1, 1). -/
theorem C34_witness :
    (adjacent_player_areas demo3 1 1 1 (by decide) (by decide)).1
        ≤ (owned_neighbours demo3 1 1 1).length ∧
      (owned_neighbours demo3 1 1 1).length ≤ 4 ∧
      ((adjacent_player_areas demo3 1 1 1 (by decide) (by decide)).1 = 0 ↔
        adjacent_owned_by_player demo3 1 1 1 = false) :=
  C34_adjacent_areas_bounds demo3 1 1 1 (by decide) (by decide)
    (reachable_inv demo3_reachable).aux (by decide) (by decide)

theorem sub32_pred_no_wrap (occ k : Nat) (hk1 : 1 ≤ k) (hk : k ≤ occ) (hocc : occ < U32) :
    sub32 occ (sub32 k 1) = occ - (k - 1) := by
  unfold sub32
  unfold U32 at *
  have h1 : (k + 4294967296 - 1) % 4294967296 = k - 1 := by omega
  rw [h1]
  omega

/-- C35: in every reachable state, for every valid player `p` and every field
`(x, y)` of the board, the count `k = adjacent_player_areas(g, x, y, p)` is at
most `occupied_areas` of `p`; so for `k ≥ 1` the `uint32_t` update
`occupied_areas -= k - 1` gives the integer `occupied_areas - (k - 1)`, which
is at least 1, and this is the value stored by `gamma_move` on a free field
and by an accepted `gamma_golden_move`. -/
theorem C35_area_update_no_wrap {width height players areas : Nat} {g : gamma_t}
    (hr : Reachable width height players areas g) (p x y : Nat) (hp1 : 1 ≤ p)
    (hp2 : p ≤ players) (hx : x < g.width_x) (hy : y < g.height_y) :
    (adjacent_player_areas g x y p hx hy).1 ≤ (g.arr_of_players (p - 1)).occupied_areas ∧
    (1 ≤ (adjacent_player_areas g x y p hx hy).1 →
      ((sub32 (g.arr_of_players (p - 1)).occupied_areas
          (sub32 (adjacent_player_areas g x y p hx hy).1 1) : Nat) : Int)
        = ((g.arr_of_players (p - 1)).occupied_areas : Int)
          - (((adjacent_player_areas g x y p hx hy).1 : Int) - 1) ∧
      1 ≤ sub32 (g.arr_of_players (p - 1)).occupied_areas
        (sub32 (adjacent_player_areas g x y p hx hy).1 1) ∧
      (g.board x y = 0 →
        (gamma_move g p x y).1 = true ∧
        ((gamma_move g p x y).2.arr_of_players (p - 1)).occupied_areas =
          sub32 (g.arr_of_players (p - 1)).occupied_areas
            (sub32 (adjacent_player_areas g x y p hx hy).1 1)) ∧
      ((gamma_golden_move g p x y).1 = true →
        ((gamma_golden_move g p x y).2.arr_of_players (p - 1)).occupied_areas =
          sub32 (g.arr_of_players (p - 1)).occupied_areas
            (sub32 (adjacent_player_areas g x y p hx hy).1 1))) := by
  have hinv := reachable_inv hr
  obtain ⟨hwb, hhb⟩ := inv_bounds hinv
  have hk := adjacent_player_areas_count g x y p hx hy hinv.aux hwb hhb
  have hle := adj_area_count_le_areas hk (hinv.areas_ok p hp1 hp2)
  have hocc : (g.arr_of_players (p - 1)).occupied_areas < U32 :=
    lt_of_le_of_lt (hinv.areas_le p hp1 hp2) hinv.alt
  refine ⟨hle, fun hk1 => ?_⟩
  have hsub := sub32_pred_no_wrap _ _ hk1 hle hocc
  refine ⟨?_, ?_, ?_, ?_⟩
  · rw [hsub]
    omega
  · rw [hsub]
    omega
  · intro hfree
    have hargs : move_args_ok g p x y := ⟨hp1, hinv.hp ▸ hp2, hx, hy, hfree⟩
    obtain ⟨L, _, _, hlen, heq⟩ := gamma_move_good_args g p x y hinv.aux hwb hhb hargs
    have hlen2 : L.length = (adjacent_player_areas g x y p hx hy).1 := hlen.symm
    rw [heq, if_neg (by omega), hlen2]
    exact ⟨rfl, by rw [move_apply_rec_self]⟩
  · intro hacc
    obtain ⟨hargs, _⟩ := gamma_golden_effect hinv hacc
    have hne := (golden_prev_valid hinv hargs).2.2.1
    have hcl := adjacent_player_areas_cleared g x y p hx hy hinv.aux hwb hhb (by omega)
      hargs.2.2.2.2.2.2
    have heq := gamma_golden_move_good_args g p x y hinv.aux hwb hhb hargs
    rw [heq] at hacc ⊢
    split_ifs at hacc ⊢ with hcond
    simp only []
    rw [golden_apply_rec_new _ _ _ _ _ _ _ _ (Ne.symm hne), ← hcl]

/-- C35 on the game `demo2` at field (1, 0) of player 2, which player 1 (owner
of the neighbour (0, 0)) seizes with the golden move. -/
theorem C35_witness :
    (adjacent_player_areas demo2 1 0 1 (by decide) (by decide)).1
      ≤ (demo2.arr_of_players (1 - 1)).occupied_areas ∧
    1 ≤ sub32 (demo2.arr_of_players (1 - 1)).occupied_areas
      (sub32 (adjacent_player_areas demo2 1 0 1 (by decide) (by decide)).1 1) ∧
    ((gamma_golden_move demo2 1 1 0).2.arr_of_players (1 - 1)).occupied_areas =
      sub32 (demo2.arr_of_players (1 - 1)).occupied_areas
        (sub32 (adjacent_player_areas demo2 1 0 1 (by decide) (by decide)).1 1) :=
  ⟨(C35_area_update_no_wrap demo2_reachable 1 1 0 (by decide) (by decide) (by decide)
      (by decide)).1,
    ((C35_area_update_no_wrap demo2_reachable 1 1 0 (by decide) (by decide) (by decide)
      (by decide)).2 (adjacent_player_areas_pos demo2 1 0 1 (by decide) (by decide)
        (reachable_inv demo2_reachable).aux (by decide) (by decide) (by decide))).2.1,
    ((C35_area_update_no_wrap demo2_reachable 1 1 0 (by decide) (by decide) (by decide)
      (by decide)).2 (adjacent_player_areas_pos demo2 1 0 1 (by decide) (by decide)
        (reachable_inv demo2_reachable).aux (by decide) (by decide) (by decide))).2.2.2
      (by decide)⟩

/-! ## The number of decimal digits -/

theorem decimal_length_one_le (z : Nat) : decimal_length z = 1 ↔ z ≤ 9 := by
  by_cases hz : z = 0
  · subst hz
    simp [decimal_length_zero]
  · rw [decimal_length_one_iff z (by omega)]
    omega

/-- With at most 9 players `gamma_board` calls `fill_buffer_without_spaces`. -/
theorem gamma_board_single (g : gamma_t) (h : g.n_of_players ≤ 9) :
    gamma_board g = fill_buffer_without_spaces g := by
  unfold gamma_board
  simp only []
  rw [if_neg (by rw [(decimal_length_one_le _).2 h]; simp)]

/-- With at least 10 players `gamma_board` calls `fill_buffer_with_spaces`. -/
theorem gamma_board_multi (g : gamma_t) (h : 9 < g.n_of_players) :
    decimal_length g.n_of_players ≠ 1 ∧
      gamma_board g = fill_buffer_with_spaces g (decimal_length g.n_of_players) := by
  have hd : decimal_length g.n_of_players ≠ 1 := by
    intro h1
    have := (decimal_length_one_le _).1 h1
    omega
  refine ⟨hd, ?_⟩
  unfold gamma_board
  simp only []
  rw [if_pos hd]

/-- C39: `decimal_length(x)` is the length of the decimal representation of
`x`: it is 1 for `x = 0`, and for `x ≥ 1` it is the only `n ≥ 1` with
`10^(n-1) ≤ x < 10^n`; it is 1 exactly for `x ≤ 9`, so `gamma_board` writes the
format without separators exactly when the number of players is at most 9. -/
theorem C39_decimal_length (x : Nat) :
    decimal_length 0 = 1 ∧
    (1 ≤ x → decimal_length x = (Nat.digits 10 x).length ∧ 1 ≤ decimal_length x ∧
      10 ^ (decimal_length x - 1) ≤ x ∧ x < 10 ^ decimal_length x ∧
      ∀ n, 1 ≤ n → 10 ^ (n - 1) ≤ x → x < 10 ^ n → n = decimal_length x) ∧
    (decimal_length x = 1 ↔ x ≤ 9) ∧
    ∀ g : gamma_t,
      (g.n_of_players ≤ 9 → gamma_board g = fill_buffer_without_spaces g) ∧
      (9 < g.n_of_players →
        decimal_length g.n_of_players ≠ 1 ∧
        gamma_board g = fill_buffer_with_spaces g (decimal_length g.n_of_players)) := by
  have hone := decimal_length_one_le
  refine ⟨decimal_length_zero, ?_, hone x, ?_⟩
  · intro hx
    have hne : x ≠ 0 := by omega
    have hlen := decimal_length_eq x (by omega)
    have hpos : 1 ≤ (Nat.digits 10 x).length := by
      rw [digits_pos x (by omega), List.length_cons]
      omega
    have hlow : 10 ^ (decimal_length x - 1) ≤ x := by
      have h := Nat.base_pow_length_digits_le 10 x (by decide) hne
      rw [← hlen] at h
      have h2 : 10 ^ decimal_length x = 10 ^ (decimal_length x - 1) * 10 := by
        rw [← pow_succ]
        congr 1
        omega
      omega
    have hup : x < 10 ^ decimal_length x := by
      rw [hlen]
      exact Nat.lt_base_pow_length_digits (by decide)
    refine ⟨hlen, by omega, hlow, hup, ?_⟩
    intro n hn1 hnl hnu
    by_contra hcon
    rcases Nat.lt_or_gt_of_ne hcon with hlt | hgt
    · have : 10 ^ n ≤ 10 ^ (decimal_length x - 1) :=
        Nat.pow_le_pow_right (by decide) (by omega)
      omega
    · have : 10 ^ decimal_length x ≤ 10 ^ (n - 1) :=
        Nat.pow_le_pow_right (by decide) (by omega)
      omega
  · intro g
    exact ⟨gamma_board_single g, gamma_board_multi g⟩

/-- C39 at the largest `uint32_t` value, which has 10 digits, and on the game
`demo3` with two players. -/
theorem C39_witness :
    (decimal_length 4294967295 = 10 ∧ 10 ^ (decimal_length 4294967295 - 1) ≤ 4294967295 ∧
      4294967295 < 10 ^ decimal_length 4294967295) ∧
    gamma_board demo3 = fill_buffer_without_spaces demo3 :=
  ⟨⟨by decide, ((C39_decimal_length 4294967295).2.1 (by decide)).2.2.1,
    ((C39_decimal_length 4294967295).2.1 (by decide)).2.2.2.1⟩,
    ((C39_decimal_length 0).2.2.2 demo3).1 (by decide)⟩

/-! ## The batch parser: player argument of the commands `b`, `f` and `q` -/

/-- Enum `command_type`. -/
inductive command_type where
  | gmove
  | golden
  | busy
  | freef
  | possible
  | board
  deriving DecidableEq

/-- Struct `game_command`. -/
structure game_command where
  type : command_type
  player_no : Nat
  x_co : Nat
  y_co : Nat
  deriving DecidableEq

/-- The array of six token pointers returned by `parse`, holding the given
tokens followed by `NULL` entries; `none` is `NULL`. -/
def tokens (l : List (List Char)) : Nat → Option (List Char) := fun i => l.get? i

/-- Library function `isdigit` in the C locale. -/
def isdigit (c : Char) : Bool := decide (48 ≤ c.toNat ∧ c.toNat ≤ 57)

/-- Function `string_is_digit`. -/
def string_is_digit (s : List Char) : Bool :=
  if s.length = 0 then false else s.all isdigit

/-- Function `is_zero`. -/
def is_zero (s : List Char) : Bool :=
  if s.length = 0 then false else s.all (fun c => decide (c = '0'))

/-- The number denoted by a string of decimal digits. -/
def decimal_value (s : List Char) : Nat := s.foldl (fun acc c => acc * 10 + (c.toNat - 48)) 0

/-- Library call `strtoul(s, NULL, 10)` on a string that starts with neither
white space nor a sign: the value of the leading decimal digits, and
`ULONG_MAX` when that value does not fit `unsigned long`. -/
def strtoul (ulong_max : Nat) (s : List Char) : Nat :=
  min (decimal_value (s.takeWhile isdigit)) ulong_max

/-- The value of `ULONG_MAX` where `unsigned long` has 64 bits. -/
def ULONG_MAX : Nat := 18446744073709551615

/-- Function `write_player_com`: the returned flag and the command record
after the call.  The result of `strtoul` is converted to `uint32_t` by the
initialisation of `a`. -/
def write_player_com (ulong_max : Nat) (target : game_command)
    (source : Nat → Option (List Char)) (com : command_type) : Bool × game_command :=
  match source 1, source 2 with
  | some s, none =>
    if ¬ string_is_digit s = true then (false, target)
    else
      let a := strtoul ulong_max s % U32
      if a = 0 ∧ ¬ is_zero s = true then (false, target)
      else (true, { target with type := com, player_no := a })
  | _, _ => (false, target)

/-- Function `write_gmove`: the returned flag and the command record after the
call; `none` when a `NULL` token is passed to `string_is_digit`. -/
def write_gmove (ulong_max : Nat) (target : game_command)
    (source : Nat → Option (List Char)) : Option (Bool × game_command) :=
  let t0 := { target with type := command_type.gmove }
  if source 3 = none ∨ source 4 ≠ none then some (false, t0)
  else
    match source 1, source 2, source 3 with
    | some s1, some s2, some s3 =>
      if ¬ string_is_digit s1 = true then some (false, t0)
      else if ¬ string_is_digit s2 = true then some (false, t0)
      else if ¬ string_is_digit s3 = true then some (false, t0)
      else
        let b1 := strtoul ulong_max s1
        if (b1 = 0 ∧ ¬ is_zero s1 = true) ∨ b1 > UINT32_MAX then some (false, t0)
        else
          let t1 := { t0 with player_no := b1 % U32 }
          let b2 := strtoul ulong_max s2
          if (b2 = 0 ∧ ¬ is_zero s2 = true) ∨ b2 > UINT32_MAX then some (false, t1)
          else
            let t2 := { t1 with x_co := b2 % U32 }
            let b3 := strtoul ulong_max s3
            if (b3 = 0 ∧ ¬ is_zero s3 = true) ∨ b3 > UINT32_MAX then some (false, t2)
            else some (true, { t2 with y_co := b3 % U32 })
    | _, _, _ => none

/-- The rule of the numeric arguments: the token is a non-empty string of
decimal digits whose value is at most 2^32 - 1. -/
def uint32_token (s : List Char) : Prop :=
  s ≠ [] ∧ (∀ c ∈ s, isdigit c = true) ∧ decimal_value s ≤ UINT32_MAX

/-- The token `4294967297`, the decimal representation of 2^32 + 1. -/
def token_2_32_plus_1 : List Char := ['4', '2', '9', '4', '9', '6', '7', '2', '9', '7']

/-- A command record before parsing. -/
def command0 : game_command := { type := command_type.board, player_no := 0, x_co := 0, y_co := 0 }

/-- C38 fails on the line `b 4294967297`: the token is a string of digits with
value 2^32 + 1, above 2^32 - 1, and `write_gmove` rejects it as the player
argument of `m`, but `write_player_com` returns true and stores player number
1, the value truncated to 32 bits. -/
theorem C38_player_token_truncated :
    decimal_value token_2_32_plus_1 = 4294967297 ∧
    ¬ uint32_token token_2_32_plus_1 ∧
    write_player_com ULONG_MAX command0 (tokens [['b'], token_2_32_plus_1]) command_type.busy
      = (true, { type := command_type.busy, player_no := 1, x_co := 0, y_co := 0 }) ∧
    write_gmove ULONG_MAX command0 (tokens [['m'], token_2_32_plus_1, ['0'], ['0']])
      = some (false, { type := command_type.gmove, player_no := 0, x_co := 0, y_co := 0 }) := by
  refine ⟨by decide, ?_, by decide, by decide⟩
  intro h
  have h3 := h.2.2
  revert h3
  decide

/-! ## The turn order of the interactive mode -/

/-- The result of a loop run under an iteration bound: a value, a fault (a
read outside an array), or the bound reached before the loop ended. -/
inductive outcome (α : Type) where
  | value : α → outcome α
  | fault : outcome α
  | unfinished : outcome α

/-- Function `can_move`: `gamma_free_fields(g, player) ||
gamma_golden_possible(g, player)`, the second call made only when the first
returns 0; the returned flag and the state after the calls. -/
def can_move (g : gamma_t) (player : Nat) : Option (Bool × gamma_t) :=
  match gamma_free_fields g player with
  | none => none
  | some f => if f ≠ 0 then some (true, g) else gamma_golden_possible g player

/-- Function `next_player_no`. -/
def next_player_no (g : gamma_t) (prev : Nat) : Nat :=
  if prev = g.n_of_players then 1 else add32 prev 1

/-- The `do ... while` loop of `next_moving_player`, entered with the player
`p`; the first argument bounds the number of iterations. -/
def next_moving_loop (prev : Nat) : Nat → gamma_t → Nat → outcome (Nat × gamma_t)
  | 0, _, _ => outcome.unfinished
  | k + 1, g, p =>
    match can_move g (next_player_no g p) with
    | none => outcome.fault
    | some (b, g1) =>
      if b = false ∧ next_player_no g p ≠ prev
      then next_moving_loop prev k g1 (next_player_no g p)
      else outcome.value (next_player_no g p, g1)

/-- Function `next_moving_player`, with a bound on the number of iterations of
its loop: the returned player number and the state after the call. -/
def next_moving_player (steps : Nat) (g : gamma_t) (prev : Nat) : outcome (Nat × gamma_t) :=
  match next_moving_loop prev steps g prev with
  | outcome.unfinished => outcome.unfinished
  | outcome.fault => outcome.fault
  | outcome.value (p, g1) =>
    if p = prev then
      match can_move g1 p with
      | none => outcome.fault
      | some (b, g2) => if b = true then outcome.value (p, g2) else outcome.value (0, g2)
    else outcome.value (p, g1)

/-- Player `q` can move: `gamma_free_fields(g, q)` is not zero or
`gamma_golden_possible(g, q)` is true. -/
def movable (g : gamma_t) (q : Nat) : Prop :=
  (∃ f, gamma_free_fields g q = some f ∧ f ≠ 0) ∨
    ∃ g1, gamma_golden_possible g q = some (true, g1)

/-- The player at place `i` of the cyclic order after `prev`: places 1, 2, ...,
`players` hold `prev+1`, ..., `players`, 1, ..., `prev`. -/
def turn (players prev i : Nat) : Nat :=
  if prev + i ≤ players then prev + i else prev + i - players

theorem can_move_valid {width height players areas : Nat} {g : gamma_t}
    (hinv : Inv width height players areas g) {q : Nat} (hq1 : 1 ≤ q) (hq2 : q ≤ players) :
    ∃ b, can_move g q = some (b, g) ∧ (b = true ↔ movable g q) := by
  obtain ⟨b, hb, _⟩ := gamma_golden_possible_valid hinv hq1 hq2
  have hf := gamma_free_fields_valid hinv hq1 hq2
  obtain ⟨f, hf2⟩ : ∃ f, gamma_free_fields g q = some f := by
    rw [hf]
    split_ifs
    · exact ⟨_, rfl⟩
    · exact ⟨_, rfl⟩
  unfold can_move movable
  rw [hf2, hb]
  simp only []
  by_cases hz : f ≠ 0
  · rw [if_pos hz]
    exact ⟨true, rfl, fun _ => Or.inl ⟨f, rfl, hz⟩, fun _ => rfl⟩
  · rw [if_neg hz]
    refine ⟨b, rfl, ?_, ?_⟩
    · intro hbt
      exact Or.inr ⟨g, by rw [hbt]⟩
    · rintro (⟨f2, hf3, hf4⟩ | ⟨g1, hg1⟩)
      · simp only [Option.some.injEq] at hf3
        omega
      · simp only [Option.some.injEq, Prod.mk.injEq] at hg1
        exact hg1.1

theorem next_player_no_turn {width height players areas : Nat} {g : gamma_t}
    (hinv : Inv width height players areas g) {prev : Nat} (h1 : 1 ≤ prev)
    (h2 : prev ≤ players) (i : Nat) (hi : i < players) :
    next_player_no g (turn players prev i) = turn players prev (i + 1) := by
  have hp := hinv.hp
  have hplt := hinv.plt
  unfold next_player_no turn add32
  unfold U32 at *
  rw [hp]
  split_ifs <;> omega

theorem turn_range (players prev i : Nat) (h1 : 1 ≤ prev) (h2 : prev ≤ players)
    (hi : i ≤ players) : 1 ≤ turn players prev i ∧ turn players prev i ≤ players := by
  unfold turn
  split_ifs <;> omega

theorem turn_ne_prev (players prev i : Nat) (hi0 : 0 < i) (hi : i < players) :
    turn players prev i ≠ prev := by
  unfold turn
  split_ifs <;> omega

theorem turn_onto (players prev q : Nat) (h1 : 1 ≤ prev) (h2 : prev ≤ players) (hq1 : 1 ≤ q)
    (hq2 : q ≤ players) : ∃ i, 1 ≤ i ∧ i ≤ players ∧ q = turn players prev i := by
  by_cases h : prev < q
  · refine ⟨q - prev, by omega, by omega, ?_⟩
    unfold turn
    split_ifs <;> omega
  · refine ⟨q + players - prev, by omega, by omega, ?_⟩
    unfold turn
    split_ifs <;> omega

/-- The loop of `next_moving_player` stops at the first place after `i` whose
player can move, and at the last place (the player `prev`) when there is
none. -/
theorem next_moving_loop_spec {width height players areas : Nat} {g : gamma_t}
    (hinv : Inv width height players areas g) {prev : Nat} (h1 : 1 ≤ prev)
    (h2 : prev ≤ players) (steps i : Nat) (hi : i < players) (hs : players ≤ steps + i) :
    ∃ k, i < k ∧ k ≤ players ∧
      next_moving_loop prev steps g (turn players prev i)
        = outcome.value (turn players prev k, g) ∧
      (∀ j, i < j → j < k → ¬ movable g (turn players prev j)) ∧
      (k < players → movable g (turn players prev k)) := by
  induction steps generalizing i with
  | zero => omega
  | succ n ih =>
    have hr := turn_range players prev (i + 1) h1 h2 (by omega)
    obtain ⟨b, hb, hbm⟩ := can_move_valid hinv hr.1 hr.2
    unfold next_moving_loop
    rw [next_player_no_turn hinv h1 h2 i hi, hb]
    simp only []
    by_cases hc : b = false ∧ turn players prev (i + 1) ≠ prev
    · rw [if_pos hc]
      have hlt : i + 1 < players := by
        by_contra hge
        have heq : i + 1 = players := by omega
        apply hc.2
        rw [heq]
        unfold turn
        split_ifs <;> omega
      obtain ⟨k, hk1, hk2, hk3, hk4, hk5⟩ := ih (i + 1) hlt (by omega)
      refine ⟨k, by omega, hk2, hk3, ?_, hk5⟩
      intro j hj1 hj2
      by_cases hj : j = i + 1
      · rw [hj]
        intro hm
        have := hbm.2 hm
        rw [hc.1] at this
        exact absurd this (by decide)
      · exact hk4 j (by omega) hj2
    · rw [if_neg hc]
      refine ⟨i + 1, by omega, by omega, rfl, fun j hj1 hj2 => by omega, ?_⟩
      intro hlt
      apply hbm.1
      by_contra hbf
      apply hc
      refine ⟨by simpa using hbf, turn_ne_prev players prev (i + 1) (by omega) hlt⟩

/-- C36: in every reachable state, for every `prev` from 1 to `players`,
`next_moving_player(g, prev)` ends after at most `players` iterations of its
loop, leaves the state as it was, and returns the first player in the cyclic
order `prev+1, ..., players, 1, ..., prev` who can move (`gamma_free_fields`
not zero or `gamma_golden_possible` true); it returns 0 exactly when no player
can move. -/
theorem C36_next_moving_player {width height players areas : Nat} {g : gamma_t}
    (hr : Reachable width height players areas g) (prev : Nat) (h1 : 1 ≤ prev)
    (h2 : prev ≤ players) (steps : Nat) (hs : players ≤ steps) :
    ∃ r, next_moving_player steps g prev = outcome.value (r, g) ∧
      (r = 0 ↔ ∀ q, 1 ≤ q → q ≤ players → ¬ movable g q) ∧
      (r ≠ 0 → ∃ i, 1 ≤ i ∧ i ≤ players ∧ r = turn players prev i ∧ movable g r ∧
        ∀ j, 1 ≤ j → j < i → ¬ movable g (turn players prev j)) := by
  have hinv := reachable_inv hr
  have hpos := hinv.ppos
  have ht0 : turn players prev 0 = prev := by
    unfold turn
    split_ifs <;> omega
  have htn : turn players prev players = prev := by
    unfold turn
    split_ifs <;> omega
  obtain ⟨k, hk1, hk2, hk3, hk4, hk5⟩ :=
    next_moving_loop_spec hinv h1 h2 steps 0 hpos (by omega)
  rw [ht0] at hk3
  have hrk := turn_range players prev k h1 h2 hk2
  unfold next_moving_player
  rw [hk3]
  simp only []
  by_cases hk : k < players
  · have hne := turn_ne_prev players prev k hk1 hk
    rw [if_neg hne]
    refine ⟨turn players prev k, rfl, ?_, ?_⟩
    · constructor
      · intro h0
        omega
      · intro hall
        exact absurd (hk5 hk) (hall _ hrk.1 hrk.2)
    · intro _
      exact ⟨k, hk1, hk2, rfl, hk5 hk, fun j hj1 hj2 => hk4 j hj1 hj2⟩
  · have hkp : k = players := by omega
    rw [hkp] at hk4
    rw [hkp, htn, if_pos rfl]
    obtain ⟨b, hb, hbm⟩ := can_move_valid hinv h1 h2
    rw [hb]
    simp only []
    by_cases hbt : b = true
    · rw [if_pos hbt]
      refine ⟨prev, rfl, ?_, ?_⟩
      · constructor
        · intro h0
          omega
        · intro hall
          exact absurd (hbm.1 hbt) (hall prev h1 h2)
      · intro _
        refine ⟨players, hpos, le_refl _, htn.symm, hbm.1 hbt, fun j hj1 hj2 => hk4 j hj1 hj2⟩
    · rw [if_neg hbt]
      refine ⟨0, rfl, ?_, fun h => absurd rfl h⟩
      constructor
      · intro _ q hq1 hq2
        obtain ⟨i, hi1, hi2, hqi⟩ := turn_onto players prev q h1 h2 hq1 hq2
        rw [hqi]
        by_cases hik : i < players
        · exact hk4 i hi1 hik
        · have : i = players := by omega
          rw [this, htn]
          intro hm
          exact hbt (hbm.2 hm)
      · intro _
        rfl

/-- C36 on the game `demo3` for two players, after the turn of player 1. -/
theorem C36_witness :
    ∃ r, next_moving_player 2 demo3 1 = outcome.value (r, demo3) ∧
      (r = 0 ↔ ∀ q, 1 ≤ q → q ≤ 2 → ¬ movable demo3 q) ∧
      (r ≠ 0 → ∃ i, 1 ≤ i ∧ i ≤ 2 ∧ r = turn 2 1 i ∧ movable demo3 r ∧
        ∀ j, 1 ≤ j → j < i → ¬ movable demo3 (turn 2 1 j)) :=
  C36_next_moving_player demo3_reachable 1 (by decide) (by decide) 2 (by decide)

/-- On the fresh game `demo0` the player to move after player 1 is player 2. -/
theorem next_moving_player_demo0 :
    next_moving_player 2 demo0 1 = outcome.value (2, demo0) := rfl

/-! ## The board image of the interactive mode -/

/-- Multiplication on `uint32_t` values. -/
def mul32 (a b : Nat) : Nat := (a * b) % U32

/-- Struct `cursor_t`. -/
structure cursor_t where
  x : Nat
  y : Nat
  height : Nat
  field_width : Nat

/-- Function `initialize_cursor`: the cursor it fills in. -/
def initialize_cursor (g : gamma_t) : cursor_t :=
  let aux_field := decimal_length g.n_of_players
  { x := 0
    y := sub32 g.height_y 1
    height := g.height_y
    field_width := if aux_field = 1 then 1 else add32 aux_field 1 }

/-- The cursor of `initialize_cursor` moved to the field `(x, y)`. -/
def cursor_at (g : gamma_t) (x y : Nat) : cursor_t :=
  { initialize_cursor g with x := x, y := y }

/-- Function `to_char`: `(char) player + 48` returned as a `char`. -/
def to_char (player : Nat) : Char := Char.ofNat ((player % 256 + 48) % 256)

/-- Function `give_start_index`: the sum is computed in `uint32_t` and stored
in a `uint64_t`, the product with `field_width` is computed in `uint64_t`. -/
def give_start_index (g : gamma_t) (cursor : cursor_t) : Nat :=
  let res := add32 (mul32 g.width_x (sub32 (sub32 g.height_y cursor.y) 1)) cursor.x
  (res * cursor.field_width) % U64

/-- Function `next_dig`: the returned character and the value left in
`*player`. -/
def next_dig (player : Nat) : Char × Nat :=
  if player = 0 then (' ', player) else (to_char (player % 10), player / 10)

/-- The loop `while(current_index > start)` of `change_board`; the first
argument bounds the number of iterations. -/
def change_loop : Nat → buffer_t → Nat → Nat → Nat → Option buffer_t
  | 0, b, _, _, _ => some b
  | k + 1, b, start, current_index, player =>
    if current_index > start then
      (store b (sub64 current_index 1) (next_dig player).1).bind fun b1 =>
        change_loop k b1 start (sub64 current_index 1) (next_dig player).2
    else some b

/-- Function `change_board`: the block after the call, `none` when a write
leaves the block.  In the branch of field width 1 the index is computed in
`uint32_t` and stored in a `uint64_t`.  The loop of the other branch ends
within `field_width` iterations. -/
def change_board (g : gamma_t) (board_image : buffer_t) (player : Nat) (cursor : cursor_t) :
    Option buffer_t :=
  if cursor.field_width = 1 then
    let a := add32 (mul32 (add32 g.width_x 1) (sub32 (sub32 g.height_y cursor.y) 1)) cursor.x
    store board_image a (to_char player)
  else
    let start := give_start_index g cursor
    let current_index := sub64 (add64 start cursor.field_width) 1
    change_loop cursor.field_width board_image start current_index player

/-- Function `correct_terminal` for a terminal of `ws_col` columns and `ws_row`
rows (the `unsigned short` values read by `ioctl`); the product and the sum are
computed in `uint32_t`. -/
def correct_terminal (ws_col ws_row : Nat) (g : gamma_t) : Bool :=
  let dec_length := decimal_length g.n_of_players
  if (if dec_length = 1 then ws_col < g.width_x
      else ws_col < mul32 g.width_x (add32 dec_length 1)) then false
  else if ws_row < add32 g.height_y 6 then false
  else true

/-- A fresh game for one player on a board of one column and `UINT32_MAX`
rows. -/
def tall0 : gamma_t := new_game 1 4294967295 1 1

/-- The game `tall0` after player 1 has taken field (0, 0). -/
def tall1 : gamma_t := (gamma_move tall0 1 0 0).2

theorem to_char_eq (p : Nat) : to_char p = number_to_digit p := by
  unfold to_char number_to_digit
  congr 1
  omega

theorem change_board_width_one (g : gamma_t) (b : buffer_t) (p : Nat) (cursor : cursor_t)
    (h : cursor.field_width = 1) :
    change_board g b p cursor =
      store b (add32 (mul32 (add32 g.width_x 1) (sub32 (sub32 g.height_y cursor.y) 1)) cursor.x)
        (to_char p) := by
  unfold change_board
  rw [if_pos h]

/-- The index computed by `change_board` for field width 1 when it does not
wrap. -/
theorem index_width_one (w h x y : Nat) (hy : y < h) (hh : h < U32)
    (hidx : (w + 1) * (h - 1 - y) + x < U32) :
    add32 (mul32 (add32 w 1) (sub32 (sub32 h y) 1)) x = (h - 1 - y) * (w + 1) + x := by
  have h1 : sub32 (sub32 h y) 1 = h - 1 - y := by
    unfold sub32 U32 at *
    omega
  have h0 : 0 < h - 1 - y ∨ h - 1 - y = 0 := by omega
  rw [h1]
  unfold add32 mul32
  rcases h0 with hpos | hz
  · have hw : w + 1 < U32 := by
      have : (w + 1) * 1 ≤ (w + 1) * (h - 1 - y) := Nat.mul_le_mul_left _ hpos
      omega
    have hm : (w + 1) * (h - 1 - y) < U32 := lt_of_le_of_lt (Nat.le_add_right _ x) hidx
    rw [Nat.mod_eq_of_lt hw, Nat.mod_eq_of_lt hm, Nat.mod_eq_of_lt hidx, Nat.mul_comm]
  · rw [hz] at hidx ⊢
    simp only [Nat.mul_zero, Nat.zero_mod, Nat.zero_add, Nat.zero_mul] at hidx ⊢
    exact Nat.mod_eq_of_lt hidx

/-- Division with remainder picks the row and the column of an index. -/
theorem index_split (L r i r2 i2 : Nat) (hi : i < L) (hi2 : i2 < L)
    (h : r * L + i = r2 * L + i2) : r = r2 ∧ i = i2 := by
  have hL : 0 < L := by omega
  have e1 : (r * L + i) / L = r := by
    rw [Nat.add_comm, Nat.mul_comm, Nat.add_mul_div_left _ _ hL, Nat.div_eq_of_lt hi,
      Nat.zero_add]
  have e2 : (r2 * L + i2) / L = r2 := by
    rw [Nat.add_comm, Nat.mul_comm, Nat.add_mul_div_left _ _ hL, Nat.div_eq_of_lt hi2,
      Nat.zero_add]
  have hr : r = r2 := by
    rw [← e1, ← e2, h]
  subst hr
  exact ⟨rfl, by omega⟩

/-- Field width 1: when the index of the field fits `uint32_t`, `change_board`
turns the image of a board into the image of the board with field `(x, y)`
given to `p`. -/
theorem change_board_digits (g g2 : gamma_t) (p x y : Nat) (hd : g.width_x = g2.width_x)
    (hh : g.height_y = g2.height_y) (hb : g2.board = write2 g.board x y p)
    (hhlt : g.height_y < U32) (hp : p ≠ 0) (hx : x < g.width_x) (hy : y < g.height_y)
    (hroom : g.height_y * (g.width_x + 1) < size_without g)
    (hidx : (g.width_x + 1) * (g.height_y - 1 - y) + x < U32) (cursor : cursor_t)
    (hc1 : cursor.x = x) (hc2 : cursor.y = y) (hc3 : cursor.field_width = 1) :
    ∃ image changed fresh, fill_buffer_without_spaces g = some image ∧
      change_board g2 image p cursor = some changed ∧
      fill_buffer_without_spaces g2 = some fresh ∧
      changed.size = fresh.size ∧ ∀ i, i < fresh.size → changed.data i = fresh.data i := by
  have hsz : size_without g2 = size_without g := by
    unfold size_without
    rw [hd, hh]
  obtain ⟨b, e1, e2, e3, e4⟩ := (fill_buffer_without_spaces_spec g).1 hroom
  obtain ⟨b2, f1, f2, f3, f4⟩ := (fill_buffer_without_spaces_spec g2).1
    (by rw [hsz, ← hd, ← hh]; exact hroom)
  rw [← hd, ← hh] at f3 f4
  have ha := index_width_one g.width_x g.height_y x y hy hhlt hidx
  have hrow : (g.height_y - 1 - y) * (g.width_x + 1) + x < g.height_y * (g.width_x + 1) := by
    calc (g.height_y - 1 - y) * (g.width_x + 1) + x
        < (g.height_y - 1 - y) * (g.width_x + 1) + (g.width_x + 1) := by omega
      _ = (g.height_y - 1 - y + 1) * (g.width_x + 1) := by ring
      _ ≤ g.height_y * (g.width_x + 1) := Nat.mul_le_mul_right _ (by omega)
  obtain ⟨b1, s1, s2, s3, s4⟩ := store_some b ((g.height_y - 1 - y) * (g.width_x + 1) + x)
    (to_char p) (by omega)
  refine ⟨b, b1, b2, e1, ?_, f1, by rw [s2, e2, f2, hsz], ?_⟩
  · rw [change_board_width_one g2 b p cursor hc3, hc1, hc2, ← hd, ← hh, ha]
    exact s1
  · intro i hi
    rw [f2, hsz] at hi
    have hsize : size_without g ≤ g.height_y * (g.width_x + 1) + 1 := by
      unfold size_without U64
      have : (g.width_x + 1) % U32 * g.height_y % 18446744073709551616
          ≤ (g.width_x + 1) % U32 * g.height_y := Nat.mod_le _ _
      have h2 : (g.width_x + 1) % U32 * g.height_y ≤ (g.width_x + 1) * g.height_y :=
        Nat.mul_le_mul_right _ (Nat.mod_le _ _)
      have h3 : (g.width_x + 1) * g.height_y = g.height_y * (g.width_x + 1) := Nat.mul_comm _ _
      have h4 := Nat.mod_le ((g.width_x + 1) % U32 * g.height_y % 18446744073709551616 + 1)
        18446744073709551616
      omega
    by_cases hlast : i = g.height_y * (g.width_x + 1)
    · rw [hlast, s4 _ (by omega), e4, f4]
    · have hi2 : i < g.height_y * (g.width_x + 1) := by omega
      have hL : 0 < g.width_x + 1 := by omega
      have hdecomp : i = i / (g.width_x + 1) * (g.width_x + 1) + i % (g.width_x + 1) := by
        rw [Nat.mul_comm]
        exact (Nat.div_add_mod i (g.width_x + 1)).symm
      have hr : i / (g.width_x + 1) < g.height_y :=
        Nat.div_lt_of_lt_mul (by rw [Nat.mul_comm]; exact hi2)
      have hc : i % (g.width_x + 1) < g.width_x + 1 := Nat.mod_lt _ hL
      generalize i / (g.width_x + 1) = r at hdecomp hr
      generalize i % (g.width_x + 1) = c at hdecomp hc
      subst hdecomp
      rw [f3 r c hr hc]
      by_cases hcell : r * (g.width_x + 1) + c = (g.height_y - 1 - y) * (g.width_x + 1) + x
      · obtain ⟨hr2, hc2⟩ := index_split (g.width_x + 1) r c (g.height_y - 1 - y) x hc
          (by omega) hcell
        rw [hcell, s3, hr2, hc2]
        unfold row_text_without_spaces
        rw [← hd, if_pos hx, hb]
        have hyy : g.height_y - 1 - (g.height_y - 1 - y) = y := by omega
        have hw2 : write2 g.board x y p x y = p := by
          unfold write2
          rw [if_pos ⟨rfl, rfl⟩]
        rw [hyy, hw2]
        unfold owner_char
        rw [if_pos hp, to_char_eq]
      · rw [s4 _ hcell, e3 r c hr hc]
        unfold row_text_without_spaces
        rw [← hd, hb]
        by_cases hcw : c < g.width_x
        · rw [if_pos hcw, if_pos hcw]
          unfold write2
          rw [if_neg]
          rintro ⟨rfl, hrow2⟩
          apply hcell
          have : r = g.height_y - 1 - y := by omega
          rw [this]
        · rw [if_neg hcw, if_neg hcw]

/-- The decimal digits of `p`, most significant first; empty for 0. -/
def digit_text (p : Nat) : List Char := (Nat.digits 10 p).reverse.map Nat.digitChar

theorem digit_text_zero : digit_text 0 = [] := by
  simp [digit_text]

theorem digit_text_pos (p : Nat) (hp : 0 < p) :
    digit_text p = digit_text (p / 10) ++ [Nat.digitChar (p % 10)] := by
  unfold digit_text
  rw [digits_pos p hp]
  simp

theorem replicate_get (m k : Nat) (c : Char) (h : k < m) :
    (List.replicate m c)[k]? = some c := by
  rw [List.getElem?_eq_getElem (by rw [List.length_replicate]; exact h)]
  simp

/-- The loop of `change_board` writes the number `p` right-aligned and padded
with spaces into the `n` bytes from `start` on. -/
theorem change_loop_some (n : Nat) : ∀ (fuel : Nat) (b : buffer_t) (start p : Nat), n ≤ fuel →
    start + n ≤ b.size → start + n < U64 → (digit_text p).length ≤ n →
    ∃ b1, change_loop fuel b start (start + n) p = some b1 ∧ b1.size = b.size ∧
      (∀ k, k < n → b1.data (start + k)
        = (List.replicate (n - (digit_text p).length) ' ' ++ digit_text p)[k]?) ∧
      ∀ j, (j < start ∨ start + n ≤ j) → b1.data j = b.data j := by
  induction n with
  | zero =>
    intro fuel b start p _ _ _ _
    refine ⟨b, ?_, rfl, fun k hk => absurd hk (by omega), fun _ _ => rfl⟩
    cases fuel with
    | zero => rfl
    | succ f => simp [change_loop]
  | succ n ih =>
    intro fuel b start p hfuel hroom h64 hlen
    obtain ⟨f, rfl⟩ : ∃ f, fuel = f + 1 := ⟨fuel - 1, by omega⟩
    have hsub : sub64 (start + (n + 1)) 1 = start + n := by
      unfold sub64 U64 at *
      omega
    obtain ⟨b0, s1, s2, s3, s4⟩ := store_some b (start + n) (next_dig p).1 (by omega)
    by_cases hp : p = 0
    · subst hp
      have hnd : next_dig 0 = (' ', 0) := rfl
      rw [hnd] at s1 s3
      obtain ⟨b1, e1, e2, e3, e4⟩ := ih f b0 start 0 (by omega) (by rw [s2]; omega) (by omega)
        (by rw [digit_text_zero]; simp)
      refine ⟨b1, ?_, e2.trans s2, ?_, ?_⟩
      · simp only [change_loop]
        rw [if_pos (by omega), hsub, hnd]
        simp only []
        rw [s1]
        exact e1
      · intro k hk
        rw [digit_text_zero, List.append_nil, replicate_get _ _ _ (by simp; omega)]
        by_cases hkn : k = n
        · rw [hkn, e4 (start + n) (Or.inr (le_refl _)), s3]
        · rw [e3 k (by omega), digit_text_zero, List.append_nil,
            replicate_get _ _ _ (by simp; omega)]
      · intro j hj
        rw [e4 j (by omega), s4 j (by omega)]
    · have hpos : 0 < p := by omega
      have hnd : next_dig p = (Nat.digitChar (p % 10), p / 10) := by
        unfold next_dig
        rw [if_neg hp, to_char_eq, number_to_digit_eq _ (Nat.mod_lt _ (by decide))]
      rw [hnd] at s1 s3
      have hdt := digit_text_pos p hpos
      have hl : (digit_text p).length = (digit_text (p / 10)).length + 1 := by
        rw [hdt, List.length_append]
        rfl
      obtain ⟨b1, e1, e2, e3, e4⟩ := ih f b0 start (p / 10) (by omega) (by rw [s2]; omega)
        (by omega) (by omega)
      have hpad : n + 1 - (digit_text p).length = n - (digit_text (p / 10)).length := by omega
      have hlen2 : (List.replicate (n - (digit_text (p / 10)).length) ' '
          ++ digit_text (p / 10)).length = n := by
        rw [List.length_append, List.length_replicate]
        omega
      refine ⟨b1, ?_, e2.trans s2, ?_, ?_⟩
      · simp only [change_loop]
        rw [if_pos (by omega), hsub, hnd]
        simp only []
        rw [s1]
        exact e1
      · intro k hk
        rw [hpad, hdt, ← List.append_assoc]
        by_cases hkn : k = n
        · rw [hkn, e4 (start + n) (Or.inr (le_refl _)), s3,
            List.getElem?_append_right (by rw [hlen2]), hlen2, Nat.sub_self]
          rfl
        · rw [e3 k (by omega)]
          exact (List.getElem?_append_left (by rw [hlen2]; omega)).symm
      · intro j hj
        rw [e4 j (by omega), s4 j (by omega)]

/-- The start index computed by `give_start_index` when the number of the
field fits `uint32_t`. -/
theorem start_index_eq (w h x y fw : Nat) (hy : y < h) (hh : h < U32) (hfw : fw < U32)
    (hidx : w * (h - 1 - y) + x < U32) :
    (add32 (mul32 w (sub32 (sub32 h y) 1)) x * fw) % U64 = ((h - 1 - y) * w + x) * fw := by
  have h1 : sub32 (sub32 h y) 1 = h - 1 - y := by
    unfold sub32 U32 at *
    omega
  have hm : w * (h - 1 - y) < U32 := lt_of_le_of_lt (Nat.le_add_right _ x) hidx
  rw [h1]
  unfold add32 mul32
  rw [Nat.mod_eq_of_lt hm, Nat.mod_eq_of_lt hidx, Nat.mul_comm w]
  apply Nat.mod_eq_of_lt
  rw [Nat.mul_comm w] at hidx
  have : ((h - 1 - y) * w + x) * fw ≤ 4294967295 * 4294967295 := by
    unfold U32 at *
    exact Nat.mul_le_mul (by omega) (by omega)
  unfold U64
  omega

/-- The bytes of the block of `fill_buffer_with_spaces`, by row, column and
place in the field. -/
theorem fill_buffer_with_spaces_cells (g : gamma_t) (d : Nat) (b : buffer_t)
    (e3 : ∀ r i, r < g.height_y → i < g.width_x * (d + 1) →
      b.data (r * (g.width_x * (d + 1)) + i) = row_text_with_spaces g d (g.height_y - 1 - r) i)
    (r x k : Nat) (hr : r < g.height_y) (hx : x < g.width_x) (hk : k < d + 1) :
    b.data ((r * g.width_x + x) * (d + 1) + k)
      = (cell_text d (g.board x (g.height_y - 1 - r))
          (if x < g.width_x - 1 then ' ' else '\n'))[k]? := by
  obtain ⟨_, _, i3, i4, i5⟩ := block_index r x k g.width_x (d + 1) hx hk
  have hidx : (r * g.width_x + x) * (d + 1) + k
      = r * (g.width_x * (d + 1)) + (x * (d + 1) + k) := by
    ring
  rw [hidx, e3 r (x * (d + 1) + k) hr i5]
  unfold row_text_with_spaces
  rw [i3, i4]

/-- Field width `d + 1`: when the number of the field fits `uint32_t`,
`change_board` turns the image of a board into the image of the board with
field `(x, y)` given to `p`. -/
theorem change_board_padded (g g2 : gamma_t) (d p x y : Nat) (hd : g.width_x = g2.width_x)
    (hh : g.height_y = g2.height_y) (hb : g2.board = write2 g.board x y p)
    (hhlt : g.height_y < U32) (hd1 : 1 ≤ d) (hdlt : d + 1 < U32)
    (hlen : ∀ i j, (owner_text (g.board i j)).length ≤ d) (hlenp : (owner_text p).length ≤ d)
    (hp : p ≠ 0) (hx : x < g.width_x) (hy : y < g.height_y)
    (hsize : size_with g d = g.height_y * (g.width_x * (d + 1)) + 1)
    (hidx : g.width_x * (g.height_y - 1 - y) + x < U32) (cursor : cursor_t)
    (hc1 : cursor.x = x) (hc2 : cursor.y = y) (hc3 : cursor.field_width = d + 1) :
    ∃ image changed fresh, fill_buffer_with_spaces g d = some image ∧
      change_board g2 image p cursor = some changed ∧
      fill_buffer_with_spaces g2 d = some fresh ∧
      changed.size = fresh.size ∧ ∀ i, i < fresh.size → changed.data i = fresh.data i := by
  have hw : 0 < g.width_x := by omega
  have hsz : size_with g2 d = size_with g d := by
    unfold size_with
    rw [hd, hh]
  have hlen2 : ∀ i j, (owner_text (g2.board i j)).length ≤ d := by
    intro i j
    rw [hb]
    unfold write2
    split_ifs
    · exact hlenp
    · exact hlen i j
  obtain ⟨b, e1, e2, e3, e4⟩ :=
    (fill_buffer_with_spaces_spec g d hw hd1 (by omega) hlen).1 (by omega)
  obtain ⟨b2, f1, f2, f3, f4⟩ :=
    (fill_buffer_with_spaces_spec g2 d (by omega) hd1 (by omega) hlen2).1
      (by rw [hsz, ← hd, ← hh]; omega)
  have hcell := fill_buffer_with_spaces_cells g d b e3
  have hcell2 := fill_buffer_with_spaces_cells g2 d b2 f3
  rw [← hd, ← hh] at hcell2 f4
  have hcb : ∀ r c, r < g.height_y → c < g.width_x →
      r * g.width_x + c < g.height_y * g.width_x := by
    intro r c hr hc
    calc r * g.width_x + c < r * g.width_x + g.width_x := by omega
      _ = (r + 1) * g.width_x := by ring
      _ ≤ g.height_y * g.width_x := Nat.mul_le_mul_right _ hr
  have hN : g.height_y * (g.width_x * (d + 1)) = g.height_y * g.width_x * (d + 1) :=
    (Nat.mul_assoc _ _ _).symm
  generalize hcdef : (g.height_y - 1 - y) * g.width_x + x = cell at *
  have hcelllt : cell < g.height_y * g.width_x := by
    rw [← hcdef]
    exact hcb _ _ (by omega) hx
  have hstart : give_start_index g2 cursor = cell * (d + 1) := by
    unfold give_start_index
    simp only []
    rw [hc1, hc2, hc3, ← hd, ← hh,
      start_index_eq g.width_x g.height_y x y (d + 1) hy hhlt hdlt hidx, hcdef]
  have hend : cell * (d + 1) + (d + 1) ≤ g.height_y * g.width_x * (d + 1) := by
    calc cell * (d + 1) + (d + 1) = (cell + 1) * (d + 1) := by ring
      _ ≤ g.height_y * g.width_x * (d + 1) := Nat.mul_le_mul_right _ hcelllt
  have hbig : g.height_y * g.width_x * (d + 1) < U64 := by
    have h1 : size_with g d < U64 := by
      unfold size_with
      exact Nat.mod_lt _ (by unfold U64; omega)
    omega
  have hcur : sub64 (add64 (cell * (d + 1)) (d + 1)) 1 = cell * (d + 1) + d := by
    unfold sub64 add64
    unfold U64 at *
    omega
  have hdt : owner_text p = digit_text p := owner_text_pos p (by omega)
  obtain ⟨b1, l1, l2, l3, l4⟩ := change_loop_some d (d + 1) b (cell * (d + 1)) p (by omega)
    (by omega) (by omega) (by rw [← hdt]; exact hlenp)
  refine ⟨b, b1, b2, e1, ?_, f1, by rw [l2, e2, f2, hsz], ?_⟩
  · unfold change_board
    rw [if_neg (by omega)]
    simp only []
    rw [hstart, hc3, hcur]
    exact l1
  · intro i hi
    rw [f2, hsz, hsize] at hi
    by_cases hlast : i = g.height_y * (g.width_x * (d + 1))
    · rw [hlast, l4 _ (Or.inr (by omega)), e4, f4]
    · have hi2 : i < g.height_y * g.width_x * (d + 1) := by omega
      have hL : 0 < d + 1 := by omega
      have hq : i / (d + 1) < g.height_y * g.width_x := (Nat.div_lt_iff_lt_mul hL).2 hi2
      have hr : i / (d + 1) / g.width_x < g.height_y := (Nat.div_lt_iff_lt_mul hw).2 hq
      have hc : i / (d + 1) % g.width_x < g.width_x := Nat.mod_lt _ hw
      have hk : i % (d + 1) < d + 1 := Nat.mod_lt _ hL
      have h1 : i / (d + 1) / g.width_x * g.width_x + i / (d + 1) % g.width_x = i / (d + 1) := by
        rw [Nat.mul_comm]
        exact Nat.div_add_mod _ _
      have h2 : i / (d + 1) * (d + 1) + i % (d + 1) = i := by
        rw [Nat.mul_comm]
        exact Nat.div_add_mod _ _
      generalize i % (d + 1) = k at h2 hk
      generalize i / (d + 1) = q at h1 h2 hq hr hc
      generalize q / g.width_x = r at h1 hr
      generalize q % g.width_x = c at h1 hc
      subst h2
      subst h1
      rw [hcell2 r c k hr hc hk]
      by_cases hsame : r * g.width_x + c = cell
      · have hrc : r = g.height_y - 1 - y ∧ c = x :=
          index_split g.width_x r c (g.height_y - 1 - y) x hc hx (by rw [hsame, hcdef])
        have hbv : g2.board c (g.height_y - 1 - r) = p := by
          rw [hb, hrc.1, hrc.2]
          have hyy : g.height_y - 1 - (g.height_y - 1 - y) = y := by omega
          rw [hyy]
          unfold write2
          rw [if_pos ⟨rfl, rfl⟩]
        rw [hbv, hsame]
        by_cases hkd : k = d
        · rw [hkd, l4 _ (Or.inr (le_refl _)), ← hsame, hcell r c d hr hc (by omega),
            cell_text_white d _ _ (hlen _ _), cell_text_white d _ _ hlenp]
        · rw [l3 k (by omega), cell_text_field d p _ k hlenp (by omega), hdt]
      · have hbv : g2.board c (g.height_y - 1 - r) = g.board c (g.height_y - 1 - r) := by
          rw [hb]
          unfold write2
          rw [if_neg]
          rintro ⟨hcx, hry⟩
          apply hsame
          rw [← hcdef, hcx]
          have : r = g.height_y - 1 - y := by omega
          rw [this]
        rw [hbv, ← hcell r c k hr hc hk]
        apply l4
        rcases Nat.lt_or_gt_of_ne hsame with hlt | hgt
        · left
          calc (r * g.width_x + c) * (d + 1) + k < (r * g.width_x + c) * (d + 1) + (d + 1) := by
                omega
            _ = (r * g.width_x + c + 1) * (d + 1) := by ring
            _ ≤ cell * (d + 1) := Nat.mul_le_mul_right _ hlt
        · right
          calc cell * (d + 1) + d ≤ cell * (d + 1) + (d + 1) := by omega
            _ = (cell + 1) * (d + 1) := by ring
            _ ≤ (r * g.width_x + c) * (d + 1) := Nat.mul_le_mul_right _ hgt
            _ ≤ (r * g.width_x + c) * (d + 1) + k := Nat.le_add_right _ _

theorem read_string_congr (b1 b2 : buffer_t) (n : Nat)
    (hd : ∀ i, i < n → b1.data i = b2.data i) (fuel i : Nat) (h : i + fuel ≤ n) :
    read_string_from b1 fuel i = read_string_from b2 fuel i := by
  induction fuel generalizing i with
  | zero => rfl
  | succ k ih =>
    simp only [read_string_from]
    rw [hd i (by omega), ih (i + 1) (by omega)]

/-- Blocks of the same size that hold the same bytes hold the same string. -/
theorem c_string_congr (b1 b2 : buffer_t) (hs : b1.size = b2.size)
    (hd : ∀ i, i < b2.size → b1.data i = b2.data i) : c_string b1 = c_string b2 := by
  unfold c_string
  rw [hs]
  exact read_string_congr b1 b2 b2.size hd b2.size 0 (by omega)

/-- The index arithmetic of `change_board` at field `(x, y)` stays within
`uint32_t` and `gamma_board` has room for the text of a row. -/
def image_index_fits (width height players x y : Nat) : Prop :=
  if players ≤ 9 then width + 1 < U32 ∧ (width + 1) * (height - 1 - y) + x < U32
  else (decimal_length players + 1) * width < U32 ∧ width * (height - 1 - y) + x < U32

/-- When the index of the field fits `uint32_t`, `change_board` applied to the
image of the state before an accepted move gives the image of the state after
it: the same block size, the same bytes and the same string as a fresh call of
`gamma_board`. -/
theorem change_board_image {width height players areas : Nat} {g : gamma_t}
    (hr : Reachable width height players areas g) (p x y : Nat) (g2 : gamma_t)
    (hg2 : gamma_move g p x y = (true, g2) ∨ gamma_golden_move g p x y = (true, g2))
    (hfit : image_index_fits width height players x y) :
    ∃ image changed fresh, gamma_board g = some image ∧
      change_board g2 image p (cursor_at g2 x y) = some changed ∧
      gamma_board g2 = some fresh ∧ changed.size = fresh.size ∧
      (∀ i, i < fresh.size → changed.data i = fresh.data i) ∧
      c_string changed = c_string fresh := by
  have hinv := reachable_inv hr
  have hfacts : Inv width height players areas g2 ∧ g.width_x = g2.width_x ∧
      g.height_y = g2.height_y ∧ g2.board = write2 g.board x y p ∧ 1 ≤ p ∧ p ≤ players ∧
      x < g.width_x ∧ y < g.height_y := by
    rcases hg2 with hm | hm
    · have hacc : (gamma_move g p x y).1 = true := by rw [hm]
      have h2 : (gamma_move g p x y).2 = g2 := by rw [hm]
      have hr2 := Reachable.move g p x y hr
      rw [h2] at hr2
      obtain ⟨hargs, k, _, _, _, heq⟩ := gamma_move_effect hinv hacc
      rw [h2] at heq
      obtain ⟨s1, s2, _, _, _, s6⟩ := move_apply_same g p x y
        ((g.arr_of_players (p - 1)).occupied_areas + 1 - k)
      rw [← heq] at s1 s2 s6
      exact ⟨reachable_inv hr2, s1.symm, s2.symm, s6, hargs.1, hinv.hp ▸ hargs.2.1,
        hargs.2.2.1, hargs.2.2.2.1⟩
    · have hacc : (gamma_golden_move g p x y).1 = true := by rw [hm]
      have h2 : (gamma_golden_move g p x y).2 = g2 := by rw [hm]
      have hr2 := Reachable.golden_move g p x y hr
      rw [h2] at hr2
      obtain ⟨hargs, kn, kp, _, _, _, _, heq⟩ := gamma_golden_effect hinv hacc
      rw [h2] at heq
      obtain ⟨s1, s2, _, _, _, s6, _⟩ :=
        golden_apply_same g p x y (p - 1) (g.board x y - 1) kn kp
      rw [← heq] at s1 s2 s6
      exact ⟨reachable_inv hr2, s1.symm, s2.symm, s6, hargs.1, hinv.hp ▸ hargs.2.1,
        hargs.2.2.1, hargs.2.2.2.1⟩
  obtain ⟨hinv2, hd, hh, hb, hp1, hp2, hx, hy⟩ := hfacts
  have hhlt : g.height_y < U32 := by
    rw [hinv.hh]
    exact hinv.hlt
  have key : ∃ image changed fresh, gamma_board g = some image ∧
      change_board g2 image p (cursor_at g2 x y) = some changed ∧
      gamma_board g2 = some fresh ∧ changed.size = fresh.size ∧
      ∀ i, i < fresh.size → changed.data i = fresh.data i := by
    unfold image_index_fits at hfit
    by_cases hmode : players ≤ 9
    · rw [if_pos hmode] at hfit
      have hfw : (cursor_at g2 x y).field_width = 1 := by
        show (if decimal_length g2.n_of_players = 1 then 1
          else add32 (decimal_length g2.n_of_players) 1) = 1
        rw [if_pos ((decimal_length_one_le _).2 (by rw [hinv2.hp]; exact hmode))]
      rw [gamma_board_single g (by rw [hinv.hp]; exact hmode),
        gamma_board_single g2 (by rw [hinv2.hp]; exact hmode)]
      refine change_board_digits g g2 p x y hd hh hb hhlt (by omega) hx hy ?_ ?_
        (cursor_at g2 x y) rfl rfl hfw
      · unfold size_without
        rw [hinv.hw, hinv.hh, size_without_spaces width height hfit.1 hinv.hlt]
        omega
      · rw [hinv.hw, hinv.hh]
        exact hfit.2
    · rw [if_neg hmode] at hfit
      obtain ⟨hd1, hdlt⟩ := decimal_length_bounds players hinv.plt
      have hne : decimal_length players ≠ 1 := by
        intro h1
        have := (decimal_length_one_le _).1 h1
        omega
      have hdw : decimal_length players + 1 < U32 := by
        have h1 : (decimal_length players + 1) * 1 ≤ (decimal_length players + 1) * width :=
          Nat.mul_le_mul_left _ hinv.wpos
        omega
      have hfw : (cursor_at g2 x y).field_width = decimal_length players + 1 := by
        show (if decimal_length g2.n_of_players = 1 then 1
          else add32 (decimal_length g2.n_of_players) 1) = decimal_length players + 1
        rw [hinv2.hp, if_neg hne]
        unfold add32
        exact Nat.mod_eq_of_lt hdw
      rw [(gamma_board_multi g (by rw [hinv.hp]; omega)).2,
        (gamma_board_multi g2 (by rw [hinv2.hp]; omega)).2, hinv.hp, hinv2.hp]
      refine change_board_padded g g2 (decimal_length players) p x y hd hh hb hhlt hd1 hdw
        (fun i j => owner_text_length_le _ players (hinv.board_le i j) hinv.ppos)
        (owner_text_length_le p players hp2 hinv.ppos) (by omega) hx hy ?_ ?_
        (cursor_at g2 x y) rfl rfl hfw
      · unfold size_with
        rw [hinv.hw, hinv.hh]
        exact size_with_spaces _ width height hinv.wpos hfit.1 hinv.hlt
      · rw [hinv.hw, hinv.hh]
        exact hfit.2
  obtain ⟨image, changed, fresh, k1, k2, k3, k4, k5⟩ := key
  exact ⟨image, changed, fresh, k1, k2, k3, k4, k5, c_string_congr changed fresh k4 k5⟩

/-- The number of characters of the text of `gamma_board`. -/
def text_length (width height players : Nat) : Nat :=
  if players ≤ 9 then (width + 1) * height
  else (decimal_length players + 1) * width * height

/-- On a board whose text is shorter than 2^32 characters the index of every
field fits `uint32_t`. -/
theorem image_index_fits_of_short_text (width height players x y : Nat) (hx : x < width)
    (hy : y < height) (h : text_length width height players < U32) :
    image_index_fits width height players x y := by
  unfold text_length at h
  unfold image_index_fits
  have hrow : ∀ w : Nat, x < w → w * (height - 1 - y) + x < w * height := by
    intro w hw
    calc w * (height - 1 - y) + x < w * (height - 1 - y) + w := by omega
      _ = w * (height - 1 - y + 1) := by ring
      _ ≤ w * height := Nat.mul_le_mul_left _ (by omega)
  by_cases hmode : players ≤ 9
  · rw [if_pos hmode] at h ⊢
    have h1 : (width + 1) * 1 ≤ (width + 1) * height := Nat.mul_le_mul_left _ (by omega)
    have h2 := hrow (width + 1) (by omega)
    exact ⟨by omega, by omega⟩
  · rw [if_neg hmode] at h ⊢
    have h1 : (decimal_length players + 1) * width * 1
        ≤ (decimal_length players + 1) * width * height := Nat.mul_le_mul_left _ (by omega)
    have h2 := hrow width hx
    have h3 : width * height ≤ (decimal_length players + 1) * width * height := by
      calc width * height = 1 * (width * height) := (Nat.one_mul _).symm
        _ ≤ (decimal_length players + 1) * (width * height) :=
          Nat.mul_le_mul_right _ (by omega)
        _ = (decimal_length players + 1) * width * height := (Nat.mul_assoc _ _ _).symm
    rw [Nat.mul_one] at h1
    exact ⟨by omega, by omega⟩

/-- On the game `demo2` the image after the golden move of player 1 to field
(1, 0) is the image of `demo3`. -/
theorem change_board_demo3 :
    ∃ image changed fresh, gamma_board demo2 = some image ∧
      change_board demo3 image 1 (cursor_at demo3 1 0) = some changed ∧
      gamma_board demo3 = some fresh ∧ changed.size = fresh.size ∧
      (∀ i, i < fresh.size → changed.data i = fresh.data i) ∧
      c_string changed = c_string fresh :=
  change_board_image demo2_reachable 1 1 0 demo3 (Or.inr rfl)
    (by unfold image_index_fits; decide)

/-- C37 fails on the board of one column and `UINT32_MAX` rows for one player,
which `correct_terminal` admits on a terminal of 80 columns and 24 rows: after
the accepted `gamma_move(g, 1, 0, 0)` the index of field (0, 0) in the image is
`2 * 4294967294 = 8589934588`, the `uint32_t` computation of `change_board`
gives `4294967292`, the place of field (0, 2147483648), so the changed image
shows player 1 on that free field and a free field at (0, 0), while the image
made by `gamma_board` shows the opposite. -/
theorem C37_image_diverges_on_tall_board :
    gamma_new 1 4294967295 1 1 = some tall0 ∧ correct_terminal 80 24 tall0 = true ∧
    (gamma_move tall0 1 0 0).1 = true ∧
    (cursor_at tall1 0 0).field_width = 1 ∧ tall1.board 0 0 = 1 ∧
    tall1.board 0 2147483648 = 0 ∧
    ∃ image changed fresh, gamma_board tall0 = some image ∧
      change_board tall1 image 1 (cursor_at tall1 0 0) = some changed ∧
      gamma_board tall1 = some fresh ∧
      changed.data 4294967292 = some '1' ∧ fresh.data 4294967292 = some '.' ∧
      changed.data 8589934588 = some '.' ∧ fresh.data 8589934588 = some '1' := by
  refine ⟨rfl, by decide, by decide, by decide, by decide, by decide, ?_⟩
  obtain ⟨b, e1, e2, e3, _⟩ := (fill_buffer_without_spaces_spec tall0).1 (by decide)
  obtain ⟨b2, f1, _, f3, _⟩ := (fill_buffer_without_spaces_spec tall1).1 (by decide)
  have hsz : size_without tall0 = 8589934591 := by decide
  obtain ⟨b1, s1, _, s3, s4⟩ := store_some b 4294967292 '1' (by rw [e2, hsz]; decide)
  have hi1 : 2147483646 * (tall0.width_x + 1) + 0 = 4294967292 := by decide
  have hi2 : 4294967294 * (tall0.width_x + 1) + 0 = 8589934588 := by decide
  have hj1 : 2147483646 * (tall1.width_x + 1) + 0 = 4294967292 := by decide
  have hj2 : 4294967294 * (tall1.width_x + 1) + 0 = 8589934588 := by decide
  have d2 := e3 4294967294 0 (by decide) (by decide)
  have c1 := f3 2147483646 0 (by decide) (by decide)
  have c2 := f3 4294967294 0 (by decide) (by decide)
  rw [hi2] at d2
  rw [hj1] at c1
  rw [hj2] at c2
  refine ⟨b, b1, b2, ?_, ?_, ?_, s3, ?_, ?_, ?_⟩
  · rw [gamma_board_single tall0 (by decide)]
    exact e1
  · rw [change_board_width_one tall1 b 1 (cursor_at tall1 0 0) (by decide)]
    have ha : add32 (mul32 (add32 tall1.width_x 1)
        (sub32 (sub32 tall1.height_y (cursor_at tall1 0 0).y) 1)) (cursor_at tall1 0 0).x
        = 4294967292 := by decide
    rw [ha]
    exact s1
  · rw [gamma_board_single tall1 (by decide)]
    exact f1
  · rw [c1]
    decide
  · rw [s4 _ (by decide), d2]
    decide
  · rw [c2]
    decide

end Gamma
